import Mathlib

/-!
# cata: checker, C generator and scanner

A shallow embedding of the semantic checker (`internal/check`), of the C
generator (`internal/gen`) and of the scanner (`internal/scanner`) of the cata
compiler, with the syntax tree of `internal/ast`, followed by theorems about
them.

Conventions of the embedding.

* A Go pointer that may be nil is an `Option`; a Go slice is a `List`.
* A Go map is an association list: an insertion conses the pair in front, a
  lookup returns the first pair with the key (`List.lookup`).
* `diagnose` prints a message and exits the process, so it ends the run:
  every function that can reach it returns a `Res`, whose constructors are the
  normal return, the diagnostic, a Go panic (explicit `panic(...)` or a run-time
  error such as a nil dereference) and the exhaustion of the recursion budget
  of the model.
* Mutable state is passed explicitly.
* The functions of the checker that reach `checkStruct` are written a second
  time with a log of the writes to the struct flags; the log is ghost state,
  and without it they are the functions of the checker (`CheckModuleLog_erase`).
* The scanner indexes its text by bytes, so the text is a `List Nat` of byte
  values there; its loops run on a budget of one more than the length of the
  text, which they cannot exhaust.
-/

set_option linter.dupNamespace false

namespace Cata

/-! ## Results -/

/-- Source position `scanner.Pos`. -/
structure Pos where
  line : Nat
  column : Nat
deriving Repr, DecidableEq, Inhabited

/-- Outcome of a computation that may stop the process: normal return,
`diagnose` at a position (message printed, exit status 1), a Go panic, or the
recursion budget of the model used up. -/
inductive Res (α : Type) where
  | ok (a : α)
  | diag (pos : Pos) (msg : String)
  | panic (msg : String)
  | nofuel
deriving Repr, DecidableEq

namespace Res

/-- Sequencing: the first abnormal outcome ends the run. -/
def bind {α β : Type} (x : Res α) (f : α → Res β) : Res β :=
  match x with
  | ok a => f a
  | diag p m => diag p m
  | panic m => panic m
  | nofuel => nofuel

instance : Monad Res where
  pure := Res.ok
  bind := Res.bind

/-- The run ended normally. -/
def isOk {α : Type} : Res α → Bool
  | ok _ => true
  | _ => false

/-- The run ended with a user-facing diagnostic. -/
def isDiag {α : Type} : Res α → Bool
  | diag _ _ => true
  | _ => false

/-- The run ended in a Go panic. -/
def isPanic {α : Type} : Res α → Bool
  | panic _ => true
  | _ => false

end Res

/-! ## Syntax tree (`internal/ast`, positions from `internal/scanner`) -/

/-- Identifier `ast.Ident`: text and position. -/
structure Ident where
  Pos : Pos
  Ident : String
deriving Repr, DecidableEq, Inhabited

/-- Named type `ast.NamedType`: head identifier and generic arguments. -/
inductive NamedType where
  | mk (Name : Ident) (Args : List NamedType)
deriving Repr, Inhabited

namespace NamedType

/-- Head identifier. -/
def Name : NamedType → Ident
  | mk n _ => n

/-- Generic arguments. -/
def Args : NamedType → List NamedType
  | mk _ a => a

/-- Position of a named type: that of its head. -/
def At (n : NamedType) : Pos := n.Name.Pos

end NamedType

/-- Function type `ast.FnType`. -/
structure FnType where
  Params : List NamedType
  Return : Option NamedType
deriving Repr, Inhabited

/-- A value of the Go interface `ast.Type`: the nil interface, a `*NamedType`
(which may itself be a nil pointer wrapped in a non-nil interface) or a
`*FnType`. -/
inductive AstType where
  | nil
  | named (t : Option NamedType)
  | fn (f : FnType)
deriving Repr, Inhabited

/-- The type `u8` (`ast.Uint8`); the position is Go's zero value. -/
def ast.Uint8 : NamedType := .mk ⟨⟨0, 0⟩, "u8"⟩ []
/-- The type `i32` (`ast.Int32`). -/
def ast.Int32 : NamedType := .mk ⟨⟨0, 0⟩, "i32"⟩ []
/-- The type `bool` (`ast.Bool`). -/
def ast.Bool : NamedType := .mk ⟨⟨0, 0⟩, "bool"⟩ []

/-- The type `slice[eltype]` (`ast.SliceType`). -/
def ast.SliceType (eltype : NamedType) : NamedType := .mk ⟨⟨0, 0⟩, "slice"⟩ [eltype]

mutual
/-- Text of a named type: `NamedType.String`. -/
def NamedType.String : NamedType → String
  | .mk n [] => n.Ident
  | .mk n (a :: as) => n.Ident ++ "[" ++ NamedType.StringArgs (a :: as) ++ "]"
/-- Texts of the arguments joined by a comma and a blank. -/
def NamedType.StringArgs : List NamedType → String
  | [] => ""
  | [a] => NamedType.String a
  | a :: b :: as => NamedType.String a ++ ", " ++ NamedType.StringArgs (b :: as)
end

/-- Text of a function type: `FnType.String`. -/
def FnType.String (f : FnType) : String :=
  let result := "fn (" ++ NamedType.StringArgs f.Params ++ ")"
  match f.Return with
  | some r => result ++ " " ++ r.String
  | none => result

/-- Text that `fmt` prints for an `ast.Type` under `%s`: a nil pointer whose
`String` method fails prints as `<nil>`, the nil interface as `%!s(<nil>)`. -/
def AstType.String : AstType → String
  | .nil => "%!s(<nil>)"
  | .named none => "<nil>"
  | .named (some t) => t.String
  | .fn f => f.String

/-- Expressions `ast.ExprNode`. -/
inductive Expr where
  | IntExpr (Pos : Pos) (Val : String)
  | StringExpr (Pos : Pos) (Val : String)
  | VarExpr (Name : Ident)
  | CallExpr (Fn : Expr) (Args : List Expr)
  | FieldExpr (Expr : Expr) (Field : Ident)
deriving Repr, Inhabited

/-- Position of an expression: the method `At`. -/
def Expr.At : Expr → Pos
  | .IntExpr p _ => p
  | .StringExpr p _ => p
  | .VarExpr n => n.Pos
  | .CallExpr f _ => f.At
  | .FieldExpr e _ => e.At

/-- Statements `ast.StmtNode`. The field `ElseIf` of `IfStmt` is never read
nor written and is left out; `Ty` is the Go field `Type`. -/
inductive Stmt where
  | ExprStmt (Expr : Expr)
  | BlockStmt (Pos : Pos) (Block : List Stmt)
  | ReturnStmt (Pos : Pos) (Expr : Option Expr)
  | VarStmt (Pos : Pos) (Name : Ident) (Ty : NamedType) (Expr : Option Expr)
  | AssignStmt (Left : Expr) (Right : Expr)
  | IfStmt (Pos : Pos) (Cond : Expr) (Body : List Stmt) (Else : Option Stmt)
  | WhileStmt (Pos : Pos) (Cond : Expr) (Body : List Stmt)
deriving Repr, Inhabited

/-- Parameter or field `ast.Param`; `Ty` is the Go field `Type`. -/
structure Param where
  Name : Ident
  Ty : NamedType
deriving Repr, Inhabited

/-- Function declaration `ast.FnDecl`; `Body` is nil for an extern
declaration. -/
structure FnDecl where
  Name : Ident
  Params : List Param
  Return : Option NamedType
  Body : Option (List Stmt)
deriving Repr, Inhabited

/-- Struct declaration `ast.StructDecl`. -/
structure StructDecl where
  Name : Ident
  Params : List Ident
  Fields : List Param
  Started : Bool
  Done : Bool
deriving Repr, Inhabited

/-- Module `ast.Module`. -/
structure Module where
  Fns : List FnDecl
  Structs : List StructDecl
deriving Repr, Inhabited

/-! ## Scopes (`internal/check/scope.go`) -/

/-- Variable binding `scopeVar`; `isMut` is the Go field `mut`. -/
structure scopeVar where
  ty : AstType
  isMut : Bool
deriving Repr, Inhabited

/-- Declared generic parameters of a type name: `GenericType`. -/
structure GenericType where
  Params : List String
deriving Repr, DecidableEq, Inhabited

/-- One `scope` without its parent pointer. A `*scope` is the list of the
scopes from the current one up to the global one (the parent chain); the nil
pointer is the empty list. -/
structure scope where
  vars : List (String × scopeVar)
  types : List (String × GenericType)
deriving Repr, Inhabited

/-- Fresh scope without parent: `newGlobalScope`. -/
def newGlobalScope : List scope := [⟨[], []⟩]

/-- Fresh scope below `parent`: `newScope`. -/
def newScope (parent : List scope) : List scope := ⟨[], []⟩ :: parent

/-- Lookup of a variable through the parent chain: `findVar`. -/
def findVar (s : List scope) (name : String) : Option scopeVar :=
  if name = "true" ∨ name = "false" then
    some ⟨.named (some ast.Bool), false⟩
  else
    match s with
    | [] => none
    | s :: parent =>
      match s.vars.lookup name with
      | some e => some e
      | none => if parent.isEmpty then none else findVar parent name

/-- Lookup of a type name through the parent chain: `findType`. -/
def findType (s : List scope) (name : String) : Option GenericType :=
  match s with
  | [] => none
  | s :: parent =>
    match s.types.lookup name with
    | some t => some t
    | none => if parent.isEmpty then none else findType parent name

/-- Binding of a variable in the current scope: `addVar`. -/
def addVar (s : List scope) (name : String) (v : scopeVar) : Res (List scope) :=
  if (findVar s name).isSome ∨ name = "true" ∨ name = "false" then
    .panic "duplicate variable name"
  else
    match s with
    | [] => .panic "nil pointer dereference"
    | s :: parent => .ok ({ s with vars := (name, v) :: s.vars } :: parent)

/-- Binding of a type name in the current scope: `addType`. -/
def addType (s : List scope) (name : String) (t : GenericType) : Res (List scope) :=
  if (findType s name).isSome then
    .panic "duplicate type name"
  else
    match s with
    | [] => .panic "nil pointer dereference"
    | s :: parent => .ok ({ s with types := (name, t) :: s.types } :: parent)

/-! ## Types (`internal/check/type.go`) -/

mutual
/-- Structural equality of two non-nil named types: the body of `TypeEqual`
once both type assertions have succeeded. -/
def TypeEqualNamed : NamedType → NamedType → Res Bool
  | .mk ln la, .mk rn ra =>
    if ln.Ident ≠ rn.Ident then .ok false
    else if la.length ≠ ra.length then .panic "different number of generic arguments"
    else TypeEqualArgs la ra
/-- The loop of `TypeEqual` over the argument lists, which have equal length. -/
def TypeEqualArgs : List NamedType → List NamedType → Res Bool
  | l :: ls, r :: rs =>
    match TypeEqualNamed l r with
    | .ok true => TypeEqualArgs ls rs
    | other => other
  | _, _ => .ok true
end

/-- Structural equality of two `ast.Type` values: `TypeEqual`. A nil
`*NamedType` inside a non-nil interface passes the type assertion and is
dereferenced. -/
def TypeEqual (left right : AstType) : Res Bool :=
  match left, right with
  | .named l, .named r =>
    match l, r with
    | some l, some r => TypeEqualNamed l r
    | _, _ => .panic "nil pointer dereference"
  | _, _ => .ok false

mutual
/-- Substitution of the generic environment `env` into a type:
`ResolveGenericType`. -/
def ResolveGenericType (env : List (String × NamedType)) : NamedType → Res NamedType
  | .mk name args =>
    match env.lookup name.Ident with
    | some aty =>
      if args.length > 0 then .panic "cannot instantiate generic parameter"
      else .ok aty
    | none =>
      match ResolveGenericArgs env args with
      | .ok args => .ok (.mk name args)
      | .diag p m => .diag p m
      | .panic m => .panic m
      | .nofuel => .nofuel
/-- The loop of `ResolveGenericType` over the arguments. -/
def ResolveGenericArgs (env : List (String × NamedType)) : List NamedType → Res (List NamedType)
  | [] => .ok []
  | arg :: rest =>
    match ResolveGenericType env arg with
    | .ok a =>
      match ResolveGenericArgs env rest with
      | .ok as => .ok (a :: as)
      | other => other
    | .diag p m => .diag p m
    | .panic m => .panic m
    | .nofuel => .nofuel
end

/-- The loop of `GetGenericEnv`: `env[st.Params[i].Ident] = args[i]` for
increasing `i`. -/
def GetGenericEnvLoop : List (String × NamedType) → List Ident → List NamedType →
    List (String × NamedType)
  | env, p :: ps, a :: as => GetGenericEnvLoop ((p.Ident, a) :: env) ps as
  | env, _, _ => env

/-- Generic environment of a struct instantiated with `args`:
`GetGenericEnv`. -/
def GetGenericEnv (st : StructDecl) (args : List NamedType) : Res (List (String × NamedType)) :=
  if st.Params.length ≠ args.length then .panic "incorrect generic instantiation"
  else .ok (GetGenericEnvLoop [] st.Params args)

/-! ## The checker (`internal/check`) -/

/-- State of the `checker`. `structs` maps a struct name to its declaration,
a pointer; pointers to struct declarations are indices into `decls`, the
declarations of the module, whose flags `Started` and `Done` the checker
mutates. The scanner is only used to print diagnostics and is left out. -/
structure checker where
  scope : List scope
  structs : List (String × Nat)
  decls : List StructDecl
deriving Repr, Inhabited

namespace checker

/-- Method `newScope`. -/
def newScope (c : checker) : checker := { c with scope := Cata.newScope c.scope }

/-- Method `popScope`: back to the parent scope. -/
def popScope (c : checker) : checker := { c with scope := c.scope.tail }

/-- Assignment `decl.Started = true` through the pointer `decl`. -/
def setStarted (c : checker) (decl : Nat) : checker :=
  { c with decls := c.decls.modify (fun d => { d with Started := true }) decl }

/-- Assignment `decl.Done = true` through the pointer `decl`. -/
def setDone (c : checker) (decl : Nat) : checker :=
  { c with decls := c.decls.modify (fun d => { d with Done := true }) decl }

end checker

/-- The loop of `checkStruct` over the generic parameters. -/
def checkStructParams : checker → List Ident → Res checker
  | c, [] => .ok c
  | c, param :: rest =>
    if (findType c.scope param.Ident).isSome then
      .diag param.Pos ("duplicate type '" ++ param.Ident ++ "'")
    else
      match addType c.scope param.Ident ⟨[]⟩ with
      | .ok s => checkStructParams { c with scope := s } rest
      | .diag p m => .diag p m
      | .panic m => .panic m
      | .nofuel => .nofuel

/-- The loop of `checkStruct` over the fields; `fields` is the set of the
field names seen so far and `checkType` the method of that name. -/
def checkStructFields (checkType : checker → NamedType → Res checker) :
    checker → List String → List Param → Res checker
  | c, _, [] => .ok c
  | c, fields, field :: rest =>
    if fields.contains field.Name.Ident then
      .diag field.Name.Pos ("duplicate field name '" ++ field.Name.Ident ++ "'")
    else
      match checkType c field.Ty with
      | .ok c => checkStructFields checkType c (field.Name.Ident :: fields) rest
      | other => other

/-- Body of `checkStruct` for the declaration at the pointer `decl`, with the
method `checkType` it calls on the field types passed as an argument. -/
def checkStructWith (checkType : checker → NamedType → Res checker) (c : checker)
    (decl : Nat) : Res checker :=
  match c.decls[decl]? with
  | none => .panic "nil pointer dereference"
  | some d =>
    if d.Done then .ok c
    else if d.Started then .diag d.Name.Pos "recursive struct inclusion is not allowed"
    else
      match checkStructParams c.newScope d.Params with
      | .ok c =>
        let c := c.setStarted decl
        if d.Fields.length = 0 then .diag d.Name.Pos "struct must have at least one field"
        else
          match checkStructFields checkType c [] d.Fields with
          | .ok c => .ok (c.popScope.setDone decl)
          | other => other
      | other => other

/-- The loop of `checkType` over the generic arguments. -/
def checkTypeArgs (checkType : checker → NamedType → Res checker) :
    checker → List NamedType → Res checker
  | c, [] => .ok c
  | c, arg :: rest =>
    match checkType c arg with
    | .ok c => checkTypeArgs checkType c rest
    | other => other

/-- Method `checkType`. The recursion through `checkStruct` follows the
struct declarations, so it takes a recursion budget: each nested call of
`checkType` uses up one unit. -/
def checkType : Nat → checker → NamedType → Res checker
  | 0, _, _ => .nofuel
  | fuel + 1, c, ty =>
    match findType c.scope ty.Name.Ident with
    | none => .diag ty.At ("undefined type '" ++ ty.Name.Ident ++ "'")
    | some rty =>
      if ty.Args.length ≠ rty.Params.length then
        .diag ty.Name.Pos ("expected " ++ toString rty.Params.length ++
          " generic arguments, but got " ++ toString ty.Args.length)
      else
        match checkTypeArgs (checkType fuel) c ty.Args with
        | .ok c =>
          match c.structs.lookup ty.Name.Ident with
          | some st => checkStructWith (checkType fuel) c st
          | none => .ok c
        | other => other

/-- Method `checkStruct`. -/
def checkStruct (fuel : Nat) (c : checker) (decl : Nat) : Res checker :=
  checkStructWith (checkType fuel) c decl

/-- The loop of `getField` over the fields of the struct `st`. -/
def getFieldLoop (st : StructDecl) (nty : NamedType) (name : String) : List Param → Res AstType
  | [] => .ok .nil
  | field :: rest =>
    if field.Name.Ident = name then
      match GetGenericEnv st nty.Args with
      | .ok env =>
        match ResolveGenericType env field.Ty with
        | .ok t => .ok (.named (some t))
        | .diag p m => .diag p m
        | .panic m => .panic m
        | .nofuel => .nofuel
      | .diag p m => .diag p m
      | .panic m => .panic m
      | .nofuel => .nofuel
    else getFieldLoop st nty name rest

/-- Method `getField`: type of the field `name` of a value of type `ty`, the
nil interface when there is none. -/
def getField (c : checker) (ty : AstType) (name : String) : Res AstType :=
  match ty with
  | .named none => .panic "nil pointer dereference"
  | .named (some nty) =>
    match c.structs.lookup nty.Name.Ident with
    | some p =>
      match c.decls[p]? with
      | some st => getFieldLoop st nty name st.Fields
      | none => .panic "nil pointer dereference"
    | none => .ok .nil
  | _ => .ok .nil

/-- Result of `checkExpr`; `isMut` is the Go field `mut`. -/
structure result where
  ty : AstType
  isMut : Bool
deriving Repr, Inhabited

/-- What `checkCoerce` does with the result of `checkExpr` on the expression
at `pos`. -/
def checkCoerceResult (r : Res result) (pos : Pos) (ty : AstType) : Res Unit :=
  match r with
  | .ok r =>
    match r.ty with
    | .nil => .diag pos "expression does not have a value"
    | rty =>
      match TypeEqual rty ty with
      | .ok true => .ok ()
      | .ok false =>
        .diag pos ("cannot convert from '" ++ rty.String ++ "' to '" ++ ty.String ++ "'")
      | .diag p m => .diag p m
      | .panic m => .panic m
      | .nofuel => .nofuel
  | .diag p m => .diag p m
  | .panic m => .panic m
  | .nofuel => .nofuel

mutual
/-- Method `checkExpr`. -/
def checkExpr (c : checker) : Expr → Res result
  | .IntExpr _ _ => .ok ⟨.named (some ast.Int32), false⟩
  | .StringExpr _ _ => .ok ⟨.named (some (ast.SliceType ast.Uint8)), false⟩
  | .VarExpr name =>
    match findVar c.scope name.Ident with
    | none => .diag name.Pos ("undefined identifier '" ++ name.Ident ++ "'")
    | some v => .ok ⟨v.ty, v.isMut⟩
  | .CallExpr fn args =>
    match checkExpr c fn with
    | .ok r =>
      match r.ty with
      | .fn ty =>
        if args.length ≠ ty.Params.length then
          .diag fn.At ("expected " ++ toString ty.Params.length ++
            " arguments, but got " ++ toString args.length)
        else
          match checkExprArgs c args ty.Params with
          | .ok _ => .ok ⟨.named ty.Return, false⟩
          | .diag p m => .diag p m
          | .panic m => .panic m
          | .nofuel => .nofuel
      | .nil => .diag fn.At "cannot call expression that does not have a value"
      | other => .diag fn.At ("cannot call value of type '" ++ other.String ++ "'")
    | other => other
  | .FieldExpr expr field =>
    match checkExpr c expr with
    | .ok r =>
      match getField c r.ty field.Ident with
      | .ok .nil => .diag expr.At ("value does not have field '" ++ field.Ident ++ "'")
      | .ok fty => .ok ⟨fty, r.isMut⟩
      | .diag p m => .diag p m
      | .panic m => .panic m
      | .nofuel => .nofuel
    | other => other
/-- The loop of `checkExpr` over the arguments of a call, which are as many as
the parameters: each is coerced to its parameter type. -/
def checkExprArgs (c : checker) : List Expr → List NamedType → Res Unit
  | arg :: args, param :: params =>
    match checkCoerceResult (checkExpr c arg) arg.At (.named (some param)) with
    | .ok _ => checkExprArgs c args params
    | other => other
  | _, _ => .ok ()
end

/-- Method `checkCoerce`. -/
def checkCoerce (c : checker) (expr : Expr) (ty : AstType) : Res Unit :=
  checkCoerceResult (checkExpr c expr) expr.At ty

/-- Whether an expression is a `*ast.CallExpr`. -/
def Expr.isCall : Expr → Bool
  | .CallExpr _ _ => true
  | _ => false

mutual
/-- Method `checkStmt`; the Boolean tells whether the statement returns on
all paths. -/
def checkStmt (fuel : Nat) (c : checker) : Stmt → Option NamedType → Res (Bool × checker)
  | .ExprStmt e, _ =>
    if e.isCall then
      match checkExpr c e with
      | .ok _ => .ok (false, c)
      | .diag p m => .diag p m
      | .panic m => .panic m
      | .nofuel => .nofuel
    else .diag e.At "expression cannot be used as statement"
  | .BlockStmt _ block, ret => checkBlock fuel c block ret
  | .ReturnStmt pos expr, ret =>
    match ret, expr with
    | some r, none => .diag pos ("expected return value of type '" ++ r.Name.Ident ++ "'")
    | none, some e => .diag e.At "function cannot return a value"
    | none, none => .ok (true, c)
    | some r, some e =>
      match checkCoerce c e (.named (some r)) with
      | .ok _ => .ok (true, c)
      | .diag p m => .diag p m
      | .panic m => .panic m
      | .nofuel => .nofuel
  | .VarStmt _ name ty expr, _ =>
    if (findVar c.scope name.Ident).isSome then
      .diag name.Pos ("duplicate identifier '" ++ name.Ident ++ "'")
    else
      match addVar c.scope name.Ident ⟨.named (some ty), true⟩ with
      | .ok s =>
        match checkType fuel { c with scope := s } ty with
        | .ok c =>
          match expr with
          | some e =>
            match checkCoerce c e (.named (some ty)) with
            | .ok _ => .ok (false, c)
            | .diag p m => .diag p m
            | .panic m => .panic m
            | .nofuel => .nofuel
          | none => .ok (false, c)
        | .diag p m => .diag p m
        | .panic m => .panic m
        | .nofuel => .nofuel
      | .diag p m => .diag p m
      | .panic m => .panic m
      | .nofuel => .nofuel
  | .AssignStmt left right, _ =>
    match checkExpr c left with
    | .ok l =>
      if !l.isMut then .diag left.At "cannot assign to constant value"
      else
        match checkCoerce c right l.ty with
        | .ok _ => .ok (false, c)
        | .diag p m => .diag p m
        | .panic m => .panic m
        | .nofuel => .nofuel
    | .diag p m => .diag p m
    | .panic m => .panic m
    | .nofuel => .nofuel
  | .IfStmt _ cond body els, ret =>
    match checkCoerce c cond (.named (some ast.Bool)) with
    | .ok _ =>
      match checkBlock fuel c.newScope body ret with
      | .ok (returns, c) => checkElse fuel c.popScope els ret returns
      | other => other
    | .diag p m => .diag p m
    | .panic m => .panic m
    | .nofuel => .nofuel
  | .WhileStmt _ cond body, ret =>
    match checkCoerce c cond (.named (some ast.Bool)) with
    | .ok _ =>
      match checkBlock fuel c.newScope body ret with
      | .ok (_, c) => .ok (false, c.popScope)
      | other => other
    | .diag p m => .diag p m
    | .panic m => .panic m
    | .nofuel => .nofuel
/-- The part of the `IfStmt` case of `checkStmt` after the body: `returns`
tells whether the body returns; without an else the statement does not
return, with one it returns when both branches do. -/
def checkElse (fuel : Nat) (c : checker) :
    Option Stmt → Option NamedType → Bool → Res (Bool × checker)
  | none, _, _ => .ok (false, c)
  | some s, ret, returns =>
    match checkStmt fuel c.newScope s ret with
    | .ok (returns2, c) => .ok (if !returns2 then false else returns, c.popScope)
    | other => other
/-- Method `checkBlock`: the block returns when one of its statements does. -/
def checkBlock (fuel : Nat) (c : checker) : List Stmt → Option NamedType → Res (Bool × checker)
  | [], _ => .ok (false, c)
  | stmt :: rest, ret =>
    match checkStmt fuel c stmt ret with
    | .ok (r, c) =>
      match checkBlock fuel c rest ret with
      | .ok (returns, c) => .ok (if r then true else returns, c)
      | other => other
    | other => other
end

/-- The loop of `checkFn` over the parameters. -/
def checkFnParams (fuel : Nat) : checker → List Param → Res checker
  | c, [] => .ok c
  | c, param :: rest =>
    match checkType fuel c param.Ty with
    | .ok c =>
      if (findVar c.scope param.Name.Ident).isSome then
        .diag param.Name.Pos ("duplicate identifier '" ++ param.Name.Ident ++ "'")
      else
        match addVar c.scope param.Name.Ident ⟨.named (some param.Ty), false⟩ with
        | .ok s => checkFnParams fuel { c with scope := s } rest
        | .diag p m => .diag p m
        | .panic m => .panic m
        | .nofuel => .nofuel
    | other => other

/-- The part of `checkFn` before the body: new scope, return type,
parameters. -/
def checkFnSignature (fuel : Nat) (c : checker) (fn : FnDecl) : Res checker :=
  match fn.Return with
  | some r =>
    match checkType fuel c.newScope r with
    | .ok c => checkFnParams fuel c fn.Params
    | other => other
  | none => checkFnParams fuel c.newScope fn.Params

/-- Method `checkFn`. A nil body is an empty slice for `checkBlock`. -/
def checkFn (fuel : Nat) (c : checker) (fn : FnDecl) : Res checker :=
  match checkFnSignature fuel c fn with
  | .ok c =>
    match checkBlock fuel c (fn.Body.getD []) fn.Return with
    | .ok (returns, c) =>
      match fn.Return with
      | some r =>
        if !returns then .diag r.At "not all paths return a value"
        else .ok c.popScope
      | none => .ok c.popScope
    | .diag p m => .diag p m
    | .panic m => .panic m
    | .nofuel => .nofuel
  | other => other

/-- First loop of `CheckModule`: the struct names are added to the global
scope; `i` is the pointer to the first declaration of the list. -/
def addStructs : checker → Nat → List StructDecl → Res checker
  | c, _, [] => .ok c
  | c, i, st :: rest =>
    if (findType c.scope st.Name.Ident).isSome then
      .diag st.Name.Pos ("duplicate type '" ++ st.Name.Ident ++ "'")
    else
      match addType c.scope st.Name.Ident ⟨st.Params.map (fun p => p.Ident)⟩ with
      | .ok s =>
        addStructs { c with scope := s, structs := (st.Name.Ident, i) :: c.structs } (i + 1) rest
      | .diag p m => .diag p m
      | .panic m => .panic m
      | .nofuel => .nofuel

/-- Second loop of `CheckModule`: `checkStruct` on the pointers `i`, `i + 1`,
... up to `n`. -/
def checkStructs (fuel : Nat) : checker → Nat → Nat → Res checker
  | c, _, 0 => .ok c
  | c, i, n + 1 =>
    match checkStruct fuel c i with
    | .ok c => checkStructs fuel c (i + 1) n
    | other => other

/-- Third loop of `CheckModule`: the function names are added to the global
scope. -/
def addFns : checker → List FnDecl → Res checker
  | c, [] => .ok c
  | c, fn :: rest =>
    if (findVar c.scope fn.Name.Ident).isSome then
      .diag fn.Name.Pos ("duplicate identifier '" ++ fn.Name.Ident ++ "'")
    else
      match addVar c.scope fn.Name.Ident
          ⟨.fn ⟨fn.Params.map (fun p => p.Ty), fn.Return⟩, false⟩ with
      | .ok s => addFns { c with scope := s } rest
      | .diag p m => .diag p m
      | .panic m => .panic m
      | .nofuel => .nofuel

/-- Fourth loop of `CheckModule`: `checkFn` on every function. -/
def checkFns (fuel : Nat) : checker → List FnDecl → Res checker
  | c, [] => .ok c
  | c, fn :: rest =>
    match checkFn fuel c fn with
    | .ok c => checkFns fuel c rest
    | other => other

/-- The global scope with the four primitive types added. -/
def primitiveScope : Res (List scope) := do
  let s ← addType newGlobalScope "u8" ⟨[]⟩
  let s ← addType s "i32" ⟨[]⟩
  let s ← addType s "bool" ⟨[]⟩
  addType s "slice" ⟨["eltype"]⟩

/-- The checker state of `CheckModule` after the structs have been checked
(the first two loops). -/
def checkModuleStructs (fuel : Nat) (module : Module) : Res checker := do
  let s ← primitiveScope
  let c ← addStructs ⟨s, [], module.Structs⟩ 0 module.Structs
  checkStructs fuel c 0 module.Structs.length

/-- The entry point `CheckModule`. It returns the module, in which the flags
of the struct declarations have been set. -/
def CheckModule (fuel : Nat) (module : Module) : Res Module := do
  let c ← checkModuleStructs fuel module
  let c ← addFns c module.Fns
  let c ← checkFns fuel c module.Fns
  pure { module with Structs := c.decls }

/-! ## The generator (`internal/gen`) -/

/-- One write to the header file, recorded with the arguments of its format:
the `#include` line of `GenModule`, a struct definition written by
`genStruct` (name, then C type and name of each field), a slice definition
written by `genSlice` (name and C type of the elements) and a forward
declaration written by `genFn` (C return type, name, then C type and name of
each parameter). -/
inductive HeaderWrite where
  | includeLine
  | structDef (name : String) (fields : List (String × String))
  | sliceDef (name : String) (eltype : String)
  | fnDecl (returnType : String) (name : String) (params : List (String × String))
deriving Repr, DecidableEq, Inhabited

/-- The signature `<returnType> <name>(<params>)` that `genFn` builds. -/
def signature (returnType name : String) (params : List (String × String)) : String :=
  returnType ++ " " ++ name ++ "(" ++
    ", ".intercalate (params.map (fun p => p.1 ++ " " ++ p.2)) ++ ")"

/-- The text that a write puts into the header file. -/
def HeaderWrite.text : HeaderWrite → String
  | .includeLine => "#include <stdint.h>\n\n"
  | .structDef name fields =>
    fields.foldl (fun out f => out ++ "\t" ++ f.1 ++ " " ++ f.2 ++ ";\n")
      ("struct " ++ name ++ " \x7b\n") ++ "\x7d;\n\n"
  | .sliceDef name eltype =>
    "struct " ++ name ++ " \x7b\n\t" ++ eltype ++ " *data;\n\tsize_t length;\n\x7d;\n"
  | .fnDecl returnType name params => signature returnType name params ++ ";\n"

/-- Entry `genericInstance` of the instance list. -/
structure genericInstance where
  ty : NamedType
  name : String
deriving Repr, Inhabited

/-- State of the `generator`: the text of the body file, the writes to the
header file in order, the indentation, the struct declarations by name, the
instance list and the counter. -/
structure generator where
  body : String
  header : List HeaderWrite
  indent : Nat
  structs : List (String × StructDecl)
  instances : List genericInstance
  counter : Nat
deriving Repr, Inhabited

/-- The text of the header file: the writes in order. -/
def generator.headerText (g : generator) : String :=
  String.join (g.header.map HeaderWrite.text)

/-- The loop of `genType` over the instance list: the name of the first
instance whose type is `TypeEqual` to `ty`. -/
def findInstance (ty : NamedType) : List genericInstance → Res (Option String)
  | [] => .ok none
  | inst :: rest =>
    match TypeEqual (.named (some inst.ty)) (.named (some ty)) with
    | .ok true => .ok (some inst.name)
    | .ok false => findInstance ty rest
    | .diag p m => .diag p m
    | .panic m => .panic m
    | .nofuel => .nofuel

/-- The loop of `genStruct` over the fields: each field type is resolved in
`env` and lowered by `genType`; `out` collects C type and name of the fields
written so far. -/
def genStructFields (genType : generator → NamedType → Res (String × generator))
    (env : List (String × NamedType)) :
    generator → List (String × String) → List Param → Res (List (String × String) × generator)
  | g, out, [] => .ok (out, g)
  | g, out, field :: rest =>
    match ResolveGenericType env field.Ty with
    | .ok ty =>
      match genType g ty with
      | .ok (cty, g) => genStructFields genType env g (out ++ [(cty, field.Name.Ident)]) rest
      | .diag p m => .diag p m
      | .panic m => .panic m
      | .nofuel => .nofuel
    | .diag p m => .diag p m
    | .panic m => .panic m
    | .nofuel => .nofuel

/-- Method `genStruct`, with the method `genType` passed as an argument;
`decl` is nil when the name is not that of a struct. -/
def genStruct (genType : generator → NamedType → Res (String × generator))
    (g : generator) (name : String) (decl : Option StructDecl) (args : List NamedType) :
    Res generator :=
  match decl with
  | none => .panic "nil pointer dereference"
  | some decl =>
    match GetGenericEnv decl args with
    | .ok env =>
      match genStructFields genType env g [] decl.Fields with
      | .ok (out, g) => .ok { g with header := g.header ++ [.structDef name out] }
      | .diag p m => .diag p m
      | .panic m => .panic m
      | .nofuel => .nofuel
    | .diag p m => .diag p m
    | .panic m => .panic m
    | .nofuel => .nofuel

/-- Method `genSlice`, with the method `genType` passed as an argument: the
element type is lowered before the definition is written. -/
def genSlice (genType : generator → NamedType → Res (String × generator))
    (g : generator) (name : String) (eltype : NamedType) : Res generator :=
  match genType g eltype with
  | .ok (cty, g) => .ok { g with header := g.header ++ [.sliceDef name cty] }
  | .diag p m => .diag p m
  | .panic m => .panic m
  | .nofuel => .nofuel

/-- Method `genType`: the C type of a named type. The recursion follows the
fields of the struct declarations, so it takes a recursion budget: each
nested call uses up one unit. -/
def genType : Nat → generator → NamedType → Res (String × generator)
  | 0, _, _ => .nofuel
  | fuel + 1, g, ty =>
    if ty.Name.Ident = "u8" then .ok ("uint8_t", g)
    else if ty.Name.Ident = "i32" then .ok ("int32_t", g)
    else if ty.Name.Ident = "bool" then .ok ("_Bool", g)
    else
      match findInstance ty g.instances with
      | .ok (some name) => .ok ("struct " ++ name, g)
      | .ok none =>
        let name := "ty" ++ toString g.counter
        let g := { g with counter := g.counter + 1,
                          instances := g.instances ++ [⟨ty, name⟩] }
        let r :=
          if ty.Name.Ident = "slice" then
            match ty.Args with
            | eltype :: _ => genSlice (genType fuel) g name eltype
            | [] => .panic "index out of range"
          else genStruct (genType fuel) g name (g.structs.lookup ty.Name.Ident) ty.Args
        match r with
        | .ok g => .ok ("struct " ++ name, g)
        | .diag p m => .diag p m
        | .panic m => .panic m
        | .nofuel => .nofuel
      | .diag p m => .diag p m
      | .panic m => .panic m
      | .nofuel => .nofuel

mutual
/-- Method `genExpr`: the C text of an expression. -/
def genExpr (fuel : Nat) (g : generator) : Expr → Res (String × generator)
  | .IntExpr _ val => .ok (val, g)
  | .StringExpr _ val =>
    match genType fuel g (ast.SliceType ast.Uint8) with
    | .ok (ty, g) =>
      .ok ("(" ++ ty ++ ")\x7b\"" ++ val ++ "\", " ++ toString val.utf8ByteSize ++ "\x7d", g)
    | other => other
  | .VarExpr name =>
    if name.Ident = "true" then .ok ("1", g)
    else if name.Ident = "false" then .ok ("0", g)
    else .ok (name.Ident, g)
  | .CallExpr fn args =>
    match genExpr fuel g fn with
    | .ok (fn, g) =>
      match genExprArgs fuel g args with
      | .ok (args, g) => .ok (fn ++ "(" ++ ", ".intercalate args ++ ")", g)
      | .diag p m => .diag p m
      | .panic m => .panic m
      | .nofuel => .nofuel
    | other => other
  | .FieldExpr expr field =>
    match genExpr fuel g expr with
    | .ok (expr, g) => .ok (expr ++ "." ++ field.Ident, g)
    | other => other
/-- The loop of `genExpr` over the arguments of a call. -/
def genExprArgs (fuel : Nat) (g : generator) : List Expr → Res (List String × generator)
  | [] => .ok ([], g)
  | arg :: rest =>
    match genExpr fuel g arg with
    | .ok (a, g) =>
      match genExprArgs fuel g rest with
      | .ok (as, g) => .ok (a :: as, g)
      | other => other
    | .diag p m => .diag p m
    | .panic m => .panic m
    | .nofuel => .nofuel
end

namespace generator

/-- A write to the body file. -/
def write (g : generator) (text : String) : generator := { g with body := g.body ++ text }

/-- Method `writeIndent`: one tab per level of indentation. -/
def writeIndent (g : generator) : generator := g.write (String.mk (List.replicate g.indent '\t'))

end generator

/-- Method `genBlock`, with the loop over the statements of the block passed
as an argument: opening brace, one more level of indentation for the
statements, closing brace. -/
def genBlockWith (genStmts : generator → Res generator) (g : generator) : Res generator :=
  match genStmts { g.write "\x7b\n" with indent := g.indent + 1 } with
  | .ok g => .ok ({ g with indent := g.indent - 1 }.writeIndent.write "\x7d")
  | other => other

mutual
/-- Method `genStmt` once the indentation has been written (the `switch`). -/
def genStmtSwitch (fuel : Nat) (g : generator) : Stmt → Bool → Res generator
  | .ExprStmt e, _ =>
    match genExpr fuel g e with
    | .ok (expr, g) => .ok (g.write (expr ++ ";\n"))
    | .diag p m => .diag p m
    | .panic m => .panic m
    | .nofuel => .nofuel
  | .BlockStmt _ block, _ => genBlockWith (fun g => genStmts fuel g block) g
  | .ReturnStmt _ none, _ => .ok (g.write "return;\n")
  | .ReturnStmt _ (some e), _ =>
    match genExpr fuel g e with
    | .ok (expr, g) => .ok (g.write ("return " ++ expr ++ ";\n"))
    | .diag p m => .diag p m
    | .panic m => .panic m
    | .nofuel => .nofuel
  | .VarStmt _ name ty expr, _ =>
    match genType fuel g ty with
    | .ok (ty, g) =>
      match expr with
      | some e =>
        match genExpr fuel g e with
        | .ok (expr, g) => .ok (g.write (ty ++ " " ++ name.Ident ++ " = " ++ expr ++ ";\n"))
        | .diag p m => .diag p m
        | .panic m => .panic m
        | .nofuel => .nofuel
      | none => .ok (g.write (ty ++ " " ++ name.Ident ++ ";\n"))
    | .diag p m => .diag p m
    | .panic m => .panic m
    | .nofuel => .nofuel
  | .AssignStmt left right, _ =>
    match genExpr fuel g left with
    | .ok (left, g) =>
      match genExpr fuel g right with
      | .ok (right, g) => .ok (g.write (left ++ " = " ++ right ++ ";\n"))
      | .diag p m => .diag p m
      | .panic m => .panic m
      | .nofuel => .nofuel
    | .diag p m => .diag p m
    | .panic m => .panic m
    | .nofuel => .nofuel
  | .IfStmt _ cond body els, indent =>
    match genExpr fuel g cond with
    | .ok (cond, g) =>
      match genBlockWith (fun g => genStmts fuel g body) (g.write ("if (" ++ cond ++ ") ")) with
      | .ok g =>
        match genElse fuel g els with
        | .ok g => .ok (if indent then g.write "\n" else g)
        | other => other
      | other => other
    | .diag p m => .diag p m
    | .panic m => .panic m
    | .nofuel => .nofuel
  | .WhileStmt _ cond body, _ =>
    match genExpr fuel g cond with
    | .ok (cond, g) =>
      match genBlockWith (fun g => genStmts fuel g body) (g.write ("while (" ++ cond ++ ") ")) with
      | .ok g => .ok (g.write "\n")
      | other => other
    | .diag p m => .diag p m
    | .panic m => .panic m
    | .nofuel => .nofuel
/-- The else part of the `IfStmt` case of `genStmt`: the else statement is
lowered with `indent = false`. -/
def genElse (fuel : Nat) (g : generator) : Option Stmt → Res generator
  | none => .ok g
  | some s => genStmtSwitch fuel (g.write " else ") s false
/-- The loop of `genBlock` over the statements: `genStmt` with
`indent = true`, which writes the indentation first. -/
def genStmts (fuel : Nat) (g : generator) : List Stmt → Res generator
  | [] => .ok g
  | stmt :: rest =>
    match genStmtSwitch fuel g.writeIndent stmt true with
    | .ok g => genStmts fuel g rest
    | other => other
end

/-- Method `genBlock`. -/
def genBlock (fuel : Nat) (g : generator) (block : List Stmt) : Res generator :=
  genBlockWith (fun g => genStmts fuel g block) g

/-- Method `genStmt`: the indentation when `indent` is set, then the
statement. -/
def genStmt (fuel : Nat) (g : generator) (stmt : Stmt) (indent : Bool) : Res generator :=
  genStmtSwitch fuel (if indent then g.writeIndent else g) stmt indent

/-- The loop of `genFn` over the parameters: C type and name of each. -/
def genFnParams (fuel : Nat) :
    generator → List Param → Res (List (String × String) × generator)
  | g, [] => .ok ([], g)
  | g, param :: rest =>
    match genType fuel g param.Ty with
    | .ok (paramType, g) =>
      match genFnParams fuel g rest with
      | .ok (params, g) => .ok ((paramType, param.Name.Ident) :: params, g)
      | other => other
    | .diag p m => .diag p m
    | .panic m => .panic m
    | .nofuel => .nofuel

/-- Method `genFn`. -/
def genFn (fuel : Nat) (g : generator) (fnDecl : FnDecl) : Res generator :=
  let ret : Res (String × generator) :=
    match fnDecl.Return with
    | some r => genType fuel g r
    | none => .ok ("void", g)
  match ret with
  | .ok (returnType, g) =>
    match genFnParams fuel g fnDecl.Params with
    | .ok (params, g) =>
      let g := { g with header := g.header ++ [.fnDecl returnType fnDecl.Name.Ident params] }
      match fnDecl.Body with
      | some body =>
        match genBlock fuel (g.write (signature returnType fnDecl.Name.Ident params ++ " ")) body with
        | .ok g => .ok (g.write "\n\n")
        | other => other
      | none => .ok g
    | .diag p m => .diag p m
    | .panic m => .panic m
    | .nofuel => .nofuel
  | .diag p m => .diag p m
  | .panic m => .panic m
  | .nofuel => .nofuel

/-- The loop of `GenModule` over the functions. -/
def genFns (fuel : Nat) : generator → List FnDecl → Res generator
  | g, [] => .ok g
  | g, fn :: rest =>
    match genFn fuel g fn with
    | .ok g => genFns fuel g rest
    | other => other

/-- The generator with which `GenModule` starts: both files hold their
`#include` line and every struct declaration is entered under its name. -/
def initialGenerator (module : Module) (out : String) : generator :=
  { body := "#include \"" ++ out ++ ".h\"\n\n",
    header := [.includeLine],
    indent := 0,
    structs := module.Structs.foldl (fun m st => (st.Name.Ident, st) :: m) [],
    instances := [],
    counter := 0 }

/-- The entry point `GenModule`; the result is the final generator, whose
`headerText` and `body` are the contents of the two files. -/
def GenModule (fuel : Nat) (module : Module) (out : String) : Res generator :=
  genFns fuel (initialGenerator module out) module.Fns

/-! ## The scanner (`internal/scanner`) -/

/-- Token kinds `scanner.Token`, in the order of their constants. -/
inductive Token where
  | EOF | COMMENT | IDENT | INT | STRING
  | LPAREN | RPAREN | LBRACKET | RBRACKET | LBRACE | RBRACE
  | PERIOD | COMMA | COLON | SEMICOLON
  | PLUS | MINUS | ASTERISK | SLASH | CARET
  | ASSIGN
  | ELSE | EXTERN | FN | IF | RETURN | STRUCT | VAR | WHILE
deriving Repr, DecidableEq, Inhabited

/-- Text of a token kind in a diagnostic: the map `tokens`. -/
def Token.String : Token → String
  | .EOF => "end of file"
  | .COMMENT => "comment"
  | .IDENT => "identifier"
  | .INT => "integer literal"
  | .STRING => "string literal"
  | .LPAREN => "'('"
  | .RPAREN => "')'"
  | .LBRACKET => "'['"
  | .RBRACKET => "']'"
  | .LBRACE => "'\x7b'"
  | .RBRACE => "'\x7d'"
  | .PERIOD => "'.'"
  | .COMMA => "','"
  | .COLON => "':'"
  | .SEMICOLON => "';'"
  | .PLUS => "'+'"
  | .MINUS => "'-'"
  | .ASTERISK => "'*'"
  | .SLASH => "'/'"
  | .CARET => "'^'"
  | .ASSIGN => "'='"
  | .ELSE => "'else'"
  | .EXTERN => "'extern'"
  | .FN => "'fn'"
  | .IF => "'if'"
  | .RETURN => "'return'"
  | .STRUCT => "'struct'"
  | .VAR => "'var'"
  | .WHILE => "'while'"

/-- The bytes of a text of ASCII characters. -/
def asciiBytes (s : String) : List Nat := s.data.map Char.toNat

/-- The text whose characters have the given bytes as code points: what `%c`
and `%s` print for bytes below 128. -/
def bytesText (l : List Nat) : String := String.mk (l.map Char.ofNat)

/-- State of the `Scanner`. A Go string is the list of its bytes, a byte a
natural number; the path of the file is only printed and is left out. -/
structure Scanner where
  content : List Nat
  pos : Nat
  line : Nat
  lbegin : Nat
  tok_pos : Pos
  tok : Token
  tok_val : List Nat
deriving Repr, DecidableEq, Inhabited

/-- The byte `\n`. -/
def LF : Nat := 10
/-- The byte of the double quote. -/
def QUOTE : Nat := 34
/-- The byte of the backslash. -/
def BACKSLASH : Nat := 92

/-- Function `isWhitespace`: space, tab, carriage return or line feed. -/
def isWhitespace (c : Nat) : Bool := c == 32 || c == 9 || c == 13 || c == LF

/-- Function `isLetter`. -/
def isLetter (c : Nat) : Bool :=
  ('a'.toNat ≤ c && c ≤ 'z'.toNat) || ('A'.toNat ≤ c && c ≤ 'Z'.toNat) || c == '_'.toNat

/-- Function `isEscape`: double quote, single quote (byte 39), `n`, `t` or
backslash. -/
def isEscape (c : Nat) : Bool :=
  c == QUOTE || c == 39 || c == 'n'.toNat || c == 't'.toNat || c == BACKSLASH

/-- Function `isDigit`. -/
def isDigit (c : Nat) : Bool := '0'.toNat ≤ c && c ≤ '9'.toNat

/-- The map `keywords`. -/
def keywords (val : List Nat) : Option Token :=
  if val = asciiBytes "else" then some .ELSE
  else if val = asciiBytes "extern" then some .EXTERN
  else if val = asciiBytes "fn" then some .FN
  else if val = asciiBytes "if" then some .IF
  else if val = asciiBytes "return" then some .RETURN
  else if val = asciiBytes "struct" then some .STRUCT
  else if val = asciiBytes "var" then some .VAR
  else if val = asciiBytes "while" then some .WHILE
  else none

/-- The slice expression `content[lo:hi]`, which panics out of range. -/
def sliceBytes (content : List Nat) (lo hi : Nat) : Res (List Nat) :=
  if lo ≤ hi ∧ hi ≤ content.length then .ok ((content.take hi).drop lo)
  else .panic "slice bounds out of range"

/-- The loop of `scan` that skips whitespace. A loop of the scanner runs while
`pos < len(content)` and a test on `content[pos]` hold, which is a lookup of
the byte at `pos` that fails at the end of the text; every turn advances
`pos`, and the budget counts the turns. -/
def skipWhitespace : Nat → Scanner → Res Scanner
  | 0, _ => .nofuel
  | fuel + 1, s =>
    match s.content[s.pos]? with
    | some c =>
      if isWhitespace c then
        let s := if c = LF then { s with line := s.line + 1, lbegin := s.pos + 1 } else s
        skipWhitespace fuel { s with pos := s.pos + 1 }
      else .ok s
    | none => .ok s

/-- The loop of `scan` over the letters and digits of an identifier. -/
def identLoop : Nat → Scanner → Res Scanner
  | 0, _ => .nofuel
  | fuel + 1, s =>
    match s.content[s.pos]? with
    | some c =>
      if isLetter c || isDigit c then identLoop fuel { s with pos := s.pos + 1 } else .ok s
    | none => .ok s

/-- The loop of `scan` over the digits of an integer literal. -/
def intLoop : Nat → Scanner → Res Scanner
  | 0, _ => .nofuel
  | fuel + 1, s =>
    match s.content[s.pos]? with
    | some c => if isDigit c then intLoop fuel { s with pos := s.pos + 1 } else .ok s
    | none => .ok s

/-- The loop of `scan` over the bytes of a string literal, with the local
variable `escaped`. -/
def stringLoop : Nat → Scanner → Bool → Res Scanner
  | 0, _, _ => .nofuel
  | fuel + 1, s, escaped =>
    match s.content[s.pos]? with
    | some c =>
      if c ≠ QUOTE ∨ escaped = true then
        if escaped = true ∧ isEscape c = false then
          .diag s.tok_pos ("'\\" ++ bytesText [c] ++ "' is not a valid escape sequence")
        else if c = LF then .diag s.tok_pos "unterminated string literal"
        else stringLoop fuel { s with pos := s.pos + 1 } (!escaped && c == BACKSLASH)
      else .ok s
    | none => .ok s

/-- The loop of `scan` over the bytes of a comment. -/
def commentLoop : Nat → Scanner → Res Scanner
  | 0, _ => .nofuel
  | fuel + 1, s =>
    match s.content[s.pos]? with
    | some c => if c ≠ LF then commentLoop fuel { s with pos := s.pos + 1 } else .ok s
    | none => .ok s

/-- The tokens of one byte other than `/`: the cases of the `switch` in the
last branch of `scan`, as a table from the byte to the token. The bytes 123
and 125 are the braces. -/
def punctTable : List (Nat × Token) :=
  [ ('('.toNat, .LPAREN), (')'.toNat, .RPAREN), ('['.toNat, .LBRACKET), (']'.toNat, .RBRACKET),
    (123, .LBRACE), (125, .RBRACE), ('.'.toNat, .PERIOD), (','.toNat, .COMMA),
    (':'.toNat, .COLON), (';'.toNat, .SEMICOLON), ('+'.toNat, .PLUS), ('-'.toNat, .MINUS),
    ('*'.toNat, .ASTERISK), ('^'.toNat, .CARET), ('='.toNat, .ASSIGN) ]

/-- The last branch of `scan`, the `switch` on the byte `c`, which has been
passed: a comment or `/`, a token of one byte, or an invalid character. -/
def scanPunct (s : Scanner) (c : Nat) : Res Scanner :=
  if c = '/'.toNat then
    match s.content[s.pos]? with
    | some d =>
      if d = '/'.toNat then
        match commentLoop (s.content.length + 1) s with
        | .ok s => .ok { s with tok := .COMMENT }
        | other => other
      else .ok { s with tok := .SLASH }
    | none => .ok { s with tok := .SLASH }
  else
    match punctTable.lookup c with
    | some tok => .ok { s with tok := tok }
    | none =>
      match s.content[s.pos - 1]? with
      | some b => .diag s.tok_pos ("invalid character '" ++ bytesText [b] ++ "'")
      | none => .panic "index out of range"

/-- Method `scan`: the next token, comments included. The loops get a budget
of one more than the length of the text. -/
def scan (s : Scanner) : Res Scanner :=
  match skipWhitespace (s.content.length + 1) s with
  | .ok s =>
    let s := { s with tok_pos := ⟨s.line, s.pos - s.lbegin + 1⟩ }
    if s.pos = s.content.length then .ok { s with tok := .EOF }
    else
      match s.content[s.pos]? with
      | none => .panic "index out of range"
      | some c =>
        if isLetter c then
          let begin := s.pos
          match identLoop (s.content.length + 1) s with
          | .ok s =>
            match sliceBytes s.content begin s.pos with
            | .ok val =>
              match keywords val with
              | some keyword => .ok { s with tok := keyword }
              | none => .ok { s with tok_val := val, tok := .IDENT }
            | .diag p m => .diag p m
            | .panic m => .panic m
            | .nofuel => .nofuel
          | other => other
        else if isDigit c then
          let begin := s.pos
          match intLoop (s.content.length + 1) s with
          | .ok s =>
            match sliceBytes s.content begin s.pos with
            | .ok val => .ok { s with tok_val := val, tok := .INT }
            | .diag p m => .diag p m
            | .panic m => .panic m
            | .nofuel => .nofuel
          | other => other
        else if c = QUOTE then
          let s := { s with pos := s.pos + 1 }
          let begin := s.pos
          match stringLoop (s.content.length + 1) s false with
          | .ok s =>
            if s.pos = s.content.length then .diag s.tok_pos "unterminated string literal"
            else
              match sliceBytes s.content begin s.pos with
              | .ok val => .ok { s with tok_val := val, tok := .STRING, pos := s.pos + 1 }
              | .diag p m => .diag p m
              | .panic m => .panic m
              | .nofuel => .nofuel
          | other => other
        else scanPunct { s with pos := s.pos + 1 } c
  | other => other

/-- The loop of `next`: scan again while the token is a comment. -/
def nextLoop : Nat → Scanner → Res Scanner
  | 0, _ => .nofuel
  | fuel + 1, s =>
    if s.tok = .COMMENT then
      match scan s with
      | .ok s => nextLoop fuel s
      | other => other
    else .ok s

/-- Method `next`: the next token that is no comment. -/
def next (s : Scanner) : Res Scanner :=
  match scan s with
  | .ok s => nextLoop (s.content.length + 1) s
  | other => other

/-- The scanner that `New` returns for a file with the bytes `content`: the
fields unset are zero, and the first token is scanned. A file that cannot
be read is left out. -/
def Scanner.New (content : List Nat) : Res Scanner :=
  next { content := content, pos := 0, line := 1, lbegin := 0, tok_pos := ⟨0, 0⟩,
         tok := .EOF, tok_val := [] }

/-- Method `Has`. -/
def Scanner.Has (s : Scanner) (tok : Token) : Bool := s.tok = tok

/-- Method `Skip`. -/
def Scanner.Skip (s : Scanner) (tok : Token) : Res (Bool × Scanner) :=
  if s.tok = tok then
    match next s with
    | .ok s => .ok (true, s)
    | .diag p m => .diag p m
    | .panic m => .panic m
    | .nofuel => .nofuel
  else .ok (false, s)

/-- Method `Expect`. -/
def Scanner.Expect (s : Scanner) (tok : Token) (expected : String) :
    Res (List Nat × Scanner) :=
  if s.tok = tok then
    let val := s.tok_val
    match next s with
    | .ok s => .ok (val, s)
    | .diag p m => .diag p m
    | .panic m => .panic m
    | .nofuel => .nofuel
  else if s.tok = .IDENT then
    .diag s.tok_pos ("expected " ++ expected ++ " but got '" ++ bytesText s.tok_val ++ "'")
  else .diag s.tok_pos ("expected " ++ expected ++ " but got " ++ s.tok.String)

/-! ## The checker with a log of its work on the struct flags

The functions of the checker that reach `checkStruct`, written again with a
log next to the checker state. The log is ghost state: it records every write
to a flag and every start of the loop over the fields of a struct, and no
decision depends on it. -/

/-- An entry of the log: `wrote decls` after an assignment to `Started` or
`Done`, with the struct declarations as they are right after it, and
`walked decl` when `checkStruct` enters the loop over the fields of the
declaration at the pointer `decl`. -/
inductive FlagEvent where
  | wrote (decls : List StructDecl)
  | walked (decl : Nat)
deriving Repr, Inhabited

/-- The checker state with the log, oldest entry first. -/
structure Logged where
  c : checker
  log : List FlagEvent
deriving Repr, Inhabited

/-- The loop of `checkStruct` over the fields, with the log. -/
def checkStructFieldsLog (checkType : Logged → NamedType → Res Logged) :
    Logged → List String → List Param → Res Logged
  | l, _, [] => .ok l
  | l, fields, field :: rest =>
    if fields.contains field.Name.Ident then
      .diag field.Name.Pos ("duplicate field name '" ++ field.Name.Ident ++ "'")
    else
      match checkType l field.Ty with
      | .ok l => checkStructFieldsLog checkType l (field.Name.Ident :: fields) rest
      | other => other

/-- Body of `checkStruct` with the log: the two assignments to the flags and
the entry into the loop over the fields are recorded. -/
def checkStructWithLog (checkType : Logged → NamedType → Res Logged) (l : Logged)
    (decl : Nat) : Res Logged :=
  match l.c.decls[decl]? with
  | none => .panic "nil pointer dereference"
  | some d =>
    if d.Done then .ok l
    else if d.Started then .diag d.Name.Pos "recursive struct inclusion is not allowed"
    else
      match checkStructParams l.c.newScope d.Params with
      | .ok c =>
        let c := c.setStarted decl
        let log := l.log ++ [.wrote c.decls]
        if d.Fields.length = 0 then .diag d.Name.Pos "struct must have at least one field"
        else
          match checkStructFieldsLog checkType ⟨c, log ++ [.walked decl]⟩ [] d.Fields with
          | .ok l =>
            let c := l.c.popScope.setDone decl
            .ok ⟨c, l.log ++ [.wrote c.decls]⟩
          | other => other
      | .diag p m => .diag p m
      | .panic m => .panic m
      | .nofuel => .nofuel

/-- The loop of `checkType` over the generic arguments, with the log. -/
def checkTypeArgsLog (checkType : Logged → NamedType → Res Logged) :
    Logged → List NamedType → Res Logged
  | l, [] => .ok l
  | l, arg :: rest =>
    match checkType l arg with
    | .ok l => checkTypeArgsLog checkType l rest
    | other => other

/-- Method `checkType` with the log. -/
def checkTypeLog : Nat → Logged → NamedType → Res Logged
  | 0, _, _ => .nofuel
  | fuel + 1, l, ty =>
    match findType l.c.scope ty.Name.Ident with
    | none => .diag ty.At ("undefined type '" ++ ty.Name.Ident ++ "'")
    | some rty =>
      if ty.Args.length ≠ rty.Params.length then
        .diag ty.Name.Pos ("expected " ++ toString rty.Params.length ++
          " generic arguments, but got " ++ toString ty.Args.length)
      else
        match checkTypeArgsLog (checkTypeLog fuel) l ty.Args with
        | .ok l =>
          match l.c.structs.lookup ty.Name.Ident with
          | some st => checkStructWithLog (checkTypeLog fuel) l st
          | none => .ok l
        | other => other

/-- Method `checkStruct` with the log. -/
def checkStructLog (fuel : Nat) (l : Logged) (decl : Nat) : Res Logged :=
  checkStructWithLog (checkTypeLog fuel) l decl

/-- The logged state with another scope chain. -/
def Logged.withScope (l : Logged) (s : List scope) : Logged :=
  { l with c := { l.c with scope := s } }

/-- Method `newScope` on the logged state. -/
def Logged.newScope (l : Logged) : Logged := { l with c := l.c.newScope }

/-- Method `popScope` on the logged state. -/
def Logged.popScope (l : Logged) : Logged := { l with c := l.c.popScope }

mutual
/-- Method `checkStmt` with the log. -/
def checkStmtLog (fuel : Nat) (l : Logged) : Stmt → Option NamedType → Res (Bool × Logged)
  | .ExprStmt e, _ =>
    if e.isCall then
      match checkExpr l.c e with
      | .ok _ => .ok (false, l)
      | .diag p m => .diag p m
      | .panic m => .panic m
      | .nofuel => .nofuel
    else .diag e.At "expression cannot be used as statement"
  | .BlockStmt _ block, ret => checkBlockLog fuel l block ret
  | .ReturnStmt pos expr, ret =>
    match ret, expr with
    | some r, none => .diag pos ("expected return value of type '" ++ r.Name.Ident ++ "'")
    | none, some e => .diag e.At "function cannot return a value"
    | none, none => .ok (true, l)
    | some r, some e =>
      match checkCoerce l.c e (.named (some r)) with
      | .ok _ => .ok (true, l)
      | .diag p m => .diag p m
      | .panic m => .panic m
      | .nofuel => .nofuel
  | .VarStmt _ name ty expr, _ =>
    if (findVar l.c.scope name.Ident).isSome then
      .diag name.Pos ("duplicate identifier '" ++ name.Ident ++ "'")
    else
      match addVar l.c.scope name.Ident ⟨.named (some ty), true⟩ with
      | .ok s =>
        match checkTypeLog fuel (l.withScope s) ty with
        | .ok l =>
          match expr with
          | some e =>
            match checkCoerce l.c e (.named (some ty)) with
            | .ok _ => .ok (false, l)
            | .diag p m => .diag p m
            | .panic m => .panic m
            | .nofuel => .nofuel
          | none => .ok (false, l)
        | .diag p m => .diag p m
        | .panic m => .panic m
        | .nofuel => .nofuel
      | .diag p m => .diag p m
      | .panic m => .panic m
      | .nofuel => .nofuel
  | .AssignStmt left right, _ =>
    match checkExpr l.c left with
    | .ok r =>
      if !r.isMut then .diag left.At "cannot assign to constant value"
      else
        match checkCoerce l.c right r.ty with
        | .ok _ => .ok (false, l)
        | .diag p m => .diag p m
        | .panic m => .panic m
        | .nofuel => .nofuel
    | .diag p m => .diag p m
    | .panic m => .panic m
    | .nofuel => .nofuel
  | .IfStmt _ cond body els, ret =>
    match checkCoerce l.c cond (.named (some ast.Bool)) with
    | .ok _ =>
      match checkBlockLog fuel l.newScope body ret with
      | .ok (returns, l) => checkElseLog fuel l.popScope els ret returns
      | other => other
    | .diag p m => .diag p m
    | .panic m => .panic m
    | .nofuel => .nofuel
  | .WhileStmt _ cond body, ret =>
    match checkCoerce l.c cond (.named (some ast.Bool)) with
    | .ok _ =>
      match checkBlockLog fuel l.newScope body ret with
      | .ok (_, l) => .ok (false, l.popScope)
      | other => other
    | .diag p m => .diag p m
    | .panic m => .panic m
    | .nofuel => .nofuel
/-- The part of the `IfStmt` case of `checkStmt` after the body, with the
log. -/
def checkElseLog (fuel : Nat) (l : Logged) :
    Option Stmt → Option NamedType → Bool → Res (Bool × Logged)
  | none, _, _ => .ok (false, l)
  | some s, ret, returns =>
    match checkStmtLog fuel l.newScope s ret with
    | .ok (returns2, l) => .ok (if !returns2 then false else returns, l.popScope)
    | other => other
/-- Method `checkBlock` with the log. -/
def checkBlockLog (fuel : Nat) (l : Logged) :
    List Stmt → Option NamedType → Res (Bool × Logged)
  | [], _ => .ok (false, l)
  | stmt :: rest, ret =>
    match checkStmtLog fuel l stmt ret with
    | .ok (r, l) =>
      match checkBlockLog fuel l rest ret with
      | .ok (returns, l) => .ok (if r then true else returns, l)
      | other => other
    | other => other
end

/-- The loop of `checkFn` over the parameters, with the log. -/
def checkFnParamsLog (fuel : Nat) : Logged → List Param → Res Logged
  | l, [] => .ok l
  | l, param :: rest =>
    match checkTypeLog fuel l param.Ty with
    | .ok l =>
      if (findVar l.c.scope param.Name.Ident).isSome then
        .diag param.Name.Pos ("duplicate identifier '" ++ param.Name.Ident ++ "'")
      else
        match addVar l.c.scope param.Name.Ident ⟨.named (some param.Ty), false⟩ with
        | .ok s => checkFnParamsLog fuel (l.withScope s) rest
        | .diag p m => .diag p m
        | .panic m => .panic m
        | .nofuel => .nofuel
    | other => other

/-- The part of `checkFn` before the body, with the log. -/
def checkFnSignatureLog (fuel : Nat) (l : Logged) (fn : FnDecl) : Res Logged :=
  match fn.Return with
  | some r =>
    match checkTypeLog fuel l.newScope r with
    | .ok l => checkFnParamsLog fuel l fn.Params
    | other => other
  | none => checkFnParamsLog fuel l.newScope fn.Params

/-- Method `checkFn` with the log. -/
def checkFnLog (fuel : Nat) (l : Logged) (fn : FnDecl) : Res Logged :=
  match checkFnSignatureLog fuel l fn with
  | .ok l =>
    match checkBlockLog fuel l (fn.Body.getD []) fn.Return with
    | .ok (returns, l) =>
      match fn.Return with
      | some r =>
        if !returns then .diag r.At "not all paths return a value"
        else .ok l.popScope
      | none => .ok l.popScope
    | .diag p m => .diag p m
    | .panic m => .panic m
    | .nofuel => .nofuel
  | other => other

/-- Second loop of `CheckModule` with the log. -/
def checkStructsLog (fuel : Nat) : Logged → Nat → Nat → Res Logged
  | l, _, 0 => .ok l
  | l, i, n + 1 =>
    match checkStructLog fuel l i with
    | .ok l => checkStructsLog fuel l (i + 1) n
    | other => other

/-- Fourth loop of `CheckModule` with the log. -/
def checkFnsLog (fuel : Nat) : Logged → List FnDecl → Res Logged
  | l, [] => .ok l
  | l, fn :: rest =>
    match checkFnLog fuel l fn with
    | .ok l => checkFnsLog fuel l rest
    | other => other

/-- The entry point `CheckModule` with the log, which starts empty: the
first and the third loop write no flag and reach no struct. -/
def CheckModuleLog (fuel : Nat) (module : Module) : Res (Module × List FlagEvent) := do
  let s ← primitiveScope
  let c ← addStructs ⟨s, [], module.Structs⟩ 0 module.Structs
  let l ← checkStructsLog fuel ⟨c, []⟩ 0 module.Structs.length
  let c ← addFns l.c module.Fns
  let l ← checkFnsLog fuel ⟨c, l.log⟩ module.Fns
  pure ({ module with Structs := l.c.decls }, l.log)

/-! ## Definitions used to state the properties -/

mutual
/-- Every type name that occurs in the tree of a named type: the head and the
names in the generic arguments. -/
def typeNames : NamedType → List String
  | .mk name args => name.Ident :: typeNamesArgs args
/-- The type names of a list of types. -/
def typeNamesArgs : List NamedType → List String
  | [] => []
  | a :: as => typeNames a ++ typeNamesArgs as
end

/-- A module as the parser builds it: the flags of every struct declaration
are false (`parseStructDecl`). -/
def Module.parsed (m : Module) : Prop :=
  ∀ d ∈ m.Structs, d.Started = false ∧ d.Done = false

instance (m : Module) : Decidable m.parsed := by
  unfold Module.parsed; infer_instance

/-- The names of the primitive types that `CheckModule` installs. -/
def primitiveNames : List String := ["u8", "i32", "bool", "slice"]

/-- Every type name in a field type of a struct is a primitive, a struct of
the module or a generic parameter of that very struct. -/
def Module.fieldNamesResolve (m : Module) : Prop :=
  ∀ st ∈ m.Structs, ∀ f ∈ st.Fields, ∀ n ∈ typeNames f.Ty,
    n ∈ primitiveNames ∨ n ∈ m.Structs.map (fun d => d.Name.Ident) ∨
      n ∈ st.Params.map (fun p => p.Ident)

instance (m : Module) : Decidable m.fieldNamesResolve := by
  unfold Module.fieldNamesResolve; infer_instance

/-! ### Example modules -/

/-- The struct `struct A[T] { x: B }` declared on line `line`. -/
def leakA (line : Nat) : StructDecl :=
  { Name := ⟨⟨line, 8⟩, "A"⟩, Params := [⟨⟨line, 10⟩, "T"⟩],
    Fields := [⟨⟨⟨line, 15⟩, "x"⟩, .mk ⟨⟨line, 18⟩, "B"⟩ []⟩],
    Started := false, Done := false }

/-- The struct `struct B { y: T }` declared on line `line`. -/
def leakB (line : Nat) : StructDecl :=
  { Name := ⟨⟨line, 8⟩, "B"⟩, Params := [],
    Fields := [⟨⟨⟨line, 12⟩, "y"⟩, .mk ⟨⟨line, 15⟩, "T"⟩ []⟩],
    Started := false, Done := false }

/-- The module parsed from
```
struct A[T] { x: B }
struct B { y: T }
fn f(a: B) { }
```
-/
def leakModule : Module :=
  { Structs := [leakA 1, leakB 2],
    Fns :=
      [ { Name := ⟨⟨3, 4⟩, "f"⟩, Params := [⟨⟨⟨3, 6⟩, "a"⟩, .mk ⟨⟨3, 9⟩, "B"⟩ []⟩],
          Return := none, Body := some [] } ] }

/-- The struct `struct A[T] { x: B[T] }` declared on line `line`. -/
def orderA (line : Nat) : StructDecl :=
  { Name := ⟨⟨line, 8⟩, "A"⟩, Params := [⟨⟨line, 10⟩, "T"⟩],
    Fields := [⟨⟨⟨line, 15⟩, "x"⟩, .mk ⟨⟨line, 18⟩, "B"⟩ [.mk ⟨⟨line, 20⟩, "T"⟩ []]⟩],
    Started := false, Done := false }

/-- The struct `struct B[T] { y: T }` declared on line `line`. -/
def orderB (line : Nat) : StructDecl :=
  { Name := ⟨⟨line, 8⟩, "B"⟩, Params := [⟨⟨line, 10⟩, "T"⟩],
    Fields := [⟨⟨⟨line, 15⟩, "y"⟩, .mk ⟨⟨line, 18⟩, "T"⟩ []⟩],
    Started := false, Done := false }

/-- The module parsed from
```
fn f() { g(1); }
fn g(x: i32[i32]) { }
```
-/
def arityModule : Module :=
  { Structs := [],
    Fns :=
      [ { Name := ⟨⟨1, 4⟩, "f"⟩, Params := [], Return := none,
          Body := some [.ExprStmt (.CallExpr (.VarExpr ⟨⟨1, 10⟩, "g"⟩) [.IntExpr ⟨1, 12⟩ "1"])] },
        { Name := ⟨⟨2, 4⟩, "g"⟩,
          Params := [⟨⟨⟨2, 6⟩, "x"⟩, .mk ⟨⟨2, 9⟩, "i32"⟩ [.mk ⟨⟨2, 13⟩, "i32"⟩ []]⟩],
          Return := none, Body := some [] } ] }

/-- The module parsed from
```
struct S { x: i32 }
fn f() { h(g().x); }
extern fn g() S[i32];
extern fn h(a: i32);
```
-/
def instantiationModule : Module :=
  { Structs :=
      [ { Name := ⟨⟨1, 8⟩, "S"⟩, Params := [],
          Fields := [⟨⟨⟨1, 12⟩, "x"⟩, .mk ⟨⟨1, 15⟩, "i32"⟩ []⟩],
          Started := false, Done := false } ],
    Fns :=
      [ { Name := ⟨⟨2, 4⟩, "f"⟩, Params := [], Return := none,
          Body := some [.ExprStmt (.CallExpr (.VarExpr ⟨⟨2, 10⟩, "h"⟩)
            [.FieldExpr (.CallExpr (.VarExpr ⟨⟨2, 12⟩, "g"⟩) []) ⟨⟨2, 16⟩, "x"⟩])] },
        { Name := ⟨⟨3, 11⟩, "g"⟩, Params := [],
          Return := some (.mk ⟨⟨3, 15⟩, "S"⟩ [.mk ⟨⟨3, 17⟩, "i32"⟩ []]), Body := none },
        { Name := ⟨⟨4, 11⟩, "h"⟩, Params := [⟨⟨⟨4, 13⟩, "a"⟩, .mk ⟨⟨4, 16⟩, "i32"⟩ []⟩],
          Return := none, Body := none } ] }

/-- What a successful `checkType` leaves unchanged. -/
structure Frame (c c' : checker) : Prop where
  scope : c'.scope = c.scope
  structs : c'.structs = c.structs
  length : c'.decls.length = c.decls.length

/-- Every scope of the chain binds each variable name once. -/
def ScopesUnique (s : List scope) : Prop := ∀ sc ∈ s, (sc.vars.map Prod.fst).Nodup

mutual
/-- Names declared by the var statements of a statement, nested ones
included. -/
def Stmt.varNames : Stmt → List String
  | .VarStmt _ name _ _ => [name.Ident]
  | .BlockStmt _ b => varNamesBlock b
  | .IfStmt _ _ body els => varNamesBlock body ++ varNamesElse els
  | .WhileStmt _ _ body => varNamesBlock body
  | .ExprStmt _ => []
  | .ReturnStmt _ _ => []
  | .AssignStmt _ _ => []
/-- Names declared in the else branch of an if statement. -/
def varNamesElse : Option Stmt → List String
  | none => []
  | some s => s.varNames
/-- Names declared by the var statements of a block. -/
def varNamesBlock : List Stmt → List String
  | [] => []
  | s :: rest => s.varNames ++ varNamesBlock rest
end

/-- Names that the checking of a function binds: its own, those of its
parameters and those of the var statements of its body. -/
def FnDecl.boundNames (fn : FnDecl) : List String :=
  fn.Name.Ident :: (fn.Params.map (fun p => p.Name.Ident) ++ varNamesBlock (fn.Body.getD []))

/-- Names that `CheckModule` binds as variables. -/
def Module.boundNames (m : Module) : List String :=
  (m.Fns.map FnDecl.boundNames).flatten

/-- Names bound by the current scope of a chain. -/
def headNames (s : List scope) : List String :=
  match s with
  | [] => []
  | sc :: _ => sc.vars.map Prod.fst

/-- The module parsed from
```
fn f(x: i32) {
	var true: bool;
}
```
-/
def reservedModule : Module :=
  { Structs := [],
    Fns :=
      [ { Name := ⟨⟨1, 4⟩, "f"⟩, Params := [⟨⟨⟨1, 6⟩, "x"⟩, .mk ⟨⟨1, 9⟩, "i32"⟩ []⟩],
          Return := none,
          Body := some [.VarStmt ⟨2, 2⟩ ⟨⟨2, 6⟩, "true"⟩ (.mk ⟨⟨2, 12⟩, "bool"⟩ []) none] } ] }

/-- The module parsed from
```
fn f(x: i32, y: bool) {
	var z: i32;
}
fn g() { }
```
-/
def distinctModule : Module :=
  { Structs := [],
    Fns :=
      [ { Name := ⟨⟨1, 4⟩, "f"⟩,
          Params := [⟨⟨⟨1, 6⟩, "x"⟩, .mk ⟨⟨1, 9⟩, "i32"⟩ []⟩,
                     ⟨⟨⟨1, 14⟩, "y"⟩, .mk ⟨⟨1, 17⟩, "bool"⟩ []⟩],
          Return := none,
          Body := some [.VarStmt ⟨2, 2⟩ ⟨⟨2, 6⟩, "z"⟩ (.mk ⟨⟨2, 9⟩, "i32"⟩ []) none] },
        { Name := ⟨⟨4, 4⟩, "g"⟩, Params := [], Return := none, Body := some [] } ] }

/-- The scope chain in which the body of `fn f(x: i32) ...` is checked: the
scope of the function above the global scope. -/
def bodyState : checker :=
  { scope :=
      [ ⟨[("x", ⟨.named (some ast.Int32), false⟩)], []⟩,
        ⟨[("f", ⟨.fn ⟨[ast.Int32], none⟩, false⟩)],
          [("slice", ⟨["eltype"]⟩), ("bool", ⟨[]⟩), ("i32", ⟨[]⟩), ("u8", ⟨[]⟩)]⟩ ],
    structs := [], decls := [] }

/-- How a control path through a statement ends: at a return statement, with
the value it carries if any, or by running off the end of the statement. -/
inductive PathEnd where
  | returns (value : Option Expr)
  | falls

/-- The path runs off the end. -/
def PathEnd.isFall : PathEnd → Bool
  | .falls => true
  | .returns _ => false

/-- The path ends at a return statement that carries a value. -/
def PathEnd.returnsValue : PathEnd → Bool
  | .returns (some _) => true
  | _ => false

mutual
/-- The ends of the control paths through a statement: a path takes either
branch of an if, skips an if without else, runs the body of a while zero times
(and falls through) or enters it. -/
def Stmt.paths : Stmt → List PathEnd
  | .ExprStmt _ => [.falls]
  | .BlockStmt _ b => pathsBlock b
  | .ReturnStmt _ e => [.returns e]
  | .VarStmt _ _ _ _ => [.falls]
  | .AssignStmt _ _ => [.falls]
  | .IfStmt _ _ body els => pathsBlock body ++ pathsElse els
  | .WhileStmt _ _ body => .falls :: pathsBlock body
/-- The ends of the paths that do not take the body of an if: through the
else branch, or past the if when there is none. -/
def pathsElse : Option Stmt → List PathEnd
  | none => [.falls]
  | some s => s.paths
/-- The ends of the control paths through a block: a path that ends at a
return in the first statement ends there, one that runs off the first
statement goes on through the rest. -/
def pathsBlock : List Stmt → List PathEnd
  | [] => [.falls]
  | s :: rest =>
    s.paths.filter (fun p => !p.isFall) ++
      (if s.paths.any PathEnd.isFall then pathsBlock rest else [])
end

/-- Every control path through the block ends at a return statement that
carries a value. -/
def allPathsReturn (b : List Stmt) : Prop := ∀ p ∈ pathsBlock b, p.returnsValue = true

instance (b : List Stmt) : Decidable (allPathsReturn b) := by
  unfold allPathsReturn; infer_instance

/-- The function parsed from `fn f(x: bool) i32 { if (x) { return 1; } }`. -/
def missingReturnFn : FnDecl :=
  { Name := ⟨⟨1, 4⟩, "f"⟩, Params := [⟨⟨⟨1, 6⟩, "x"⟩, .mk ⟨⟨1, 9⟩, "bool"⟩ []⟩],
    Return := some (.mk ⟨⟨1, 15⟩, "i32"⟩ []),
    Body := some [.IfStmt ⟨1, 21⟩ (.VarExpr ⟨⟨1, 25⟩, "x"⟩)
      [.ReturnStmt ⟨1, 30⟩ (some (.IntExpr ⟨1, 37⟩ "1"))] none] }

/-- The checker state in which `CheckModule` checks the functions of a module
without structs whose only function is `fn`: the global scope holds the
primitive types and the function. -/
def oneFnState (fn : FnDecl) : checker :=
  { scope :=
      [ ⟨[(fn.Name.Ident, ⟨.fn ⟨fn.Params.map (fun p => p.Ty), fn.Return⟩, false⟩)],
          [("slice", ⟨["eltype"]⟩), ("bool", ⟨[]⟩), ("i32", ⟨[]⟩), ("u8", ⟨[]⟩)]⟩ ],
    structs := [], decls := [] }

mutual
/-- A named type with every position replaced by Go's zero position. -/
def NamedType.erasePos : NamedType → NamedType
  | .mk name args => .mk ⟨⟨0, 0⟩, name.Ident⟩ (erasePosArgs args)
/-- The types of a list with their positions erased. -/
def erasePosArgs : List NamedType → List NamedType
  | [] => []
  | a :: as => a.erasePos :: erasePosArgs as
end

/-- The struct name that a write to the header defines, if it is a
definition. -/
def HeaderWrite.defines : HeaderWrite → Option String
  | .structDef name _ => some name
  | .sliceDef name _ => some name
  | _ => none

/-- The C types that a write to the header mentions: the field types of a
struct definition, the element type behind the data pointer of a slice
definition, the return and parameter types of a forward declaration. -/
def HeaderWrite.uses : HeaderWrite → List String
  | .includeLine => []
  | .structDef _ fields => fields.map Prod.fst
  | .sliceDef _ eltype => [eltype]
  | .fnDecl returnType _ params => returnType :: params.map Prod.fst

/-- What a successful call of a generator method leaves unchanged or only
extends. -/
structure GenExt (g g' : generator) : Prop where
  structs : g'.structs = g.structs
  instances : ∃ ext, g'.instances = g.instances ++ ext
  header : ∃ ext, g'.header = g.header ++ ext

/-- The generator state in which `genType` lowers the definition of a type it
has not met yet: the type is entered under the next fresh name. -/
def generator.enter (g : generator) (ty : NamedType) : generator :=
  { g with counter := g.counter + 1, instances := g.instances ++ [⟨ty, "ty" ++ toString g.counter⟩] }

/-- The type `Box[i32]` written at column `col` of line 2. -/
def boxUse (col : Nat) : NamedType := .mk ⟨⟨2, col⟩, "Box"⟩ [.mk ⟨⟨2, col + 4⟩, "i32"⟩ []]

/-- The module parsed from
```
struct Box[T] { x: T }
fn f(a: Box[i32], b: Box[i32]) { }
```
-/
def boxModule : Module :=
  { Structs :=
      [ { Name := ⟨⟨1, 8⟩, "Box"⟩, Params := [⟨⟨1, 12⟩, "T"⟩],
          Fields := [⟨⟨⟨1, 17⟩, "x"⟩, .mk ⟨⟨1, 20⟩, "T"⟩ []⟩],
          Started := false, Done := false } ],
    Fns :=
      [ { Name := ⟨⟨2, 4⟩, "f"⟩,
          Params := [⟨⟨⟨2, 6⟩, "a"⟩, boxUse 9⟩, ⟨⟨⟨2, 19⟩, "b"⟩, boxUse 22⟩],
          Return := none, Body := some [] } ] }

/-- The part of a struct declaration that the checker never changes. -/
def StructDecl.sig (d : StructDecl) : Ident × List Ident × List Param :=
  (d.Name, d.Params, d.Fields)

/-- The declaration at the pointer `j` has its flag `Done` set. -/
def checker.isDone (c : checker) (j : Nat) : Prop :=
  ∃ d, c.decls[j]? = some d ∧ d.Done = true

/-- The declaration at index `i` of the list has a field whose type tree
contains the name of the declaration at index `j`. -/
def mentionsAt (ds : List StructDecl) (i j : Nat) : Prop :=
  ∃ d dj, ds[i]? = some d ∧ ds[j]? = some dj ∧ ∃ f ∈ d.Fields, dj.Name.Ident ∈ typeNames f.Ty

/-- The converse of `mentionsAt`. -/
def mentionedBy (ds : List StructDecl) (j i : Nat) : Prop := mentionsAt ds i j

/-- What the checker maintains about the struct declarations `ds` of the
module: the stored declarations are those of `ds` up to the flags, every
declaration is found under its name, and nothing that a finished struct
mentions leads back to it. -/
structure StructInv (ds : List StructDecl) (c : checker) : Prop where
  sig : c.decls.map StructDecl.sig = ds.map StructDecl.sig
  map1 : ∀ j d, ds[j]? = some d → c.structs.lookup d.Name.Ident = some j
  acc : ∀ j, c.isDone j → Acc (mentionedBy ds) j

/-- What a successful step of the struct check guarantees. -/
structure StructStep (ds : List StructDecl) (c c' : checker) : Prop where
  structs : c'.structs = c.structs
  inv : StructInv ds c'
  mono : ∀ j, c.isDone j → c'.isDone j

/-- The names in `ty` that are struct names belong to finished structs. -/
def namesDone (c : checker) (ty : NamedType) : Prop :=
  ∀ N ∈ typeNames ty, ∀ j, c.structs.lookup N = some j → c.isDone j

/-- The struct named `S` of the module has a field whose type mentions the
name `R` anywhere in its type tree (as head or inside generic arguments, also
under `slice`), and `R` is the name of a struct of the module. -/
def Module.mentions (m : Module) (S R : String) : Prop :=
  (∃ d ∈ m.Structs, d.Name.Ident = S ∧ ∃ f ∈ d.Fields, R ∈ typeNames f.Ty) ∧
    ∃ d' ∈ m.Structs, d'.Name.Ident = R

/-- The declaration at the pointer `j` is being checked: `Started` is set and
`Done` is not. -/
def checker.isGray (c : checker) (j : Nat) : Prop :=
  ∃ d, c.decls[j]? = some d ∧ d.Started = true ∧ d.Done = false

/-- The message of the diagnostic for a recursive struct. -/
def recursiveMsg : String := "recursive struct inclusion is not allowed"

/-- The position `p` is the name position of a declaration of `ds` that
reaches itself through `mentionsAt`. -/
def OnCycle (ds : List StructDecl) (p : Pos) : Prop :=
  ∃ i d, ds[i]? = some d ∧ d.Name.Pos = p ∧ Relation.TransGen (mentionsAt ds) i i

/-- The structs being checked are those of the list `stk`, outermost first,
each of which mentions the next. -/
structure StackInv (ds : List StructDecl) (c : checker) (stk : List Nat) : Prop where
  gray : ∀ j, c.isGray j ↔ j ∈ stk
  chain : List.Chain' (mentionsAt ds) stk
  nodup : stk.Nodup

/-- Every struct name in `ty` is mentioned by the innermost struct being
checked, if there is one. -/
def Reach (ds : List StructDecl) (structs : List (String × Nat)) (stk : List Nat)
    (ty : NamedType) : Prop :=
  ∀ top, stk.getLast? = some top → ∀ N ∈ typeNames ty, ∀ j, structs.lookup N = some j →
    mentionsAt ds top j

/-- Every name of the map stands for the declaration it points to. -/
def MapInv (ds : List StructDecl) (structs : List (String × Nat)) : Prop :=
  ∀ N j, structs.lookup N = some j → ∃ d, ds[j]? = some d ∧ d.Name.Ident = N

/-- The outcome of a step of the struct check with enough budget: it returns
with the same structs being checked, or stops with a diagnostic, which, when
it is the one for recursion, is reported at a struct on a cycle. -/
def Good (ds : List StructDecl) (stk : List Nat) : Res checker → Prop
  | .ok c' => StackInv ds c' stk
  | .diag p msg => msg = recursiveMsg → OnCycle ds p
  | .panic _ => False
  | .nofuel => False

mutual
/-- Height of the tree of a named type. -/
def NamedType.depth : NamedType → Nat
  | .mk _ args => depthArgs args
/-- One more than the greatest height among the types of a list, 0 for the
empty list. -/
def depthArgs : List NamedType → Nat
  | [] => 0
  | a :: as => max (a.depth + 1) (depthArgs as)
end

/-- One more than the greatest height among the field types of the
declarations. -/
def fieldDepth (ds : List StructDecl) : Nat :=
  (ds.map (fun d => depthArgs (d.Fields.map (fun f => f.Ty)))).foldr max 0

/-- The outcome is a return or a diagnostic other than the one for
recursion. -/
def Res.harmless {α : Type} : Res α → Prop
  | .ok _ => True
  | .diag _ msg => msg ≠ recursiveMsg
  | .panic _ => False
  | .nofuel => False

/-- A recursion budget that suffices for the struct loops of `CheckModule`. -/
def Module.structFuel (m : Module) : Nat := m.Structs.length * (fieldDepth m.Structs + 1)

/-- The module parsed from `struct A { x: A }`. -/
def selfModule : Module :=
  { Structs :=
      [ { Name := ⟨⟨1, 8⟩, "A"⟩, Params := [],
          Fields := [⟨⟨⟨1, 12⟩, "x"⟩, .mk ⟨⟨1, 15⟩, "A"⟩ []⟩],
          Started := false, Done := false } ],
    Fns := [] }

mutual
/-- Weight of a named type for the table `c` of the weights of the type
names: the weight of the head times one more than the sum of the weights of the
arguments. -/
def weight (c : String → Nat) : NamedType → Nat
  | .mk n args => c n.Ident * (1 + weightArgs c args)
/-- Sum of the weights of the types of a list. -/
def weightArgs (c : String → Nat) : List NamedType → Nat
  | [] => 0
  | a :: as => weight c a + weightArgs c as
end

mutual
/-- Weight of a field type in which the names `keys`, the generic parameters
of the struct, count 1 and are not looked into. -/
def weightK (c : String → Nat) (keys : List String) : NamedType → Nat
  | .mk n args => if n.Ident ∈ keys then 1 else c n.Ident * (1 + weightKArgs c keys args)
/-- Sum of the `weightK` of the types of a list. -/
def weightKArgs (c : String → Nat) (keys : List String) : List NamedType → Nat
  | [] => 0
  | a :: as => weightK c keys a + weightKArgs c keys as
end

/-- The table `c` of weights fits the struct declarations `structs`: every
weight is positive and the weight of a struct name exceeds the `weightK` of
each field type of the struct. -/
structure WeightOK (structs : List (String × StructDecl)) (c : String → Nat) : Prop where
  pos : ∀ N, 1 ≤ c N
  field : ∀ S d, structs.lookup S = some d → ∀ f ∈ d.Fields,
    weightK c (d.Params.map (fun p => p.Ident)) f.Ty < c S

/-- The header `h` holds a definition of the struct `name`. -/
def Defined (name : String) (h : List HeaderWrite) : Prop := ∃ w ∈ h, w.defines = some name

/-- If the C type `s` is `struct <name>`, the header holds a definition of
`name`. -/
def StrDefined (s : String) (h : List HeaderWrite) : Prop :=
  ∀ name, s = "struct " ++ name → Defined name h

/-- Every write of the header that mentions a C type `struct <name>` comes
after a write that defines `name`. -/
def HeaderOrdered (h : List HeaderWrite) : Prop :=
  ∀ (j : Nat) (w : HeaderWrite), h[j]? = some w → ∀ name : String, ("struct " ++ name) ∈ w.uses →
    ∃ (i : Nat) (w' : HeaderWrite), i < j ∧ h[i]? = some w' ∧ w'.defines = some name

/-- The header is ordered and every entry of the instance list either has its
definition in the header or is still being lowered, in which case its type
weighs at least `B`. -/
def PreInv (c : String → Nat) (B : Nat) (g : generator) : Prop :=
  HeaderOrdered g.header ∧
    ∀ inst ∈ g.instances, Defined inst.name g.header ∨ B ≤ weight c inst.ty

/-- What a successful call of a generator method achieves: header and instance
list are extended, the new instances have their definitions in the header,
and the header is ordered. -/
structure PostG (g g' : generator) : Prop where
  structs : g'.structs = g.structs
  header : ∃ ext, g'.header = g.header ++ ext
  instances : ∃ ext, g'.instances = g.instances ++ ext ∧
    ∀ inst ∈ ext, Defined inst.name g'.header
  ordered : HeaderOrdered g'.header

/-- The state of the generator between two top-level lowerings: it works on
the struct declarations `structs`, the header is ordered and every entry of
the instance list has its definition in the header. -/
def Ready (structs : List (String × StructDecl)) (g : generator) : Prop :=
  g.structs = structs ∧ HeaderOrdered g.header ∧
    ∀ inst ∈ g.instances, Defined inst.name g.header

/-- In the struct table `structs` of the generator the struct named `S` has a
field whose type contains the name `R`. -/
def fieldMention (structs : List (String × StructDecl)) (R S : String) : Prop :=
  ∃ d, structs.lookup S = some d ∧ ∃ f ∈ d.Fields, R ∈ typeNames f.Ty

mutual
/-- The types that the statement makes the generator lower: those of its
variable declarations. -/
def Stmt.varTypes : Stmt → List NamedType
  | .ExprStmt _ => []
  | .BlockStmt _ b => varTypesBlock b
  | .ReturnStmt _ _ => []
  | .VarStmt _ _ ty _ => [ty]
  | .AssignStmt _ _ => []
  | .IfStmt _ _ body els => varTypesBlock body ++ varTypesElse els
  | .WhileStmt _ _ body => varTypesBlock body
/-- The types of the variable declarations of an else branch. -/
def varTypesElse : Option Stmt → List NamedType
  | none => []
  | some s => s.varTypes
/-- The types of the variable declarations of a block. -/
def varTypesBlock : List Stmt → List NamedType
  | [] => []
  | s :: rest => s.varTypes ++ varTypesBlock rest
end

/-- The types that `genFn` lowers for a function: return type, parameter
types and the types of the variable declarations of the body. -/
def FnDecl.loweredTypes (f : FnDecl) : List NamedType :=
  f.Return.toList ++ f.Params.map (fun p => p.Ty) ++ varTypesBlock (f.Body.getD [])

/-- The types that `GenModule` lowers at top level: those of the functions
and, for the string literals, `slice[u8]`. -/
def Module.loweredTypes (m : Module) : List NamedType :=
  ast.SliceType ast.Uint8 :: (m.Fns.map FnDecl.loweredTypes).flatten

/-- The struct declarations of `nestModule`, with both flags set to `flag`. -/
def nestStructs (flag : Bool) : List StructDecl :=
  [ { Name := ⟨⟨1, 8⟩, "Inner"⟩, Params := [],
      Fields := [⟨⟨⟨1, 16⟩, "x"⟩, .mk ⟨⟨1, 19⟩, "i32"⟩ []⟩],
      Started := flag, Done := flag },
    { Name := ⟨⟨2, 8⟩, "Outer"⟩, Params := [⟨⟨2, 14⟩, "T"⟩],
      Fields := [⟨⟨⟨2, 19⟩, "a"⟩, .mk ⟨⟨2, 22⟩, "T"⟩ []⟩,
                 ⟨⟨⟨2, 25⟩, "b"⟩, .mk ⟨⟨2, 28⟩, "Inner"⟩ []⟩],
      Started := flag, Done := flag } ]

/-- The module parsed from
```
struct Inner { x: i32 }
struct Outer[T] { a: T, b: Inner }
fn f(o: Outer[slice[u8]]) { }
```
when `flag` is false, and the module that `CheckModule` returns for it when
`flag` is true. -/
def nestModule (flag : Bool) : Module :=
  { Structs := nestStructs flag,
    Fns :=
      [ { Name := ⟨⟨3, 4⟩, "f"⟩,
          Params := [⟨⟨⟨3, 6⟩, "o"⟩,
            .mk ⟨⟨3, 9⟩, "Outer"⟩ [.mk ⟨⟨3, 15⟩, "slice"⟩ [.mk ⟨⟨3, 21⟩, "u8"⟩ []]]⟩],
          Return := none, Body := some [] } ] }

/-- The writes to the header that `GenModule` makes for `nestModule`. -/
def nestHeader : List HeaderWrite :=
  [ .includeLine,
    .sliceDef "ty1" "uint8_t",
    .structDef "ty2" [("int32_t", "x")],
    .structDef "ty0" [("struct ty1", "a"), ("struct ty2", "b")],
    .fnDecl "void" "f" [("struct ty0", "o")] ]

/-- The names that the writes of a header define, in order. -/
def DefNames (h : List HeaderWrite) : List String := h.filterMap HeaderWrite.defines

/-- What a successful call of a generator method does to counter and header:
the counter does not go down and the definitions added carry pairwise distinct
names `ty<k>` with `k` from the old counter up to the new one. -/
structure FreshStep (g g' : generator) : Prop where
  counter : g.counter ≤ g'.counter
  header : ∃ ext, g'.header = g.header ++ ext ∧
    (∀ name ∈ DefNames ext, ∃ k, g.counter ≤ k ∧ k < g'.counter ∧ name = "ty" ++ toString k) ∧
    (DefNames ext).Nodup

/-- Every definition of the header is the only one of its name and comes
before every write that mentions the C type `struct <name>`. -/
def DefinedFirst (h : List HeaderWrite) : Prop :=
  ∀ (i j : Nat) (w w' : HeaderWrite) (name : String), h[i]? = some w → w.defines = some name →
    h[j]? = some w' → (("struct " ++ name) ∈ w'.uses → i < j) ∧ (w'.defines = some name → i = j)

/-- The name of an expression that is a variable reference. -/
def Expr.varName : Expr → Option String
  | .VarExpr name => some name.Ident
  | _ => none

mutual
/-- The names `x` for which the statement contains an assignment `x = e;`,
nested statements included. -/
def Stmt.assignedVars : Stmt → List String
  | .AssignStmt left _ => left.varName.toList
  | .BlockStmt _ b => assignedVarsBlock b
  | .IfStmt _ _ body els => assignedVarsBlock body ++ assignedVarsElse els
  | .WhileStmt _ _ body => assignedVarsBlock body
  | .ExprStmt _ => []
  | .ReturnStmt _ _ => []
  | .VarStmt _ _ _ _ => []
/-- The names assigned in the else branch of an if statement. -/
def assignedVarsElse : Option Stmt → List String
  | none => []
  | some s => s.assignedVars
/-- The names assigned in a block. -/
def assignedVarsBlock : List Stmt → List String
  | [] => []
  | s :: rest => s.assignedVars ++ assignedVarsBlock rest
end

/-- Every binding that a lookup finds in the chain `s` is found unchanged in
the chain `s'`, and both chains have the same scopes above the current one. -/
def ScopeGrow (s s' : List scope) : Prop :=
  s'.tail = s.tail ∧ ∀ x w, findVar s x = some w → findVar s' x = some w

/-- The function parsed from `fn f(x: i32) { x = 2; }`. -/
def assignParamFn : FnDecl :=
  { Name := ⟨⟨1, 4⟩, "f"⟩, Params := [⟨⟨⟨1, 6⟩, "x"⟩, .mk ⟨⟨1, 9⟩, "i32"⟩ []⟩],
    Return := none,
    Body := some [.AssignStmt (.VarExpr ⟨⟨1, 16⟩, "x"⟩) (.IntExpr ⟨1, 20⟩ "2")] }

/-- The module parsed from `fn f(x: i32) { x = 2; }`. -/
def assignParamModule : Module := { Structs := [], Fns := [assignParamFn] }

/-- The module parsed from `fn f() { var x: i32; x = 2; }`. -/
def assignVarModule : Module :=
  { Structs := [],
    Fns :=
      [ { Name := ⟨⟨1, 4⟩, "f"⟩, Params := [], Return := none,
          Body := some [.VarStmt ⟨1, 10⟩ ⟨⟨1, 14⟩, "x"⟩ (.mk ⟨⟨1, 17⟩, "i32"⟩ []) none,
                        .AssignStmt (.VarExpr ⟨⟨1, 22⟩, "x"⟩) (.IntExpr ⟨1, 26⟩ "2")] } ] }

/-- The function parsed from `fn main() { }`. -/
def mainFn : FnDecl :=
  { Name := ⟨⟨1, 4⟩, "main"⟩, Params := [], Return := none, Body := some [] }

/-- The function parsed from `extern fn puts(s: slice[u8]);`. -/
def putsFn : FnDecl :=
  { Name := ⟨⟨1, 11⟩, "puts"⟩,
    Params := [⟨⟨⟨1, 16⟩, "s"⟩, .mk ⟨⟨1, 19⟩, "slice"⟩ [.mk ⟨⟨1, 25⟩, "u8"⟩ []]⟩],
    Return := none, Body := none }

/-- What a successful lowering of a type or an expression leaves unchanged:
the body file and the indentation. -/
def SameBody (g g' : generator) : Prop := g'.body = g.body ∧ g'.indent = g.indent

/-- The body file of `g'` is that of `g` with text appended. -/
def BodyExt (g g' : generator) : Prop := ∃ t, g'.body = g.body ++ t

/-- The module parsed from
```
fn g() { }
fn f(p: i32) { }
```
with the one-letter name `p` of the parameter left open. -/
def paramGlobalModule (p : String) : Module :=
  { Structs := [],
    Fns :=
      [ { Name := ⟨⟨1, 4⟩, "g"⟩, Params := [], Return := none, Body := some [] },
        { Name := ⟨⟨2, 4⟩, "f"⟩, Params := [⟨⟨⟨2, 6⟩, p⟩, .mk ⟨⟨2, 9⟩, "i32"⟩ []⟩],
          Return := none, Body := some [] } ] }

mutual
/-- Every node of the type carries as many arguments as the table `ar` gives
for its head name. -/
def NamedType.arityOK (ar : String → Nat) : NamedType → Bool
  | .mk n args => args.length == ar n.Ident && arityOKArgs ar args
/-- Every type of the list is `arityOK`. -/
def arityOKArgs (ar : String → Nat) : List NamedType → Bool
  | [] => true
  | a :: as => a.arityOK ar && arityOKArgs ar as
end

/-- The type `slice[i32]` written at line 1, column `col`. -/
def sliceOfInt (col : Nat) : NamedType := .mk ⟨⟨1, col⟩, "slice"⟩ [.mk ⟨⟨1, col + 6⟩, "i32"⟩ []]

/-- The arities of the primitive types. -/
def primitiveArity (n : String) : Nat := if n = "slice" then 1 else 0

/-- The number of bytes after the last line feed of `l`, all of `l` when it
has none. -/
def colOffset (l : List Nat) : Nat := (l.reverse.takeWhile (fun c => c ≠ LF)).length

/-- The counters of the scanner fit its place in the text: `pos` is inside
the text or at its end, `line` is one more than the number of line feeds
before `pos` and `lbegin` is the place after the last of them. -/
structure ScanInv (s : Scanner) : Prop where
  bound : s.pos ≤ s.content.length
  line : s.line = 1 + (s.content.take s.pos).count LF
  lbegin : s.lbegin + colOffset (s.content.take s.pos) = s.pos

/-- The scanner `s'` is `s` moved forward to `s'.pos`: only `pos`, `line` and
`lbegin` may differ. -/
structure Moved (s s' : Scanner) : Prop where
  content : s'.content = s.content
  pos : s.pos ≤ s'.pos
  tok_pos : s'.tok_pos = s.tok_pos
  tok : s'.tok = s.tok
  tok_val : s'.tok_val = s.tok_val

/-- The byte at index `i` of the bytes `l` of a string literal is escaped: it
is preceded by an odd number of backslashes in a row. -/
def escapedAt (l : List Nat) (i : Nat) : Bool :=
  ((l.take i).reverse.takeWhile (fun c => c == BACKSLASH)).length % 2 == 1

/-- The byte at index `i` after the opening quote can be part of the
literal: it is no line feed, a double quote only when escaped, and one of
the five escape characters when escaped. -/
def Passed (l : List Nat) (i : Nat) : Prop :=
  ∃ c, l[i]? = some c ∧ c ≠ LF ∧ (c = QUOTE → escapedAt l i = true) ∧
    (escapedAt l i = true → isEscape c = true)

/-- The literal that starts before `l` closes at index `n`: an unescaped
double quote stands there and every byte before it can be part of the
literal. -/
def Closes (l : List Nat) (n : Nat) : Prop :=
  l[n]? = some QUOTE ∧ escapedAt l n = false ∧ ∀ i, i < n → Passed l i

/-- The two lexical diagnostics of a string literal. -/
def StringDiag (msg : String) : Prop :=
  msg = "unterminated string literal" ∨
    ∃ c, isEscape c = false ∧ msg = "'\\" ++ bytesText [c] ++ "' is not a valid escape sequence"

/-- The scanner `s'` is `s` after a token has been passed: `pos` has moved
forward inside the text over bytes that are no line feeds, and the token
fields may have changed. -/
structure Advanced (s s' : Scanner) : Prop where
  content : s'.content = s.content
  line : s'.line = s.line
  lbegin : s'.lbegin = s.lbegin
  tok_pos : s'.tok_pos = s.tok_pos
  pos : s.pos ≤ s'.pos
  bound : s'.pos ≤ s.content.length
  nolf : ∀ i, s.pos ≤ i → i < s'.pos → ∃ c, s.content[i]? = some c ∧ c ≠ LF

/-- The token position that `scan` computes at the token start. -/
def Scanner.atToken (s1 : Scanner) : Scanner :=
  { s1 with tok_pos := ⟨s1.line, s1.pos - s1.lbegin + 1⟩ }

/-- The outcomes of a `scan` that returns, from the scanner `s1` that stands
at the token start: end of input; an identifier, keyword or integer literal of
`k` letters and digits; a string literal that closes at index `n` of the text
after its opening quote; a token of the one byte `c`; a comment of two
slashes and the bytes up to the next line feed or the end of the text. -/
inductive Scanned (s1 : Scanner) : Scanner → Prop
  | eof : s1.pos = s1.content.length → Scanned s1 { s1.atToken with tok := .EOF }
  | word (k : Nat) (tok : Token) (tv : List Nat) : 0 < k →
      s1.pos + k ≤ s1.content.length →
      (∀ i, s1.pos ≤ i → i < s1.pos + k →
        ∃ c, s1.content[i]? = some c ∧ (isLetter c || isDigit c) = true) →
      tok ≠ .COMMENT → tok ≠ .EOF →
      Scanned s1 { s1.atToken with pos := s1.pos + k, tok := tok, tok_val := tv }
  | string (n : Nat) : s1.content[s1.pos]? = some QUOTE →
      Closes (s1.content.drop (s1.pos + 1)) n →
      Scanned s1 { s1.atToken with
        tok_val := (s1.content.drop (s1.pos + 1)).take n, tok := .STRING,
        pos := s1.pos + 1 + n + 1 }
  | punct (c : Nat) (tok : Token) : s1.content[s1.pos]? = some c → isWhitespace c = false →
      tok ≠ .COMMENT → tok ≠ .EOF →
      ¬(c = '/'.toNat ∧ s1.content[s1.pos + 1]? = some '/'.toNat) →
      Scanned s1 { s1.atToken with pos := s1.pos + 1, tok := tok }
  | comment (k : Nat) : s1.content[s1.pos]? = some '/'.toNat →
      s1.content[s1.pos + 1]? = some '/'.toNat → s1.pos + 1 + k ≤ s1.content.length →
      (∀ i, s1.pos + 1 ≤ i → i < s1.pos + 1 + k → ∃ c, s1.content[i]? = some c ∧ c ≠ LF) →
      (∀ c, s1.content[s1.pos + 1 + k]? = some c → c = LF) →
      Scanned s1 { s1.atToken with pos := s1.pos + 1 + k, tok := .COMMENT }

/-- The result `r` is a scanner or a diagnostic: the run neither panicked nor
ran out of budget. -/
def Returned {α : Type} (r : Res α) : Prop :=
  (∃ a, r = .ok a) ∨ ∃ p m, r = .diag p m

/-- The scanner before the first token of `content`, as `New` builds it. -/
def Scanner.initial (content : List Nat) : Scanner :=
  { content := content, pos := 0, line := 1, lbegin := 0, tok_pos := ⟨0, 0⟩, tok := .EOF,
    tok_val := [] }

/-- The position of the byte at index `start` of `content`: the line is one
more than the number of line feeds before it, the column one more than the
number of bytes between the last of them and it. -/
def positionOf (content : List Nat) (start : Nat) : Pos :=
  ⟨1 + (content.take start).count LF, 1 + colOffset (content.take start)⟩

/-- The rule of a string literal read with every backslash counted, escaped
or not: an unescaped double quote stands at index `n` of the bytes `l` after
the opening quote, no line feed stands before it, and every backslash before
it is followed by one of the five escape characters. -/
def ClosesAsWorded (l : List Nat) (n : Nat) : Prop :=
  l[n]? = some QUOTE ∧ escapedAt l n = false ∧ (∀ i, i < n → l[i]? ≠ some LF) ∧
    ∀ i, i < n → l[i]? = some BACKSLASH → ∃ c, l[i + 1]? = some c ∧ isEscape c = true

/-- Text `"a\n"` after a blank, before its first token. -/
def literalText : Scanner := Scanner.initial (asciiBytes " \"a\\n\"")

/-- Text `a`, line feed, two blanks, `b`, after the first token. -/
def afterFirstWord : Scanner :=
  { content := asciiBytes "a\n  b", pos := 1, line := 1, lbegin := 0, tok_pos := ⟨1, 1⟩,
    tok := .IDENT, tok_val := asciiBytes "a" }

/-- Text with a comment before the only token. -/
def commentedText : Scanner := Scanner.initial (asciiBytes "//c\nx")

/-- The result without the log. -/
def eraseLog : Res Logged → Res checker
  | .ok l => .ok l.c
  | .diag p m => .diag p m
  | .panic m => .panic m
  | .nofuel => .nofuel

/-- The result of a statement without the log. -/
def eraseLogStmt : Res (Bool × Logged) → Res (Bool × checker)
  | .ok (b, l) => .ok (b, l.c)
  | .diag p m => .diag p m
  | .panic m => .panic m
  | .nofuel => .nofuel

/-- The result of the module check without the log. -/
def eraseLogModule : Res (Module × List FlagEvent) → Res Module
  | .ok (m, _) => .ok m
  | .diag p m => .diag p m
  | .panic m => .panic m
  | .nofuel => .nofuel

/-- Flag `Started` of the declaration at the pointer `i`. -/
def startedAt (ds : List StructDecl) (i : Nat) : Bool :=
  match ds[i]? with
  | some d => d.Started
  | none => false

/-- Flag `Done` of the declaration at the pointer `i`. -/
def doneAt (ds : List StructDecl) (i : Nat) : Bool :=
  match ds[i]? with
  | some d => d.Done
  | none => false

/-- The log entry records the start of the loop over the fields of the
declaration at the pointer `i`. -/
def FlagEvent.isWalkOf (i : Nat) : FlagEvent → Bool
  | .walked j => j == i
  | .wrote _ => false

/-- How often the log records the start of the loop over the fields of the
declaration at the pointer `i`. -/
def walkCount (log : List FlagEvent) (i : Nat) : Nat := log.countP (FlagEvent.isWalkOf i)

/-- The struct declarations as the last write of the log left them, `ds0`
when the log has no write. -/
def lastWrite (ds0 : List StructDecl) (log : List FlagEvent) : List StructDecl :=
  log.foldl (fun cur e => match e with
    | .wrote ds => ds
    | .walked _ => cur) ds0

/-- No declaration is `Done` without being `Started`. -/
def FlagsOK (ds : List StructDecl) : Prop :=
  ∀ d ∈ ds, d.Done = true → d.Started = true

/-- What holds of the logged state between the steps of the checker: the
fields of a struct have been walked once when it is `Started` and never
otherwise, no struct is `Done` without being `Started`, now or at any write
of the log, and a `Started` struct has a field. -/
structure LogInv (l : Logged) : Prop where
  walks : ∀ i, walkCount l.log i = if startedAt l.c.decls i then 1 else 0
  flags : FlagsOK l.c.decls
  nonempty : ∀ d ∈ l.c.decls, d.Started = true → d.Fields ≠ []
  wrote : ∀ ds, FlagEvent.wrote ds ∈ l.log → FlagsOK ds

/-- What a successful step of the logged checker guarantees: flags are only
set, nothing else of a declaration changes, the log only grows and its last
write stays the current declarations, and `LogInv` is kept. -/
structure LogStep (a b : Logged) : Prop where
  started : ∀ i, startedAt a.c.decls i = true → startedAt b.c.decls i = true
  done : ∀ i, doneAt a.c.decls i = true → doneAt b.c.decls i = true
  sig : b.c.decls.map StructDecl.sig = a.c.decls.map StructDecl.sig
  log : ∃ ext, b.log = a.log ++ ext
  current : ∀ ds0, lastWrite ds0 a.log = a.c.decls → lastWrite ds0 b.log = b.c.decls
  inv : LogInv a → LogInv b

/-- The module parsed from `struct A { b: B }  struct B { x: i32 }`: the
struct `B` is checked while `A` is. -/
def nestedModule : Module :=
  { Structs :=
      [ { Name := ⟨⟨1, 8⟩, "A"⟩, Params := [],
          Fields := [⟨⟨⟨1, 12⟩, "b"⟩, .mk ⟨⟨1, 15⟩, "B"⟩ []⟩],
          Started := false, Done := false },
        { Name := ⟨⟨2, 8⟩, "B"⟩, Params := [],
          Fields := [⟨⟨⟨2, 12⟩, "x"⟩, .mk ⟨⟨2, 15⟩, "i32"⟩ []⟩],
          Started := false, Done := false } ],
    Fns := [] }

/-- The module parsed from `struct A { x: i32 }  struct B { }`. -/
def emptyStructModule : Module :=
  { Structs :=
      [ { Name := ⟨⟨1, 8⟩, "A"⟩, Params := [],
          Fields := [⟨⟨⟨1, 12⟩, "x"⟩, .mk ⟨⟨1, 15⟩, "i32"⟩ []⟩],
          Started := false, Done := false },
        { Name := ⟨⟨2, 8⟩, "B"⟩, Params := [], Fields := [],
          Started := false, Done := false } ],
    Fns := [] }

/-- The module parsed from `struct A { }  struct B { x: i32 }
struct B { y: i32 }`: the empty struct comes first and a later name is a
duplicate. -/
def emptyThenDuplicateModule : Module :=
  { Structs :=
      [ { Name := ⟨⟨1, 8⟩, "A"⟩, Params := [], Fields := [],
          Started := false, Done := false },
        { Name := ⟨⟨2, 8⟩, "B"⟩, Params := [],
          Fields := [⟨⟨⟨2, 12⟩, "x"⟩, .mk ⟨⟨2, 15⟩, "i32"⟩ []⟩],
          Started := false, Done := false },
        { Name := ⟨⟨3, 8⟩, "B"⟩, Params := [],
          Fields := [⟨⟨⟨3, 12⟩, "y"⟩, .mk ⟨⟨3, 15⟩, "i32"⟩ []⟩],
          Started := false, Done := false } ],
    Fns := [] }

/-- The function parsed from `extern fn f() i32;`. -/
def externReturnFn : FnDecl :=
  { Name := ⟨⟨1, 11⟩, "f"⟩, Params := [], Return := some (.mk ⟨⟨1, 15⟩, "i32"⟩ []),
    Body := none }

/-- The module parsed from `extern fn f() i32;`. -/
def externReturnModule : Module := { Structs := [], Fns := [externReturnFn] }

/-- The call `f()` written at line 2, column 23. -/
def voidCall : Expr := .CallExpr (.VarExpr ⟨⟨2, 23⟩, "f"⟩) []

/-- The function parsed from `fn f() { }`. -/
def voidFn : FnDecl :=
  { Name := ⟨⟨1, 4⟩, "f"⟩, Params := [], Return := none, Body := some [] }

/-- The module parsed from
```
fn f() { }
fn g() { var x: i32 = f(); }
```
-/
def voidValueModule : Module :=
  { Structs := [],
    Fns :=
      [ voidFn,
        { Name := ⟨⟨2, 4⟩, "g"⟩, Params := [], Return := none,
          Body := some [.VarStmt ⟨2, 10⟩ ⟨⟨2, 14⟩, "x"⟩ (.mk ⟨⟨2, 17⟩, "i32"⟩ []) (some voidCall)] } ] }

/-- The tokens that repeated calls of `scan` yield before the first
end-of-input token, comments included. The budget counts the calls. -/
def scanTokens : Nat → Scanner → Res (List Token)
  | 0, _ => .nofuel
  | fuel + 1, s =>
    match scan s with
    | .ok s' =>
      if s'.tok = .EOF then .ok []
      else
        match scanTokens fuel s' with
        | .ok toks => .ok (s'.tok :: toks)
        | other => other
    | .diag p m => .diag p m
    | .panic m => .panic m
    | .nofuel => .nofuel

mutual
/-- The substitution of `env` into a type, as the specification words it: a
node whose head is a key of `env` is replaced by the mapped type, every other
node keeps its head and has its arguments substituted. -/
def substitute (env : List (String × NamedType)) : NamedType → NamedType
  | .mk name args =>
    match env.lookup name.Ident with
    | some aty => aty
    | none => .mk name (substituteArgs env args)
/-- The substitution of `env` into the types of a list. -/
def substituteArgs (env : List (String × NamedType)) : List NamedType → List NamedType
  | [] => []
  | a :: as => substitute env a :: substituteArgs env as
end

mutual
/-- The substitution meets a node whose head is a key of `env` and which has
arguments. -/
def instantiatesParam (env : List (String × NamedType)) : NamedType → Bool
  | .mk name args =>
    match env.lookup name.Ident with
    | some _ => decide (args.length > 0)
    | none => instantiatesParamArgs env args
/-- The substitution meets such a node in a type of the list. -/
def instantiatesParamArgs (env : List (String × NamedType)) : List NamedType → Bool
  | [] => false
  | a :: as => instantiatesParam env a || instantiatesParamArgs env as
end

/-- The type `slice[T]` written at line 1, column 1. -/
def sliceOfParam : NamedType := .mk ⟨⟨1, 1⟩, "slice"⟩ [.mk ⟨⟨1, 7⟩, "T"⟩ []]

/-- An if statement as `parseIfStmt` builds it: its else is absent, a block,
or another such if statement. -/
inductive ParserIf : Stmt → Prop
  | noElse (pos : Pos) (cond : Expr) (body : List Stmt) : ParserIf (.IfStmt pos cond body none)
  | elseBlock (pos : Pos) (cond : Expr) (body : List Stmt) (bpos : Pos) (block : List Stmt) :
      ParserIf (.IfStmt pos cond body (some (.BlockStmt bpos block)))
  | elseIf (pos : Pos) (cond : Expr) (body : List Stmt) (s : Stmt) :
      ParserIf s → ParserIf (.IfStmt pos cond body (some s))

/-- The tabs of `n` levels of indentation. -/
def tabs (n : Nat) : String := String.mk (List.replicate n '\t')

/-- The statement parsed from `if (c) { } else if (d) { } else { }`. -/
def ifChainStmt : Stmt :=
  .IfStmt ⟨1, 1⟩ (.VarExpr ⟨⟨1, 5⟩, "c"⟩) []
    (some (.IfStmt ⟨1, 16⟩ (.VarExpr ⟨⟨1, 20⟩, "d"⟩) [] (some (.BlockStmt ⟨1, 31⟩ []))))

/-- A generator with empty files at one level of indentation. -/
def indentedGenerator : generator :=
  { body := "", header := [], indent := 1, structs := [], instances := [], counter := 0 }

/-- The variable in which an expression is rooted: the name of a variable
reference, the root of the base of a field access; literals and calls have
none. -/
def Expr.root : Expr → Option String
  | .VarExpr name => some name.Ident
  | .FieldExpr e _ => e.root
  | .IntExpr _ _ => none
  | .StringExpr _ _ => none
  | .CallExpr _ _ => none

mutual
/-- The left sides of the assignments of a statement, nested statements
included. -/
def Stmt.assignTargets : Stmt → List Expr
  | .AssignStmt left _ => [left]
  | .BlockStmt _ b => assignTargetsBlock b
  | .IfStmt _ _ body els => assignTargetsBlock body ++ assignTargetsElse els
  | .WhileStmt _ _ body => assignTargetsBlock body
  | .ExprStmt _ => []
  | .ReturnStmt _ _ => []
  | .VarStmt _ _ _ _ => []
/-- The left sides of the assignments of the else branch of an if
statement. -/
def assignTargetsElse : Option Stmt → List Expr
  | none => []
  | some s => s.assignTargets
/-- The left sides of the assignments of a block. -/
def assignTargetsBlock : List Stmt → List Expr
  | [] => []
  | s :: rest => s.assignTargets ++ assignTargetsBlock rest
end

/-- Every mutable binding that a lookup finds in the chain `s` has its name
in `V`. -/
def MutIn (V : List String) (s : List scope) : Prop :=
  ∀ x v, findVar s x = some v → v.isMut = true → x ∈ V

/-- Every binding that a lookup finds in the chain `s` is immutable. -/
def AllImm (s : List scope) : Prop := ∀ x v, findVar s x = some v → v.isMut = false

/-- A scope chain with the mutable variable `v` and the immutable variable
`p`, both of type `i32`. -/
def mutState : checker :=
  { scope :=
      [ ⟨[("v", ⟨.named (some ast.Int32), true⟩), ("p", ⟨.named (some ast.Int32), false⟩)],
          []⟩ ],
    structs := [], decls := [] }

/-- Whether a result is one of the two panics of the scope: the
`duplicate variable name` of `addVar` or the `duplicate type name` of
`addType`. -/
def Res.isDupPanic {α : Type} : Res α → Bool
  | .panic m => m == "duplicate variable name" || m == "duplicate type name"
  | _ => false

/-- A module whose struct and function bear names that are already bound:
`struct i32 { x: i32; }` and `fn true() { }`. -/
def shadowModule : Module :=
  { Structs := [ { Name := ⟨⟨1, 8⟩, "i32"⟩, Params := [],
                   Fields := [⟨⟨⟨1, 14⟩, "x"⟩, .mk ⟨⟨1, 17⟩, "i32"⟩ []⟩],
                   Started := false, Done := false } ],
    Fns := [ { Name := ⟨⟨2, 4⟩, "true"⟩, Params := [], Return := none, Body := some [] } ] }

/-- Invariant of the instance list of the generator: the counter is the
length of the list, the entry at index `i` is named `ty<i>`, and no two
entries hold types that `TypeEqual` reports as equal. -/
structure InstInv (g : generator) : Prop where
  counter : g.counter = g.instances.length
  names : ∀ (i : Nat) (inst : genericInstance), g.instances[i]? = some inst →
    inst.name = "ty" ++ toString i
  distinct : ∀ (i j : Nat) (a b : genericInstance), g.instances[i]? = some a →
    g.instances[j]? = some b →
    TypeEqual (.named (some a.ty)) (.named (some b.ty)) = .ok true → i = j

/-- A successful call of a generator method keeps the invariant of the
instance list. -/
def InstStep (g g' : generator) : Prop := InstInv g → InstInv g'

/-- Whether a named type is lowered to a C struct: its name is none of `u8`,
`i32`, `bool`. -/
def NamedType.isInstance (t : NamedType) : Bool :=
  !(t.Name.Ident = "u8" ∨ t.Name.Ident = "i32" ∨ t.Name.Ident = "bool")

/-- A successful call of a generator method leaves the level of indentation
as it was. -/
def SameIndent (g g' : generator) : Prop := g'.indent = g.indent

/-- `BlockWrites fuel g block b g'`: the call `genBlock(block)` in the state
`g` ends in the state `g'` and has appended `b` to the body file, and `b` is
the opening brace and a newline, the text `inner` that the loop over the
statements of the block has appended, the indentation of `g`, and the closing
brace. -/
def BlockWrites (fuel : Nat) (g : generator) (block : List Stmt) (b : String)
    (g' : generator) : Prop :=
  genBlock fuel g block = .ok g' ∧ g'.body = g.body ++ b ∧
  ∃ (g1 : generator) (inner : String),
    genStmts fuel { g.write "\x7b\n" with indent := g.indent + 1 } block = .ok g1 ∧
    g1.body = g.body ++ "\x7b\n" ++ inner ∧
    b = "\x7b\n" ++ inner ++ tabs g.indent ++ "\x7d"

/-- `IfChainWrites fuel g s text g'`: lowering the if statement `s` in the
state `g` ends in the state `g'` and appends `text`, which is
`if (<cond>) <block>` for the C text of the condition and the text that
`genBlock` writes for the body, followed by nothing when there is no else, by
` else ` and the text that `genBlock` writes for the else block, or by
` else ` and the text of the else-if chain that follows. -/
inductive IfChainWrites (fuel : Nat) : generator → Stmt → String → generator → Prop
  | last (g g1 g2 : generator) (pos : Pos) (cond : Expr) (body : List Stmt) (c b : String) :
      genExpr fuel g cond = .ok (c, g1) →
      BlockWrites fuel (g1.write ("if (" ++ c ++ ") ")) body b g2 →
      IfChainWrites fuel g (.IfStmt pos cond body none) ("if (" ++ c ++ ") " ++ b) g2
  | lastElse (g g1 g2 g3 : generator) (pos : Pos) (cond : Expr) (body : List Stmt)
      (bpos : Pos) (block : List Stmt) (c b e : String) :
      genExpr fuel g cond = .ok (c, g1) →
      BlockWrites fuel (g1.write ("if (" ++ c ++ ") ")) body b g2 →
      BlockWrites fuel (g2.write " else ") block e g3 →
      IfChainWrites fuel g (.IfStmt pos cond body (some (.BlockStmt bpos block)))
        ("if (" ++ c ++ ") " ++ b ++ " else " ++ e) g3
  | elseIf (g g1 g2 g3 : generator) (pos : Pos) (cond : Expr) (body : List Stmt) (s : Stmt)
      (c b rest : String) :
      genExpr fuel g cond = .ok (c, g1) →
      BlockWrites fuel (g1.write ("if (" ++ c ++ ") ")) body b g2 →
      IfChainWrites fuel (g2.write " else ") s rest g3 →
      IfChainWrites fuel g (.IfStmt pos cond body (some s))
        ("if (" ++ c ++ ") " ++ b ++ " else " ++ rest) g3

mutual
/-- The block of the last branch of an else-if chain: the body of the last
if when the chain has no final else, the final else block otherwise. -/
def Stmt.lastBranch : Stmt → List Stmt
  | .IfStmt _ _ body els => lastBranchElse body els
  | .BlockStmt _ block => block
  | _ => []
/-- The block of the last branch of the chain after a branch with the block
`body`. -/
def lastBranchElse (body : List Stmt) : Option Stmt → List Stmt
  | none => body
  | some s => s.lastBranch
end

/-! ## Theorems -/

/-- C5, evaluated on the code: `CheckModule` accepts the module
`struct A[T] { x: B }  struct B { y: T }  fn f(a: B) { }`, although the field
type `T` of `B` is neither a primitive, nor a struct, nor a generic parameter
of `B`: it resolves to the parameter `T` of `A`, whose scope is still open
while `B` is checked from inside `A`. Declared in the other order the same
structs are rejected. -/
theorem C5_field_resolves_to_foreign_parameter :
    (CheckModule 8 leakModule).isOk = true ∧ leakModule.parsed ∧
      ¬ leakModule.fieldNamesResolve ∧
      CheckModule 8 { leakModule with Structs := [leakB 1, leakA 2] } =
        .diag ⟨1, 15⟩ "undefined type 'T'" := by
  refine ⟨by rfl, by decide, by decide, by rfl⟩

/-- C6, evaluated on the code: a call of a function declared further down
whose parameter type `i32[i32]` has not been checked yet makes `CheckModule`
reach the panic of `TypeEqual`, and a field access on a call whose return
type `S[i32]` has not been checked yet makes it reach the panic of
`GetGenericEnv`. -/
theorem C6_panics_reached_before_callee_is_checked :
    CheckModule 8 arityModule = .panic "different number of generic arguments" ∧
      CheckModule 8 instantiationModule = .panic "incorrect generic instantiation" := by
  refine ⟨by rfl, by rfl⟩

/-- C7, evaluated on the code: the module
`struct A[T] { x: B }  struct B { y: T }  fn f(a: B) { }` is accepted by
`CheckModule`, and `GenModule` hands the type `T`, which is no struct, to
`genType`, whose struct lookup yields nil, so that `GetGenericEnv` in
`genStruct` dereferences nil. -/
theorem C7_generator_reaches_undeclared_type :
    (∃ m, CheckModule 8 leakModule = .ok m ∧
      GenModule 8 m "test.cata" = .panic "nil pointer dereference") ∧
      (initialGenerator leakModule "test.cata").structs.lookup "T" = none := by
  refine ⟨⟨_, by rfl, by rfl⟩, by rfl⟩

/-- C8, evaluated on the code: with `struct A[T] { x: B[T] }` declared before
`struct B[T] { y: T }` the module is rejected (the parameter `T` of `B` is
reported as a duplicate of the `T` of `A`, whose scope is still open), with
`B` declared first it is accepted. -/
theorem C8_acceptance_depends_on_struct_order :
    CheckModule 8 { Fns := [], Structs := [orderA 1, orderB 2] } =
        .diag ⟨2, 10⟩ "duplicate type 'T'" ∧
      (CheckModule 8 { Fns := [], Structs := [orderB 1, orderA 2] }).isOk = true := by
  refine ⟨by rfl, by rfl⟩

theorem Res.bind_eq_ok {α β : Type} {x : Res α} {f : α → Res β} {b : β}
    (h : (x >>= f) = .ok b) : ∃ a, x = .ok a ∧ f a = .ok b := by
  cases x with
  | ok a => exact ⟨a, rfl, h⟩
  | diag p m => cases h
  | panic m => cases h
  | nofuel => cases h

theorem findVar_reserved (s : List scope) (name : String) (h : name = "true" ∨ name = "false") :
    findVar s name = some ⟨.named (some ast.Bool), false⟩ := by
  unfold findVar; simp [h]

theorem findVar_of_head (sc : scope) (parent : List scope) (name : String)
    (h : name ∈ sc.vars.map Prod.fst) : (findVar (sc :: parent) name).isSome = true := by
  unfold findVar
  split
  · rfl
  · have : ∃ v, sc.vars.lookup name = some v := by
      cases hl : sc.vars.lookup name with
      | some v => exact ⟨v, rfl⟩
      | none =>
        rw [List.lookup_eq_none_iff] at hl
        simp only [List.mem_map] at h
        obtain ⟨⟨k, v⟩, hm, hk⟩ := h
        have := hl (k, v) hm
        simp at hk
        simp [hk] at this
    obtain ⟨v, hv⟩ := this
    simp [hv]

theorem addVar_ok {s s' : List scope} {name : String} {v : scopeVar}
    (h : addVar s name v = .ok s') :
    findVar s name = none ∧ ∃ sc parent, s = sc :: parent ∧
      s' = { sc with vars := (name, v) :: sc.vars } :: parent := by
  unfold addVar at h
  split at h
  · cases h
  · rename_i hn
    simp only [not_or] at hn
    refine ⟨by simpa using hn.1, ?_⟩
    cases s with
    | nil => cases h
    | cons sc parent => simp at h; exact ⟨sc, parent, rfl, h.symm⟩

theorem addType_ok {s s' : List scope} {name : String} {t : GenericType}
    (h : addType s name t = .ok s') :
    findType s name = none ∧ ∃ sc parent, s = sc :: parent ∧
      s' = { sc with types := (name, t) :: sc.types } :: parent := by
  unfold addType at h
  split at h
  · cases h
  · rename_i hn
    refine ⟨by simpa using hn, ?_⟩
    cases s with
    | nil => cases h
    | cons sc parent => simp at h; exact ⟨sc, parent, rfl, h.symm⟩

/-- checkStructParams only touches the types of the head scope. -/
theorem checkStructParams_ok {c c' : checker} {ps : List Ident}
    (h : checkStructParams c ps = .ok c') :
    c'.structs = c.structs ∧ c'.decls = c.decls ∧ c'.scope.tail = c.scope.tail ∧
    (c.scope ≠ [] → c'.scope ≠ []) ∧
    (∀ sc parent, c.scope = sc :: parent → ∃ types, c'.scope = ⟨sc.vars, types⟩ :: parent) := by
  induction ps generalizing c with
  | nil => simp [checkStructParams] at h; subst h; simp
           intro sc parent h; exact ⟨sc.types, by simp [h]⟩
  | cons p rest ih =>
    simp only [checkStructParams] at h
    split at h
    · cases h
    · split at h
      · rename_i s hs
        obtain ⟨_, sc, parent, h1, h2⟩ := addType_ok hs
        have := ih h
        simp at this
        obtain ⟨a, b, d, e, f⟩ := this
        refine ⟨a, b, ?_, ?_, ?_⟩
        · rw [d, h2, h1]; simp
        · intro _; apply e; rw [h2]; simp
        · intro sc0 parent0 h0
          rw [h1] at h0; simp at h0
          obtain ⟨h01, h02⟩ := h0
          subst h01 h02
          exact f ⟨sc.vars, (p.Ident, ⟨[]⟩) :: sc.types⟩ parent h2
      all_goals cases h

theorem Frame.refl_frame (c : checker) : Frame c c := ⟨rfl, rfl, rfl⟩

theorem Frame.trans_frame {a b c : checker} (h1 : Frame a b) (h2 : Frame b c) : Frame a c :=
  ⟨h2.scope.trans h1.scope, h2.structs.trans h1.structs, h2.length.trans h1.length⟩

theorem checkTypeArgs_frame {ct : checker → NamedType → Res checker}
    (hct : ∀ c ty c', ct c ty = .ok c' → Frame c c') {c c' : checker} {args : List NamedType}
    (h : checkTypeArgs ct c args = .ok c') : Frame c c' := by
  induction args generalizing c with
  | nil => simp [checkTypeArgs] at h; subst h; exact Frame.refl_frame _
  | cons a rest ih =>
    simp only [checkTypeArgs] at h
    split at h
    · rename_i c1 h1
      exact (hct _ _ _ h1).trans_frame (ih h)
    · rename_i o ho
      exact (ho _ h).elim

theorem checkStructFields_frame {ct : checker → NamedType → Res checker}
    (hct : ∀ c ty c', ct c ty = .ok c' → Frame c c') {c c' : checker} {seen : List String}
    {fs : List Param}
    (h : checkStructFields ct c seen fs = .ok c') : Frame c c' := by
  induction fs generalizing c seen with
  | nil => simp [checkStructFields] at h; subst h; exact Frame.refl_frame _
  | cons a rest ih =>
    simp only [checkStructFields] at h
    split at h
    · cases h
    · split at h
      · rename_i c1 h1
        exact (hct _ _ _ h1).trans_frame (ih h)
      · rename_i o ho
        exact (ho _ h).elim

theorem checkStructWith_frame {ct : checker → NamedType → Res checker}
    (hct : ∀ c ty c', ct c ty = .ok c' → Frame c c') {c c' : checker} {decl : Nat}
    (h : checkStructWith ct c decl = .ok c') : Frame c c' := by
  unfold checkStructWith at h
  split at h
  · cases h
  · rename_i d hd
    split at h
    · cases h; exact Frame.refl_frame _
    · split at h
      · cases h
      · split at h
        · rename_i c1 h1
          simp only at h
          split at h
          · cases h
          · split at h
            · rename_i c2 h2
              cases h
              obtain ⟨a, b, t, _, _⟩ := checkStructParams_ok h1
              have f2 := checkStructFields_frame hct h2
              refine ⟨?_, ?_, ?_⟩
              · simp [checker.popScope, checker.setDone, f2.scope, checker.setStarted, t, checker.newScope, newScope]
              · simp [checker.popScope, checker.setDone, f2.structs, checker.setStarted, a, checker.newScope]
              · simp [checker.popScope, checker.setDone, f2.length, checker.setStarted, b, checker.newScope]
            · rename_i o ho
              exact (ho _ h).elim
        · rename_i o ho
          exact (ho _ h).elim

theorem checkType_frame : ∀ (fuel : Nat) (c : checker) (ty : NamedType) (c' : checker),
    checkType fuel c ty = .ok c' → Frame c c'
  | 0, _, _, _, h => by simp [checkType] at h
  | fuel + 1, c, ty, c', h => by
    simp only [checkType] at h
    split at h
    · cases h
    · split at h
      · cases h
      · split at h
        · rename_i c1 h1
          have f1 := checkTypeArgs_frame (checkType_frame fuel) h1
          split at h
          · exact f1.trans_frame (checkStructWith_frame (checkType_frame fuel) h)
          · cases h; exact f1
        · rename_i o ho
          exact (ho _ h).elim

theorem findVar_none_head {sc : scope} {parent : List scope} {name : String}
    (h : findVar (sc :: parent) name = none) : name ∉ sc.vars.map Prod.fst := by
  intro hm
  have := findVar_of_head sc parent name hm
  simp [h] at this

theorem addVar_unique {s s' : List scope} {name : String} {v : scopeVar}
    (h : addVar s name v = .ok s') (hu : ScopesUnique s) : ScopesUnique s' := by
  obtain ⟨hn, sc, parent, rfl, rfl⟩ := addVar_ok h
  intro x hx
  simp only [List.mem_cons] at hx
  rcases hx with rfl | hx
  · simp only [List.map_cons, List.nodup_cons]
    exact ⟨findVar_none_head hn, hu sc (by simp)⟩
  · exact hu x (by simp [hx])

theorem ScopesUnique.tail {s : List scope} (h : ScopesUnique s) : ScopesUnique s.tail :=
  fun sc hsc => h sc (List.mem_of_mem_tail hsc)

theorem ScopesUnique.newScope {s : List scope} (h : ScopesUnique s) : ScopesUnique (newScope s) := by
  intro sc hsc
  simp only [Cata.newScope, List.mem_cons] at hsc
  rcases hsc with rfl | hsc
  · simp
  · exact h sc hsc

mutual
theorem checkStmt_unique (fuel : Nat) : ∀ (s : Stmt) (c : checker) (ret : Option NamedType)
    (r : Bool) (c' : checker), checkStmt fuel c s ret = .ok (r, c') →
    ScopesUnique c.scope → ScopesUnique c'.scope
  | .ExprStmt e, c, ret, r, c', h, hu => by
    simp only [checkStmt] at h
    split at h
    · split at h <;> simp at h
      rw [← h.2]; exact hu
    · cases h
  | .BlockStmt _ b, c, ret, r, c', h, hu => by
    simp only [checkStmt] at h
    exact checkBlock_unique fuel b c ret r c' h hu
  | .ReturnStmt _ e, c, ret, r, c', h, hu => by
    simp only [checkStmt] at h
    split at h
    · cases h
    · cases h
    · simp at h; rw [← h.2]; exact hu
    · split at h <;> simp at h
      rw [← h.2]; exact hu
  | .VarStmt _ name ty e, c, ret, r, c', h, hu => by
    simp only [checkStmt] at h
    split at h
    · cases h
    · split at h
      · rename_i s hs
        have hu1 := addVar_unique hs hu
        split at h
        · rename_i c1 h1
          have f := checkType_frame _ _ _ _ h1
          have hu2 : ScopesUnique c1.scope := by rw [f.scope]; exact hu1
          split at h
          · split at h <;> simp at h
            rw [← h.2]; exact hu2
          · simp at h; rw [← h.2]; exact hu2
        all_goals cases h
      all_goals cases h
  | .AssignStmt l rr, c, ret, r, c', h, hu => by
    simp only [checkStmt] at h
    split at h
    · split at h
      · cases h
      · split at h <;> simp at h
        rw [← h.2]; exact hu
    all_goals cases h
  | .IfStmt _ cond body els, c, ret, r, c', h, hu => by
    simp only [checkStmt] at h
    split at h
    · split at h
      · rename_i rb c1 h1
        have hu1 := checkBlock_unique fuel body _ ret _ _ h1 hu.newScope
        exact checkElse_unique fuel els _ ret _ r c' h hu1.tail
      · rename_i o ho
        exact (ho _ _ h).elim
    all_goals cases h
  | .WhileStmt _ cond body, c, ret, r, c', h, hu => by
    simp only [checkStmt] at h
    split at h
    · split at h
      · rename_i rb c1 h1
        have hu1 := checkBlock_unique fuel body _ ret _ _ h1 hu.newScope
        simp at h
        rw [← h.2]
        exact hu1.tail
      · rename_i o ho
        exact (ho _ _ h).elim
    all_goals cases h
theorem checkElse_unique (fuel : Nat) : ∀ (s : Option Stmt) (c : checker) (ret : Option NamedType)
    (b r : Bool) (c' : checker), checkElse fuel c s ret b = .ok (r, c') →
    ScopesUnique c.scope → ScopesUnique c'.scope
  | none, c, ret, b, r, c', h, hu => by
    simp [checkElse] at h; rw [← h.2]; exact hu
  | some s, c, ret, b, r, c', h, hu => by
    simp only [checkElse] at h
    split at h
    · rename_i r2 c1 h1
      have hu1 := checkStmt_unique fuel s _ ret _ _ h1 hu.newScope
      simp at h
      rw [← h.2]
      exact hu1.tail
    · rename_i o ho
      exact (ho _ _ h).elim
theorem checkBlock_unique (fuel : Nat) : ∀ (b : List Stmt) (c : checker) (ret : Option NamedType)
    (r : Bool) (c' : checker), checkBlock fuel c b ret = .ok (r, c') →
    ScopesUnique c.scope → ScopesUnique c'.scope
  | [], c, ret, r, c', h, hu => by
    simp [checkBlock] at h; rw [← h.2]; exact hu
  | s :: rest, c, ret, r, c', h, hu => by
    simp only [checkBlock] at h
    split at h
    · rename_i r1 c1 h1
      have hu1 := checkStmt_unique fuel s _ ret _ _ h1 hu
      split at h
      · rename_i r2 c2 h2
        have hu2 := checkBlock_unique fuel rest _ ret _ _ h2 hu1
        simp at h
        rw [← h.2]; exact hu2
      · rename_i o ho
        exact (ho _ _ h).elim
    · rename_i o ho
      exact (ho _ _ h).elim
end

mutual
theorem checkStmt_varNames (fuel : Nat) (name : String) (hn : name = "true" ∨ name = "false") :
    ∀ (s : Stmt) (c : checker) (ret : Option NamedType) (r : Bool × checker),
    checkStmt fuel c s ret = .ok r → name ∉ s.varNames
  | .ExprStmt e, c, ret, r, h => by simp [Stmt.varNames]
  | .BlockStmt _ b, c, ret, r, h => by
    simp only [checkStmt] at h
    simp only [Stmt.varNames]
    exact checkBlock_varNames fuel name hn b c ret r h
  | .ReturnStmt _ e, c, ret, r, h => by simp [Stmt.varNames]
  | .VarStmt _ nm ty e, c, ret, r, h => by
    simp only [checkStmt] at h
    simp only [Stmt.varNames, List.mem_singleton]
    intro he
    subst he
    simp [findVar_reserved _ _ hn] at h
  | .AssignStmt l rr, c, ret, r, h => by simp [Stmt.varNames]
  | .IfStmt _ cond body els, c, ret, r, h => by
    simp only [checkStmt] at h
    simp only [Stmt.varNames, List.mem_append, not_or]
    split at h
    · split at h
      · rename_i rb c1 h1
        exact ⟨checkBlock_varNames fuel name hn body _ ret _ h1,
          checkElse_varNames fuel name hn els _ ret _ r h⟩
      · rename_i o ho
        exact (ho _ _ h).elim
    all_goals cases h
  | .WhileStmt _ cond body, c, ret, r, h => by
    simp only [checkStmt] at h
    simp only [Stmt.varNames]
    split at h
    · split at h
      · rename_i rb c1 h1
        exact checkBlock_varNames fuel name hn body _ ret _ h1
      · rename_i o ho
        exact (ho _ _ h).elim
    all_goals cases h
theorem checkElse_varNames (fuel : Nat) (name : String) (hn : name = "true" ∨ name = "false") :
    ∀ (s : Option Stmt) (c : checker) (ret : Option NamedType) (b : Bool) (r : Bool × checker),
    checkElse fuel c s ret b = .ok r → name ∉ varNamesElse s
  | none, c, ret, b, r, h => by simp [varNamesElse]
  | some s, c, ret, b, r, h => by
    simp only [checkElse] at h
    simp only [varNamesElse]
    split at h
    · rename_i r2 c1 h1
      exact checkStmt_varNames fuel name hn s _ ret _ h1
    · rename_i o ho
      exact (ho _ _ h).elim
theorem checkBlock_varNames (fuel : Nat) (name : String) (hn : name = "true" ∨ name = "false") :
    ∀ (b : List Stmt) (c : checker) (ret : Option NamedType) (r : Bool × checker),
    checkBlock fuel c b ret = .ok r → name ∉ varNamesBlock b
  | [], c, ret, r, h => by simp [varNamesBlock]
  | s :: rest, c, ret, r, h => by
    simp only [checkBlock] at h
    simp only [varNamesBlock, List.mem_append, not_or]
    split at h
    · rename_i r1 c1 h1
      split at h
      · rename_i r2 c2 h2
        exact ⟨checkStmt_varNames fuel name hn s _ ret _ h1,
          checkBlock_varNames fuel name hn rest _ ret _ h2⟩
      · rename_i o ho
        exact (ho _ _ h).elim
    · rename_i o ho
      exact (ho _ _ h).elim
end

theorem checkFnParams_names (fuel : Nat) (name : String) (hn : name = "true" ∨ name = "false") :
    ∀ (ps : List Param) (c c' : checker), checkFnParams fuel c ps = .ok c' →
      name ∉ ps.map (fun p => p.Name.Ident)
  | [], _, _, _ => by simp
  | p :: rest, c, c', h => by
    simp only [checkFnParams] at h
    split at h
    · rename_i c1 h1
      split at h
      · cases h
      · rename_i hf
        split at h
        · rename_i s hs
          have ih := checkFnParams_names fuel name hn rest _ _ h
          simp only [List.map_cons, List.mem_cons, not_or]
          refine ⟨?_, ih⟩
          intro he
          rw [← he, findVar_reserved _ _ hn] at hf
          simp at hf
        all_goals cases h
    · rename_i o ho
      exact (ho _ h).elim

theorem checkFn_names (fuel : Nat) (name : String) (hn : name = "true" ∨ name = "false")
    (c c' : checker) (fn : FnDecl) (h : checkFn fuel c fn = .ok c') :
    name ∉ fn.Params.map (fun p => p.Name.Ident) ++ varNamesBlock (fn.Body.getD []) := by
  simp only [checkFn] at h
  simp only [List.mem_append, not_or]
  split at h
  · rename_i c1 h1
    have hp : name ∉ fn.Params.map (fun p => p.Name.Ident) := by
      simp only [checkFnSignature] at h1
      split at h1
      · split at h1
        · exact checkFnParams_names fuel name hn _ _ _ h1
        · rename_i o ho
          exact (ho _ h1).elim
      · exact checkFnParams_names fuel name hn _ _ _ h1
    split at h
    · rename_i r c2 h2
      exact ⟨hp, checkBlock_varNames fuel name hn _ _ _ _ h2⟩
    all_goals cases h
  · rename_i o ho
    exact (ho _ h).elim

theorem checkFns_names (fuel : Nat) (name : String) (hn : name = "true" ∨ name = "false") :
    ∀ (fns : List FnDecl) (c c' : checker), checkFns fuel c fns = .ok c' →
      ∀ fn ∈ fns, name ∉ fn.Params.map (fun p => p.Name.Ident) ++ varNamesBlock (fn.Body.getD [])
  | [], _, _, _ => by simp
  | f :: rest, c, c', h => by
    simp only [checkFns] at h
    split at h
    · rename_i c1 h1
      intro fn hfn
      simp only [List.mem_cons] at hfn
      rcases hfn with rfl | hfn
      · exact checkFn_names fuel name hn _ _ _ h1
      · exact checkFns_names fuel name hn rest _ _ h fn hfn
    · rename_i o ho
      exact (ho _ h).elim

theorem addFns_names (name : String) (hn : name = "true" ∨ name = "false") :
    ∀ (fns : List FnDecl) (c c' : checker), addFns c fns = .ok c' →
      name ∉ fns.map (fun f => f.Name.Ident)
  | [], _, _, _ => by simp
  | f :: rest, c, c', h => by
    simp only [addFns] at h
    split at h
    · cases h
    · rename_i hf
      split at h
      · have ih := addFns_names name hn rest _ _ h
        simp only [List.map_cons, List.mem_cons, not_or]
        refine ⟨?_, ih⟩
        intro he
        rw [← he, findVar_reserved _ _ hn] at hf
        simp at hf
      all_goals cases h

theorem CheckModule_ok {fuel : Nat} {m m' : Module} (h : CheckModule fuel m = .ok m') :
    ∃ c c1 c2, checkModuleStructs fuel m = .ok c ∧ addFns c m.Fns = .ok c1 ∧
      checkFns fuel c1 m.Fns = .ok c2 ∧ m' = { m with Structs := c2.decls } := by
  unfold CheckModule at h
  obtain ⟨c, hc, h⟩ := Res.bind_eq_ok h
  obtain ⟨c1, hc1, h⟩ := Res.bind_eq_ok h
  obtain ⟨c2, hc2, h⟩ := Res.bind_eq_ok h
  refine ⟨c, c1, c2, hc, hc1, hc2, ?_⟩
  cases h
  rfl

theorem CheckModule_boundNames (fuel : Nat) (m : Module) (name : String)
    (hn : name = "true" ∨ name = "false") (hm : name ∈ m.boundNames) :
    (CheckModule fuel m).isOk = false := by
  cases hr : CheckModule fuel m with
  | ok m' =>
    exfalso
    obtain ⟨c, c1, c2, _, h1, h2, _⟩ := CheckModule_ok hr
    simp only [Module.boundNames, List.mem_flatten, List.mem_map] at hm
    obtain ⟨l, ⟨fn, hfn, rfl⟩, hl⟩ := hm
    simp only [FnDecl.boundNames, List.mem_cons] at hl
    rcases hl with hl | hl
    · exact addFns_names name hn _ _ _ h1 (List.mem_map.2 ⟨fn, hfn, hl.symm⟩)
    · exact checkFns_names fuel name hn _ _ _ h2 fn hfn hl
  | diag p msg => rfl
  | panic msg => rfl
  | nofuel => rfl

theorem addVar_headNames {s s' : List scope} {name : String} {v : scopeVar}
    (h : addVar s name v = .ok s') : headNames s' = name :: headNames s := by
  obtain ⟨_, sc, parent, rfl, rfl⟩ := addVar_ok h
  simp [headNames]

theorem ScopesUnique.headNames {s : List scope} (h : ScopesUnique s) : (headNames s).Nodup := by
  cases s with
  | nil => simp [Cata.headNames]
  | cons sc parent => exact h sc (by simp)

theorem checkFnParams_scope (fuel : Nat) :
    ∀ (ps : List Param) (c c' : checker), checkFnParams fuel c ps = .ok c' →
      (ScopesUnique c.scope → ScopesUnique c'.scope) ∧
      headNames c'.scope = (ps.map (fun p => p.Name.Ident)).reverse ++ headNames c.scope ∧
      c'.scope.tail = c.scope.tail
  | [], c, c', h => by simp [checkFnParams] at h; subst h; simp
  | p :: rest, c, c', h => by
    simp only [checkFnParams] at h
    split at h
    · rename_i c1 h1
      have f := checkType_frame _ _ _ _ h1
      split at h
      · cases h
      · split at h
        · rename_i s hs
          obtain ⟨ih1, ih2, ih3⟩ := checkFnParams_scope fuel rest _ _ h
          refine ⟨fun hu => ih1 (addVar_unique hs (by rw [f.scope]; exact hu)), ?_, ?_⟩
          · rw [ih2]; simp only [addVar_headNames hs, f.scope]; simp
          · rw [ih3]
            obtain ⟨_, sc, parent, e1, e2⟩ := addVar_ok hs
            simp only [e2, ← f.scope, e1, List.tail_cons]
        all_goals cases h
    · rename_i o ho
      exact (ho _ h).elim

theorem checkFnSignature_scope {fuel : Nat} {c c' : checker} {fn : FnDecl}
    (h : checkFnSignature fuel c fn = .ok c') :
    (ScopesUnique c.scope → ScopesUnique c'.scope) ∧
      headNames c'.scope = (fn.Params.map (fun p => p.Name.Ident)).reverse ∧
      c'.scope.tail = c.scope := by
  simp only [checkFnSignature] at h
  split at h
  · split at h
    · rename_i c1 h1
      have f := checkType_frame _ _ _ _ h1
      obtain ⟨a, b, d⟩ := checkFnParams_scope fuel _ _ _ h
      refine ⟨fun hu => a (by rw [f.scope]; exact hu.newScope), ?_, ?_⟩
      · rw [b, f.scope]; simp [checker.newScope, newScope, headNames]
      · rw [d, f.scope]; simp [checker.newScope, newScope]
    · rename_i o ho
      exact (ho _ h).elim
  · obtain ⟨a, b, d⟩ := checkFnParams_scope fuel _ _ _ h
    refine ⟨fun hu => a hu.newScope, ?_, ?_⟩
    · rw [b]; simp [checker.newScope, newScope, headNames]
    · rw [d]; simp [checker.newScope, newScope]

theorem checkFn_scope {fuel : Nat} {c c' : checker} {fn : FnDecl}
    (h : checkFn fuel c fn = .ok c') (hu : ScopesUnique c.scope) :
    ScopesUnique c'.scope ∧ (fn.Params.map (fun p => p.Name.Ident)).Nodup := by
  simp only [checkFn] at h
  split at h
  · rename_i c1 h1
    obtain ⟨a, b, _⟩ := checkFnSignature_scope h1
    have hn : (fn.Params.map (fun p => p.Name.Ident)).Nodup := by
      have := (a hu).headNames
      rw [b] at this
      exact List.nodup_reverse.1 this
    split at h
    · rename_i r c2 h2
      have hu2 := checkBlock_unique fuel _ _ _ _ _ h2 (a hu)
      split at h
      · split at h
        · cases h
        · cases h; exact ⟨hu2.tail, hn⟩
      · cases h; exact ⟨hu2.tail, hn⟩
    all_goals cases h
  · rename_i o ho
    exact (ho _ h).elim

theorem checkFns_scope (fuel : Nat) :
    ∀ (fns : List FnDecl) (c c' : checker), checkFns fuel c fns = .ok c' →
      ScopesUnique c.scope →
      ScopesUnique c'.scope ∧ ∀ fn ∈ fns, (fn.Params.map (fun p => p.Name.Ident)).Nodup
  | [], c, c', h, hu => by simp [checkFns] at h; subst h; simp [hu]
  | f :: rest, c, c', h, hu => by
    simp only [checkFns] at h
    split at h
    · rename_i c1 h1
      obtain ⟨a, b⟩ := checkFn_scope h1 hu
      obtain ⟨a2, b2⟩ := checkFns_scope fuel rest _ _ h a
      refine ⟨a2, ?_⟩
      intro fn hfn
      simp only [List.mem_cons] at hfn
      rcases hfn with rfl | hfn
      · exact b
      · exact b2 fn hfn
    · rename_i o ho
      exact (ho _ h).elim

theorem addFns_scope :
    ∀ (fns : List FnDecl) (c c' : checker), addFns c fns = .ok c' →
      (ScopesUnique c.scope → ScopesUnique c'.scope) ∧
      headNames c'.scope = (fns.map (fun f => f.Name.Ident)).reverse ++ headNames c.scope
  | [], c, c', h => by simp [addFns] at h; subst h; simp
  | f :: rest, c, c', h => by
    simp only [addFns] at h
    split at h
    · cases h
    · split at h
      · rename_i s hs
        obtain ⟨ih1, ih2⟩ := addFns_scope rest _ _ h
        refine ⟨fun hu => ih1 (addVar_unique hs hu), ?_⟩
        rw [ih2]; simp only [addVar_headNames hs]; simp
      all_goals cases h

theorem addStructs_vars :
    ∀ (sts : List StructDecl) (c c' : checker) (i : Nat), addStructs c i sts = .ok c' →
      (ScopesUnique c.scope → ScopesUnique c'.scope)
  | [], c, c', i, h => by simp [addStructs] at h; subst h; exact id
  | st :: rest, c, c', i, h => by
    simp only [addStructs] at h
    split at h
    · cases h
    · split at h
      · rename_i s hs
        intro hu
        apply addStructs_vars rest _ _ _ h
        obtain ⟨_, sc, parent, e1, e2⟩ := addType_ok hs
        simp only [e2]
        intro x hx
        simp only [List.mem_cons] at hx
        rcases hx with rfl | hx
        · exact hu sc (by simp [e1])
        · exact hu x (by simp [e1, hx])
      all_goals cases h

theorem checkStructs_frame (fuel : Nat) :
    ∀ (n : Nat) (c c' : checker) (i : Nat), checkStructs fuel c i n = .ok c' → Frame c c'
  | 0, c, c', i, h => by simp [checkStructs] at h; subst h; exact Frame.refl_frame _
  | n + 1, c, c', i, h => by
    simp only [checkStructs] at h
    split at h
    · rename_i c1 h1
      exact (checkStructWith_frame (checkType_frame fuel) h1).trans_frame (checkStructs_frame fuel n _ _ _ h)
    · rename_i o ho
      exact (ho _ h).elim

theorem checkModuleStructs_unique {fuel : Nat} {m : Module} {c : checker}
    (h : checkModuleStructs fuel m = .ok c) : ScopesUnique c.scope := by
  unfold checkModuleStructs at h
  obtain ⟨s, hs, h⟩ := Res.bind_eq_ok h
  obtain ⟨c1, hc1, h⟩ := Res.bind_eq_ok h
  have f := checkStructs_frame fuel _ _ _ _ h
  rw [f.scope]
  apply addStructs_vars _ _ _ _ hc1
  have : s = [⟨[], [("slice", ⟨["eltype"]⟩), ("bool", ⟨[]⟩), ("i32", ⟨[]⟩), ("u8", ⟨[]⟩)]⟩] := by
    have : primitiveScope = .ok [⟨[], [("slice", ⟨["eltype"]⟩), ("bool", ⟨[]⟩), ("i32", ⟨[]⟩), ("u8", ⟨[]⟩)]⟩] := by
      rfl
    rw [this] at hs
    cases hs; rfl
  subst this
  intro sc hsc
  simp at hsc
  subst hsc
  simp

theorem CheckModule_unique {fuel : Nat} {m m' : Module} (h : CheckModule fuel m = .ok m') :
    (m.Fns.map (fun f => f.Name.Ident)).Nodup ∧
      ∀ fn ∈ m.Fns, (fn.Params.map (fun p => p.Name.Ident)).Nodup := by
  obtain ⟨c, c1, c2, h0, h1, h2, _⟩ := CheckModule_ok h
  have hu := checkModuleStructs_unique h0
  obtain ⟨a, b⟩ := addFns_scope _ _ _ h1
  have hu1 := a hu
  refine ⟨?_, (checkFns_scope fuel _ _ _ h2 hu1).2⟩
  have := hu1.headNames
  rw [b] at this
  exact List.nodup_reverse.1 (List.Nodup.of_append_left this)

/-- C9: `true` and `false` always have type `bool`, immutable, in any scope
chain, and no binding for either name can be introduced: `addVar` refuses
them, a var statement of that name is reported as a duplicate identifier, so is
a parameter of that name once its type has been checked and a function of that
name once the functions before it have been added, and no module in which a
function, a parameter or a var statement bears the name is accepted. -/
theorem C9_true_false_reserved (name : String) (hn : name = "true" ∨ name = "false") :
    (∀ s : List scope, findVar s name = some ⟨.named (some ast.Bool), false⟩) ∧
    (∀ (s : List scope) (v : scopeVar), (addVar s name v).isOk = false) ∧
    (∀ (fuel : Nat) (c : checker) (pos : Pos) (id : Ident) (ty : NamedType)
        (e : Option Expr) (ret : Option NamedType), id.Ident = name →
      checkStmt fuel c (.VarStmt pos id ty e) ret =
        .diag id.Pos ("duplicate identifier '" ++ name ++ "'")) ∧
    (∀ (fuel : Nat) (c c1 : checker) (p : Param) (rest : List Param), p.Name.Ident = name →
      checkType fuel c p.Ty = .ok c1 →
      checkFnParams fuel c (p :: rest) =
        .diag p.Name.Pos ("duplicate identifier '" ++ name ++ "'")) ∧
    (∀ (c : checker) (fn : FnDecl) (rest : List FnDecl), fn.Name.Ident = name →
      addFns c (fn :: rest) = .diag fn.Name.Pos ("duplicate identifier '" ++ name ++ "'")) ∧
    (∀ (fuel : Nat) (m : Module), name ∈ m.boundNames → (CheckModule fuel m).isOk = false) := by
  refine ⟨fun s => findVar_reserved s name hn, ?_, ?_, ?_, ?_, ?_⟩
  · intro s v
    unfold addVar
    simp [findVar_reserved s name hn, Res.isOk]
  · intro fuel c pos id ty e ret hid
    subst hid
    simp [checkStmt, findVar_reserved _ _ hn]
  · intro fuel c c1 p rest hid h1
    subst hid
    simp [checkFnParams, h1, findVar_reserved _ _ hn]
  · intro c fn rest hid
    subst hid
    simp [addFns, findVar_reserved _ _ hn]
  · intro fuel m hm
    exact CheckModule_boundNames fuel m name hn hm

/-- C9 at the name `true`: the lookup in the global scope, and the module
`fn f(x: i32) { var true: bool; }`, which is rejected. -/
theorem C9_true_false_reserved_witness :
    ("true" = "true" ∨ "true" = "false") ∧
    findVar newGlobalScope "true" = some ⟨.named (some ast.Bool), false⟩ ∧
    "true" ∈ reservedModule.boundNames ∧
    (CheckModule 8 reservedModule).isOk = false ∧
    CheckModule 8 reservedModule = .diag ⟨2, 6⟩ "duplicate identifier 'true'" :=
  ⟨Or.inl rfl, (C9_true_false_reserved "true" (Or.inl rfl)).1 _, by decide,
    (C9_true_false_reserved "true" (Or.inl rfl)).2.2.2.2.2 8 reservedModule (by decide), by rfl⟩

/-- C10: a variable binding is only added under a name that the scope it is
added to does not bind yet. When the current scope `sc` of the checker already
binds `name`, `addVar` does not overwrite the binding, and a var statement, a
parameter (once its type has been checked) and a function of that name are
reported as `duplicate identifier` at the position of the new name. Every
successful `addVar` adds a name that the current scope did not bind and keeps
the other bindings; hence checking a statement keeps the names of every scope
of the chain unique, and in an accepted module the function names are pairwise
distinct, as are the parameter names of each function. -/
theorem C10_bindings_unique (c : checker) (sc : scope) (parent : List scope) (name : String)
    (hs : c.scope = sc :: parent) (hb : name ∈ sc.vars.map Prod.fst) :
    (∀ v : scopeVar, (addVar c.scope name v).isOk = false) ∧
    (∀ (fuel : Nat) (pos : Pos) (id : Ident) (ty : NamedType) (e : Option Expr)
        (ret : Option NamedType), id.Ident = name →
      checkStmt fuel c (.VarStmt pos id ty e) ret =
        .diag id.Pos ("duplicate identifier '" ++ name ++ "'")) ∧
    (∀ (fuel : Nat) (c0 : checker) (p : Param) (rest : List Param), p.Name.Ident = name →
      checkType fuel c0 p.Ty = .ok c →
      checkFnParams fuel c0 (p :: rest) =
        .diag p.Name.Pos ("duplicate identifier '" ++ name ++ "'")) ∧
    (∀ (fn : FnDecl) (rest : List FnDecl), fn.Name.Ident = name →
      addFns c (fn :: rest) = .diag fn.Name.Pos ("duplicate identifier '" ++ name ++ "'")) ∧
    (∀ (s s' : List scope) (n : String) (v : scopeVar), addVar s n v = .ok s' →
      n ∉ headNames s ∧ headNames s' = n :: headNames s ∧ s'.tail = s.tail) ∧
    (∀ (fuel : Nat) (c1 c2 : checker) (s : Stmt) (ret : Option NamedType) (r : Bool),
      checkStmt fuel c1 s ret = .ok (r, c2) → ScopesUnique c1.scope → ScopesUnique c2.scope) ∧
    (∀ (fuel : Nat) (m m' : Module), CheckModule fuel m = .ok m' →
      (m.Fns.map (fun f => f.Name.Ident)).Nodup ∧
      ∀ fn ∈ m.Fns, (fn.Params.map (fun p => p.Name.Ident)).Nodup) := by
  have hf : (findVar c.scope name).isSome = true := by
    rw [hs]; exact findVar_of_head sc parent name hb
  refine ⟨?_, ?_, ?_, ?_, ?_, ?_, ?_⟩
  · intro v
    unfold addVar
    simp [hf, Res.isOk]
  · intro fuel pos id ty e ret hid
    subst hid
    simp [checkStmt, hf]
  · intro fuel c0 p rest hid h1
    subst hid
    simp [checkFnParams, h1, hf]
  · intro fn rest hid
    subst hid
    simp [addFns, hf]
  · intro s s' n v h
    obtain ⟨hn, sc0, parent0, rfl, rfl⟩ := addVar_ok h
    exact ⟨findVar_none_head hn, by simp [headNames], by simp⟩
  · intro fuel c1 c2 s ret r h hu
    exact checkStmt_unique fuel s c1 ret r c2 h hu
  · intro fuel m m' h
    exact CheckModule_unique h

/-- C10 on the state in which the body of `fn f(x: i32)` is checked: a var
statement `var x: bool;` there is a duplicate identifier; and the module
`fn f(x: i32, y: bool) { var z: i32; }  fn g() { }` is accepted, its function
names being distinct. -/
theorem C10_bindings_unique_witness :
    (bodyState.scope = ⟨[("x", ⟨.named (some ast.Int32), false⟩)], []⟩ :: bodyState.scope.tail ∧
      "x" ∈ [("x", (⟨.named (some ast.Int32), false⟩ : scopeVar))].map Prod.fst) ∧
    checkStmt 8 bodyState (.VarStmt ⟨2, 2⟩ ⟨⟨2, 6⟩, "x"⟩ ast.Bool none) none =
      .diag ⟨2, 6⟩ "duplicate identifier 'x'" ∧
    (CheckModule 8 distinctModule).isOk = true ∧
    (distinctModule.Fns.map (fun f => f.Name.Ident)).Nodup :=
  ⟨⟨rfl, by simp⟩,
    (C10_bindings_unique bodyState _ _ "x" rfl (by simp)).2.1
      8 ⟨2, 2⟩ ⟨⟨2, 6⟩, "x"⟩ ast.Bool none none rfl,
    by rfl,
    ((C10_bindings_unique bodyState _ _ "x" rfl (by simp)).2.2.2.2.2.2
      8 distinctModule { distinctModule with Structs := [] } (by rfl)).1⟩

theorem all_filter_append (l m : List PathEnd) :
    (∀ p ∈ l.filter (fun p => !p.isFall) ++ (if l.any PathEnd.isFall then m else []), p.isFall = false) ↔
      ((∀ p ∈ l, p.isFall = false) ∨ (∀ p ∈ m, p.isFall = false)) := by
  constructor
  · intro h
    by_cases ha : l.any PathEnd.isFall = true
    · right
      intro p hp
      apply h
      simp [ha, hp]
    · left
      intro p hp
      simp only [List.any_eq_true, not_exists, not_and, Bool.not_eq_true] at ha
      exact ha p hp
  · rintro (h | h) p hp
    · simp only [List.mem_append, List.mem_filter] at hp
      rcases hp with hp | hp
      · exact h p hp.1
      · have : l.any PathEnd.isFall = false := by
          simp only [List.any_eq_false]
          intro x hx; simp [h x hx]
        simp [this] at hp
    · simp only [List.mem_append, List.mem_filter] at hp
      rcases hp with hp | hp
      · simpa using hp.2
      · split at hp
        · exact h p hp
        · cases hp

mutual
theorem checkStmt_returns (fuel : Nat) : ∀ (s : Stmt) (c : checker) (ret : Option NamedType)
    (r : Bool) (c' : checker), checkStmt fuel c s ret = .ok (r, c') →
    (r = true ↔ ∀ p ∈ s.paths, p.isFall = false)
  | .ExprStmt e, c, ret, r, c', h => by
    simp only [checkStmt] at h
    split at h
    · split at h <;> simp at h
      simp [Stmt.paths, PathEnd.isFall, ← h.1]
    · cases h
  | .BlockStmt _ b, c, ret, r, c', h => by
    simp only [checkStmt] at h
    simp only [Stmt.paths]
    exact checkBlock_returns fuel b c ret r c' h
  | .ReturnStmt _ e, c, ret, r, c', h => by
    simp only [checkStmt] at h
    split at h
    · cases h
    · cases h
    · simp at h; simp [Stmt.paths, PathEnd.isFall, ← h.1]
    · split at h <;> simp at h
      simp [Stmt.paths, PathEnd.isFall, ← h.1]
  | .VarStmt _ name ty e, c, ret, r, c', h => by
    simp only [checkStmt] at h
    split at h
    · cases h
    · split at h
      · split at h
        · split at h
          · split at h <;> simp at h
            simp [Stmt.paths, PathEnd.isFall, ← h.1]
          · simp at h; simp [Stmt.paths, PathEnd.isFall, ← h.1]
        all_goals cases h
      all_goals cases h
  | .AssignStmt l rr, c, ret, r, c', h => by
    simp only [checkStmt] at h
    split at h
    · split at h
      · cases h
      · split at h <;> simp at h
        simp [Stmt.paths, PathEnd.isFall, ← h.1]
    all_goals cases h
  | .IfStmt _ cond body els, c, ret, r, c', h => by
    simp only [checkStmt] at h
    split at h
    · split at h
      · rename_i rb c1 h1
        have ih1 := checkBlock_returns fuel body _ ret _ _ h1
        have ih2 := checkElse_returns fuel els _ ret rb r c' h
        simp only [Stmt.paths, List.mem_append]
        rw [ih2, ih1]
        constructor
        · rintro ⟨a, b⟩ p (hp | hp)
          · exact a p hp
          · exact b p hp
        · intro hh
          exact ⟨fun p hp => hh p (Or.inl hp), fun p hp => hh p (Or.inr hp)⟩
      · rename_i o ho
        exact (ho _ _ h).elim
    all_goals cases h
  | .WhileStmt _ cond body, c, ret, r, c', h => by
    simp only [checkStmt] at h
    split at h
    · split at h
      · simp at h
        simp [Stmt.paths, PathEnd.isFall, ← h.1]
      · rename_i o ho
        exact (ho _ _ h).elim
    all_goals cases h
theorem checkElse_returns (fuel : Nat) : ∀ (s : Option Stmt) (c : checker) (ret : Option NamedType)
    (b r : Bool) (c' : checker), checkElse fuel c s ret b = .ok (r, c') →
    (r = true ↔ (b = true ∧ ∀ p ∈ pathsElse s, p.isFall = false))
  | none, c, ret, b, r, c', h => by
    simp [checkElse] at h
    simp [pathsElse, PathEnd.isFall, ← h.1]
  | some s, c, ret, b, r, c', h => by
    simp only [checkElse] at h
    split at h
    · rename_i r2 c1 h1
      have ih := checkStmt_returns fuel s _ ret _ _ h1
      simp at h
      simp only [pathsElse]
      rw [← ih, ← h.1]
      cases r2 <;> simp
    · rename_i o ho
      exact (ho _ _ h).elim
theorem checkBlock_returns (fuel : Nat) : ∀ (b : List Stmt) (c : checker) (ret : Option NamedType)
    (r : Bool) (c' : checker), checkBlock fuel c b ret = .ok (r, c') →
    (r = true ↔ ∀ p ∈ pathsBlock b, p.isFall = false)
  | [], c, ret, r, c', h => by
    simp [checkBlock] at h
    simp [pathsBlock, PathEnd.isFall, ← h.1]
  | s :: rest, c, ret, r, c', h => by
    simp only [checkBlock] at h
    split at h
    · rename_i r1 c1 h1
      have ih1 := checkStmt_returns fuel s _ ret _ _ h1
      split at h
      · rename_i r2 c2 h2
        have ih2 := checkBlock_returns fuel rest _ ret _ _ h2
        simp at h
        simp only [pathsBlock]
        rw [all_filter_append, ← ih1, ← ih2, ← h.1]
        cases r1 <;> simp
      · rename_i o ho
        exact (ho _ _ h).elim
    · rename_i o ho
      exact (ho _ _ h).elim
end

theorem mem_pathsBlock_cons {s : Stmt} {rest : List Stmt} {p : PathEnd}
    (h : p ∈ pathsBlock (s :: rest)) : p ∈ s.paths ∨ p ∈ pathsBlock rest := by
  simp only [pathsBlock, List.mem_append, List.mem_filter] at h
  rcases h with h | h
  · exact Or.inl h.1
  · split at h
    · exact Or.inr h
    · cases h

mutual
theorem checkStmt_values (fuel : Nat) (T : NamedType) : ∀ (s : Stmt) (c : checker)
    (r : Bool × checker), checkStmt fuel c s (some T) = .ok r →
    ∀ p ∈ s.paths, p.isFall = true ∨ p.returnsValue = true
  | .ExprStmt e, c, r, h => by simp [Stmt.paths, PathEnd.isFall]
  | .BlockStmt _ b, c, r, h => by
    simp only [checkStmt] at h
    simp only [Stmt.paths]
    exact checkBlock_values fuel T b c r h
  | .ReturnStmt _ e, c, r, h => by
    simp only [checkStmt] at h
    split at h
    · cases h
    · cases h
    · contradiction
    · simp [Stmt.paths, PathEnd.returnsValue]
  | .VarStmt _ name ty e, c, r, h => by simp [Stmt.paths, PathEnd.isFall]
  | .AssignStmt l rr, c, r, h => by simp [Stmt.paths, PathEnd.isFall]
  | .IfStmt _ cond body els, c, r, h => by
    simp only [checkStmt] at h
    split at h
    · split at h
      · rename_i rb c1 h1
        intro p hp
        simp only [Stmt.paths, List.mem_append] at hp
        rcases hp with hp | hp
        · exact checkBlock_values fuel T body _ _ h1 p hp
        · exact checkElse_values fuel T els _ rb r h p hp
      · rename_i o ho
        exact (ho _ _ h).elim
    all_goals cases h
  | .WhileStmt _ cond body, c, r, h => by
    simp only [checkStmt] at h
    split at h
    · split at h
      · rename_i rb c1 h1
        intro p hp
        simp only [Stmt.paths, List.mem_cons] at hp
        rcases hp with hp | hp
        · simp [hp, PathEnd.isFall]
        · exact checkBlock_values fuel T body _ _ h1 p hp
      · rename_i o ho
        exact (ho _ _ h).elim
    all_goals cases h
theorem checkElse_values (fuel : Nat) (T : NamedType) : ∀ (s : Option Stmt) (c : checker)
    (b : Bool) (r : Bool × checker), checkElse fuel c s (some T) b = .ok r →
    ∀ p ∈ pathsElse s, p.isFall = true ∨ p.returnsValue = true
  | none, c, b, r, h => by simp [pathsElse, PathEnd.isFall]
  | some s, c, b, r, h => by
    simp only [checkElse] at h
    split at h
    · rename_i r2 c1 h1
      simp only [pathsElse]
      exact checkStmt_values fuel T s _ _ h1
    · rename_i o ho
      exact (ho _ _ h).elim
theorem checkBlock_values (fuel : Nat) (T : NamedType) : ∀ (b : List Stmt) (c : checker)
    (r : Bool × checker), checkBlock fuel c b (some T) = .ok r →
    ∀ p ∈ pathsBlock b, p.isFall = true ∨ p.returnsValue = true
  | [], c, r, h => by simp [pathsBlock, PathEnd.isFall]
  | s :: rest, c, r, h => by
    simp only [checkBlock] at h
    split at h
    · rename_i r1 c1 h1
      split at h
      · rename_i r2 c2 h2
        intro p hp
        rcases mem_pathsBlock_cons hp with hp | hp
        · exact checkStmt_values fuel T s _ _ h1 p hp
        · exact checkBlock_values fuel T rest _ _ h2 p hp
      · rename_i o ho
        exact (ho _ _ h).elim
    · rename_i o ho
      exact (ho _ _ h).elim
end

theorem checkBlock_allPathsReturn {fuel : Nat} {T : NamedType} {b : List Stmt} {c c' : checker}
    {r : Bool} (h : checkBlock fuel c b (some T) = .ok (r, c')) :
    r = true ↔ allPathsReturn b := by
  rw [checkBlock_returns fuel b c _ r c' h]
  unfold allPathsReturn
  constructor
  · intro hh p hp
    rcases checkBlock_values fuel T b c _ h p hp with h1 | h1
    · rw [hh p hp] at h1; cases h1
    · exact h1
  · intro hh p hp
    have := hh p hp
    cases p with
    | falls => simp [PathEnd.returnsValue] at this
    | returns v => rfl

theorem checkStmt_allPathsReturn {fuel : Nat} {T : NamedType} {s : Stmt} {c c' : checker}
    {r : Bool} (h : checkStmt fuel c s (some T) = .ok (r, c')) :
    r = true ↔ ∀ p ∈ s.paths, p.returnsValue = true := by
  rw [checkStmt_returns fuel s c _ r c' h]
  constructor
  · intro hh p hp
    rcases checkStmt_values fuel T s c _ h p hp with h1 | h1
    · rw [hh p hp] at h1; cases h1
    · exact h1
  · intro hh p hp
    have := hh p hp
    cases p with
    | falls => simp [PathEnd.returnsValue] at this
    | returns v => rfl

/-- C2: for a function with declared return type `T` whose signature and whose
statements raise no diagnostic, `checkFn` accepts the function if and only if
every control path through the body ends at a return statement carrying a
value, and otherwise reports `not all paths return a value` at the position of
the return type. A return statement passes `checkStmt` only with a value whose
type is `TypeEqual` to `T`. A while statement never returns on all paths, and
an if / else-if / else chain does exactly when its three branches do. -/
theorem C2_checkFn_iff_all_paths_return (fuel : Nat) (c c1 c2 : checker) (fn : FnDecl)
    (T : NamedType) (returns : Bool) (hret : fn.Return = some T)
    (hsig : checkFnSignature fuel c fn = .ok c1)
    (hbody : checkBlock fuel c1 (fn.Body.getD []) (some T) = .ok (returns, c2)) :
    ((checkFn fuel c fn).isOk = true ↔ allPathsReturn (fn.Body.getD [])) ∧
    (allPathsReturn (fn.Body.getD []) → checkFn fuel c fn = .ok c2.popScope) ∧
    (¬ allPathsReturn (fn.Body.getD []) →
      checkFn fuel c fn = .diag T.At "not all paths return a value") ∧
    (∀ (c3 c4 : checker) (pos : Pos) (value : Option Expr) (r : Bool),
      checkStmt fuel c3 (.ReturnStmt pos value) (some T) = .ok (r, c4) →
      ∃ e res, value = some e ∧ checkExpr c3 e = .ok res ∧
        TypeEqual res.ty (.named (some T)) = .ok true) ∧
    (∀ (c3 c4 : checker) (ret : Option NamedType) (pos : Pos) (cond : Expr) (body : List Stmt)
        (r : Bool),
      checkStmt fuel c3 (.WhileStmt pos cond body) ret = .ok (r, c4) → r = false) ∧
    (∀ (c3 c4 : checker) (p1 p2 p3 : Pos) (e1 e2 : Expr) (b1 b2 b3 : List Stmt) (r : Bool),
      checkStmt fuel c3
          (.IfStmt p1 e1 b1 (some (.IfStmt p2 e2 b2 (some (.BlockStmt p3 b3))))) (some T) =
        .ok (r, c4) →
      (r = true ↔ allPathsReturn b1 ∧ allPathsReturn b2 ∧ allPathsReturn b3)) := by
  have hiff := checkBlock_allPathsReturn hbody
  have hfn : checkFn fuel c fn =
      if !returns then .diag T.At "not all paths return a value" else .ok c2.popScope := by
    simp only [checkFn, hsig, hret, hbody]
  refine ⟨?_, ?_, ?_, ?_, ?_, ?_⟩
  · rw [hfn, ← hiff]
    cases returns <;> simp [Res.isOk]
  · intro h
    rw [hfn, hiff.2 h]; rfl
  · intro h
    have : returns = false := by
      cases returns with
      | false => rfl
      | true => exact (h (hiff.1 rfl)).elim
    rw [hfn, this]; rfl
  · intro c3 c4 pos value r h
    simp only [checkStmt] at h
    split at h
    · cases h
    · cases h
    · contradiction
    · rename_i T' e hh
      cases hh
      split at h
      · rename_i u hu
        refine ⟨e, ?_⟩
        unfold checkCoerce checkCoerceResult at hu
        split at hu
        · rename_i res hres
          refine ⟨res, rfl, hres, ?_⟩
          split at hu
          · cases hu
          · split at hu
            · rename_i ht; exact ht
            all_goals cases hu
        all_goals cases hu
      all_goals cases h
  · intro c3 c4 ret pos cond body r h
    have := checkStmt_returns fuel _ _ _ _ _ h
    cases r with
    | false => rfl
    | true =>
      have := this.1 rfl .falls (by simp [Stmt.paths])
      simp [PathEnd.isFall] at this
  · intro c3 c4 p1 p2 p3 e1 e2 b1 b2 b3 r h
    rw [checkStmt_allPathsReturn h]
    simp only [Stmt.paths, pathsElse, List.mem_append, allPathsReturn]
    constructor
    · intro hh
      exact ⟨fun p hp => hh p (Or.inl hp), fun p hp => hh p (Or.inr (Or.inl hp)),
        fun p hp => hh p (Or.inr (Or.inr hp))⟩
    · rintro ⟨h1, h2, h3⟩ p (hp | hp | hp)
      · exact h1 p hp
      · exact h2 p hp
      · exact h3 p hp

/-- C2 on `fn f(x: bool) i32 { if (x) { return 1; } }`: signature and
statements raise no diagnostic, the path that skips the if does not return,
and `checkFn` reports it at the return type. -/
theorem C2_checkFn_iff_all_paths_return_witness :
    missingReturnFn.Return = some (.mk ⟨⟨1, 15⟩, "i32"⟩ []) ∧
    (∃ c1 c2, checkFnSignature 8 (oneFnState missingReturnFn) missingReturnFn = .ok c1 ∧
      checkBlock 8 c1 (missingReturnFn.Body.getD [])
        (some (.mk ⟨⟨1, 15⟩, "i32"⟩ [])) = .ok (false, c2)) ∧
    ¬ allPathsReturn (missingReturnFn.Body.getD []) ∧
    checkFn 8 (oneFnState missingReturnFn) missingReturnFn =
      .diag ⟨1, 15⟩ "not all paths return a value" :=
  ⟨rfl, ⟨_, _, rfl, rfl⟩, by decide,
    (C2_checkFn_iff_all_paths_return 8 (oneFnState missingReturnFn) _ _
      missingReturnFn (.mk ⟨⟨1, 15⟩, "i32"⟩ []) false rfl rfl rfl).2.2.1
      (by decide)⟩

theorem GenExt.refl_gen (g : generator) : GenExt g g := ⟨rfl, ⟨[], by simp⟩, ⟨[], by simp⟩⟩

theorem GenExt.trans_gen {a b c : generator} (h1 : GenExt a b) (h2 : GenExt b c) : GenExt a c := by
  obtain ⟨s1, ⟨e1, i1⟩, ⟨x1, y1⟩⟩ := h1
  obtain ⟨s2, ⟨e2, i2⟩, ⟨x2, y2⟩⟩ := h2
  exact ⟨s2.trans s1, ⟨e1 ++ e2, by rw [i2, i1, List.append_assoc]⟩,
    ⟨x1 ++ x2, by rw [y2, y1, List.append_assoc]⟩⟩

mutual
theorem erasePos_length : ∀ (a : List NamedType), (erasePosArgs a).length = a.length
  | [] => by simp [erasePosArgs]
  | a :: as => by simp [erasePosArgs, erasePos_length as]
end

mutual
theorem TypeEqualNamed_erasePos : ∀ (a b : NamedType),
    TypeEqualNamed a.erasePos b.erasePos = TypeEqualNamed a b
  | .mk n1 a1, .mk n2 a2 => by
    simp only [NamedType.erasePos, TypeEqualNamed, erasePos_length]
    rw [TypeEqualArgs_erasePos a1 a2]
theorem TypeEqualArgs_erasePos : ∀ (a b : List NamedType),
    TypeEqualArgs (erasePosArgs a) (erasePosArgs b) = TypeEqualArgs a b
  | [], _ => by simp [erasePosArgs, TypeEqualArgs]
  | _ :: _, [] => by simp [erasePosArgs, TypeEqualArgs]
  | a :: as, b :: bs => by
    simp only [erasePosArgs, TypeEqualArgs]
    rw [TypeEqualNamed_erasePos a b, TypeEqualArgs_erasePos as bs]
end

mutual
theorem TypeEqualNamed_refl : ∀ (a : NamedType), TypeEqualNamed a a = .ok true
  | .mk n a => by
    simp only [TypeEqualNamed]
    simp [TypeEqualArgs_refl a]
theorem TypeEqualArgs_refl : ∀ (a : List NamedType), TypeEqualArgs a a = .ok true
  | [] => by simp [TypeEqualArgs]
  | a :: as => by
    simp only [TypeEqualArgs]
    rw [TypeEqualNamed_refl a]
    simp [TypeEqualArgs_refl as]
end

theorem TypeEqualNamed_congr_right (i t t2 : NamedType) (h : t2.erasePos = t.erasePos) :
    TypeEqualNamed i t2 = TypeEqualNamed i t := by
  rw [← TypeEqualNamed_erasePos i t2, h, TypeEqualNamed_erasePos]

theorem findInstance_congr (t t2 : NamedType) (h : t2.erasePos = t.erasePos) :
    ∀ l : List genericInstance, findInstance t2 l = findInstance t l
  | [] => by simp [findInstance]
  | i :: rest => by
    simp only [findInstance, TypeEqual]
    rw [TypeEqualNamed_congr_right i.ty t t2 h, findInstance_congr t t2 h rest]

theorem findInstance_append_some {t : NamedType} {name : String} :
    ∀ (l m : List genericInstance), findInstance t l = .ok (some name) →
      findInstance t (l ++ m) = .ok (some name)
  | [], m, h => by simp [findInstance] at h
  | i :: rest, m, h => by
    simp only [findInstance, List.cons_append] at h ⊢
    split at h
    · exact h
    · exact findInstance_append_some rest m h
    all_goals cases h

theorem findInstance_append_none {t : NamedType} :
    ∀ (l m : List genericInstance), findInstance t l = .ok none →
      findInstance t (l ++ m) = findInstance t m
  | [], m, h => by simp
  | i :: rest, m, h => by
    simp only [findInstance, List.cons_append] at h ⊢
    split at h
    · cases h
    · exact findInstance_append_none rest m h
    all_goals cases h

theorem findInstance_mem {t : NamedType} {name : String} :
    ∀ (l : List genericInstance), findInstance t l = .ok (some name) →
      ∃ inst ∈ l, inst.name = name ∧ TypeEqualNamed inst.ty t = .ok true
  | [], h => by simp [findInstance] at h
  | i :: rest, h => by
    simp only [findInstance] at h
    split at h
    · rename_i hf
      simp at h
      exact ⟨i, by simp, h, by simpa [TypeEqual] using hf⟩
    · obtain ⟨inst, hm, hh⟩ := findInstance_mem rest h
      exact ⟨inst, by simp [hm], hh⟩
    all_goals cases h

theorem erasePos_name {t t2 : NamedType} (h : t2.erasePos = t.erasePos) :
    t2.Name.Ident = t.Name.Ident := by
  cases t with
  | mk n a =>
    cases t2 with
    | mk n2 a2 =>
      simp only [NamedType.erasePos, NamedType.mk.injEq, Ident.mk.injEq] at h
      simp [NamedType.Name, h.1.2]

theorem genStructFields_ext {gt : generator → NamedType → Res (String × generator)}
    (hgt : ∀ g ty s g', gt g ty = .ok (s, g') → GenExt g g') {env : List (String × NamedType)} :
    ∀ (fs : List Param) (g : generator) (out out' : List (String × String)) (g' : generator),
      genStructFields gt env g out fs = .ok (out', g') → GenExt g g'
  | [], g, out, out', g', h => by
    simp [genStructFields] at h; rw [← h.2]; exact GenExt.refl_gen _
  | f :: rest, g, out, out', g', h => by
    simp only [genStructFields] at h
    split at h
    · split at h
      · rename_i cty g1 h1
        exact (hgt _ _ _ _ h1).trans_gen (genStructFields_ext hgt rest _ _ _ _ h)
      all_goals cases h
    all_goals cases h

theorem genStruct_ext {gt : generator → NamedType → Res (String × generator)}
    (hgt : ∀ g ty s g', gt g ty = .ok (s, g') → GenExt g g') {g g' : generator} {name : String}
    {decl : Option StructDecl} {args : List NamedType}
    (h : genStruct gt g name decl args = .ok g') :
    GenExt g g' ∧ ∃ pre item, g'.header = g.header ++ pre ++ [item] ∧ item.defines = some name := by
  unfold genStruct at h
  split at h
  · cases h
  · split at h
    · split at h
      · rename_i out g1 h1
        have e := genStructFields_ext hgt _ _ _ _ _ h1
        cases h
        obtain ⟨a, ⟨ie, i⟩, ⟨he, hh⟩⟩ := e
        refine ⟨⟨a, ⟨ie, i⟩, ⟨he ++ [.structDef name out], by simp [hh]⟩⟩,
          he, .structDef name out, by simp [hh], rfl⟩
      all_goals cases h
    all_goals cases h

theorem genSlice_ext {gt : generator → NamedType → Res (String × generator)}
    (hgt : ∀ g ty s g', gt g ty = .ok (s, g') → GenExt g g') {g g' : generator} {name : String}
    {eltype : NamedType} (h : genSlice gt g name eltype = .ok g') :
    GenExt g g' ∧ ∃ pre item, g'.header = g.header ++ pre ++ [item] ∧ item.defines = some name := by
  unfold genSlice at h
  split at h
  · rename_i cty g1 h1
    obtain ⟨a, ⟨ie, i⟩, ⟨he, hh⟩⟩ := hgt _ _ _ _ h1
    cases h
    refine ⟨⟨a, ⟨ie, i⟩, ⟨he ++ [.sliceDef name cty], by simp [hh]⟩⟩,
      he, .sliceDef name cty, by simp [hh], rfl⟩
  all_goals cases h

theorem genType_ok_cases {fuel : Nat} {g g' : generator} {ty : NamedType} {s : String}
    (h : genType fuel g ty = .ok (s, g')) :
    (g' = g ∧ (ty.Name.Ident = "u8" ∨ ty.Name.Ident = "i32" ∨ ty.Name.Ident = "bool")) ∨
    (ty.Name.Ident ≠ "u8" ∧ ty.Name.Ident ≠ "i32" ∧ ty.Name.Ident ≠ "bool" ∧
      ((∃ name, findInstance ty g.instances = .ok (some name) ∧ s = "struct " ++ name ∧ g' = g) ∨
       (∃ fuel', fuel = fuel' + 1 ∧ findInstance ty g.instances = .ok none ∧
          s = "struct " ++ ("ty" ++ toString g.counter) ∧
          ((∃ eltype rest, ty.Name.Ident = "slice" ∧ ty.Args = eltype :: rest ∧
              genSlice (genType fuel') (g.enter ty) ("ty" ++ toString g.counter) eltype =
                .ok g') ∨
            (ty.Name.Ident ≠ "slice" ∧
              genStruct (genType fuel') (g.enter ty) ("ty" ++ toString g.counter)
                (g.structs.lookup ty.Name.Ident) ty.Args = .ok g'))))) := by
  cases fuel with
  | zero => simp [genType] at h
  | succ fuel' =>
    simp only [genType] at h
    split at h
    · rename_i hp
      cases h
      exact Or.inl ⟨rfl, Or.inl hp⟩
    · split at h
      · rename_i hp
        cases h
        exact Or.inl ⟨rfl, Or.inr (Or.inl hp)⟩
      · split at h
        · rename_i hp
          cases h
          exact Or.inl ⟨rfl, Or.inr (Or.inr hp)⟩
        · rename_i hp1 hp2 hp3
          refine Or.inr ⟨hp1, hp2, hp3, ?_⟩
          split at h
          · rename_i name hf
            cases h
            exact Or.inl ⟨name, hf, rfl, rfl⟩
          · rename_i hf
            split at h
            · rename_i g2 hr
              cases h
              refine Or.inr ⟨fuel', rfl, hf, rfl, ?_⟩
              split at hr
              · rename_i hs
                split at hr
                · rename_i eltype rest ha
                  exact Or.inl ⟨eltype, rest, hs, ha, hr⟩
                · cases hr
              · rename_i hs
                exact Or.inr ⟨hs, hr⟩
            all_goals cases h
          all_goals cases h

theorem genType_ext : ∀ (fuel : Nat) (g : generator) (ty : NamedType) (s : String)
    (g' : generator), genType fuel g ty = .ok (s, g') → GenExt g g'
  | 0, _, _, _, _, h => by simp [genType] at h
  | fuel + 1, g, ty, s, g', h => by
    rcases genType_ok_cases h with ⟨rfl, _⟩ | ⟨_, _, _, hc⟩
    · exact GenExt.refl_gen _
    · rcases hc with ⟨name, _, _, rfl⟩ | ⟨fuel', hfu, _, _, hc⟩
      · exact GenExt.refl_gen _
      · cases hfu
        have key : ∀ g2 : generator, GenExt (g.enter ty) g2 → GenExt g g2 := by
          intro g2 ⟨a, ⟨ie, i⟩, hh⟩
          exact ⟨a, ⟨[⟨ty, "ty" ++ toString g.counter⟩] ++ ie, by simp [i, generator.enter]⟩, hh⟩
        rcases hc with ⟨eltype, rest, _, _, hr⟩ | ⟨_, hr⟩
        · exact key _ (genSlice_ext (genType_ext fuel) hr).1
        · exact key _ (genStruct_ext (genType_ext fuel) hr).1

/-- C3: monomorphization is idempotent. When `genType` has lowered a
non-primitive named type `t` to `s` in any generator state, the result is
`struct <name>` for the name under which an instance `TypeEqual` to `t` is
entered, and lowering `t` again, or any type that differs from `t` only in its
source positions, returns the same `s` and leaves the whole generator state
(instance list, counter, header, body) as it is. When `t` was not in the
instance list, the first call took the fresh name `ty<counter>` and ended by
writing the definition of that name to the header; the later calls write
nothing, so that one definition is the only one. -/
theorem C3_genType_idempotent (fuel : Nat) (g g1 : generator) (t : NamedType) (s : String)
    (hprim : t.Name.Ident ≠ "u8" ∧ t.Name.Ident ≠ "i32" ∧ t.Name.Ident ≠ "bool")
    (h : genType fuel g t = .ok (s, g1)) :
    (∀ (fuel2 : Nat) (t2 : NamedType), t2.erasePos = t.erasePos →
      genType (fuel2 + 1) g1 t2 = .ok (s, g1)) ∧
    (∃ inst ∈ g1.instances, s = "struct " ++ inst.name ∧
      TypeEqual (.named (some inst.ty)) (.named (some t)) = .ok true) ∧
    (findInstance t g.instances = .ok none →
      s = "struct ty" ++ toString g.counter ∧
      ∃ pre item, g1.header = g.header ++ pre ++ [item] ∧
        item.defines = some ("ty" ++ toString g.counter)) := by
  obtain ⟨p1, p2, p3⟩ := hprim
  have second : ∀ name, findInstance t g1.instances = .ok (some name) → s = "struct " ++ name →
      ∀ (fuel2 : Nat) (t2 : NamedType), t2.erasePos = t.erasePos →
        genType (fuel2 + 1) g1 t2 = .ok (s, g1) := by
    intro name hf hs fuel2 t2 he
    have hn := erasePos_name he
    simp only [genType, hn, p1, p2, p3, if_false, findInstance_congr t t2 he, hf, hs]
  rcases genType_ok_cases h with ⟨_, hp⟩ | ⟨_, _, _, hc⟩
  · rcases hp with hp | hp | hp <;> contradiction
  · rcases hc with ⟨name, hf, hs, rfl⟩ | ⟨fuel', hfu, hf, hs, hc⟩
    · refine ⟨second name hf hs, ?_, ?_⟩
      · obtain ⟨inst, hm, hn, ht⟩ := findInstance_mem _ hf
        exact ⟨inst, hm, by rw [hs, hn], by simpa [TypeEqual] using ht⟩
      · intro hnone
        rw [hnone] at hf
        cases hf
    · have hext : GenExt (g.enter t) g1 ∧
          ∃ pre item, g1.header = g.header ++ pre ++ [item] ∧
            item.defines = some ("ty" ++ toString g.counter) := by
        rcases hc with ⟨eltype, rest, _, _, hr⟩ | ⟨_, hr⟩
        · exact genSlice_ext (genType_ext fuel') hr
        · exact genStruct_ext (genType_ext fuel') hr
      obtain ⟨⟨_, ⟨ie, hi⟩, _⟩, hdef⟩ := hext
      simp only [generator.enter] at hi
      have hfind : findInstance t g1.instances = .ok (some ("ty" ++ toString g.counter)) := by
        rw [hi, List.append_assoc, findInstance_append_none _ _ hf]
        simp [findInstance, TypeEqual, TypeEqualNamed_refl]
      refine ⟨second _ hfind hs, ?_, ?_⟩
      · refine ⟨⟨t, "ty" ++ toString g.counter⟩, by simp [hi], hs, ?_⟩
        simp [TypeEqual, TypeEqualNamed_refl]
      · intro _
        refine ⟨?_, hdef⟩
        rw [hs, ← String.append_assoc]
        rfl

/-- C3 on `Box[i32]` in the module
`struct Box[T] { x: T }  fn f(a: Box[i32], b: Box[i32]) { }`: the first use is
lowered to `struct ty0`, the second use, at another position, to the same
name without any change of state, and the header of the module holds one
definition. -/
theorem C3_genType_idempotent_witness :
    ((boxUse 9).Name.Ident ≠ "u8" ∧ (boxUse 9).Name.Ident ≠ "i32" ∧
      (boxUse 9).Name.Ident ≠ "bool") ∧
    (∃ g1, genType 8 (initialGenerator boxModule "test.cata") (boxUse 9) =
        .ok ("struct ty0", g1) ∧
      genType 8 g1 (boxUse 22) = .ok ("struct ty0", g1)) ∧
    (GenModule 8 boxModule "test.cata").bind (fun g => .ok g.headerText) =
      .ok ("#include <stdint.h>\n\nstruct ty0 \x7b\n\tint32_t x;\n\x7d;\n\n" ++
        "void f(struct ty0 a, struct ty0 b);\n") :=
  ⟨by decide,
    ⟨_, rfl,
      (C3_genType_idempotent 8 (initialGenerator boxModule "test.cata") _ (boxUse 9)
        "struct ty0" (by decide) rfl).1 7 (boxUse 22) rfl⟩,
    by rfl⟩

theorem StructStep.refl_step {ds : List StructDecl} {c : checker} (h : StructInv ds c) :
    StructStep ds c c := ⟨rfl, h, fun _ h => h⟩

theorem StructStep.trans_step {ds : List StructDecl} {a b c : checker}
    (h1 : StructStep ds a b) (h2 : StructStep ds b c) : StructStep ds a c :=
  ⟨h2.structs.trans h1.structs, h2.inv, fun j h => h2.mono j (h1.mono j h)⟩

theorem sig_getElem? {ds es : List StructDecl}
    (h : es.map StructDecl.sig = ds.map StructDecl.sig) {j : Nat} {d : StructDecl}
    (hd : ds[j]? = some d) : ∃ e, es[j]? = some e ∧ e.sig = d.sig := by
  have := congrArg (fun l => l[j]?) h
  simp only [List.getElem?_map, hd, Option.map_some'] at this
  cases he : es[j]? with
  | none => simp [he] at this
  | some e => simp [he] at this; exact ⟨e, rfl, this⟩

theorem isDone_setStarted (c : checker) (i j : Nat) : (c.setStarted i).isDone j ↔ c.isDone j := by
  unfold checker.isDone checker.setStarted
  simp only [List.getElem?_modify]
  by_cases h : i = j
  · subst h
    cases hd : c.decls[i]? with
    | none => simp
    | some d => simp
  · simp [h]

theorem isDone_setDone (c : checker) (i j : Nat) :
    (c.setDone i).isDone j ↔ (c.isDone j ∨ (j = i ∧ i < c.decls.length)) := by
  unfold checker.isDone checker.setDone
  simp only [List.getElem?_modify]
  by_cases h : i = j
  · subst h
    cases hd : c.decls[i]? with
    | none =>
      have := List.getElem?_eq_none_iff.1 hd
      simp; omega
    | some d =>
      have : i < c.decls.length := by
        by_contra hh
        rw [List.getElem?_eq_none (by omega)] at hd
        cases hd
      simp [this]
  · simp [h]
    intro h1 h2; exact (h h1.symm).elim

theorem sig_modify_started (l : List StructDecl) (i : Nat) :
    (l.modify (fun d => { d with Started := true }) i).map StructDecl.sig =
      l.map StructDecl.sig := by
  apply List.ext_getElem?
  intro j
  simp only [List.getElem?_map, List.getElem?_modify]
  by_cases h : i = j
  · subst h; cases l[i]? <;> simp [StructDecl.sig]
  · simp [h]

theorem sig_modify_done (l : List StructDecl) (i : Nat) :
    (l.modify (fun d => { d with Done := true }) i).map StructDecl.sig =
      l.map StructDecl.sig := by
  apply List.ext_getElem?
  intro j
  simp only [List.getElem?_map, List.getElem?_modify]
  by_cases h : i = j
  · subst h; cases l[i]? <;> simp [StructDecl.sig]
  · simp [h]

theorem namesDone_mono {ds : List StructDecl} {c c' : checker} {ty : NamedType}
    (h : StructStep ds c c') (hn : namesDone c ty) : namesDone c' ty := by
  intro N hN j hj
  rw [h.structs] at hj
  exact h.mono j (hn N hN j hj)

theorem checkTypeArgs_struct {ds : List StructDecl} {ct : checker → NamedType → Res checker}
    (hct : ∀ c ty c', StructInv ds c → ct c ty = .ok c' → StructStep ds c c' ∧ namesDone c' ty) :
    ∀ (args : List NamedType) (c c' : checker), StructInv ds c →
      checkTypeArgs ct c args = .ok c' →
      StructStep ds c c' ∧ ∀ a ∈ args, namesDone c' a
  | [], c, c', hi, h => by
    simp [checkTypeArgs] at h; subst h; exact ⟨StructStep.refl_step hi, by simp⟩
  | a :: rest, c, c', hi, h => by
    simp only [checkTypeArgs] at h
    split at h
    · rename_i c1 h1
      obtain ⟨s1, n1⟩ := hct _ _ _ hi h1
      obtain ⟨s2, n2⟩ := checkTypeArgs_struct hct rest _ _ s1.inv h
      refine ⟨s1.trans_step s2, ?_⟩
      intro x hx
      simp only [List.mem_cons] at hx
      rcases hx with rfl | hx
      · exact namesDone_mono s2 n1
      · exact n2 x hx
    · rename_i o ho
      exact (ho _ h).elim

theorem checkStructFields_struct {ds : List StructDecl} {ct : checker → NamedType → Res checker}
    (hct : ∀ c ty c', StructInv ds c → ct c ty = .ok c' → StructStep ds c c' ∧ namesDone c' ty) :
    ∀ (fs : List Param) (c c' : checker) (seen : List String), StructInv ds c →
      checkStructFields ct c seen fs = .ok c' →
      StructStep ds c c' ∧ ∀ f ∈ fs, namesDone c' f.Ty
  | [], c, c', seen, hi, h => by
    simp [checkStructFields] at h; subst h; exact ⟨StructStep.refl_step hi, by simp⟩
  | a :: rest, c, c', seen, hi, h => by
    simp only [checkStructFields] at h
    split at h
    · cases h
    · split at h
      · rename_i c1 h1
        obtain ⟨s1, n1⟩ := hct _ _ _ hi h1
        obtain ⟨s2, n2⟩ := checkStructFields_struct hct rest _ _ _ s1.inv h
        refine ⟨s1.trans_step s2, ?_⟩
        intro x hx
        simp only [List.mem_cons] at hx
        rcases hx with rfl | hx
        · exact namesDone_mono s2 n1
        · exact n2 x hx
      · rename_i o ho
        exact (ho _ h).elim

theorem checkStructWith_struct {ds : List StructDecl} {ct : checker → NamedType → Res checker}
    (hct : ∀ c ty c', StructInv ds c → ct c ty = .ok c' → StructStep ds c c' ∧ namesDone c' ty)
    {c c' : checker} {decl : Nat} (hi : StructInv ds c)
    (h : checkStructWith ct c decl = .ok c') : StructStep ds c c' ∧ c'.isDone decl := by
  unfold checkStructWith at h
  split at h
  · cases h
  · rename_i d hd
    split at h
    · rename_i hdone
      cases h
      exact ⟨StructStep.refl_step hi, d, hd, hdone⟩
    · split at h
      · cases h
      · split at h
        · rename_i c1 h1
          simp only at h
          split at h
          · cases h
          · split at h
            · rename_i c3 h3
              cases h
              obtain ⟨hs1, hd1, _, _, _⟩ := checkStructParams_ok h1
              simp only [checker.newScope] at hs1 hd1
              -- the state in which the fields are checked
              have hi2 : StructInv ds (c1.setStarted decl) := by
                refine ⟨?_, ?_, ?_⟩
                · simp only [checker.setStarted, sig_modify_started, hd1]; exact hi.sig
                · intro j dj hj
                  simp only [checker.setStarted, hs1]; exact hi.map1 j dj hj
                · intro j hj
                  rw [isDone_setStarted] at hj
                  apply hi.acc
                  obtain ⟨e, he, hdn⟩ := hj
                  exact ⟨e, by rw [← hd1]; exact he, hdn⟩
              obtain ⟨s3, n3⟩ := checkStructFields_struct hct _ _ _ _ hi2 h3
              have hlen : decl < c3.decls.length := by
                have h1 := congrArg List.length s3.inv.sig
                have h2 := congrArg List.length hi.sig
                simp only [List.length_map] at h1 h2
                have : decl < c.decls.length := by
                  by_contra hh
                  rw [List.getElem?_eq_none (by omega)] at hd
                  cases hd
                omega
              have hstructs : c3.structs = c.structs := by
                rw [s3.structs]; simp only [checker.setStarted, hs1]
              have hmono : ∀ j, c.isDone j → c3.isDone j := by
                intro j hj
                apply s3.mono
                rw [isDone_setStarted]
                obtain ⟨e, he, hdn⟩ := hj
                exact ⟨e, by rw [hd1]; exact he, hdn⟩
              refine ⟨⟨?_, ⟨?_, ?_, ?_⟩, ?_⟩, ?_⟩
              · simp only [checker.setDone, checker.popScope]; exact hstructs
              · simp only [checker.setDone, checker.popScope, sig_modify_done]; exact s3.inv.sig
              · intro j dj hj
                simp only [checker.setDone, checker.popScope]
                rw [hstructs]; exact hi.map1 j dj hj
              · intro j hj
                have hj' : (c3.setDone decl).isDone j := hj
                rw [isDone_setDone] at hj'
                rcases hj' with hj' | ⟨rfl, _⟩
                · exact s3.inv.acc j hj'
                · constructor
                  intro k hk
                  obtain ⟨d0, dk, h0, hkk, f, hf, hname⟩ := hk
                  apply s3.inv.acc
                  -- the fields of `d0` are those of `d`
                  obtain ⟨e, he, hsig⟩ := sig_getElem? hi.sig h0
                  rw [hd] at he
                  cases he
                  have hfields : d0.Fields = d.Fields := by
                    simp only [StructDecl.sig, Prod.mk.injEq] at hsig
                    exact hsig.2.2.symm
                  rw [hfields] at hf
                  apply n3 f hf _ hname
                  rw [hstructs]
                  exact hi.map1 k dk hkk
              · intro j hj
                have : (c3.setDone decl).isDone j := by
                  rw [isDone_setDone]; exact Or.inl (hmono j hj)
                exact this
              · have : (c3.setDone decl).isDone decl := by
                  rw [isDone_setDone]; exact Or.inr ⟨rfl, hlen⟩
                exact this
            · rename_i o ho
              exact (ho _ h).elim
        · rename_i o ho
          exact (ho _ h).elim

theorem typeNames_mk (n : Ident) (args : List NamedType) (N : String) :
    N ∈ typeNames (.mk n args) ↔ N = n.Ident ∨ ∃ a ∈ args, N ∈ typeNames a := by
  simp only [typeNames, List.mem_cons]
  have : ∀ l : List NamedType, N ∈ typeNamesArgs l ↔ ∃ a ∈ l, N ∈ typeNames a := by
    intro l
    induction l with
    | nil => simp [typeNamesArgs]
    | cons a rest ih => simp [typeNamesArgs, ih]
  rw [this]

theorem checkType_struct {ds : List StructDecl} : ∀ (fuel : Nat) (c : checker) (ty : NamedType)
    (c' : checker), StructInv ds c → checkType fuel c ty = .ok c' →
    StructStep ds c c' ∧ namesDone c' ty
  | 0, _, _, _, _, h => by simp [checkType] at h
  | fuel + 1, c, ty, c', hi, h => by
    simp only [checkType] at h
    split at h
    · cases h
    · split at h
      · cases h
      · split at h
        · rename_i c1 h1
          obtain ⟨s1, n1⟩ := checkTypeArgs_struct (checkType_struct fuel) _ _ _ hi h1
          cases ty with
          | mk name args =>
            simp only [NamedType.Name, NamedType.Args] at h h1 n1
            split at h
            · rename_i st hst
              obtain ⟨s2, hdone⟩ := checkStructWith_struct (checkType_struct fuel) s1.inv h
              refine ⟨s1.trans_step s2, ?_⟩
              intro N hN j hj
              rw [typeNames_mk] at hN
              rcases hN with rfl | ⟨a, ha, hN⟩
              · rw [s2.structs, hst] at hj
                cases hj
                exact hdone
              · exact namesDone_mono s2 (n1 a ha) N hN j hj
            · rename_i hst
              cases h
              refine ⟨s1, ?_⟩
              intro N hN j hj
              rw [typeNames_mk] at hN
              rcases hN with rfl | ⟨a, ha, hN⟩
              · rw [hst] at hj; cases hj
              · exact n1 a ha N hN j hj
        · rename_i o ho
          exact (ho _ h).elim

theorem findType_addType {s s' : List scope} {n : String} {t : GenericType}
    (h : addType s n t = .ok s') (N : String) :
    findType s' N = if N = n then some t else findType s N := by
  obtain ⟨_, sc, parent, rfl, rfl⟩ := addType_ok h
  simp only [findType, List.lookup_cons]
  by_cases hN : N = n
  · simp [hN]
  · have : (N == n) = false := by simpa using hN
    simp [this, hN]

theorem addStructs_lookup : ∀ (sts : List StructDecl) (c c' : checker) (i : Nat),
    addStructs c i sts = .ok c' →
    (∀ N, (c.structs.lookup N).isSome = true → (findType c.scope N).isSome = true) →
    c'.decls = c.decls ∧
    (∀ k d, sts[k]? = some d → c'.structs.lookup d.Name.Ident = some (i + k)) ∧
    (∀ N j, c.structs.lookup N = some j → c'.structs.lookup N = some j)
  | [], c, c', i, h, _ => by
    simp [addStructs] at h; subst h; simp
  | st :: rest, c, c', i, h, hc => by
    simp only [addStructs] at h
    split at h
    · cases h
    · rename_i hfresh
      split at h
      · rename_i s hs
        have hft := findType_addType hs
        have hnew : ∀ N, ((List.lookup N ((st.Name.Ident, i) :: c.structs)).isSome = true) →
            (findType s N).isSome = true := by
          intro N hN
          rw [hft]
          by_cases hNn : N = st.Name.Ident
          · simp [hNn]
          · have : (N == st.Name.Ident) = false := by simpa using hNn
            simp only [List.lookup_cons, this] at hN
            simp only [hNn, if_false]
            exact hc N hN
        obtain ⟨a, b, d⟩ := addStructs_lookup rest _ c' (i + 1) h hnew
        have hkeep : ∀ N j, c.structs.lookup N = some j →
            List.lookup N ((st.Name.Ident, i) :: c.structs) = some j := by
          intro N j hj
          have hNn : N ≠ st.Name.Ident := by
            intro e
            subst e
            have := hc _ (by rw [hj]; rfl)
            exact hfresh this
          have : (N == st.Name.Ident) = false := by simpa using hNn
          simp only [List.lookup_cons, this]
          exact hj
        refine ⟨a, ?_, ?_⟩
        · intro k dk hk
          cases k with
          | zero =>
            simp only [List.getElem?_cons_zero, Option.some.injEq] at hk
            subst hk
            apply d
            simp [List.lookup_cons]
          | succ k =>
            simp only [List.getElem?_cons_succ] at hk
            have := b k dk hk
            rw [this]
            congr 1
            omega
        · intro N j hj
          exact d N j (hkeep N j hj)
      all_goals cases h

theorem checkStructs_struct {ds : List StructDecl} (fuel : Nat) :
    ∀ (n : Nat) (c c' : checker) (i : Nat), StructInv ds c →
      checkStructs fuel c i n = .ok c' →
      StructStep ds c c' ∧ ∀ j, i ≤ j → j < i + n → c'.isDone j
  | 0, c, c', i, hi, h => by
    simp [checkStructs] at h; subst h
    exact ⟨StructStep.refl_step hi, fun j h1 h2 => by omega⟩
  | n + 1, c, c', i, hi, h => by
    simp only [checkStructs, checkStruct] at h
    split at h
    · rename_i c1 h1
      obtain ⟨s1, d1⟩ := checkStructWith_struct (checkType_struct fuel) hi h1
      obtain ⟨s2, d2⟩ := checkStructs_struct fuel n _ _ (i + 1) s1.inv h
      refine ⟨s1.trans_step s2, ?_⟩
      intro j hj1 hj2
      by_cases hji : j = i
      · subst hji; exact s2.mono _ d1
      · exact d2 j (by omega) (by omega)
    · rename_i o ho
      exact (ho _ h).elim

theorem primitiveScope_eq :
    primitiveScope =
      .ok [⟨[], [("slice", ⟨["eltype"]⟩), ("bool", ⟨[]⟩), ("i32", ⟨[]⟩), ("u8", ⟨[]⟩)]⟩] := by
  rfl

/-- After the two struct loops of `CheckModule` every struct of a parsed
module is finished and the invariant holds. -/
theorem checkModuleStructs_struct {fuel : Nat} {m : Module} {c : checker}
    (hp : m.parsed) (h : checkModuleStructs fuel m = .ok c) :
    StructInv m.Structs c ∧ ∀ j, j < m.Structs.length → c.isDone j := by
  unfold checkModuleStructs at h
  obtain ⟨s, hs, h⟩ := Res.bind_eq_ok h
  obtain ⟨c1, hc1, h⟩ := Res.bind_eq_ok h
  obtain ⟨hdecls, hlook, _⟩ := addStructs_lookup _ _ _ _ hc1 (by simp)
  simp only at hdecls
  have hi : StructInv m.Structs c1 := by
    refine ⟨by rw [hdecls], ?_, ?_⟩
    · intro j d hj
      have := hlook j d hj
      simpa using this
    · intro j ⟨d, hd, hdone⟩
      rw [hdecls] at hd
      have := (hp d (List.getElem?_mem hd)).2
      rw [this] at hdone
      cases hdone
  obtain ⟨s2, d2⟩ := checkStructs_struct fuel _ _ _ 0 hi h
  exact ⟨s2.inv, fun j hj => d2 j (by omega) (by omega)⟩

theorem acc_not_self {α : Type} {r : α → α → Prop} {a : α} (h : Acc r a) : ¬ r a a := by
  induction h with
  | intro x _ ih => exact fun hr => ih x hr hr

theorem acc_no_cycle {α : Type} {r : α → α → Prop} {a : α} (h : Acc r a) :
    ¬ Relation.TransGen r a a :=
  acc_not_self h.transGen

theorem transGen_swap {α : Type} {r : α → α → Prop} {a b : α}
    (h : Relation.TransGen r a b) : Relation.TransGen (fun x y => r y x) b a := by
  induction h with
  | single h => exact Relation.TransGen.single h
  | tail _ h ih => exact Relation.TransGen.head h ih

/-- A chain of mentions between struct names is a chain between the
declarations found under these names. -/
theorem mentions_transGen_at {m : Module} {structs : List (String × Nat)}
    (hmap : ∀ j d, m.Structs[j]? = some d → structs.lookup d.Name.Ident = some j)
    {S R : String} (h : Relation.TransGen m.mentions S R) :
    ∃ i j, structs.lookup S = some i ∧ structs.lookup R = some j ∧
      Relation.TransGen (mentionsAt m.Structs) i j := by
  have step : ∀ {S R : String}, m.mentions S R →
      ∃ i j, structs.lookup S = some i ∧ structs.lookup R = some j ∧
        mentionsAt m.Structs i j := by
    intro S R ⟨⟨d, hd, hS, f, hf, hR⟩, d', hd', hR'⟩
    obtain ⟨i, hi⟩ := List.getElem?_of_mem hd
    obtain ⟨j, hj⟩ := List.getElem?_of_mem hd'
    refine ⟨i, j, ?_, ?_, d, d', hi, hj, f, hf, ?_⟩
    · rw [← hS]; exact hmap i d hi
    · rw [← hR']; exact hmap j d' hj
    · rw [hR']; exact hR
  induction h with
  | single h =>
    obtain ⟨i, j, h1, h2, h3⟩ := step h
    exact ⟨i, j, h1, h2, Relation.TransGen.single h3⟩
  | tail _ h ih =>
    obtain ⟨i, j, h1, h2, h3⟩ := ih
    obtain ⟨j', k, h4, h5, h6⟩ := step h
    rw [h2] at h4
    cases h4
    exact ⟨i, k, h1, h5, Relation.TransGen.tail h3 h6⟩

theorem checkModuleStructs_acyclic {fuel : Nat} {m : Module} {c : checker}
    (hp : m.parsed) (h : checkModuleStructs fuel m = .ok c) (S : String) :
    ¬ Relation.TransGen m.mentions S S := by
  obtain ⟨hi, hdone⟩ := checkModuleStructs_struct hp h
  intro hcyc
  obtain ⟨i, j, h1, h2, h3⟩ := mentions_transGen_at hi.map1 hcyc
  rw [h1] at h2
  cases h2
  have hlt : i < m.Structs.length := by
    cases h3 with
    | single h => obtain ⟨d, _, hd, _⟩ := h; exact (List.getElem?_eq_some_iff.1 hd).1
    | tail _ h => obtain ⟨_, d, _, hd, _⟩ := h; exact (List.getElem?_eq_some_iff.1 hd).1
  exact acc_no_cycle (hi.acc i (hdone i hlt)) (transGen_swap h3)

theorem msg_ne_recursive (s t : String) (c : Char) (hs : s.data.head? = some c) (hc : c ≠ 'r') :
    s ++ t ≠ recursiveMsg := by
  intro e
  have := congrArg (fun x => x.data.head?) e
  simp only [String.data_append] at this
  cases hd : s.data with
  | nil => rw [hd] at hs; cases hs
  | cons a rest =>
    rw [hd] at hs this
    simp only [List.head?_cons, Option.some.injEq] at hs
    subst hs
    simp only [List.cons_append, List.head?_cons, recursiveMsg] at this
    injection this with h
    exact hc h

theorem isGray_setStarted (c : checker) (i j : Nat) :
    (c.setStarted i).isGray j ↔
      (c.isGray j ∨ (j = i ∧ ∃ d, c.decls[i]? = some d ∧ d.Done = false)) := by
  unfold checker.isGray checker.setStarted
  simp only [List.getElem?_modify]
  by_cases h : i = j
  · subst h
    cases hd : c.decls[i]? with
    | none => simp
    | some d => simp
  · simp [h]
    intro h1; exact (h h1.symm).elim

theorem isGray_setDone (c : checker) (i j : Nat) :
    (c.setDone i).isGray j ↔ (c.isGray j ∧ j ≠ i) := by
  unfold checker.isGray checker.setDone
  simp only [List.getElem?_modify]
  by_cases h : i = j
  · subst h
    cases hd : c.decls[i]? with
    | none => simp
    | some d => simp
  · simp [h]
    intro _ _ _ _ e; exact h e.symm

theorem checkStructParams_good : ∀ (ps : List Ident) (c : checker), c.scope ≠ [] →
    (checkStructParams c ps).harmless
  | [], c, _ => by simp [checkStructParams, Res.harmless]
  | p :: rest, c, hne => by
    by_cases hf : (findType c.scope p.Ident).isSome = true
    · simp only [checkStructParams, hf, if_true, Res.harmless]
      rw [String.append_assoc]
      exact msg_ne_recursive _ _ 'd' (by rfl) (by decide)
    · have : ∃ s, addType c.scope p.Ident ⟨[]⟩ = .ok s ∧ s ≠ [] := by
        unfold addType
        simp only [hf]
        cases hs : c.scope with
        | nil => exact (hne hs).elim
        | cons sc parent => exact ⟨_, rfl, by simp⟩
      obtain ⟨s, hs, hs2⟩ := this
      simp only [checkStructParams, hf, hs]
      exact checkStructParams_good rest _ hs2

theorem chain_reach_last {ds : List StructDecl} :
    ∀ (stk : List Nat) (x top : Nat), List.Chain' (mentionsAt ds) stk → x ∈ stk →
      stk.getLast? = some top → Relation.ReflTransGen (mentionsAt ds) x top
  | [], _, _, _, hx, _ => by cases hx
  | [a], x, top, _, hx, ht => by
    simp at hx ht
    subst hx ht
    exact Relation.ReflTransGen.refl
  | a :: b :: rest, x, top, hc, hx, ht => by
    have hc' := List.chain'_cons.1 hc
    have ht' : (b :: rest).getLast? = some top := by
      simpa [List.getLast?_cons_cons] using ht
    have ih := chain_reach_last (b :: rest) b top hc'.2 (by simp) ht'
    simp only [List.mem_cons] at hx
    rcases hx with rfl | hx
    · exact Relation.ReflTransGen.head hc'.1 ih
    · exact chain_reach_last (b :: rest) x top hc'.2 (by simpa using hx) ht'

theorem stack_length_le {n : Nat} {stk : List Nat} (hn : stk.Nodup) (hb : ∀ j ∈ stk, j < n) :
    stk.length ≤ n := by
  have h1 : stk.toFinset ⊆ Finset.range n := by
    intro x hx
    simp only [List.mem_toFinset] at hx
    simpa using hb x hx
  have h2 := Finset.card_le_card h1
  rw [List.toFinset_card_of_nodup hn] at h2
  simpa using h2

theorem Good_of_harmless {ds : List StructDecl} {stk : List Nat} {p : Pos} {msg : String}
    (h : msg ≠ recursiveMsg) : Good ds stk (.diag p msg) := fun e => (h e).elim

theorem checkTypeArgs_good {ds : List StructDecl} {stk : List Nat}
    {ct : checker → NamedType → Res checker} {P : NamedType → Prop}
    (hcs : ∀ c ty c', StructInv ds c → ct c ty = .ok c' → StructStep ds c c' ∧ namesDone c' ty)
    (hct : ∀ c ty, StructInv ds c → MapInv ds c.structs → StackInv ds c stk →
      Reach ds c.structs stk ty → P ty → Good ds stk (ct c ty)) :
    ∀ (args : List NamedType) (c : checker), StructInv ds c → MapInv ds c.structs →
      StackInv ds c stk →
      (∀ a ∈ args, Reach ds c.structs stk a ∧ P a) → Good ds stk (checkTypeArgs ct c args)
  | [], c, _, _, hs, _ => by simpa [checkTypeArgs, Good] using hs
  | a :: rest, c, hi, hm, hs, hall => by
    have g := hct c a hi hm hs (hall a (by simp)).1 (hall a (by simp)).2
    simp only [checkTypeArgs]
    cases hr : ct c a with
    | ok c1 =>
      rw [hr] at g
      obtain ⟨s1, _⟩ := hcs _ _ _ hi hr
      simp only
      apply checkTypeArgs_good hcs hct rest c1 s1.inv (by rw [s1.structs]; exact hm) g
      intro x hx
      rw [s1.structs]
      exact hall x (by simp [hx])
    | diag p m => rw [hr] at g; exact g
    | panic m => rw [hr] at g; exact g
    | nofuel => rw [hr] at g; exact g

theorem checkStructFields_good {ds : List StructDecl} {stk : List Nat}
    {ct : checker → NamedType → Res checker} {P : NamedType → Prop}
    (hcs : ∀ c ty c', StructInv ds c → ct c ty = .ok c' → StructStep ds c c' ∧ namesDone c' ty)
    (hct : ∀ c ty, StructInv ds c → MapInv ds c.structs → StackInv ds c stk →
      Reach ds c.structs stk ty → P ty → Good ds stk (ct c ty)) :
    ∀ (fs : List Param) (c : checker) (seen : List String), StructInv ds c →
      MapInv ds c.structs → StackInv ds c stk →
      (∀ f ∈ fs, Reach ds c.structs stk f.Ty ∧ P f.Ty) →
      Good ds stk (checkStructFields ct c seen fs)
  | [], c, _, _, _, hs, _ => by simpa [checkStructFields, Good] using hs
  | a :: rest, c, seen, hi, hm, hs, hall => by
    have g := hct c a.Ty hi hm hs (hall a (by simp)).1 (hall a (by simp)).2
    simp only [checkStructFields]
    split
    · rw [String.append_assoc]
      exact Good_of_harmless (msg_ne_recursive _ _ 'd' (by rfl) (by decide))
    · cases hr : ct c a.Ty with
      | ok c1 =>
        rw [hr] at g
        obtain ⟨s1, _⟩ := hcs _ _ _ hi hr
        simp only
        apply checkStructFields_good hcs hct rest c1 _ s1.inv (by rw [s1.structs]; exact hm) g
        intro x hx
        rw [s1.structs]
        exact hall x (by simp [hx])
      | diag p m => rw [hr] at g; exact g
      | panic m => rw [hr] at g; exact g
      | nofuel => rw [hr] at g; exact g

theorem structInv_setStarted {ds : List StructDecl} {c c1 : checker} {decl : Nat}
    (hi : StructInv ds c) (hs1 : c1.structs = c.structs) (hd1 : c1.decls = c.decls) :
    StructInv ds (c1.setStarted decl) := by
  refine ⟨?_, ?_, ?_⟩
  · simp only [checker.setStarted, sig_modify_started, hd1]; exact hi.sig
  · intro j dj hj
    simp only [checker.setStarted, hs1]; exact hi.map1 j dj hj
  · intro j hj
    rw [isDone_setStarted] at hj
    apply hi.acc
    obtain ⟨e, he, hdn⟩ := hj
    exact ⟨e, by rw [← hd1]; exact he, hdn⟩

theorem checkStructWith_good {ds : List StructDecl} {stk : List Nat} {decl : Nat}
    {ct : checker → NamedType → Res checker} {P : NamedType → Prop}
    (hcs : ∀ c ty c', StructInv ds c → ct c ty = .ok c' → StructStep ds c c' ∧ namesDone c' ty)
    (hct : ∀ c ty, StructInv ds c → MapInv ds c.structs → StackInv ds c (stk ++ [decl]) →
      Reach ds c.structs (stk ++ [decl]) ty → P ty → Good ds (stk ++ [decl]) (ct c ty))
    (hP : decl ∉ stk → ∀ d, ds[decl]? = some d → ∀ f ∈ d.Fields, P f.Ty)
    {c : checker} (hi : StructInv ds c) (hm : MapInv ds c.structs) (hs : StackInv ds c stk)
    (hreach : ∀ top, stk.getLast? = some top → mentionsAt ds top decl)
    (hvalid : decl < ds.length) : Good ds stk (checkStructWith ct c decl) := by
  obtain ⟨d0, hd0⟩ : ∃ d0, ds[decl]? = some d0 := ⟨ds[decl], List.getElem?_eq_getElem hvalid⟩
  obtain ⟨d, hd, hsig⟩ := sig_getElem? hi.sig hd0
  simp only [StructDecl.sig, Prod.mk.injEq] at hsig
  obtain ⟨hname, hparams, hfields⟩ := hsig
  unfold checkStructWith
  simp only [hd]
  by_cases hdone : d.Done = true
  · simpa [hdone, Good] using hs
  · simp only [hdone, if_false]
    by_cases hstarted : d.Started = true
    · simp only [hstarted, if_true, Good]
      intro _
      have hgray : decl ∈ stk := (hs.gray decl).1 ⟨d, hd, hstarted, by simpa using hdone⟩
      cases hl : stk.getLast? with
      | none => rw [List.getLast?_eq_none_iff] at hl; rw [hl] at hgray; cases hgray
      | some top =>
        have h1 := chain_reach_last stk decl top hs.chain hgray hl
        exact ⟨decl, d0, hd0, by rw [← hname], Relation.TransGen.tail' h1 (hreach top hl)⟩
    · simp only [hstarted, if_false]
      have hnot : decl ∉ stk := by
        intro hmem
        obtain ⟨e, he, hst, _⟩ := (hs.gray decl).2 hmem
        rw [hd] at he; cases he
        exact hstarted hst
      have hp := checkStructParams_good d.Params c.newScope (by simp [checker.newScope, newScope])
      cases h1 : checkStructParams c.newScope d.Params with
      | diag p m => rw [h1] at hp; exact Good_of_harmless hp
      | panic m => rw [h1] at hp; exact hp.elim
      | nofuel => rw [h1] at hp; exact hp.elim
      | ok c1 =>
        obtain ⟨hs1, hd1, _, _, _⟩ := checkStructParams_ok h1
        simp only [checker.newScope] at hs1 hd1
        simp only
        by_cases hlen : d.Fields.length = 0
        · simp only [hlen, if_true]
          exact Good_of_harmless (msg_ne_recursive "struct must have at least one field" "" 's'
            (by rfl) (by decide))
        · simp only [hlen, if_false]
          have hi2 : StructInv ds (c1.setStarted decl) := structInv_setStarted hi hs1 hd1
          have hs2 : StackInv ds (c1.setStarted decl) (stk ++ [decl]) := by
            refine ⟨?_, ?_, ?_⟩
            · intro j
              rw [isGray_setStarted, List.mem_append, List.mem_singleton, ← hs.gray j]
              unfold checker.isGray
              rw [hd1]
              constructor
              · rintro (h | ⟨h, _⟩)
                · exact Or.inl h
                · exact Or.inr h
              · rintro (h | h)
                · exact Or.inl h
                · exact Or.inr ⟨h, d, hd, by simpa using hdone⟩
            · apply List.Chain'.append hs.chain (List.chain'_singleton _)
              intro x hx y hy
              simp only [List.head?_cons, Option.mem_def, Option.some.injEq] at hy
              subst hy
              exact hreach x hx
            · rw [List.nodup_append]
              refine ⟨hs.nodup, List.nodup_singleton _, ?_⟩
              intro x hx hx2
              simp only [List.mem_singleton] at hx2
              subst hx2
              exact hnot hx
          have hall : ∀ f ∈ d.Fields,
              Reach ds (c1.setStarted decl).structs (stk ++ [decl]) f.Ty ∧ P f.Ty := by
            intro f hf
            refine ⟨?_, hP hnot d0 hd0 f (by rw [← hfields]; exact hf)⟩
            intro top htop N hN j hj
            have hlast : (stk ++ [decl]).getLast? = some decl := by simp
            rw [hlast] at htop
            cases htop
            simp only [checker.setStarted, hs1] at hj
            obtain ⟨dj, hdj, hnj⟩ := hm N j hj
            exact ⟨d0, dj, hd0, hdj, f, by rw [← hfields]; exact hf, by rw [hnj]; exact hN⟩
          have hm2 : MapInv ds (c1.setStarted decl).structs := by
            simp only [checker.setStarted, hs1]; exact hm
          have g := checkStructFields_good hcs hct d.Fields _ [] hi2 hm2 hs2 hall
          cases h3 : checkStructFields ct (c1.setStarted decl) [] d.Fields with
          | diag p m => rw [h3] at g; exact g
          | panic m => rw [h3] at g; exact g.elim
          | nofuel => rw [h3] at g; exact g.elim
          | ok c3 =>
            rw [h3] at g
            simp only [Good] at g ⊢
            refine ⟨?_, hs.chain, hs.nodup⟩
            intro j
            have : (c3.popScope.setDone decl).isGray j ↔ (c3.isGray j ∧ j ≠ decl) :=
              isGray_setDone c3.popScope decl j
            rw [this, g.gray j, List.mem_append, List.mem_singleton]
            constructor
            · rintro ⟨h | h, hne⟩
              · exact h
              · exact (hne h).elim
            · intro h
              exact ⟨Or.inl h, fun e => hnot (e ▸ h)⟩

theorem depthArgs_mem : ∀ (args : List NamedType) (a : NamedType), a ∈ args →
    a.depth + 1 ≤ depthArgs args
  | [], _, h => by cases h
  | b :: rest, a, h => by
    simp only [depthArgs]
    simp only [List.mem_cons] at h
    rcases h with rfl | h
    · exact le_max_left _ _
    · exact le_trans (depthArgs_mem rest a h) (le_max_right _ _)

theorem foldr_max_mem : ∀ (l : List Nat) (x : Nat), x ∈ l → x ≤ l.foldr max 0
  | [], _, h => by cases h
  | b :: rest, x, h => by
    simp only [List.foldr_cons]
    simp only [List.mem_cons] at h
    rcases h with rfl | h
    · exact le_max_left _ _
    · exact le_trans (foldr_max_mem rest x h) (le_max_right _ _)

theorem fieldDepth_mem {ds : List StructDecl} {d : StructDecl} {f : Param} (hd : d ∈ ds)
    (hf : f ∈ d.Fields) : f.Ty.depth + 1 ≤ fieldDepth ds := by
  have h1 : f.Ty.depth + 1 ≤ depthArgs (d.Fields.map (fun f => f.Ty)) :=
    depthArgs_mem _ _ (List.mem_map.2 ⟨f, hf, rfl⟩)
  have h2 : depthArgs (d.Fields.map (fun f => f.Ty)) ≤ fieldDepth ds :=
    foldr_max_mem _ _ (List.mem_map.2 ⟨d, hd, rfl⟩)
  exact le_trans h1 h2

theorem stackInv_lt {ds : List StructDecl} {c : checker} {stk : List Nat}
    (hi : StructInv ds c) (hs : StackInv ds c stk) : ∀ j ∈ stk, j < ds.length := by
  intro j hj
  obtain ⟨d, hd, _⟩ := (hs.gray j).2 hj
  have h1 := (List.getElem?_eq_some_iff.1 hd).1
  have h2 := congrArg List.length hi.sig
  simp only [List.length_map] at h2
  omega

theorem checkType_good {ds : List StructDecl} : ∀ (fuel : Nat) (stk : List Nat) (c : checker)
    (ty : NamedType), StructInv ds c → MapInv ds c.structs → StackInv ds c stk →
    Reach ds c.structs stk ty →
    (ds.length - stk.length) * (fieldDepth ds + 1) + ty.depth < fuel →
    Good ds stk (checkType fuel c ty)
  | 0, _, _, _, _, _, _, _, h => by omega
  | fuel + 1, stk, c, ty, hi, hm, hs, hreach, hfuel => by
    simp only [checkType]
    cases hft : findType c.scope ty.Name.Ident with
    | none =>
      simp only
      rw [String.append_assoc]
      exact Good_of_harmless (msg_ne_recursive _ _ 'u' (by rfl) (by decide))
    | some rty =>
      simp only
      split
      · rw [String.append_assoc, String.append_assoc]
        exact Good_of_harmless (msg_ne_recursive _ _ 'e' (by rfl) (by decide))
      · cases ty with
        | mk name args =>
          simp only [NamedType.Name, NamedType.Args, NamedType.depth] at hfuel ⊢
          have hargs : ∀ a ∈ args, Reach ds c.structs stk a ∧
              (ds.length - stk.length) * (fieldDepth ds + 1) + a.depth < fuel := by
            intro a ha
            refine ⟨?_, ?_⟩
            · intro top htop N hN j hj
              exact hreach top htop N ((typeNames_mk _ _ _).2 (Or.inr ⟨a, ha, hN⟩)) j hj
            · have := depthArgs_mem args a ha
              omega
          have g := checkTypeArgs_good (P := fun a =>
              (ds.length - stk.length) * (fieldDepth ds + 1) + a.depth < fuel)
            (checkType_struct fuel)
            (fun c a hi hm hs hr hp => checkType_good fuel stk c a hi hm hs hr hp)
            args c hi hm hs hargs
          cases h1 : checkTypeArgs (checkType fuel) c args with
          | diag p m => rw [h1] at g; exact g
          | panic m => rw [h1] at g; exact g.elim
          | nofuel => rw [h1] at g; exact g.elim
          | ok c1 =>
            rw [h1] at g
            simp only [Good] at g
            obtain ⟨s1, _⟩ := checkTypeArgs_struct (checkType_struct fuel) _ _ _ hi h1
            simp only
            cases hst : c1.structs.lookup name.Ident with
            | none => simpa [Good] using g
            | some st =>
              simp only
              have hm1 : MapInv ds c1.structs := by rw [s1.structs]; exact hm
              obtain ⟨dst, hdst, hnst⟩ := hm1 _ _ hst
              have hvalid : st < ds.length := (List.getElem?_eq_some_iff.1 hdst).1
              apply checkStructWith_good (P := fun a =>
                  (ds.length - (stk ++ [st]).length) * (fieldDepth ds + 1) + a.depth < fuel)
                (checkType_struct fuel)
                (fun c a hi hm hs hr hp => checkType_good fuel (stk ++ [st]) c a hi hm hs hr hp)
                ?_ s1.inv hm1 g ?_ hvalid
              · intro hnot d hd f hf
                have hfd := fieldDepth_mem (List.getElem?_mem hd) hf
                have hlen : (stk ++ [st]).length ≤ ds.length := by
                  apply stack_length_le
                  · rw [List.nodup_append]
                    refine ⟨hs.nodup, List.nodup_singleton _, ?_⟩
                    intro x hx hx2
                    simp only [List.mem_singleton] at hx2
                    subst hx2
                    exact hnot hx
                  · intro j hj
                    simp only [List.mem_append, List.mem_singleton] at hj
                    rcases hj with hj | rfl
                    · exact stackInv_lt hi hs j hj
                    · exact hvalid
                simp only [List.length_append, List.length_singleton] at hlen ⊢
                obtain ⟨k, hk⟩ : ∃ k, ds.length - stk.length = k + 1 := ⟨ds.length - stk.length - 1, by omega⟩
                have hk2 : ds.length - (stk.length + 1) = k := by omega
                rw [hk] at hfuel
                rw [hk2]
                have : (k + 1) * (fieldDepth ds + 1) = k * (fieldDepth ds + 1) + (fieldDepth ds + 1) := by ring
                omega
              · intro top htop
                rw [← s1.structs] at hreach
                exact hreach top htop name.Ident ((typeNames_mk _ _ _).2 (Or.inl rfl)) st hst

theorem addStructs_harmless : ∀ (sts : List StructDecl) (c : checker) (i : Nat), c.scope ≠ [] →
    (addStructs c i sts).harmless
  | [], c, _, _ => by simp [addStructs, Res.harmless]
  | st :: rest, c, i, hne => by
    by_cases hf : (findType c.scope st.Name.Ident).isSome = true
    · simp only [addStructs, hf, if_true, Res.harmless]
      rw [String.append_assoc]
      exact msg_ne_recursive _ _ 'd' (by rfl) (by decide)
    · have : ∃ s, addType c.scope st.Name.Ident ⟨st.Params.map (fun p => p.Ident)⟩ = .ok s ∧
          s ≠ [] := by
        unfold addType
        simp only [hf]
        cases hs : c.scope with
        | nil => exact (hne hs).elim
        | cons sc parent => exact ⟨_, rfl, by simp⟩
      obtain ⟨s, hs, hs2⟩ := this
      simp only [addStructs, hf, hs]
      exact addStructs_harmless rest _ _ hs2

theorem addStructs_mapInv : ∀ (sts : List StructDecl) (c c' : checker) (i : Nat),
    addStructs c i sts = .ok c' → ∀ N j, c'.structs.lookup N = some j →
      (c.structs.lookup N = some j ∨ ∃ k d, sts[k]? = some d ∧ d.Name.Ident = N ∧ j = i + k)
  | [], c, c', i, h, N, j, hj => by
    simp [addStructs] at h; subst h; exact Or.inl hj
  | st :: rest, c, c', i, h, N, j, hj => by
    simp only [addStructs] at h
    split at h
    · cases h
    · split at h
      · rcases addStructs_mapInv rest _ c' (i + 1) h N j hj with h1 | ⟨k, d, hk, hn, hjk⟩
        · simp only [List.lookup_cons] at h1
          by_cases hN : N = st.Name.Ident
          · have : (N == st.Name.Ident) = true := by simpa using hN
            simp only [this, Option.some.injEq] at h1
            exact Or.inr ⟨0, st, by simp, hN.symm, by omega⟩
          · have : (N == st.Name.Ident) = false := by simpa using hN
            simp only [this] at h1
            exact Or.inl h1
        · exact Or.inr ⟨k + 1, d, by simpa using hk, hn, by omega⟩
      all_goals cases h

theorem checkStructs_good {ds : List StructDecl} (fuel : Nat)
    (hfuel : ds.length * (fieldDepth ds + 1) ≤ fuel) :
    ∀ (n : Nat) (c : checker) (i : Nat), StructInv ds c → MapInv ds c.structs →
      StackInv ds c [] → i + n ≤ ds.length → Good ds [] (checkStructs fuel c i n)
  | 0, c, i, _, _, hs, _ => by simpa [checkStructs, Good] using hs
  | n + 1, c, i, hi, hm, hs, hle => by
    simp only [checkStructs, checkStruct]
    have g : Good ds [] (checkStructWith (checkType fuel) c i) := by
      apply @checkStructWith_good ds [] i (checkType fuel) (fun a =>
          (ds.length - ([] ++ [i] : List Nat).length) * (fieldDepth ds + 1) + a.depth < fuel)
        (checkType_struct fuel)
        (fun c a hi hm hs hr hp => checkType_good fuel ([] ++ [i]) c a hi hm hs hr hp)
        ?_ c hi hm hs ?_ (by omega)
      · intro _ d hd f hf
        have hfd := fieldDepth_mem (List.getElem?_mem hd) hf
        simp only [List.nil_append, List.length_singleton]
        obtain ⟨k, hk⟩ : ∃ k, ds.length = k + 1 := ⟨ds.length - 1, by omega⟩
        rw [hk] at hfuel ⊢
        have : (k + 1) * (fieldDepth ds + 1) = k * (fieldDepth ds + 1) + (fieldDepth ds + 1) := by
          ring
        simp only [Nat.add_sub_cancel]
        omega
      · intro top htop
        simp at htop
    cases h1 : checkStructWith (checkType fuel) c i with
    | diag p m => rw [h1] at g; exact g
    | panic m => rw [h1] at g; exact g.elim
    | nofuel => rw [h1] at g; exact g.elim
    | ok c1 =>
      rw [h1] at g
      obtain ⟨s1, _⟩ := checkStructWith_struct (checkType_struct fuel) hi h1
      simp only
      exact checkStructs_good fuel hfuel n c1 (i + 1) s1.inv (by rw [s1.structs]; exact hm) g
        (by omega)

theorem Res.bind_def {α β : Type} (x : Res α) (f : α → Res β) : (x >>= f) = Res.bind x f := rfl

theorem checkModuleStructs_good {fuel : Nat} {m : Module} (hp : m.parsed)
    (hfuel : m.structFuel ≤ fuel) : Good m.Structs [] (checkModuleStructs fuel m) := by
  unfold checkModuleStructs
  rw [primitiveScope_eq]
  have hh := addStructs_harmless m.Structs
    ⟨[⟨[], [("slice", ⟨["eltype"]⟩), ("bool", ⟨[]⟩), ("i32", ⟨[]⟩), ("u8", ⟨[]⟩)]⟩], [],
      m.Structs⟩ 0 (by simp)
  simp only [Res.bind_def, Res.bind]
  cases hc1 : addStructs
      ⟨[⟨[], [("slice", ⟨["eltype"]⟩), ("bool", ⟨[]⟩), ("i32", ⟨[]⟩), ("u8", ⟨[]⟩)]⟩], [],
        m.Structs⟩ 0 m.Structs with
  | diag p msg => rw [hc1] at hh; exact Good_of_harmless hh
  | panic msg => rw [hc1] at hh; exact hh.elim
  | nofuel => rw [hc1] at hh; exact hh.elim
  | ok c1 =>
    simp only
    obtain ⟨hdecls, hlook, _⟩ := addStructs_lookup _ _ _ _ hc1 (by simp)
    simp only at hdecls
    have hi : StructInv m.Structs c1 := by
      refine ⟨by rw [hdecls], ?_, ?_⟩
      · intro j d hj
        have := hlook j d hj
        simpa using this
      · intro j ⟨d, hd, hdone⟩
        rw [hdecls] at hd
        have := (hp d (List.getElem?_mem hd)).2
        rw [this] at hdone
        cases hdone
    have hm : MapInv m.Structs c1.structs := by
      intro N j hj
      rcases addStructs_mapInv _ _ _ _ hc1 N j hj with h | ⟨k, d, hk, hn, hjk⟩
      · simp at h
      · exact ⟨d, by rw [hjk]; simpa using hk, hn⟩
    have hs : StackInv m.Structs c1 [] := by
      refine ⟨?_, List.chain'_nil, List.nodup_nil⟩
      intro j
      simp only [List.not_mem_nil, iff_false]
      rintro ⟨d, hd, hst, _⟩
      rw [hdecls] at hd
      have := (hp d (List.getElem?_mem hd)).1
      rw [this] at hst
      cases hst
    exact checkStructs_good fuel hfuel _ c1 0 hi hm hs (by omega)

theorem mentionsAt_names {m : Module} {i j : Nat} (h : mentionsAt m.Structs i j) :
    m.mentions ((m.Structs[i]?.map (fun d => d.Name.Ident)).getD "")
      ((m.Structs[j]?.map (fun d => d.Name.Ident)).getD "") := by
  obtain ⟨d, dj, hd, hdj, f, hf, hn⟩ := h
  simp only [hd, hdj, Option.map_some', Option.getD_some]
  exact ⟨⟨d, List.getElem?_mem hd, rfl, f, hf, hn⟩, dj, List.getElem?_mem hdj, rfl⟩

theorem onCycle_names {m : Module} {p : Pos} (h : OnCycle m.Structs p) :
    ∃ d ∈ m.Structs, d.Name.Pos = p ∧
      Relation.TransGen m.mentions d.Name.Ident d.Name.Ident := by
  obtain ⟨i, d, hd, hpos, hcyc⟩ := h
  refine ⟨d, List.getElem?_mem hd, hpos, ?_⟩
  have := Relation.TransGen.lift
    (fun i => (m.Structs[i]?.map (fun d => d.Name.Ident)).getD "")
    (fun a b hab => mentionsAt_names hab) hcyc
  simpa [hd] using this

/-- C1: no module that `CheckModule` accepts contains a cycle of struct-field
inclusion, where a struct includes every struct whose name occurs anywhere in
the type tree of one of its fields. Equivalently, a module with such a cycle,
checked with a recursion budget of at least `structFuel`, is stopped by a
diagnostic, and when that diagnostic is `recursive struct inclusion is not
allowed` (no other diagnostic has fired before) it is reported at the name
position of a struct that lies on a cycle. -/
theorem C1_no_struct_cycle (fuel : Nat) (m : Module) (hp : m.parsed) :
    ((CheckModule fuel m).isOk = true → ∀ S, ¬ Relation.TransGen m.mentions S S) ∧
    ((∃ S, Relation.TransGen m.mentions S S) → m.structFuel ≤ fuel →
      ∃ p msg, CheckModule fuel m = .diag p msg ∧
        (msg = "recursive struct inclusion is not allowed" →
          ∃ d ∈ m.Structs, d.Name.Pos = p ∧
            Relation.TransGen m.mentions d.Name.Ident d.Name.Ident)) := by
  constructor
  · intro hok S
    cases hr : CheckModule fuel m with
    | ok m' =>
      obtain ⟨c, _, _, h0, _⟩ := CheckModule_ok hr
      exact checkModuleStructs_acyclic hp h0 S
    | diag p msg => rw [hr] at hok; cases hok
    | panic msg => rw [hr] at hok; cases hok
    | nofuel => rw [hr] at hok; cases hok
  · rintro ⟨S, hS⟩ hfuel
    have g := checkModuleStructs_good hp hfuel
    cases h0 : checkModuleStructs fuel m with
    | ok c => exact (checkModuleStructs_acyclic hp h0 S hS).elim
    | panic msg => rw [h0] at g; exact g.elim
    | nofuel => rw [h0] at g; exact g.elim
    | diag p msg =>
      rw [h0] at g
      refine ⟨p, msg, ?_, fun hmsg => onCycle_names (g hmsg)⟩
      unfold CheckModule
      rw [h0]
      rfl

/-- C1 on two modules: `struct Box[T] { x: T }  fn f(a: Box[i32], b: Box[i32]) { }`
is accepted and has no cycle; `struct A { x: A }` has one and is reported at
the position of `A`. -/
theorem C1_no_struct_cycle_witness :
    (boxModule.parsed ∧ (CheckModule 8 boxModule).isOk = true ∧
      ¬ Relation.TransGen boxModule.mentions "Box" "Box") ∧
    (selfModule.parsed ∧ selfModule.mentions "A" "A" ∧ selfModule.structFuel ≤ 8 ∧
      CheckModule 8 selfModule = .diag ⟨1, 8⟩ "recursive struct inclusion is not allowed") :=
  ⟨⟨by decide, by rfl, (C1_no_struct_cycle 8 boxModule (by decide)).1 (by rfl) "Box"⟩,
    by decide, ⟨⟨_, List.mem_singleton.2 rfl, rfl, _, List.mem_singleton.2 rfl, by decide⟩,
      _, List.mem_singleton.2 rfl, rfl⟩, by decide, by rfl⟩

theorem weightArgs_mem (c : String → Nat) : ∀ (args : List NamedType) (a : NamedType),
    a ∈ args → weight c a ≤ weightArgs c args
  | [], _, h => by cases h
  | b :: rest, a, h => by
    simp only [weightArgs]
    simp only [List.mem_cons] at h
    rcases h with rfl | h
    · omega
    · have := weightArgs_mem c rest a h
      omega

mutual
theorem resolve_weight (c : String → Nat) (env : List (String × NamedType)) (keys : List String)
    (W : Nat) (hkeys : ∀ N, N ∈ keys ↔ (env.lookup N).isSome = true)
    (hW : ∀ N a, env.lookup N = some a → weight c a ≤ W) (hW1 : 1 ≤ W) :
    ∀ (t r : NamedType), ResolveGenericType env t = .ok r → weight c r ≤ weightK c keys t * W
  | .mk n args, r, h => by
    simp only [ResolveGenericType] at h
    split at h
    · rename_i aty hl
      split at h
      · cases h
      · cases h
        have : n.Ident ∈ keys := (hkeys _).2 (by rw [hl]; rfl)
        simp only [weightK, this, if_true, one_mul]
        exact hW _ _ hl
    · rename_i hl
      split at h
      · rename_i rs hrs
        cases h
        have hk : n.Ident ∉ keys := by
          intro hm
          have := (hkeys _).1 hm
          rw [hl] at this
          cases this
        have ih := resolveArgs_weight c env keys W hkeys hW hW1 args rs hrs
        simp only [weight, weightK, hk, if_false]
        calc c n.Ident * (1 + weightArgs c rs)
            ≤ c n.Ident * (1 + weightKArgs c keys args * W) := by
              apply Nat.mul_le_mul_left; omega
          _ ≤ c n.Ident * ((1 + weightKArgs c keys args) * W) := by
              apply Nat.mul_le_mul_left
              rw [Nat.add_mul]
              have : 1 ≤ 1 * W := by omega
              omega
          _ = c n.Ident * (1 + weightKArgs c keys args) * W := by rw [Nat.mul_assoc]
      all_goals cases h
theorem resolveArgs_weight (c : String → Nat) (env : List (String × NamedType))
    (keys : List String)
    (W : Nat) (hkeys : ∀ N, N ∈ keys ↔ (env.lookup N).isSome = true)
    (hW : ∀ N a, env.lookup N = some a → weight c a ≤ W) (hW1 : 1 ≤ W) :
    ∀ (ts rs : List NamedType), ResolveGenericArgs env ts = .ok rs →
      weightArgs c rs ≤ weightKArgs c keys ts * W
  | [], rs, h => by
    simp only [ResolveGenericArgs] at h
    cases h
    simp [weightArgs]
  | t :: ts, rs, h => by
    simp only [ResolveGenericArgs] at h
    split at h
    · rename_i a ha
      split at h
      · rename_i as has
        cases h
        have ih1 := resolve_weight c env keys W hkeys hW hW1 t a ha
        have ih2 := resolveArgs_weight c env keys W hkeys hW hW1 ts as has
        simp only [weightArgs, weightKArgs, Nat.add_mul]
        omega
      · rename_i o ho
        exact (ho _ h).elim
    all_goals cases h
end

theorem getGenericEnvLoop_lookup : ∀ (ps : List Ident) (as : List NamedType)
    (env0 : List (String × NamedType)) (N : String) (a : NamedType),
    (GetGenericEnvLoop env0 ps as).lookup N = some a → a ∈ as ∨ env0.lookup N = some a
  | [], _, env0, N, a, h => by simp only [GetGenericEnvLoop] at h; exact Or.inr h
  | _ :: _, [], env0, N, a, h => by simp only [GetGenericEnvLoop] at h; exact Or.inr h
  | p :: ps, b :: as, env0, N, a, h => by
    simp only [GetGenericEnvLoop] at h
    rcases getGenericEnvLoop_lookup ps as _ N a h with h1 | h1
    · exact Or.inl (by simp [h1])
    · simp only [List.lookup_cons] at h1
      split at h1
      · simp only [Option.some.injEq] at h1
        exact Or.inl (by simp [h1])
      · exact Or.inr h1

theorem getGenericEnvLoop_keys : ∀ (ps : List Ident) (as : List NamedType)
    (env0 : List (String × NamedType)) (N : String), ps.length = as.length →
    (((GetGenericEnvLoop env0 ps as).lookup N).isSome = true ↔
      (N ∈ ps.map (fun p => p.Ident) ∨ (env0.lookup N).isSome = true))
  | [], [], env0, N, _ => by simp [GetGenericEnvLoop]
  | [], _ :: _, _, _, h => by simp at h
  | _ :: _, [], _, _, h => by simp at h
  | p :: ps, b :: as, env0, N, h => by
    simp only [GetGenericEnvLoop]
    rw [getGenericEnvLoop_keys ps as _ N (by simpa using h)]
    simp only [List.lookup_cons, List.map_cons, List.mem_cons]
    by_cases hN : N = p.Ident
    · simp [hN]
    · have : (N == p.Ident) = false := by simpa using hN
      simp [this, hN]

theorem getGenericEnv_ok {st : StructDecl} {args : List NamedType}
    {env : List (String × NamedType)} (h : GetGenericEnv st args = .ok env) :
    (∀ N, N ∈ st.Params.map (fun p => p.Ident) ↔ (env.lookup N).isSome = true) ∧
    (∀ N a, env.lookup N = some a → a ∈ args) := by
  unfold GetGenericEnv at h
  split at h
  · cases h
  · rename_i hlen
    cases h
    refine ⟨?_, ?_⟩
    · intro N
      rw [getGenericEnvLoop_keys _ _ _ N (by simpa using hlen)]
      simp
    · intro N a ha
      rcases getGenericEnvLoop_lookup _ _ _ N a ha with h1 | h1
      · exact h1
      · simp at h1

/-- The resolved type of a field weighs less than the instantiated struct. -/
theorem field_weight_lt {structs : List (String × StructDecl)} {c : String → Nat}
    (hc : WeightOK structs c) {n : Ident} {args : List NamedType} {d : StructDecl}
    (hd : structs.lookup n.Ident = some d) {env : List (String × NamedType)}
    (henv : GetGenericEnv d args = .ok env) {f : Param} (hf : f ∈ d.Fields) {r : NamedType}
    (hr : ResolveGenericType env f.Ty = .ok r) : weight c r < weight c (.mk n args) := by
  obtain ⟨hkeys, hvals⟩ := getGenericEnv_ok henv
  have h1 := resolve_weight c env (d.Params.map (fun p => p.Ident)) (1 + weightArgs c args) hkeys
    (fun N a ha => by
      have := weightArgs_mem c args a (hvals N a ha)
      omega) (by omega) f.Ty r hr
  have h2 := hc.field _ d hd f hf
  simp only [weight]
  calc weight c r ≤ weightK c (d.Params.map (fun p => p.Ident)) f.Ty * (1 + weightArgs c args) := h1
    _ < c n.Ident * (1 + weightArgs c args) := by
      apply Nat.mul_lt_mul_of_lt_of_le h2 (le_refl _) (by omega)

mutual
theorem TypeEqualNamed_weight (c : String → Nat) : ∀ (a b : NamedType),
    TypeEqualNamed a b = .ok true → weight c a = weight c b
  | .mk n1 a1, .mk n2 a2, h => by
    simp only [TypeEqualNamed] at h
    split at h
    · cases h
    · rename_i hn
      split at h
      · cases h
      · have := TypeEqualArgs_weight c a1 a2 (by
          rename_i hlen
          simpa using hlen) h
        simp only [weight, this]
        simp only [ne_eq, Decidable.not_not] at hn
        rw [hn]
theorem TypeEqualArgs_weight (c : String → Nat) : ∀ (a b : List NamedType),
    a.length = b.length → TypeEqualArgs a b = .ok true → weightArgs c a = weightArgs c b
  | [], [], _, _ => rfl
  | [], _ :: _, hl, _ => by simp at hl
  | _ :: _, [], hl, _ => by simp at hl
  | a :: as, b :: bs, hl, h => by
    simp only [TypeEqualArgs] at h
    split at h
    · rename_i h1
      have e1 := TypeEqualNamed_weight c a b h1
      have e2 := TypeEqualArgs_weight c as bs (by simpa using hl) h
      simp only [weightArgs, e1, e2]
    · rename_i o ho
      exact absurd h ho
end

theorem Defined.mono {name : String} {h : List HeaderWrite} (hd : Defined name h)
    (ext : List HeaderWrite) : Defined name (h ++ ext) := by
  obtain ⟨w, hw, hn⟩ := hd
  exact ⟨w, List.mem_append_left _ hw, hn⟩

theorem StrDefined.mono_str {s : String} {h : List HeaderWrite} (hd : StrDefined s h)
    (ext : List HeaderWrite) : StrDefined s (h ++ ext) :=
  fun name hn => (hd name hn).mono ext

theorem PostG.refl_post {g : generator} (h : HeaderOrdered g.header) : PostG g g :=
  ⟨rfl, ⟨[], by simp⟩, ⟨[], by simp, by simp⟩, h⟩

theorem PostG.trans_post {a b c : generator} (h1 : PostG a b) (h2 : PostG b c) : PostG a c := by
  obtain ⟨s1, ⟨x1, y1⟩, ⟨e1, i1, d1⟩, _⟩ := h1
  obtain ⟨s2, ⟨x2, y2⟩, ⟨e2, i2, d2⟩, o2⟩ := h2
  refine ⟨s2.trans s1, ⟨x1 ++ x2, by rw [y2, y1, List.append_assoc]⟩,
    ⟨e1 ++ e2, by rw [i2, i1, List.append_assoc], ?_⟩, o2⟩
  intro inst hi
  simp only [List.mem_append] at hi
  rcases hi with hi | hi
  · rw [y2]; exact (d1 inst hi).mono x2
  · exact d2 inst hi

theorem PreInv.post_pre {c : String → Nat} {B : Nat} {g g' : generator} (h : PreInv c B g)
    (hp : PostG g g') : PreInv c B g' := by
  obtain ⟨_, ⟨x, y⟩, ⟨e, i, d⟩, o⟩ := hp
  refine ⟨o, ?_⟩
  intro inst hi
  rw [i] at hi
  simp only [List.mem_append] at hi
  rcases hi with hi | hi
  · rcases h.2 inst hi with h1 | h1
    · rw [y]; exact Or.inl (h1.mono x)
    · exact Or.inr h1
  · exact Or.inl (d inst hi)

theorem headerOrdered_append_one {h : List HeaderWrite} {w : HeaderWrite}
    (ho : HeaderOrdered h) (hu : ∀ s ∈ w.uses, StrDefined s h) : HeaderOrdered (h ++ [w]) := by
  unfold HeaderOrdered
  intro j x hx name hname
  by_cases hj : j < h.length
  · rw [List.getElem?_append_left hj] at hx
    obtain ⟨i, w', hi, hw', hd⟩ := ho j x hx name hname
    exact ⟨i, w', hi, by rw [List.getElem?_append_left (by omega)]; exact hw', hd⟩
  · have hlen : j < (h ++ [w]).length := (List.getElem?_eq_some_iff.1 hx).1
    simp only [List.length_append, List.length_singleton] at hlen
    have hj2 : j = h.length := by omega
    subst hj2
    simp only [List.getElem?_concat_length, Option.some.injEq] at hx
    subst hx
    obtain ⟨w', hw', hd⟩ := hu _ hname name rfl
    obtain ⟨i, hi⟩ := List.getElem?_of_mem hw'
    have hil := (List.getElem?_eq_some_iff.1 hi).1
    exact ⟨i, w', hil, by rw [List.getElem?_append_left hil]; exact hi, hd⟩

theorem str_ne_struct (s : String) (c : Char) (hs : s.data.head? = some c) (hc : c ≠ 's') :
    StrDefined s [] ∧ ∀ h, StrDefined s h := by
  have key : ∀ name, s ≠ "struct " ++ name := by
    intro name e
    have := congrArg (fun x => x.data.head?) e
    simp only [String.data_append, hs] at this
    have h2 : ("struct ".data ++ name.data).head? = some 's' := by rfl
    rw [h2] at this
    injection this with h
    exact hc h
  exact ⟨fun name e => (key name e).elim, fun h name e => (key name e).elim⟩

theorem struct_append_inj {a b : String} (h : "struct " ++ a = "struct " ++ b) : a = b := by
  have := congrArg String.data h
  simp only [String.data_append, List.append_cancel_left_eq] at this
  exact String.ext this

theorem genStructFields_step {structs : List (String × StructDecl)} {c : String → Nat} {B : Nat}
    {gt : generator → NamedType → Res (String × generator)}
    (hgt : ∀ g ty s g', g.structs = structs → PreInv c B g → weight c ty < B →
      gt g ty = .ok (s, g') → PostG g g' ∧ StrDefined s g'.header)
    {env : List (String × NamedType)} :
    ∀ (fs : List Param) (g : generator) (out out' : List (String × String)) (g' : generator),
      (∀ f ∈ fs, ∀ r, ResolveGenericType env f.Ty = .ok r → weight c r < B) →
      g.structs = structs → PreInv c B g → (∀ p ∈ out, StrDefined p.1 g.header) →
      genStructFields gt env g out fs = .ok (out', g') →
      PostG g g' ∧ ∀ p ∈ out', StrDefined p.1 g'.header
  | [], g, out, out', g', _, _, hpre, hout, h => by
    simp only [genStructFields] at h
    cases h
    exact ⟨PostG.refl_post hpre.1, hout⟩
  | f :: rest, g, out, out', g', hw, hs, hpre, hout, h => by
    simp only [genStructFields] at h
    split at h
    · rename_i ty hty
      split at h
      · rename_i cty g1 h1
        obtain ⟨p1, sd1⟩ := hgt _ _ _ _ hs hpre (hw f (by simp) ty hty) h1
        obtain ⟨x, hx⟩ := p1.header
        have hout1 : ∀ p ∈ out ++ [(cty, f.Name.Ident)], StrDefined p.1 g1.header := by
          intro p hp
          simp only [List.mem_append, List.mem_singleton] at hp
          rcases hp with hp | rfl
          · rw [hx]; exact (hout p hp).mono_str x
          · exact sd1
        obtain ⟨p2, sd2⟩ := genStructFields_step hgt rest g1 _ out' g'
          (fun f' hf' => hw f' (by simp [hf'])) (p1.structs.trans hs) (hpre.post_pre p1) hout1 h
        exact ⟨p1.trans_post p2, sd2⟩
      all_goals cases h
    all_goals cases h

theorem genType_prim {fuel : Nat} {g g' : generator} {ty : NamedType} {s : String}
    (h : genType fuel g ty = .ok (s, g'))
    (hp : ty.Name.Ident = "u8" ∨ ty.Name.Ident = "i32" ∨ ty.Name.Ident = "bool") :
    s = "uint8_t" ∨ s = "int32_t" ∨ s = "_Bool" := by
  cases fuel with
  | zero => simp [genType] at h
  | succ fuel' =>
    simp only [genType] at h
    split at h
    · cases h; exact Or.inl rfl
    · split at h
      · cases h; exact Or.inr (Or.inl rfl)
      · split at h
        · cases h; exact Or.inr (Or.inr rfl)
        · rename_i h1 h2 h3
          rcases hp with hp | hp | hp <;> contradiction

theorem preInv_enter {c : String → Nat} {B : Nat} {g : generator} {t : NamedType}
    (hpre : PreInv c B g) (hB : weight c t < B) : PreInv c (weight c t) (g.enter t) := by
  refine ⟨hpre.1, ?_⟩
  intro inst hi
  simp only [generator.enter, List.mem_append, List.mem_singleton] at hi
  rcases hi with hi | rfl
  · rcases hpre.2 inst hi with h1 | h1
    · exact Or.inl h1
    · exact Or.inr (by omega)
  · exact Or.inr (le_refl _)

/-- The step from the entered state to the state after the definition has
been written. -/
theorem postG_define {g g1 : generator} {t : NamedType} {w : HeaderWrite}
    (hname : w.defines = some ("ty" ++ toString g.counter))
    (hp : PostG (g.enter t) g1) (hu : ∀ s ∈ w.uses, StrDefined s g1.header) :
    PostG g { g1 with header := g1.header ++ [w] } := by
  obtain ⟨s1, ⟨x, y⟩, ⟨e, i, d⟩, o⟩ := hp
  refine ⟨s1, ⟨x ++ [w], by simp [y, generator.enter]⟩,
    ⟨[⟨t, "ty" ++ toString g.counter⟩] ++ e, by simp [i, generator.enter], ?_⟩,
    headerOrdered_append_one o hu⟩
  intro inst hi
  simp only [List.mem_append, List.mem_singleton] at hi
  rcases hi with rfl | hi
  · exact ⟨w, by simp, hname⟩
  · exact (d inst hi).mono [w]

theorem genType_step {structs : List (String × StructDecl)} {c : String → Nat}
    (hc : WeightOK structs c) : ∀ (fuel : Nat) (g : generator) (t : NamedType) (s : String)
    (g' : generator) (B : Nat), g.structs = structs → PreInv c B g → weight c t < B →
    genType fuel g t = .ok (s, g') → PostG g g' ∧ StrDefined s g'.header
  | 0, _, _, _, _, _, _, _, _, h => by simp [genType] at h
  | fuel + 1, g, t, s, g', B, hs, hpre, hB, h => by
    rcases genType_ok_cases h with ⟨rfl, hp⟩ | ⟨_, _, _, hcase⟩
    · refine ⟨PostG.refl_post hpre.1, ?_⟩
      rcases genType_prim h hp with rfl | rfl | rfl
      · exact (str_ne_struct "uint8_t" 'u' (by rfl) (by decide)).2 _
      · exact (str_ne_struct "int32_t" 'i' (by rfl) (by decide)).2 _
      · exact (str_ne_struct "_Bool" '_' (by rfl) (by decide)).2 _
    · rcases hcase with ⟨name, hf, rfl, rfl⟩ | ⟨fuel', hfu, hf, rfl, hcase⟩
      · refine ⟨PostG.refl_post hpre.1, ?_⟩
        obtain ⟨inst, hm, hn, ht⟩ := findInstance_mem _ hf
        have hw := TypeEqualNamed_weight c _ _ ht
        intro name' he
        have := struct_append_inj he
        subst this
        rcases hpre.2 inst hm with h1 | h1
        · rw [← hn]; exact h1
        · omega
      · cases hfu
        have hpe := preInv_enter hpre hB
        have hse : (g.enter t).structs = structs := by simp [generator.enter, hs]
        have hself : ∀ (g2 : generator) (w : HeaderWrite),
            w.defines = some ("ty" ++ toString g.counter) →
            StrDefined ("struct " ++ ("ty" ++ toString g.counter)) (g2.header ++ [w]) := by
          intro g2 w hw name' he
          have := struct_append_inj he
          subst this
          exact ⟨w, by simp, hw⟩
        rcases hcase with ⟨eltype, rest, hsl, hargs, hr⟩ | ⟨hsl, hr⟩
        · unfold genSlice at hr
          split at hr
          · rename_i cty g1 h1
            cases hr
            have hlt : weight c eltype < weight c t := by
              cases t with
              | mk n args =>
                simp only [NamedType.Args] at hargs
                subst hargs
                simp only [weight, weightArgs]
                have := hc.pos n.Ident
                calc weight c eltype < 1 * (1 + (weight c eltype + weightArgs c rest)) := by omega
                  _ ≤ c n.Ident * (1 + (weight c eltype + weightArgs c rest)) :=
                    Nat.mul_le_mul_right _ this
            obtain ⟨p1, sd1⟩ := genType_step hc fuel _ _ _ _ _ hse hpe hlt h1
            refine ⟨postG_define rfl p1 ?_, hself _ _ rfl⟩
            intro s hs
            simp only [HeaderWrite.uses, List.mem_singleton] at hs
            subst hs
            exact sd1
          all_goals cases hr
        · unfold genStruct at hr
          split at hr
          · cases hr
          · rename_i d hd
            split at hr
            · rename_i env henv
              split at hr
              · rename_i out g1 h1
                cases hr
                have hfields : ∀ f ∈ d.Fields, ∀ r, ResolveGenericType env f.Ty = .ok r →
                    weight c r < weight c t := by
                  intro f hfd r hr
                  cases t with
                  | mk n args =>
                    simp only [NamedType.Name, NamedType.Args] at hd henv
                    rw [hs] at hd
                    exact field_weight_lt hc hd henv hfd hr
                obtain ⟨p1, sd1⟩ := genStructFields_step
                  (fun g ty s g' h1 h2 h3 h4 => genType_step hc fuel g ty s g' _ h1 h2 h3 h4)
                  d.Fields _ [] out g1 hfields hse hpe (by simp) h1
                refine ⟨postG_define rfl p1 ?_, hself _ _ rfl⟩
                intro s hs
                simp only [HeaderWrite.uses, List.mem_map] at hs
                obtain ⟨p, hp, rfl⟩ := hs
                exact sd1 p hp
              all_goals cases hr
            all_goals cases hr

theorem Ready.post {structs : List (String × StructDecl)} {g g' : generator}
    (h : Ready structs g) (hp : PostG g g') : Ready structs g' := by
  obtain ⟨hs, _, hd⟩ := h
  obtain ⟨s1, ⟨x, y⟩, ⟨e, i, d⟩, o⟩ := hp
  refine ⟨s1.trans hs, o, ?_⟩
  intro inst hi
  rw [i] at hi
  simp only [List.mem_append] at hi
  rcases hi with hi | hi
  · rw [y]; exact (hd inst hi).mono x
  · exact d inst hi

theorem PostG.of_same {g g' : generator} (h1 : g'.structs = g.structs)
    (h2 : g'.header = g.header) (h3 : g'.instances = g.instances)
    (ho : HeaderOrdered g.header) : PostG g g' :=
  ⟨h1, ⟨[], by simp [h2]⟩, ⟨[], by simp [h3], by simp⟩, by rw [h2]; exact ho⟩

theorem PostG.write {g : generator} (text : String) (ho : HeaderOrdered g.header) :
    PostG g (g.write text) :=
  PostG.of_same rfl rfl rfl ho

theorem genType_top {structs : List (String × StructDecl)} {c : String → Nat}
    (hc : WeightOK structs c) {fuel : Nat} {g g' : generator} {t : NamedType} {s : String}
    (hr : Ready structs g) (h : genType fuel g t = .ok (s, g')) :
    PostG g g' ∧ StrDefined s g'.header :=
  genType_step hc fuel g t s g' (weight c t + 1) hr.1
    ⟨hr.2.1, fun inst hi => Or.inl (hr.2.2 inst hi)⟩ (by omega) h

mutual
theorem genExpr_post {structs : List (String × StructDecl)} {c : String → Nat}
    (hc : WeightOK structs c) (fuel : Nat) : ∀ (e : Expr) (g g' : generator) (s : String),
    Ready structs g → genExpr fuel g e = .ok (s, g') → PostG g g'
  | .IntExpr _ _, g, g', s, hr, h => by
    simp only [genExpr] at h; cases h; exact PostG.refl_post hr.2.1
  | .StringExpr _ _, g, g', s, hr, h => by
    simp only [genExpr] at h
    split at h
    · rename_i ty g1 h1
      cases h
      exact (genType_top hc hr h1).1
    · rename_i o ho
      exact (ho _ _ h).elim
  | .VarExpr _, g, g', s, hr, h => by
    simp only [genExpr] at h
    split at h
    · cases h; exact PostG.refl_post hr.2.1
    · split at h <;> (cases h; exact PostG.refl_post hr.2.1)
  | .CallExpr fn args, g, g', s, hr, h => by
    simp only [genExpr] at h
    split at h
    · rename_i f g1 h1
      have p1 := genExpr_post hc fuel fn _ _ _ hr h1
      split at h
      · rename_i as g2 h2
        cases h
        exact p1.trans_post (genExprArgs_post hc fuel args _ _ _ (hr.post p1) h2)
      all_goals cases h
    · rename_i o ho
      exact (ho _ _ h).elim
  | .FieldExpr e _, g, g', s, hr, h => by
    simp only [genExpr] at h
    split at h
    · rename_i x g1 h1
      cases h
      exact genExpr_post hc fuel e _ _ _ hr h1
    · rename_i o ho
      exact (ho _ _ h).elim
theorem genExprArgs_post {structs : List (String × StructDecl)} {c : String → Nat}
    (hc : WeightOK structs c) (fuel : Nat) : ∀ (args : List Expr) (g g' : generator)
    (s : List String), Ready structs g → genExprArgs fuel g args = .ok (s, g') → PostG g g'
  | [], g, g', s, hr, h => by
    simp only [genExprArgs] at h; cases h; exact PostG.refl_post hr.2.1
  | a :: rest, g, g', s, hr, h => by
    simp only [genExprArgs] at h
    split at h
    · rename_i x g1 h1
      have p1 := genExpr_post hc fuel a _ _ _ hr h1
      split at h
      · rename_i as g2 h2
        cases h
        exact p1.trans_post (genExprArgs_post hc fuel rest _ _ _ (hr.post p1) h2)
      · rename_i o ho
        exact (ho _ _ h).elim
    all_goals cases h
end

theorem genBlockWith_post {structs : List (String × StructDecl)}
    {gs : generator → Res generator}
    (hgs : ∀ g g', Ready structs g → gs g = .ok g' → PostG g g') {g g' : generator}
    (hr : Ready structs g) (h : genBlockWith gs g = .ok g') : PostG g g' := by
  unfold genBlockWith at h
  split at h
  · rename_i g1 h1
    cases h
    have p0 : PostG g { g.write "\x7b\n" with indent := g.indent + 1 } :=
      PostG.of_same rfl rfl rfl hr.2.1
    have p1 := hgs _ _ (hr.post p0) h1
    exact (p0.trans_post p1).trans_post (PostG.of_same rfl rfl rfl p1.ordered)
  · rename_i o ho
    exact (ho _ h).elim

mutual
theorem genStmtSwitch_post {structs : List (String × StructDecl)} {c : String → Nat}
    (hc : WeightOK structs c) (fuel : Nat) : ∀ (st : Stmt) (indent : Bool) (g g' : generator),
    Ready structs g → genStmtSwitch fuel g st indent = .ok g' → PostG g g'
  | .ExprStmt e, indent, g, g', hr, h => by
    simp only [genStmtSwitch] at h
    split at h
    · rename_i x g1 h1
      cases h
      have p1 := genExpr_post hc fuel e _ _ _ hr h1
      exact p1.trans_post (PostG.write _ p1.ordered)
    all_goals cases h
  | .BlockStmt _ b, indent, g, g', hr, h => by
    simp only [genStmtSwitch] at h
    exact genBlockWith_post (fun g g' hr h => genStmts_post hc fuel b g g' hr h) hr h
  | .ReturnStmt _ none, indent, g, g', hr, h => by
    simp only [genStmtSwitch] at h
    cases h
    exact PostG.write _ hr.2.1
  | .ReturnStmt _ (some e), indent, g, g', hr, h => by
    simp only [genStmtSwitch] at h
    split at h
    · rename_i x g1 h1
      cases h
      have p1 := genExpr_post hc fuel e _ _ _ hr h1
      exact p1.trans_post (PostG.write _ p1.ordered)
    all_goals cases h
  | .VarStmt _ name ty e, indent, g, g', hr, h => by
    simp only [genStmtSwitch] at h
    split at h
    · rename_i cty g1 h1
      have p1 := (genType_top hc hr h1).1
      split at h
      · split at h
        · rename_i x g2 h2
          cases h
          have p2 := genExpr_post hc fuel _ _ _ _ (hr.post p1) h2
          exact (p1.trans_post p2).trans_post (PostG.write _ p2.ordered)
        all_goals cases h
      · cases h
        exact p1.trans_post (PostG.write _ p1.ordered)
    all_goals cases h
  | .AssignStmt l r, indent, g, g', hr, h => by
    simp only [genStmtSwitch] at h
    split at h
    · rename_i x g1 h1
      have p1 := genExpr_post hc fuel l _ _ _ hr h1
      split at h
      · rename_i y g2 h2
        cases h
        have p2 := genExpr_post hc fuel r _ _ _ (hr.post p1) h2
        exact (p1.trans_post p2).trans_post (PostG.write _ p2.ordered)
      all_goals cases h
    all_goals cases h
  | .IfStmt _ cond body els, indent, g, g', hr, h => by
    simp only [genStmtSwitch] at h
    split at h
    · rename_i x g1 h1
      have p1 := genExpr_post hc fuel cond _ _ _ hr h1
      have pw : PostG g1 (g1.write ("if (" ++ x ++ ") ")) := PostG.write _ p1.ordered
      have r1 := (hr.post p1).post pw
      split at h
      · rename_i g2 h2
        have p2 := genBlockWith_post
          (fun g g' hr h => genStmts_post hc fuel body g g' hr h) r1 h2
        have r2 := r1.post p2
        split at h
        · rename_i g3 h3
          have p3 := genElse_post hc fuel els _ _ r2 h3
          have p123 := ((p1.trans_post pw).trans_post p2).trans_post p3
          cases h
          split
          · exact p123.trans_post (PostG.write _ p3.ordered)
          · exact p123
        · rename_i o ho
          exact (ho _ h).elim
      · rename_i o ho
        exact (ho _ h).elim
    all_goals cases h
  | .WhileStmt _ cond body, indent, g, g', hr, h => by
    simp only [genStmtSwitch] at h
    split at h
    · rename_i x g1 h1
      have p1 := genExpr_post hc fuel cond _ _ _ hr h1
      have pw : PostG g1 (g1.write ("while (" ++ x ++ ") ")) := PostG.write _ p1.ordered
      have r1 := (hr.post p1).post pw
      split at h
      · rename_i g2 h2
        have p2 := genBlockWith_post
          (fun g g' hr h => genStmts_post hc fuel body g g' hr h) r1 h2
        cases h
        exact ((p1.trans_post pw).trans_post p2).trans_post (PostG.write _ p2.ordered)
      · rename_i o ho
        exact (ho _ h).elim
    all_goals cases h
theorem genElse_post {structs : List (String × StructDecl)} {c : String → Nat}
    (hc : WeightOK structs c) (fuel : Nat) : ∀ (els : Option Stmt) (g g' : generator),
    Ready structs g → genElse fuel g els = .ok g' → PostG g g'
  | none, g, g', hr, h => by
    simp only [genElse] at h; cases h; exact PostG.refl_post hr.2.1
  | some st, g, g', hr, h => by
    simp only [genElse] at h
    have pw : PostG g (g.write " else ") := PostG.write _ hr.2.1
    exact pw.trans_post (genStmtSwitch_post hc fuel st false _ _ (hr.post pw) h)
theorem genStmts_post {structs : List (String × StructDecl)} {c : String → Nat}
    (hc : WeightOK structs c) (fuel : Nat) : ∀ (b : List Stmt) (g g' : generator),
    Ready structs g → genStmts fuel g b = .ok g' → PostG g g'
  | [], g, g', hr, h => by
    simp only [genStmts] at h; cases h; exact PostG.refl_post hr.2.1
  | st :: rest, g, g', hr, h => by
    simp only [genStmts] at h
    split at h
    · rename_i g1 h1
      have pw : PostG g g.writeIndent := PostG.of_same rfl rfl rfl hr.2.1
      have p1 := genStmtSwitch_post hc fuel st true _ _ (hr.post pw) h1
      have p2 := genStmts_post hc fuel rest _ _ ((hr.post pw).post p1) h
      exact (pw.trans_post p1).trans_post p2
    · rename_i o ho
      exact (ho _ h).elim
end

theorem genFnParams_post {structs : List (String × StructDecl)} {c : String → Nat}
    (hc : WeightOK structs c) (fuel : Nat) : ∀ (ps : List Param) (g g' : generator)
    (params : List (String × String)), Ready structs g →
    genFnParams fuel g ps = .ok (params, g') →
    PostG g g' ∧ ∀ p ∈ params, StrDefined p.1 g'.header
  | [], g, g', params, hr, h => by
    simp only [genFnParams] at h
    cases h
    exact ⟨PostG.refl_post hr.2.1, by simp⟩
  | p :: rest, g, g', params, hr, h => by
    simp only [genFnParams] at h
    split at h
    · rename_i pt g1 h1
      obtain ⟨p1, d1⟩ := genType_top hc hr h1
      split at h
      · rename_i ps g2 h2
        cases h
        obtain ⟨p2, d2⟩ := genFnParams_post hc fuel rest _ _ _ (hr.post p1) h2
        refine ⟨p1.trans_post p2, ?_⟩
        intro q hq
        simp only [List.mem_cons] at hq
        rcases hq with rfl | hq
        · obtain ⟨ext, he⟩ := p2.header
          rw [he]
          exact d1.mono_str ext
        · exact d2 q hq
      · rename_i o ho
        exact (ho _ _ h).elim
    all_goals cases h

theorem genFn_post {structs : List (String × StructDecl)} {c : String → Nat}
    (hc : WeightOK structs c) (fuel : Nat) (fn : FnDecl) (g g' : generator)
    (hr : Ready structs g) (h : genFn fuel g fn = .ok g') : PostG g g' := by
  unfold genFn at h
  simp only at h
  split at h
  · rename_i rt g1 h1
    have hret : PostG g g1 ∧ StrDefined rt g1.header := by
      split at h1
      · exact genType_top hc hr h1
      · cases h1
        exact ⟨PostG.refl_post hr.2.1, (str_ne_struct "void" 'v' rfl (by decide)).2 _⟩
    obtain ⟨p1, d1⟩ := hret
    split at h
    · rename_i params g2 h2
      obtain ⟨p2, d2⟩ := genFnParams_post hc fuel _ _ _ _ (hr.post p1) h2
      have ho : HeaderOrdered (g2.header ++ [.fnDecl rt fn.Name.Ident params]) := by
        apply headerOrdered_append_one p2.ordered
        intro s hs
        simp only [HeaderWrite.uses, List.mem_cons, List.mem_map] at hs
        rcases hs with rfl | ⟨q, hq, rfl⟩
        · obtain ⟨ext, he⟩ := p2.header
          rw [he]
          exact d1.mono_str ext
        · exact d2 q hq
      have p3 : PostG g2 { g2 with header := g2.header ++ [.fnDecl rt fn.Name.Ident params] } :=
        ⟨rfl, ⟨_, rfl⟩, ⟨[], by simp, by simp⟩, ho⟩
      have p123 := (p1.trans_post p2).trans_post p3
      have r3 := hr.post p123
      split at h
      · rename_i body hb
        split at h
        · rename_i g4 h4
          cases h
          have pw := PostG.write (signature rt fn.Name.Ident params ++ " ") r3.2.1
          have p4 := genBlockWith_post
            (fun g g' hr h => genStmts_post hc fuel body g g' hr h) (r3.post pw) h4
          exact ((p123.trans_post pw).trans_post p4).trans_post (PostG.write _ p4.ordered)
        · rename_i o ho
          exact (ho _ h).elim
      · cases h
        exact p123
    all_goals cases h
  all_goals cases h

theorem genFns_post {structs : List (String × StructDecl)} {c : String → Nat}
    (hc : WeightOK structs c) (fuel : Nat) : ∀ (fns : List FnDecl) (g g' : generator),
    Ready structs g → genFns fuel g fns = .ok g' → PostG g g'
  | [], g, g', hr, h => by
    simp only [genFns] at h; cases h; exact PostG.refl_post hr.2.1
  | fn :: rest, g, g', hr, h => by
    simp only [genFns] at h
    split at h
    · rename_i g1 h1
      have p1 := genFn_post hc fuel fn _ _ hr h1
      exact p1.trans_post (genFns_post hc fuel rest _ _ (hr.post p1) h)
    · rename_i o ho
      exact (ho _ h).elim

theorem GenModule_ordered {m : Module} {out : String} {c : String → Nat}
    (hc : WeightOK (initialGenerator m out).structs c) {fuel : Nat} {g : generator}
    (h : GenModule fuel m out = .ok g) : HeaderOrdered g.header := by
  have hr : Ready (initialGenerator m out).structs (initialGenerator m out) := by
    refine ⟨rfl, ?_, by simp [initialGenerator]⟩
    intro j w hw name hn
    have : w = .includeLine := by
      simp only [initialGenerator] at hw
      rcases j with _ | j
      · simpa using hw.symm
      · simp at hw
    subst this
    simp [HeaderWrite.uses] at hn
  exact (genFns_post hc fuel m.Fns _ _ hr h).ordered

theorem StructInv.of_same_inv {ds : List StructDecl} {c c' : checker} (h : StructInv ds c)
    (h1 : c'.structs = c.structs) (h2 : c'.decls = c.decls) : StructInv ds c' :=
  ⟨by rw [h2]; exact h.sig, by rw [h1]; exact h.map1,
    fun j hj => h.acc j (by unfold checker.isDone at hj ⊢; rw [← h2]; exact hj)⟩

mutual
theorem checkStmt_structInv {ds : List StructDecl} (fuel : Nat) : ∀ (s : Stmt) (c : checker)
    (ret : Option NamedType) (r : Bool) (c' : checker), checkStmt fuel c s ret = .ok (r, c') →
    StructInv ds c → StructInv ds c'
  | .ExprStmt e, c, ret, r, c', h, hu => by
    simp only [checkStmt] at h
    split at h
    · split at h <;> simp at h
      rw [← h.2]; exact hu
    · cases h
  | .BlockStmt _ b, c, ret, r, c', h, hu => by
    simp only [checkStmt] at h
    exact checkBlock_structInv fuel b c ret r c' h hu
  | .ReturnStmt _ e, c, ret, r, c', h, hu => by
    simp only [checkStmt] at h
    split at h
    · cases h
    · cases h
    · simp at h; rw [← h.2]; exact hu
    · split at h <;> simp at h
      rw [← h.2]; exact hu
  | .VarStmt _ name ty e, c, ret, r, c', h, hu => by
    simp only [checkStmt] at h
    split at h
    · cases h
    · split at h
      · rename_i s hs
        have hu1 : StructInv ds { c with scope := s } := hu.of_same_inv rfl rfl
        split at h
        · rename_i c1 h1
          have hu2 := (checkType_struct _ _ _ _ hu1 h1).1.inv
          split at h
          · split at h <;> simp at h
            rw [← h.2]; exact hu2
          · simp at h; rw [← h.2]; exact hu2
        all_goals cases h
      all_goals cases h
  | .AssignStmt l rr, c, ret, r, c', h, hu => by
    simp only [checkStmt] at h
    split at h
    · split at h
      · cases h
      · split at h <;> simp at h
        rw [← h.2]; exact hu
    all_goals cases h
  | .IfStmt _ cond body els, c, ret, r, c', h, hu => by
    simp only [checkStmt] at h
    split at h
    · split at h
      · rename_i rb c1 h1
        have hu1 := checkBlock_structInv fuel body _ ret _ _ h1 (hu.of_same_inv rfl rfl)
        exact checkElse_structInv fuel els _ ret _ r c' h (hu1.of_same_inv rfl rfl)
      · rename_i o ho
        exact (ho _ _ h).elim
    all_goals cases h
  | .WhileStmt _ cond body, c, ret, r, c', h, hu => by
    simp only [checkStmt] at h
    split at h
    · split at h
      · rename_i rb c1 h1
        have hu1 := checkBlock_structInv fuel body _ ret _ _ h1 (hu.of_same_inv rfl rfl)
        simp at h
        rw [← h.2]
        exact hu1.of_same_inv rfl rfl
      · rename_i o ho
        exact (ho _ _ h).elim
    all_goals cases h
theorem checkElse_structInv {ds : List StructDecl} (fuel : Nat) : ∀ (s : Option Stmt)
    (c : checker) (ret : Option NamedType) (b r : Bool) (c' : checker),
    checkElse fuel c s ret b = .ok (r, c') → StructInv ds c → StructInv ds c'
  | none, c, ret, b, r, c', h, hu => by
    simp [checkElse] at h; rw [← h.2]; exact hu
  | some s, c, ret, b, r, c', h, hu => by
    simp only [checkElse] at h
    split at h
    · rename_i r2 c1 h1
      have hu1 := checkStmt_structInv fuel s _ ret _ _ h1 (hu.of_same_inv rfl rfl)
      simp at h
      rw [← h.2]
      exact hu1.of_same_inv rfl rfl
    · rename_i o ho
      exact (ho _ _ h).elim
theorem checkBlock_structInv {ds : List StructDecl} (fuel : Nat) : ∀ (b : List Stmt)
    (c : checker) (ret : Option NamedType) (r : Bool) (c' : checker),
    checkBlock fuel c b ret = .ok (r, c') → StructInv ds c → StructInv ds c'
  | [], c, ret, r, c', h, hu => by
    simp [checkBlock] at h; rw [← h.2]; exact hu
  | s :: rest, c, ret, r, c', h, hu => by
    simp only [checkBlock] at h
    split at h
    · rename_i r1 c1 h1
      have hu1 := checkStmt_structInv fuel s _ ret _ _ h1 hu
      split at h
      · rename_i r2 c2 h2
        have hu2 := checkBlock_structInv fuel rest _ ret _ _ h2 hu1
        simp at h
        rw [← h.2]; exact hu2
      · rename_i o ho
        exact (ho _ _ h).elim
    · rename_i o ho
      exact (ho _ _ h).elim
end

theorem checkFnParams_structInv {ds : List StructDecl} (fuel : Nat) :
    ∀ (ps : List Param) (c c' : checker), checkFnParams fuel c ps = .ok c' →
      StructInv ds c → StructInv ds c'
  | [], c, c', h, hu => by simp [checkFnParams] at h; subst h; exact hu
  | p :: rest, c, c', h, hu => by
    simp only [checkFnParams] at h
    split at h
    · rename_i c1 h1
      have hu1 := (checkType_struct _ _ _ _ hu h1).1.inv
      split at h
      · cases h
      · split at h
        · rename_i s hs
          exact checkFnParams_structInv fuel rest _ _ h (hu1.of_same_inv rfl rfl)
        all_goals cases h
    · rename_i o ho
      exact (ho _ h).elim

theorem checkFn_structInv {ds : List StructDecl} {fuel : Nat} {c c' : checker} {fn : FnDecl}
    (h : checkFn fuel c fn = .ok c') (hu : StructInv ds c) : StructInv ds c' := by
  simp only [checkFn] at h
  split at h
  · rename_i c1 h1
    have hu1 : StructInv ds c1 := by
      simp only [checkFnSignature] at h1
      split at h1
      · split at h1
        · rename_i c0 h0
          have := (checkType_struct _ _ _ _ (show StructInv ds c.newScope from hu.of_same_inv rfl rfl) h0).1.inv
          exact checkFnParams_structInv fuel _ _ _ h1 this
        · rename_i o ho
          exact (ho _ h1).elim
      · exact checkFnParams_structInv fuel _ _ _ h1 (hu.of_same_inv rfl rfl)
    split at h
    · rename_i r c2 h2
      have hu2 := checkBlock_structInv fuel _ _ _ _ _ h2 hu1
      split at h
      · split at h
        · cases h
        · cases h; exact hu2.of_same_inv rfl rfl
      · cases h; exact hu2.of_same_inv rfl rfl
    all_goals cases h
  · rename_i o ho
    exact (ho _ h).elim

theorem checkFns_structInv {ds : List StructDecl} (fuel : Nat) :
    ∀ (fns : List FnDecl) (c c' : checker), checkFns fuel c fns = .ok c' →
      StructInv ds c → StructInv ds c'
  | [], c, c', h, hu => by simp [checkFns] at h; subst h; exact hu
  | f :: rest, c, c', h, hu => by
    simp only [checkFns] at h
    split at h
    · rename_i c1 h1
      exact checkFns_structInv fuel rest _ _ h (checkFn_structInv h1 hu)
    · rename_i o ho
      exact (ho _ h).elim

theorem addFns_structInv {ds : List StructDecl} :
    ∀ (fns : List FnDecl) (c c' : checker), addFns c fns = .ok c' →
      StructInv ds c → StructInv ds c'
  | [], c, c', h, hu => by simp [addFns] at h; subst h; exact hu
  | f :: rest, c, c', h, hu => by
    simp only [addFns] at h
    split at h
    · cases h
    · split at h
      · rename_i s hs
        exact addFns_structInv rest _ _ h (hu.of_same_inv rfl rfl)
      all_goals cases h

/-- An accepted module comes back with its struct declarations unchanged up
to the flags; each is found under its name at its own index and nothing that
a struct mentions leads back to it. -/
theorem CheckModule_structs {fuel : Nat} {m m' : Module} (hp : m.parsed)
    (h : CheckModule fuel m = .ok m') :
    m'.Structs.map StructDecl.sig = m.Structs.map StructDecl.sig ∧
      (∀ (i j : Nat) (d e : StructDecl), m.Structs[i]? = some d → m.Structs[j]? = some e →
        d.Name.Ident = e.Name.Ident → i = j) ∧
      ∀ j, j < m.Structs.length → Acc (mentionedBy m.Structs) j := by
  obtain ⟨c, c1, c2, hc, hc1, hc2, rfl⟩ := CheckModule_ok h
  obtain ⟨hi, hd⟩ := checkModuleStructs_struct hp hc
  have hi2 := checkFns_structInv fuel _ _ _ hc2 (addFns_structInv _ _ _ hc1 hi)
  refine ⟨hi2.sig, ?_, fun j hj => hi.acc j (hd j hj)⟩
  intro i j d e h1 h2 hn
  have a := hi.map1 i d h1
  have b := hi.map1 j e h2
  rw [hn, b] at a
  injection a with a
  exact a.symm

theorem foldl_lookup (S : String) (d : StructDecl) :
    ∀ (es : List StructDecl) (acc : List (String × StructDecl)),
    (es.foldl (fun m st => (st.Name.Ident, st) :: m) acc).lookup S = some d →
    (d ∈ es ∧ d.Name.Ident = S) ∨ acc.lookup S = some d
  | [], acc, h => Or.inr h
  | e :: es, acc, h => by
    simp only [List.foldl_cons] at h
    rcases foldl_lookup S d es _ h with ⟨h1, h2⟩ | h1
    · exact Or.inl ⟨List.mem_cons_of_mem _ h1, h2⟩
    · simp only [List.lookup_cons] at h1
      split at h1
      · rename_i heq
        injection h1 with h1
        subst h1
        left
        refine ⟨List.mem_cons_self _ _, ?_⟩
        simpa using (beq_iff_eq.1 heq).symm
      · exact Or.inr h1

theorem initialGenerator_lookup {m : Module} {out : String} {S : String} {d : StructDecl}
    (h : (initialGenerator m out).structs.lookup S = some d) :
    ∃ i : Nat, m.Structs[i]? = some d ∧ d.Name.Ident = S := by
  simp only [initialGenerator] at h
  rcases foldl_lookup S d _ _ h with ⟨h1, h2⟩ | h1
  · obtain ⟨i, hi⟩ := List.getElem?_of_mem h1
    exact ⟨i, hi, h2⟩
  · simp at h1

theorem fieldMention_acc {m m' : Module} {out : String}
    (hsig : m'.Structs.map StructDecl.sig = m.Structs.map StructDecl.sig)
    (huniq : ∀ (i j : Nat) (d e : StructDecl), m.Structs[i]? = some d → m.Structs[j]? = some e →
      d.Name.Ident = e.Name.Ident → i = j)
    (hacc : ∀ j, j < m.Structs.length → Acc (mentionedBy m.Structs) j) :
    ∀ S, Acc (fieldMention (initialGenerator m' out).structs) S := by
  have index : ∀ S d, (initialGenerator m' out).structs.lookup S = some d →
      ∃ (i : Nat) (d0 : StructDecl),
        m.Structs[i]? = some d0 ∧ d0.Name.Ident = S ∧ d0.Fields = d.Fields := by
    intro S d hl
    obtain ⟨i, hi, hn⟩ := initialGenerator_lookup hl
    obtain ⟨d0, h0, hs⟩ := sig_getElem? hsig.symm hi
    simp only [StructDecl.sig, Prod.mk.injEq] at hs
    exact ⟨i, d0, h0, by rw [hs.1, hn], hs.2.2⟩
  have step : ∀ i, Acc (mentionedBy m.Structs) i → ∀ (S : String) (d0 : StructDecl),
      m.Structs[i]? = some d0 →
      d0.Name.Ident = S → Acc (fieldMention (initialGenerator m' out).structs) S := by
    intro i hi
    induction hi with
    | intro i _ ih =>
      intro S d0 h0 hS
      constructor
      intro R hR
      obtain ⟨d, hl, f, hf, hRf⟩ := hR
      cases hlR : (initialGenerator m' out).structs.lookup R with
      | none =>
        constructor
        intro Q hQ
        obtain ⟨dq, hq, _⟩ := hQ
        rw [hlR] at hq
        cases hq
      | some dR =>
        obtain ⟨j, dj, hj, hjn, _⟩ := index R dR hlR
        obtain ⟨i', d0', h0', hn', hf'⟩ := index S d hl
        have e : i' = i := huniq i' i d0' d0 h0' h0 (by rw [hn', hS])
        subst e
        rw [h0] at h0'
        injection h0' with h0'
        subst h0'
        refine ih j ?_ R dj hj hjn
        exact ⟨d0, dj, h0, hj, f, by rw [hf']; exact hf, by rw [hjn]; exact hRf⟩
  intro S
  cases hl : (initialGenerator m' out).structs.lookup S with
  | none =>
    constructor
    intro Q hQ
    obtain ⟨dq, hq, _⟩ := hQ
    rw [hl] at hq
    cases hq
  | some d =>
    obtain ⟨i, d0, h0, hn, _⟩ := index S d hl
    have hi : i < m.Structs.length := (List.getElem?_eq_some_iff.1 h0).1
    exact step i (hacc i hi) S d0 h0 hn

mutual
theorem weightK_congr (c c' : String → Nat) (keys : List String) : ∀ (t : NamedType),
    (∀ N ∈ typeNames t, c N = c' N) → weightK c keys t = weightK c' keys t
  | .mk n args, h => by
    simp only [typeNames, List.mem_cons] at h
    simp only [weightK]
    rw [h n.Ident (Or.inl rfl), weightKArgs_congr c c' keys args (fun N hN => h N (Or.inr hN))]
theorem weightKArgs_congr (c c' : String → Nat) (keys : List String) : ∀ (args : List NamedType),
    (∀ N ∈ typeNamesArgs args, c N = c' N) → weightKArgs c keys args = weightKArgs c' keys args
  | [], _ => by simp only [weightKArgs]
  | a :: rest, h => by
    simp only [typeNamesArgs, List.mem_append] at h
    simp only [weightKArgs]
    rw [weightK_congr c c' keys a (fun N hN => h N (Or.inl hN)),
      weightKArgs_congr c c' keys rest (fun N hN => h N (Or.inr hN))]
end

theorem le_sum_of_mem_map {α : Type} (w : α → Nat) : ∀ (l : List α) (a : α), a ∈ l →
    w a ≤ (l.map w).sum
  | [], _, h => by cases h
  | b :: rest, a, h => by
    simp only [List.map_cons, List.sum_cons]
    simp only [List.mem_cons] at h
    rcases h with rfl | h
    · omega
    · have := le_sum_of_mem_map w rest a h
      omega

/-- When no struct of the table leads back to itself through its fields, the
type names can be given weights that fit the table. -/
theorem weightOK_exists (structs : List (String × StructDecl))
    (hacc : ∀ S, Acc (fieldMention structs) S) : ∃ c, WeightOK structs c := by
  classical
  have hwf : WellFounded (fieldMention structs) := ⟨hacc⟩
  obtain ⟨F, hF⟩ : ∃ F : (S : String) → ((R : String) → fieldMention structs R S → Nat) → Nat,
      ∀ S rec, F S rec =
        match structs.lookup S with
        | none => 1
        | some d =>
          1 + (d.Fields.map (fun f =>
            weightK (fun R => if h : fieldMention structs R S then rec R h else 1)
              (d.Params.map (fun p => p.Ident)) f.Ty)).sum :=
    ⟨_, fun _ _ => rfl⟩
  refine ⟨hwf.fix F, ?_, ?_⟩
  · intro N
    rw [WellFounded.fix_eq, hF]
    split
    · exact le_rfl
    · exact Nat.le_add_right 1 _
  · intro S d hl f hf
    rw [WellFounded.fix_eq hwf F S, hF]
    simp only [hl]
    have hcongr : weightK (hwf.fix F) (d.Params.map (fun p => p.Ident)) f.Ty =
        weightK (fun R => if h : fieldMention structs R S then hwf.fix F R else 1)
          (d.Params.map (fun p => p.Ident)) f.Ty := by
      apply weightK_congr
      intro N hN
      have : fieldMention structs N S := ⟨d, hl, f, hf, hN⟩
      simp [this]
    rw [hcongr]
    have := le_sum_of_mem_map (fun f =>
      weightK (fun R => if h : fieldMention structs R S then hwf.fix F R else 1)
        (d.Params.map (fun p => p.Ident)) f.Ty) d.Fields f hf
    exact Nat.lt_of_le_of_lt this (Nat.lt_add_of_pos_left Nat.one_pos)

mutual
theorem TypeEqualNamed_fuel : ∀ (l r : NamedType), TypeEqualNamed l r ≠ .nofuel
  | .mk ln la, .mk rn ra => by
    simp only [TypeEqualNamed]
    split
    · simp
    · split
      · simp
      · exact TypeEqualArgs_fuel la ra
theorem TypeEqualArgs_fuel : ∀ (l r : List NamedType), TypeEqualArgs l r ≠ .nofuel
  | [], _ => by simp [TypeEqualArgs]
  | _ :: _, [] => by simp [TypeEqualArgs]
  | l :: ls, r :: rs => by
    simp only [TypeEqualArgs]
    have := TypeEqualNamed_fuel l r
    split
    · exact TypeEqualArgs_fuel ls rs
    · assumption
end

theorem findInstance_fuel (ty : NamedType) : ∀ (l : List genericInstance),
    findInstance ty l ≠ .nofuel
  | [] => by simp [findInstance]
  | inst :: rest => by
    simp only [findInstance, TypeEqual]
    have := TypeEqualNamed_fuel inst.ty ty
    split
    · simp
    · exact findInstance_fuel ty rest
    · simp
    · simp
    · rename_i h; exact (this h).elim

mutual
theorem ResolveGenericType_fuel (env : List (String × NamedType)) : ∀ (t : NamedType),
    ResolveGenericType env t ≠ .nofuel
  | .mk n args => by
    simp only [ResolveGenericType]
    have := ResolveGenericArgs_fuel env args
    split
    · split <;> simp
    · split
      · simp
      · simp
      · simp
      · rename_i h; exact (this h).elim
theorem ResolveGenericArgs_fuel (env : List (String × NamedType)) : ∀ (args : List NamedType),
    ResolveGenericArgs env args ≠ .nofuel
  | [] => by simp [ResolveGenericArgs]
  | a :: rest => by
    simp only [ResolveGenericArgs]
    have h1 := ResolveGenericType_fuel env a
    have h2 := ResolveGenericArgs_fuel env rest
    split
    · split
      · simp
      · exact h2
    · simp
    · simp
    · rename_i h; exact (h1 h).elim
end

theorem genStructFields_fuel {structs : List (String × StructDecl)} {c : String → Nat}
    {fuel : Nat} {gt : generator → NamedType → Res (String × generator)}
    (hgt : ∀ g ty, g.structs = structs → weight c ty < fuel → gt g ty ≠ .nofuel)
    (hext : ∀ g ty s g', gt g ty = .ok (s, g') → g'.structs = g.structs)
    {env : List (String × NamedType)} :
    ∀ (fs : List Param) (g : generator) (out : List (String × String)),
      (∀ f ∈ fs, ∀ r, ResolveGenericType env f.Ty = .ok r → weight c r < fuel) →
      g.structs = structs → genStructFields gt env g out fs ≠ .nofuel
  | [], g, out, _, _ => by simp [genStructFields]
  | f :: rest, g, out, hw, hs => by
    simp only [genStructFields]
    have h1 := ResolveGenericType_fuel env f.Ty
    split
    · rename_i ty hty
      have h2 := hgt g ty hs (hw f (List.mem_cons_self _ _) ty hty)
      split
      · rename_i cty g1 hg1
        exact genStructFields_fuel hgt hext rest g1 _
          (fun f' hf' => hw f' (List.mem_cons_of_mem _ hf')) ((hext _ _ _ _ hg1).trans hs)
      · simp
      · simp
      · rename_i h; exact (h2 h).elim
    · simp
    · simp
    · rename_i h; exact (h1 h).elim

theorem genType_fuel {structs : List (String × StructDecl)} {c : String → Nat}
    (hc : WeightOK structs c) : ∀ (fuel : Nat) (g : generator) (t : NamedType),
    g.structs = structs → weight c t < fuel → genType fuel g t ≠ .nofuel
  | 0, _, _, _, hw => by omega
  | fuel + 1, g, .mk n args, hs, hw => by
    have ih := genType_fuel hc fuel
    have hext : ∀ g ty s g', genType fuel g ty = .ok (s, g') → g'.structs = g.structs :=
      fun g ty s g' h => (genType_ext fuel g ty s g' h).structs
    simp only [genType, NamedType.Name, NamedType.Args]
    split
    · simp
    · split
      · simp
      · split
        · simp
        · have hfi := findInstance_fuel (.mk n args) g.instances
          split
          · simp
          · split
            · simp
            · simp
            · simp
            · rename_i heq
              exfalso
              revert heq
              split
              · cases args with
                | nil => simp
                | cons elt rest =>
                  simp only [genSlice]
                  have hlt : weight c elt < fuel := by
                    have h1 := weightArgs_mem c (elt :: rest) elt (List.mem_cons_self _ _)
                    have h2 := hc.pos n.Ident
                    simp only [weight] at hw
                    have h3 : 1 * (1 + weightArgs c (elt :: rest)) ≤
                        c n.Ident * (1 + weightArgs c (elt :: rest)) :=
                      Nat.mul_le_mul_right _ h2
                    omega
                  have := ih (g.enter (.mk n (elt :: rest))) elt hs hlt
                  simp only [generator.enter] at this
                  split
                  · simp
                  · simp
                  · simp
                  · rename_i h; exact (this h).elim
              · simp only [genStruct]
                split
                · simp
                · rename_i d hd
                  split
                  · rename_i env henv
                    have := @genStructFields_fuel structs c fuel (genType fuel)
                      (fun g ty h1 h2 => ih g ty h1 h2) hext env d.Fields
                      (g.enter (.mk n args)) []
                      (fun f hf r hr => by
                        have := @field_weight_lt structs c hc n args d
                          (by rw [← hs]; exact hd) env henv f hf r hr
                        omega) hs
                    simp only [generator.enter] at this
                    split
                    · simp
                    · simp
                    · simp
                    · rename_i h; exact (this h).elim
                  · simp
                  · simp
                  · rename_i h
                    simp only [GetGenericEnv] at h
                    split at h <;> cases h
          · simp
          · simp
          · rename_i h; exact (hfi h).elim

mutual
theorem genExpr_fuel {structs : List (String × StructDecl)} {c : String → Nat}
    (hc : WeightOK structs c) (fuel : Nat) (hS : weight c (ast.SliceType ast.Uint8) < fuel) :
    ∀ (e : Expr) (g : generator), Ready structs g → genExpr fuel g e ≠ .nofuel
  | .IntExpr _ _, g, hr => by simp [genExpr]
  | .StringExpr _ _, g, hr => by
    simp only [genExpr]
    have := genType_fuel hc fuel g _ hr.1 hS
    split
    · simp
    · exact this
  | .VarExpr _, g, hr => by
    simp only [genExpr]
    split
    · simp
    · split <;> simp
  | .CallExpr fn args, g, hr => by
    simp only [genExpr]
    have h1 := genExpr_fuel hc fuel hS fn g hr
    split
    · rename_i f g1 hg1
      have p1 := genExpr_post hc fuel fn _ _ _ hr hg1
      have h2 := genExprArgs_fuel hc fuel hS args g1 (hr.post p1)
      split
      · simp
      · simp
      · simp
      · rename_i h; exact (h2 h).elim
    · exact h1
  | .FieldExpr e _, g, hr => by
    simp only [genExpr]
    have h1 := genExpr_fuel hc fuel hS e g hr
    split
    · simp
    · exact h1
theorem genExprArgs_fuel {structs : List (String × StructDecl)} {c : String → Nat}
    (hc : WeightOK structs c) (fuel : Nat) (hS : weight c (ast.SliceType ast.Uint8) < fuel) :
    ∀ (args : List Expr) (g : generator), Ready structs g → genExprArgs fuel g args ≠ .nofuel
  | [], g, hr => by simp [genExprArgs]
  | a :: rest, g, hr => by
    simp only [genExprArgs]
    have h1 := genExpr_fuel hc fuel hS a g hr
    split
    · rename_i x g1 hg1
      have p1 := genExpr_post hc fuel a _ _ _ hr hg1
      have h2 := genExprArgs_fuel hc fuel hS rest g1 (hr.post p1)
      split
      · simp
      · exact h2
    · simp
    · simp
    · rename_i h; exact (h1 h).elim
end

theorem genBlockWith_fuel {structs : List (String × StructDecl)}
    {gs : generator → Res generator}
    (hgs : ∀ g, Ready structs g → gs g ≠ .nofuel) {g : generator}
    (hr : Ready structs g) : genBlockWith gs g ≠ .nofuel := by
  unfold genBlockWith
  have := hgs { g.write "\x7b\n" with indent := g.indent + 1 }
    (hr.post (PostG.of_same rfl rfl rfl hr.2.1))
  split
  · simp
  · exact this

mutual
theorem genStmtSwitch_fuel {structs : List (String × StructDecl)} {c : String → Nat}
    (hc : WeightOK structs c) (fuel : Nat) (hS : weight c (ast.SliceType ast.Uint8) < fuel) :
    ∀ (st : Stmt) (indent : Bool) (g : generator), Ready structs g →
    (∀ t ∈ st.varTypes, weight c t < fuel) → genStmtSwitch fuel g st indent ≠ .nofuel
  | .ExprStmt e, indent, g, hr, hT => by
    simp only [genStmtSwitch]
    have h1 := genExpr_fuel hc fuel hS e g hr
    split
    · simp
    · simp
    · simp
    · rename_i h; exact (h1 h).elim
  | .BlockStmt _ b, indent, g, hr, hT => by
    simp only [genStmtSwitch]
    exact genBlockWith_fuel
      (fun g hr => genStmts_fuel hc fuel hS b g hr (by simpa [Stmt.varTypes] using hT)) hr
  | .ReturnStmt _ none, indent, g, hr, hT => by simp [genStmtSwitch]
  | .ReturnStmt _ (some e), indent, g, hr, hT => by
    simp only [genStmtSwitch]
    have h1 := genExpr_fuel hc fuel hS e g hr
    split
    · simp
    · simp
    · simp
    · rename_i h; exact (h1 h).elim
  | .VarStmt _ name ty e, indent, g, hr, hT => by
    simp only [genStmtSwitch]
    have h1 := genType_fuel hc fuel g ty hr.1 (hT ty (by simp [Stmt.varTypes]))
    split
    · rename_i cty g1 hg1
      have p1 := (genType_top hc hr hg1).1
      split
      · rename_i e'
        have h2 := genExpr_fuel hc fuel hS e' g1 (hr.post p1)
        split
        · simp
        · simp
        · simp
        · rename_i h; exact (h2 h).elim
      · simp
    · simp
    · simp
    · rename_i h; exact (h1 h).elim
  | .AssignStmt l r, indent, g, hr, hT => by
    simp only [genStmtSwitch]
    have h1 := genExpr_fuel hc fuel hS l g hr
    split
    · rename_i x g1 hg1
      have p1 := genExpr_post hc fuel l _ _ _ hr hg1
      have h2 := genExpr_fuel hc fuel hS r g1 (hr.post p1)
      split
      · simp
      · simp
      · simp
      · rename_i h; exact (h2 h).elim
    · simp
    · simp
    · rename_i h; exact (h1 h).elim
  | .IfStmt _ cond body els, indent, g, hr, hT => by
    simp only [genStmtSwitch]
    have hT1 : ∀ t ∈ varTypesBlock body, weight c t < fuel :=
      fun t ht => hT t (by simp [Stmt.varTypes, ht])
    have hT2 : ∀ t ∈ varTypesElse els, weight c t < fuel :=
      fun t ht => hT t (by simp [Stmt.varTypes, ht])
    have h1 := genExpr_fuel hc fuel hS cond g hr
    split
    · rename_i x g1 hg1
      have p1 := genExpr_post hc fuel cond _ _ _ hr hg1
      have pw : PostG g1 (g1.write ("if (" ++ x ++ ") ")) := PostG.write _ p1.ordered
      have r1 := (hr.post p1).post pw
      have h2 := genBlockWith_fuel
        (fun g hr => genStmts_fuel hc fuel hS body g hr hT1) r1
      split
      · rename_i g2 hg2
        have p2 := genBlockWith_post
          (fun g g' hr h => genStmts_post hc fuel body g g' hr h) r1 hg2
        have h3 := genElse_fuel hc fuel hS els g2 (r1.post p2) hT2
        split
        · simp
        · exact h3
      · exact h2
    · simp
    · simp
    · rename_i h; exact (h1 h).elim
  | .WhileStmt _ cond body, indent, g, hr, hT => by
    simp only [genStmtSwitch]
    have hT1 : ∀ t ∈ varTypesBlock body, weight c t < fuel :=
      fun t ht => hT t (by simp [Stmt.varTypes, ht])
    have h1 := genExpr_fuel hc fuel hS cond g hr
    split
    · rename_i x g1 hg1
      have p1 := genExpr_post hc fuel cond _ _ _ hr hg1
      have pw : PostG g1 (g1.write ("while (" ++ x ++ ") ")) := PostG.write _ p1.ordered
      have r1 := (hr.post p1).post pw
      have h2 := genBlockWith_fuel
        (fun g hr => genStmts_fuel hc fuel hS body g hr hT1) r1
      split
      · simp
      · exact h2
    · simp
    · simp
    · rename_i h; exact (h1 h).elim
theorem genElse_fuel {structs : List (String × StructDecl)} {c : String → Nat}
    (hc : WeightOK structs c) (fuel : Nat) (hS : weight c (ast.SliceType ast.Uint8) < fuel) :
    ∀ (els : Option Stmt) (g : generator), Ready structs g →
    (∀ t ∈ varTypesElse els, weight c t < fuel) → genElse fuel g els ≠ .nofuel
  | none, g, hr, hT => by simp [genElse]
  | some st, g, hr, hT => by
    simp only [genElse]
    exact genStmtSwitch_fuel hc fuel hS st false _ (hr.post (PostG.write _ hr.2.1))
      (by simpa [varTypesElse] using hT)
theorem genStmts_fuel {structs : List (String × StructDecl)} {c : String → Nat}
    (hc : WeightOK structs c) (fuel : Nat) (hS : weight c (ast.SliceType ast.Uint8) < fuel) :
    ∀ (b : List Stmt) (g : generator), Ready structs g →
    (∀ t ∈ varTypesBlock b, weight c t < fuel) → genStmts fuel g b ≠ .nofuel
  | [], g, hr, hT => by simp [genStmts]
  | st :: rest, g, hr, hT => by
    simp only [genStmts]
    have pw : PostG g g.writeIndent := PostG.of_same rfl rfl rfl hr.2.1
    have h1 := genStmtSwitch_fuel hc fuel hS st true _ (hr.post pw)
      (fun t ht => hT t (by simp [varTypesBlock, ht]))
    split
    · rename_i g1 hg1
      have p1 := genStmtSwitch_post hc fuel st true _ _ (hr.post pw) hg1
      exact genStmts_fuel hc fuel hS rest g1 ((hr.post pw).post p1)
        (fun t ht => hT t (by simp [varTypesBlock, ht]))
    · exact h1
end

theorem genFnParams_fuel {structs : List (String × StructDecl)} {c : String → Nat}
    (hc : WeightOK structs c) (fuel : Nat) : ∀ (ps : List Param) (g : generator),
    Ready structs g → (∀ p ∈ ps, weight c p.Ty < fuel) → genFnParams fuel g ps ≠ .nofuel
  | [], g, hr, hT => by simp [genFnParams]
  | p :: rest, g, hr, hT => by
    simp only [genFnParams]
    have h1 := genType_fuel hc fuel g p.Ty hr.1 (hT p (List.mem_cons_self _ _))
    split
    · rename_i pt g1 hg1
      have p1 := (genType_top hc hr hg1).1
      have h2 := genFnParams_fuel hc fuel rest g1 (hr.post p1)
        (fun q hq => hT q (List.mem_cons_of_mem _ hq))
      split
      · simp
      · exact h2
    · simp
    · simp
    · rename_i h; exact (h1 h).elim

theorem genFn_fuel {structs : List (String × StructDecl)} {c : String → Nat}
    (hc : WeightOK structs c) (fuel : Nat) (hS : weight c (ast.SliceType ast.Uint8) < fuel)
    (fn : FnDecl) (g : generator) (hr : Ready structs g)
    (hT : ∀ t ∈ fn.loweredTypes, weight c t < fuel) : genFn fuel g fn ≠ .nofuel := by
  intro h
  unfold genFn at h
  simp only at h
  split at h
  · rename_i rt g1 h1
    have p1 : PostG g g1 := by
      split at h1
      · exact (genType_top hc hr h1).1
      · cases h1
        exact PostG.refl_post hr.2.1
    have hp := genFnParams_fuel hc fuel fn.Params g1 (hr.post p1)
      (fun p hp => hT _ (by simp only [FnDecl.loweredTypes, List.mem_append, List.mem_map]
                            exact Or.inl (Or.inr ⟨p, hp, rfl⟩)))
    split at h
    · rename_i params g2 h2
      obtain ⟨p2, _⟩ := genFnParams_post hc fuel _ _ _ _ (hr.post p1) h2
      have r2 := (hr.post p1).post p2
      have p3 : PostG g2 { g2 with header := g2.header ++ [.fnDecl rt fn.Name.Ident params] } := by
        have := genFn_post hc fuel { fn with Body := none } g
          { g2 with header := g2.header ++ [.fnDecl rt fn.Name.Ident params] } hr
          (by simp only [genFn]; rw [h1]; simp only; rw [h2])
        exact ⟨rfl, ⟨_, rfl⟩, ⟨[], by simp, by simp⟩, this.ordered⟩
      have r3 := r2.post p3
      split at h
      · rename_i body hb
        have hw := PostG.write (signature rt fn.Name.Ident params ++ " ") r3.2.1
        have h4 := genBlockWith_fuel
          (fun g hr => genStmts_fuel hc fuel hS body g hr
            (fun t ht => hT t (by simp [FnDecl.loweredTypes, hb, ht]))) (r3.post hw)
        split at h
        · cases h
        · exact h4 h
      · cases h
    · cases h
    · cases h
    · rename_i h2; exact hp h2
  · cases h
  · cases h
  · rename_i h1
    split at h1
    · rename_i r hret
      exact genType_fuel hc fuel g r hr.1
        (hT r (by simp [FnDecl.loweredTypes, hret])) h1
    · cases h1

theorem genFns_fuel {structs : List (String × StructDecl)} {c : String → Nat}
    (hc : WeightOK structs c) (fuel : Nat) (hS : weight c (ast.SliceType ast.Uint8) < fuel) :
    ∀ (fns : List FnDecl) (g : generator), Ready structs g →
    (∀ fn ∈ fns, ∀ t ∈ fn.loweredTypes, weight c t < fuel) → genFns fuel g fns ≠ .nofuel
  | [], g, hr, hT => by simp [genFns]
  | fn :: rest, g, hr, hT => by
    simp only [genFns]
    have h1 := genFn_fuel hc fuel hS fn g hr (hT fn (List.mem_cons_self _ _))
    split
    · rename_i g1 hg1
      exact genFns_fuel hc fuel hS rest g1 (hr.post (genFn_post hc fuel fn _ _ hr hg1))
        (fun f hf => hT f (List.mem_cons_of_mem _ hf))
    · exact h1

theorem initialGenerator_ready (m : Module) (out : String) :
    Ready (initialGenerator m out).structs (initialGenerator m out) := by
  refine ⟨rfl, ?_, by simp [initialGenerator]⟩
  intro j w hw name hn
  have : w = .includeLine := by
    simp only [initialGenerator] at hw
    rcases j with _ | j
    · simpa using hw.symm
    · simp at hw
  subst this
  simp [HeaderWrite.uses] at hn

theorem GenModule_fuel {m : Module} {out : String} {c : String → Nat}
    (hc : WeightOK (initialGenerator m out).structs c) {fuel : Nat}
    (hT : ∀ t ∈ m.loweredTypes, weight c t < fuel) : GenModule fuel m out ≠ .nofuel := by
  unfold GenModule
  apply genFns_fuel hc fuel (hT _ (by simp [Module.loweredTypes])) m.Fns _
    (initialGenerator_ready m out)
  intro fn hfn t ht
  apply hT
  simp only [Module.loweredTypes, List.mem_cons, List.mem_flatten, List.mem_map]
  exact Or.inr ⟨_, ⟨fn, hfn, rfl⟩, ht⟩

theorem digitChar_val (k : Nat) (hk : k < 10) : (Nat.digitChar k).toNat - 48 = k := by
  interval_cases k <;> rfl

theorem toDigitsCore_val : ∀ (fuel n : Nat) (ds : List Char), n < fuel →
    (Nat.toDigitsCore 10 fuel n ds).foldl (fun a c => 10 * a + (c.toNat - 48)) 0 =
      ds.foldl (fun a c => 10 * a + (c.toNat - 48)) n
  | 0, _, _, h => by omega
  | fuel + 1, n, ds, h => by
    simp only [Nat.toDigitsCore]
    have hd := digitChar_val (n % 10) (Nat.mod_lt _ (by omega))
    split
    · rename_i h0
      simp only [List.foldl_cons, hd]
      have : n % 10 = n := by omega
      simp [this]
    · rename_i h0
      rw [toDigitsCore_val fuel (n / 10) _ (by omega)]
      simp only [List.foldl_cons, hd]
      have : 10 * (n / 10) + n % 10 = n := by omega
      rw [this]

theorem toString_nat_inj {a b : Nat} (h : toString a = toString b) : a = b := by
  have h1 : (Nat.toDigits 10 a) = (Nat.toDigits 10 b) := by
    have := congrArg String.data h
    exact this
  have ha := toDigitsCore_val (a + 1) a [] (by omega)
  have hb := toDigitsCore_val (b + 1) b [] (by omega)
  simp only [Nat.toDigits] at h1
  rw [h1, hb] at ha
  simpa using ha.symm

theorem tyName_inj {a b : Nat} (h : "ty" ++ toString a = "ty" ++ toString b) : a = b := by
  have := congrArg String.data h
  simp only [String.data_append, List.append_cancel_left_eq] at this
  exact toString_nat_inj (String.ext this)

theorem defNames_append (a b : List HeaderWrite) : DefNames (a ++ b) = DefNames a ++ DefNames b :=
  List.filterMap_append _ _ _

theorem FreshStep.refl_fresh (g : generator) : FreshStep g g :=
  ⟨le_rfl, [], by simp, by simp [DefNames], by simp [DefNames]⟩

theorem FreshStep.trans_fresh {a b c : generator} (h1 : FreshStep a b) (h2 : FreshStep b c) :
    FreshStep a c := by
  obtain ⟨c1, e1, x1, n1, d1⟩ := h1
  obtain ⟨c2, e2, x2, n2, d2⟩ := h2
  refine ⟨by omega, e1 ++ e2, by rw [x2, x1, List.append_assoc], ?_, ?_⟩
  · intro name hn
    rw [defNames_append, List.mem_append] at hn
    rcases hn with hn | hn
    · obtain ⟨k, h1, h2, h3⟩ := n1 name hn
      exact ⟨k, h1, by omega, h3⟩
    · obtain ⟨k, h1, h2, h3⟩ := n2 name hn
      exact ⟨k, by omega, h2, h3⟩
  · rw [defNames_append]
    refine List.nodup_append.2 ⟨d1, d2, ?_⟩
    intro name ha hb
    obtain ⟨k, _, h2, h3⟩ := n1 name ha
    obtain ⟨k', h1', _, h3'⟩ := n2 name hb
    have := tyName_inj (h3.symm.trans h3')
    omega

theorem FreshStep.same {g g' : generator} (h1 : g'.counter = g.counter)
    (h2 : g'.header = g.header) : FreshStep g g' :=
  ⟨by omega, [], by simp [h2], by simp [DefNames], by simp [DefNames]⟩

theorem FreshStep.nodef {g : generator} (w : HeaderWrite) (hw : w.defines = none) :
    FreshStep g { g with header := g.header ++ [w] } :=
  ⟨le_rfl, [w], rfl, by simp [DefNames, hw], by simp [DefNames, hw]⟩

theorem FreshStep.define {g g1 : generator} {t : NamedType} {w : HeaderWrite}
    (h : FreshStep (g.enter t) g1) (hw : w.defines = some ("ty" ++ toString g.counter)) :
    FreshStep g { g1 with header := g1.header ++ [w] } := by
  obtain ⟨c1, e1, x1, n1, d1⟩ := h
  simp only [generator.enter] at c1 x1 n1
  have hdw : DefNames [w] = ["ty" ++ toString g.counter] := by simp [DefNames, hw]
  refine ⟨by simp only; omega, e1 ++ [w], by simp only [x1, List.append_assoc], ?_, ?_⟩
  · intro name hn
    rw [defNames_append, List.mem_append, hdw] at hn
    rcases hn with hn | hn
    · obtain ⟨k, h1, h2, h3⟩ := n1 name hn
      exact ⟨k, by omega, h2, h3⟩
    · simp only [List.mem_singleton] at hn
      exact ⟨g.counter, le_rfl, by simp only; omega, hn⟩
  · rw [defNames_append, hdw]
    refine List.nodup_append.2 ⟨d1, by simp, ?_⟩
    intro name ha hb
    simp only [List.mem_singleton] at hb
    obtain ⟨k, h1, _, h3⟩ := n1 name ha
    have := tyName_inj (h3.symm.trans hb)
    omega

theorem genStructFields_fresh {gt : generator → NamedType → Res (String × generator)}
    (hgt : ∀ g ty s g', gt g ty = .ok (s, g') → FreshStep g g')
    {env : List (String × NamedType)} :
    ∀ (fs : List Param) (g : generator) (out out' : List (String × String)) (g' : generator),
      genStructFields gt env g out fs = .ok (out', g') → FreshStep g g'
  | [], g, out, out', g', h => by
    simp only [genStructFields] at h
    cases h
    exact FreshStep.refl_fresh _
  | f :: rest, g, out, out', g', h => by
    simp only [genStructFields] at h
    split at h
    · rename_i ty hty
      split at h
      · rename_i cty g1 hg1
        exact (hgt _ _ _ _ hg1).trans_fresh (genStructFields_fresh hgt rest _ _ _ _ h)
      all_goals cases h
    all_goals cases h

theorem genType_fresh : ∀ (fuel : Nat) (g : generator) (t : NamedType) (s : String)
    (g' : generator), genType fuel g t = .ok (s, g') → FreshStep g g'
  | 0, _, _, _, _, h => by simp [genType] at h
  | fuel + 1, g, t, s, g', h => by
    rcases genType_ok_cases h with ⟨rfl, _⟩ | ⟨_, _, _, h⟩
    · exact FreshStep.refl_fresh _
    · rcases h with ⟨name, _, _, rfl⟩ | ⟨fuel', hfu, _, _, h⟩
      · exact FreshStep.refl_fresh _
      · cases hfu
        rcases h with ⟨elt, rest, _, _, h⟩ | ⟨_, h⟩
        · simp only [genSlice] at h
          split at h
          · rename_i cty g1 hg1
            cases h
            exact (genType_fresh fuel _ _ _ _ hg1).define rfl
          all_goals cases h
        · simp only [genStruct] at h
          split at h
          · cases h
          · split at h
            · split at h
              · rename_i out g1 hg1
                cases h
                exact (genStructFields_fresh (genType_fresh fuel) _ _ _ _ _ hg1).define rfl
              all_goals cases h
            all_goals cases h

mutual
theorem genExpr_fresh (fuel : Nat) : ∀ (e : Expr) (g g' : generator) (s : String),
    genExpr fuel g e = .ok (s, g') → FreshStep g g'
  | .IntExpr _ _, g, g', s, h => by
    simp only [genExpr] at h; cases h; exact FreshStep.refl_fresh _
  | .StringExpr _ _, g, g', s, h => by
    simp only [genExpr] at h
    split at h
    · rename_i ty g1 h1
      cases h
      exact genType_fresh _ _ _ _ _ h1
    · rename_i o ho
      exact (ho _ _ h).elim
  | .VarExpr _, g, g', s, h => by
    simp only [genExpr] at h
    split at h
    · cases h; exact FreshStep.refl_fresh _
    · split at h <;> (cases h; exact FreshStep.refl_fresh _)
  | .CallExpr fn args, g, g', s, h => by
    simp only [genExpr] at h
    split at h
    · rename_i f g1 h1
      split at h
      · rename_i as g2 h2
        cases h
        exact (genExpr_fresh fuel fn _ _ _ h1).trans_fresh (genExprArgs_fresh fuel args _ _ _ h2)
      all_goals cases h
    · rename_i o ho
      exact (ho _ _ h).elim
  | .FieldExpr e _, g, g', s, h => by
    simp only [genExpr] at h
    split at h
    · rename_i x g1 h1
      cases h
      exact genExpr_fresh fuel e _ _ _ h1
    · rename_i o ho
      exact (ho _ _ h).elim
theorem genExprArgs_fresh (fuel : Nat) : ∀ (args : List Expr) (g g' : generator)
    (s : List String), genExprArgs fuel g args = .ok (s, g') → FreshStep g g'
  | [], g, g', s, h => by
    simp only [genExprArgs] at h; cases h; exact FreshStep.refl_fresh _
  | a :: rest, g, g', s, h => by
    simp only [genExprArgs] at h
    split at h
    · rename_i x g1 h1
      split at h
      · rename_i as g2 h2
        cases h
        exact (genExpr_fresh fuel a _ _ _ h1).trans_fresh (genExprArgs_fresh fuel rest _ _ _ h2)
      · rename_i o ho
        exact (ho _ _ h).elim
    all_goals cases h
end

theorem genBlockWith_fresh {gs : generator → Res generator}
    (hgs : ∀ g g', gs g = .ok g' → FreshStep g g') {g g' : generator}
    (h : genBlockWith gs g = .ok g') : FreshStep g g' := by
  unfold genBlockWith at h
  split at h
  · rename_i g1 h1
    cases h
    have p0 : FreshStep g { g.write "\x7b\n" with indent := g.indent + 1 } :=
      FreshStep.same rfl rfl
    exact (p0.trans_fresh (hgs _ _ h1)).trans_fresh (FreshStep.same rfl rfl)
  · rename_i o ho
    exact (ho _ h).elim

mutual
theorem genStmtSwitch_fresh (fuel : Nat) : ∀ (st : Stmt) (indent : Bool) (g g' : generator),
    genStmtSwitch fuel g st indent = .ok g' → FreshStep g g'
  | .ExprStmt e, indent, g, g', h => by
    simp only [genStmtSwitch] at h
    split at h
    · rename_i x g1 h1
      cases h
      exact (genExpr_fresh fuel e _ _ _ h1).trans_fresh (FreshStep.same rfl rfl)
    all_goals cases h
  | .BlockStmt _ b, indent, g, g', h => by
    simp only [genStmtSwitch] at h
    exact genBlockWith_fresh (fun g g' h => genStmts_fresh fuel b g g' h) h
  | .ReturnStmt _ none, indent, g, g', h => by
    simp only [genStmtSwitch] at h
    cases h
    exact FreshStep.same rfl rfl
  | .ReturnStmt _ (some e), indent, g, g', h => by
    simp only [genStmtSwitch] at h
    split at h
    · rename_i x g1 h1
      cases h
      exact (genExpr_fresh fuel e _ _ _ h1).trans_fresh (FreshStep.same rfl rfl)
    all_goals cases h
  | .VarStmt _ name ty e, indent, g, g', h => by
    simp only [genStmtSwitch] at h
    split at h
    · rename_i cty g1 h1
      have p1 := genType_fresh _ _ _ _ _ h1
      split at h
      · split at h
        · rename_i x g2 h2
          cases h
          exact (p1.trans_fresh (genExpr_fresh fuel _ _ _ _ h2)).trans_fresh
            (FreshStep.same rfl rfl)
        all_goals cases h
      · cases h
        exact p1.trans_fresh (FreshStep.same rfl rfl)
    all_goals cases h
  | .AssignStmt l r, indent, g, g', h => by
    simp only [genStmtSwitch] at h
    split at h
    · rename_i x g1 h1
      split at h
      · rename_i y g2 h2
        cases h
        exact ((genExpr_fresh fuel l _ _ _ h1).trans_fresh
          (genExpr_fresh fuel r _ _ _ h2)).trans_fresh (FreshStep.same rfl rfl)
      all_goals cases h
    all_goals cases h
  | .IfStmt _ cond body els, indent, g, g', h => by
    simp only [genStmtSwitch] at h
    split at h
    · rename_i x g1 h1
      have p1 := genExpr_fresh fuel cond _ _ _ h1
      have pw : FreshStep g1 (g1.write ("if (" ++ x ++ ") ")) := FreshStep.same rfl rfl
      split at h
      · rename_i g2 h2
        have p2 := genBlockWith_fresh (fun g g' h => genStmts_fresh fuel body g g' h) h2
        split at h
        · rename_i g3 h3
          have p3 := genElse_fresh fuel els _ _ h3
          have p123 := ((p1.trans_fresh pw).trans_fresh p2).trans_fresh p3
          cases h
          split
          · exact p123.trans_fresh (FreshStep.same rfl rfl)
          · exact p123
        · rename_i o ho
          exact (ho _ h).elim
      · rename_i o ho
        exact (ho _ h).elim
    all_goals cases h
  | .WhileStmt _ cond body, indent, g, g', h => by
    simp only [genStmtSwitch] at h
    split at h
    · rename_i x g1 h1
      have p1 := genExpr_fresh fuel cond _ _ _ h1
      have pw : FreshStep g1 (g1.write ("while (" ++ x ++ ") ")) := FreshStep.same rfl rfl
      split at h
      · rename_i g2 h2
        have p2 := genBlockWith_fresh (fun g g' h => genStmts_fresh fuel body g g' h) h2
        cases h
        exact ((p1.trans_fresh pw).trans_fresh p2).trans_fresh (FreshStep.same rfl rfl)
      · rename_i o ho
        exact (ho _ h).elim
    all_goals cases h
theorem genElse_fresh (fuel : Nat) : ∀ (els : Option Stmt) (g g' : generator),
    genElse fuel g els = .ok g' → FreshStep g g'
  | none, g, g', h => by
    simp only [genElse] at h; cases h; exact FreshStep.refl_fresh _
  | some st, g, g', h => by
    simp only [genElse] at h
    have pw : FreshStep g (g.write " else ") := FreshStep.same rfl rfl
    exact pw.trans_fresh (genStmtSwitch_fresh fuel st false _ _ h)
theorem genStmts_fresh (fuel : Nat) : ∀ (b : List Stmt) (g g' : generator),
    genStmts fuel g b = .ok g' → FreshStep g g'
  | [], g, g', h => by
    simp only [genStmts] at h; cases h; exact FreshStep.refl_fresh _
  | st :: rest, g, g', h => by
    simp only [genStmts] at h
    split at h
    · rename_i g1 h1
      have pw : FreshStep g g.writeIndent := FreshStep.same rfl rfl
      exact (pw.trans_fresh (genStmtSwitch_fresh fuel st true _ _ h1)).trans_fresh
        (genStmts_fresh fuel rest _ _ h)
    · rename_i o ho
      exact (ho _ h).elim
end

theorem genFnParams_fresh (fuel : Nat) : ∀ (ps : List Param) (g g' : generator)
    (params : List (String × String)), genFnParams fuel g ps = .ok (params, g') →
    FreshStep g g'
  | [], g, g', params, h => by
    simp only [genFnParams] at h
    cases h
    exact FreshStep.refl_fresh _
  | p :: rest, g, g', params, h => by
    simp only [genFnParams] at h
    split at h
    · rename_i pt g1 h1
      split at h
      · rename_i ps g2 h2
        cases h
        exact (genType_fresh _ _ _ _ _ h1).trans_fresh (genFnParams_fresh fuel rest _ _ _ h2)
      · rename_i o ho
        exact (ho _ _ h).elim
    all_goals cases h

theorem genFn_fresh (fuel : Nat) (fn : FnDecl) (g g' : generator)
    (h : genFn fuel g fn = .ok g') : FreshStep g g' := by
  unfold genFn at h
  simp only at h
  split at h
  · rename_i rt g1 h1
    have p1 : FreshStep g g1 := by
      split at h1
      · exact genType_fresh _ _ _ _ _ h1
      · cases h1
        exact FreshStep.refl_fresh _
    split at h
    · rename_i params g2 h2
      have p2 := genFnParams_fresh fuel _ _ _ _ h2
      have p3 : FreshStep g2 { g2 with header := g2.header ++ [.fnDecl rt fn.Name.Ident params] } :=
        FreshStep.nodef _ rfl
      have p123 := (p1.trans_fresh p2).trans_fresh p3
      split at h
      · rename_i body hb
        split at h
        · rename_i g4 h4
          cases h
          have pw : FreshStep { g2 with header := g2.header ++ [.fnDecl rt fn.Name.Ident params] }
              (generator.write { g2 with header := g2.header ++ [.fnDecl rt fn.Name.Ident params] }
                (signature rt fn.Name.Ident params ++ " ")) := FreshStep.same rfl rfl
          have p4 := genBlockWith_fresh (fun g g' h => genStmts_fresh fuel body g g' h) h4
          exact ((p123.trans_fresh pw).trans_fresh p4).trans_fresh (FreshStep.same rfl rfl)
        · rename_i o ho
          exact (ho _ h).elim
      · cases h
        exact p123
    all_goals cases h
  all_goals cases h

theorem genFns_fresh (fuel : Nat) : ∀ (fns : List FnDecl) (g g' : generator),
    genFns fuel g fns = .ok g' → FreshStep g g'
  | [], g, g', h => by
    simp only [genFns] at h; cases h; exact FreshStep.refl_fresh _
  | fn :: rest, g, g', h => by
    simp only [genFns] at h
    split at h
    · rename_i g1 h1
      exact (genFn_fresh fuel fn _ _ h1).trans_fresh (genFns_fresh fuel rest _ _ h)
    · rename_i o ho
      exact (ho _ h).elim

theorem GenModule_defNames {m : Module} {out : String} {fuel : Nat} {g : generator}
    (h : GenModule fuel m out = .ok g) : (DefNames g.header).Nodup := by
  obtain ⟨_, ext, hx, _, hd⟩ := genFns_fresh fuel m.Fns _ _ h
  rw [hx, defNames_append]
  simpa [initialGenerator, DefNames, HeaderWrite.defines] using hd

theorem defNames_index {name : String} : ∀ (h : List HeaderWrite), (DefNames h).Nodup →
    ∀ (i j : Nat) (w w' : HeaderWrite), h[i]? = some w → w.defines = some name →
      h[j]? = some w' → w'.defines = some name → i = j
  | [], _, i, j, w, w', hi, _, _, _ => by simp at hi
  | x :: xs, hn, i, j, w, w', hi, hw, hj, hw' => by
    have hmem : ∀ (k : Nat) (v : HeaderWrite), xs[k]? = some v → v.defines = some name →
        name ∈ DefNames xs := fun k v hk hv =>
      List.mem_filterMap.2 ⟨v, List.getElem?_mem hk, hv⟩
    have htail : (DefNames xs).Nodup := by
      unfold DefNames at hn ⊢
      rw [List.filterMap_cons] at hn
      split at hn
      · exact hn
      · exact (List.nodup_cons.1 hn).2
    have hhead : x.defines = some name → name ∉ DefNames xs := by
      intro hx
      unfold DefNames at hn ⊢
      rw [List.filterMap_cons, hx] at hn
      exact (List.nodup_cons.1 hn).1
    rcases i with _ | i <;> rcases j with _ | j
    · rfl
    · simp only [List.getElem?_cons_zero, Option.some.injEq] at hi
      simp only [List.getElem?_cons_succ] at hj
      subst hi
      exact (hhead hw (hmem j w' hj hw')).elim
    · simp only [List.getElem?_cons_zero, Option.some.injEq] at hj
      simp only [List.getElem?_cons_succ] at hi
      subst hj
      exact (hhead hw' (hmem i w hi hw)).elim
    · simp only [List.getElem?_cons_succ] at hi hj
      rw [defNames_index xs htail i j w w' hi hw hj hw']

theorem definedFirst_of {h : List HeaderWrite} (ho : HeaderOrdered h)
    (hn : (DefNames h).Nodup) : DefinedFirst h := by
  intro i j w w' name hi hw hj
  refine ⟨fun hu => ?_, fun hd => defNames_index h hn i j w w' hi hw hj hd⟩
  obtain ⟨i', w'', hlt, hi', hd⟩ := ho j w' hj name hu
  have := defNames_index h hn i i' w w'' hi hw hi' hd
  omega

/-- C4: in the header that `GenModule` writes for a module accepted by
`CheckModule`, every write that mentions a C type `struct <name>` (as the type
of a field of a struct definition, as the element type behind the data pointer
of a slice definition, or as the return type or a parameter type of a function
forward declaration) comes after a write that is the definition of `<name>`;
and that definition is the only one of its name, so that it comes before
every write that mentions it. The module `m` is as the parser builds it, `m'`
is what `CheckModule` returns for it and what `GenModule` is run on. The
recursion of `genType` ends on `m'`: from some recursion budget on
`GenModule` never runs out of it. -/
theorem C4_struct_defined_before_use (fuel : Nat) (m m' : Module) (out : String)
    (hp : m.parsed) (hcheck : CheckModule fuel m = .ok m') :
    (∃ fuel0, ∀ fuel2, fuel0 ≤ fuel2 → GenModule fuel2 m' out ≠ .nofuel) ∧
    ∀ (fuel2 : Nat) (g : generator), GenModule fuel2 m' out = .ok g →
      HeaderOrdered g.header ∧ DefinedFirst g.header := by
  obtain ⟨hsig, huniq, hacc⟩ := CheckModule_structs hp hcheck
  obtain ⟨c, hc⟩ := weightOK_exists (initialGenerator m' out).structs
    (fieldMention_acc hsig huniq hacc)
  refine ⟨⟨(m'.loweredTypes.map (weight c)).sum + 1, fun fuel2 hf =>
    GenModule_fuel hc (fun t ht => ?_)⟩, fun fuel2 g h =>
      ⟨GenModule_ordered hc h, definedFirst_of (GenModule_ordered hc h) (GenModule_defNames h)⟩⟩
  have := le_sum_of_mem_map (weight c) _ t ht
  omega

/-- C4 on the module
```
struct Inner { x: i32 }
struct Outer[T] { a: T, b: Inner }
fn f(o: Outer[slice[u8]]) { }
```
which is accepted; in its header the definitions of the slice `ty1` and of
`Inner`, `ty2`, come before that of `Outer[slice[u8]]`, `ty0`, which comes
before the declaration of `f`. -/
theorem C4_struct_defined_before_use_witness :
    (nestModule false).parsed ∧
    CheckModule 4 (nestModule false) = .ok (nestModule true) ∧
    ∃ g, GenModule 4 (nestModule true) "nest.cata" = .ok g ∧ g.header = nestHeader ∧
      HeaderOrdered g.header ∧ DefinedFirst g.header :=
  ⟨by decide, rfl, _, rfl, rfl,
    (C4_struct_defined_before_use 4 (nestModule false) (nestModule true) "nest.cata"
      (by decide) rfl).2 4 _ rfl⟩

theorem ScopeGrow.refl_grow (s : List scope) : ScopeGrow s s := ⟨rfl, fun _ _ h => h⟩

theorem ScopeGrow.trans_grow {a b c : List scope} (h1 : ScopeGrow a b) (h2 : ScopeGrow b c) :
    ScopeGrow a c :=
  ⟨h2.1.trans h1.1, fun x w h => h2.2 x w (h1.2 x w h)⟩

theorem findVar_addVar {s s' : List scope} {name : String} {v : scopeVar}
    (h : addVar s name v = .ok s') (x : String) :
    findVar s' x = if x = name then some v else findVar s x := by
  have hr : ¬(name = "true" ∨ name = "false") := by
    unfold addVar at h
    split at h
    · cases h
    · rename_i hn
      simp only [not_or] at hn
      simp [hn.2.1, hn.2.2]
  obtain ⟨hn, sc, parent, rfl, rfl⟩ := addVar_ok h
  by_cases hx : x = name
  · subst hx
    simp only [if_true]
    unfold findVar
    simp [hr, List.lookup]
  · simp only [hx, if_false]
    unfold findVar
    have : (x == name) = false := by simpa using hx
    simp [List.lookup, this]

theorem addVar_grow {s s' : List scope} {name : String} {v : scopeVar}
    (h : addVar s name v = .ok s') : ScopeGrow s s' := by
  refine ⟨?_, ?_⟩
  · obtain ⟨_, sc, parent, rfl, rfl⟩ := addVar_ok h
    rfl
  · intro x w hx
    rw [findVar_addVar h]
    split
    · rename_i e
      subst e
      rw [(addVar_ok h).1] at hx
      cases hx
    · exact hx

theorem findVar_newScope (s : List scope) (x : String) :
    findVar (newScope s) x = findVar s x := by
  unfold newScope
  rw [findVar]
  split
  · rename_i h
    rw [findVar_reserved s x h]
  · rename_i h
    simp only [List.lookup]
    cases s with
    | nil => simp [findVar, h]
    | cons sc parent => simp

/-- A binding that is found in the chain is found in a new scope below it. -/
theorem scopeGrow_newScope_body {s s1 : List scope} (h : ScopeGrow (newScope s) s1) :
    s1.tail = s ∧ ∀ x w, findVar s x = some w → findVar s1 x = some w :=
  ⟨by rw [h.1]; rfl, fun x w hx => h.2 x w (by rw [findVar_newScope]; exact hx)⟩

mutual
theorem checkStmt_grow (fuel : Nat) : ∀ (s : Stmt) (c : checker) (ret : Option NamedType)
    (r : Bool) (c' : checker), checkStmt fuel c s ret = .ok (r, c') →
    ScopeGrow c.scope c'.scope ∧
      ∀ x w, findVar c.scope x = some w → w.isMut = false → x ∉ s.assignedVars
  | .ExprStmt e, c, ret, r, c', h => by
    simp only [checkStmt] at h
    split at h
    · split at h <;> simp at h
      rw [← h.2]
      exact ⟨ScopeGrow.refl_grow _, by simp [Stmt.assignedVars]⟩
    · cases h
  | .BlockStmt _ b, c, ret, r, c', h => by
    simp only [checkStmt] at h
    simp only [Stmt.assignedVars]
    exact checkBlock_grow fuel b c ret r c' h
  | .ReturnStmt _ e, c, ret, r, c', h => by
    simp only [checkStmt] at h
    refine ⟨?_, by simp [Stmt.assignedVars]⟩
    split at h
    · cases h
    · cases h
    · simp at h; rw [← h.2]; exact ScopeGrow.refl_grow _
    · split at h <;> simp at h
      rw [← h.2]; exact ScopeGrow.refl_grow _
  | .VarStmt _ name ty e, c, ret, r, c', h => by
    simp only [checkStmt] at h
    refine ⟨?_, by simp [Stmt.assignedVars]⟩
    split at h
    · cases h
    · split at h
      · rename_i s hs
        have g1 := addVar_grow hs
        split at h
        · rename_i c1 h1
          have f := checkType_frame _ _ _ _ h1
          have g2 : ScopeGrow c.scope c1.scope := by rw [f.scope]; exact g1
          split at h
          · split at h <;> simp at h
            rw [← h.2]; exact g2
          · simp at h; rw [← h.2]; exact g2
        all_goals cases h
      all_goals cases h
  | .AssignStmt l rr, c, ret, r, c', h => by
    simp only [checkStmt] at h
    split at h
    · rename_i res hres
      split at h
      · cases h
      · rename_i hm
        have hc : c' = c := by
          split at h <;> simp at h
          exact h.2.symm
        subst hc
        refine ⟨ScopeGrow.refl_grow _, ?_⟩
        intro x w hx hw hmem
        cases l with
        | VarExpr name =>
          simp only [Stmt.assignedVars, Expr.varName, Option.toList, List.mem_singleton] at hmem
          subst hmem
          simp only [checkExpr, hx] at hres
          cases hres
          simp [hw] at hm
        | IntExpr _ _ => simp [Stmt.assignedVars, Expr.varName] at hmem
        | StringExpr _ _ => simp [Stmt.assignedVars, Expr.varName] at hmem
        | CallExpr _ _ => simp [Stmt.assignedVars, Expr.varName] at hmem
        | FieldExpr _ _ => simp [Stmt.assignedVars, Expr.varName] at hmem
    all_goals cases h
  | .IfStmt _ cond body els, c, ret, r, c', h => by
    simp only [checkStmt] at h
    split at h
    · split at h
      · rename_i rb c1 h1
        obtain ⟨g1, a1⟩ := checkBlock_grow fuel body _ ret _ _ h1
        obtain ⟨t1, _⟩ := scopeGrow_newScope_body g1
        have e1 : c1.popScope.scope = c.scope := t1
        obtain ⟨g2, a2⟩ := checkElse_grow fuel els _ ret _ r c' h
        rw [e1] at g2 a2
        refine ⟨g2, ?_⟩
        intro x w hx hw
        simp only [Stmt.assignedVars, List.mem_append, not_or]
        exact ⟨a1 x w (by simp only [checker.newScope, findVar_newScope]; exact hx) hw,
          a2 x w hx hw⟩
      · rename_i o ho
        exact (ho _ _ h).elim
    all_goals cases h
  | .WhileStmt _ cond body, c, ret, r, c', h => by
    simp only [checkStmt] at h
    split at h
    · split at h
      · rename_i rb c1 h1
        obtain ⟨g1, a1⟩ := checkBlock_grow fuel body _ ret _ _ h1
        obtain ⟨t1, _⟩ := scopeGrow_newScope_body g1
        simp at h
        rw [← h.2]
        have e1 : c1.popScope.scope = c.scope := t1
        rw [e1]
        refine ⟨ScopeGrow.refl_grow _, ?_⟩
        intro x w hx hw
        simp only [Stmt.assignedVars]
        exact a1 x w (by simp only [checker.newScope, findVar_newScope]; exact hx) hw
      · rename_i o ho
        exact (ho _ _ h).elim
    all_goals cases h
theorem checkElse_grow (fuel : Nat) : ∀ (s : Option Stmt) (c : checker) (ret : Option NamedType)
    (b r : Bool) (c' : checker), checkElse fuel c s ret b = .ok (r, c') →
    ScopeGrow c.scope c'.scope ∧
      ∀ x w, findVar c.scope x = some w → w.isMut = false → x ∉ assignedVarsElse s
  | none, c, ret, b, r, c', h => by
    simp [checkElse] at h; rw [← h.2]
    exact ⟨ScopeGrow.refl_grow _, by simp [assignedVarsElse]⟩
  | some s, c, ret, b, r, c', h => by
    simp only [checkElse] at h
    split at h
    · rename_i r2 c1 h1
      obtain ⟨g1, a1⟩ := checkStmt_grow fuel s _ ret _ _ h1
      obtain ⟨t1, _⟩ := scopeGrow_newScope_body g1
      simp at h
      rw [← h.2]
      have e1 : c1.popScope.scope = c.scope := t1
      rw [e1]
      refine ⟨ScopeGrow.refl_grow _, ?_⟩
      intro x w hx hw
      simp only [assignedVarsElse]
      exact a1 x w (by simp only [checker.newScope, findVar_newScope]; exact hx) hw
    · rename_i o ho
      exact (ho _ _ h).elim
theorem checkBlock_grow (fuel : Nat) : ∀ (b : List Stmt) (c : checker) (ret : Option NamedType)
    (r : Bool) (c' : checker), checkBlock fuel c b ret = .ok (r, c') →
    ScopeGrow c.scope c'.scope ∧
      ∀ x w, findVar c.scope x = some w → w.isMut = false → x ∉ assignedVarsBlock b
  | [], c, ret, r, c', h => by
    simp [checkBlock] at h; rw [← h.2]
    exact ⟨ScopeGrow.refl_grow _, by simp [assignedVarsBlock]⟩
  | s :: rest, c, ret, r, c', h => by
    simp only [checkBlock] at h
    split at h
    · rename_i r1 c1 h1
      obtain ⟨g1, a1⟩ := checkStmt_grow fuel s _ ret _ _ h1
      split at h
      · rename_i r2 c2 h2
        obtain ⟨g2, a2⟩ := checkBlock_grow fuel rest _ ret _ _ h2
        simp at h
        rw [← h.2]
        refine ⟨g1.trans_grow g2, ?_⟩
        intro x w hx hw
        simp only [assignedVarsBlock, List.mem_append, not_or]
        exact ⟨a1 x w hx hw, a2 x w (g1.2 x w hx) hw⟩
      · rename_i o ho
        exact (ho _ _ h).elim
    · rename_i o ho
      exact (ho _ _ h).elim
end

theorem checkFnParams_bound (fuel : Nat) :
    ∀ (ps : List Param) (c c' : checker), checkFnParams fuel c ps = .ok c' →
      ScopeGrow c.scope c'.scope ∧
      ∀ p ∈ ps, findVar c'.scope p.Name.Ident = some ⟨.named (some p.Ty), false⟩
  | [], c, c', h => by
    simp [checkFnParams] at h; subst h
    exact ⟨ScopeGrow.refl_grow _, by simp⟩
  | p :: rest, c, c', h => by
    simp only [checkFnParams] at h
    split at h
    · rename_i c1 h1
      have f := checkType_frame _ _ _ _ h1
      split at h
      · cases h
      · split at h
        · rename_i s hs
          obtain ⟨g2, b2⟩ := checkFnParams_bound fuel rest _ _ h
          have g1 : ScopeGrow c.scope s := by rw [← f.scope]; exact addVar_grow hs
          refine ⟨g1.trans_grow g2, ?_⟩
          intro q hq
          simp only [List.mem_cons] at hq
          rcases hq with rfl | hq
          · apply g2.2
            show findVar s _ = _
            rw [findVar_addVar hs]
            simp
          · exact b2 q hq
        all_goals cases h
    · rename_i o ho
      exact (ho _ h).elim

theorem checkFnSignature_bound {fuel : Nat} {c c' : checker} {fn : FnDecl}
    (h : checkFnSignature fuel c fn = .ok c') :
    ∀ p ∈ fn.Params, findVar c'.scope p.Name.Ident = some ⟨.named (some p.Ty), false⟩ := by
  simp only [checkFnSignature] at h
  split at h
  · split at h
    · exact (checkFnParams_bound fuel _ _ _ h).2
    · rename_i o ho
      exact (ho _ h).elim
  · exact (checkFnParams_bound fuel _ _ _ h).2

/-- C11: parameters are immutable and var bindings are mutable. In the state
`c1` in which the body of a function is checked every parameter is bound with
its type and `mut = false`; checking statements and opening scopes keeps
every binding of `c1`; in every state that keeps them an assignment `x = e;`
to a parameter `x` is reported as `cannot assign to constant value` at the
position of `x`, whatever `e` is, so that no function that `checkFn` accepts
assigns to one of its parameters anywhere in its body. After an accepted
`var x: T;` the assignment `x = e;` with `e` of a type `TypeEqual` to `T` is
accepted. -/
theorem C11_params_immutable_vars_mutable (fuel : Nat) (c c1 : checker) (fn : FnDecl)
    (hsig : checkFnSignature fuel c fn = .ok c1) :
    (∀ p ∈ fn.Params, findVar c1.scope p.Name.Ident = some ⟨.named (some p.Ty), false⟩) ∧
    (∀ (c2 c3 : checker) (s : Stmt) (ret : Option NamedType) (r : Bool),
      checkStmt fuel c2 s ret = .ok (r, c3) →
      (∀ x w, findVar c2.scope x = some w → findVar c3.scope x = some w) ∧
      (∀ x w, findVar c2.scope x = some w → findVar c2.newScope.scope x = some w)) ∧
    (∀ (c2 : checker), (∀ x w, findVar c1.scope x = some w → findVar c2.scope x = some w) →
      ∀ p ∈ fn.Params, ∀ (x : Ident) (e : Expr) (ret : Option NamedType),
        x.Ident = p.Name.Ident →
        checkStmt fuel c2 (.AssignStmt (.VarExpr x) e) ret =
          .diag x.Pos "cannot assign to constant value") ∧
    (∀ c', checkFn fuel c fn = .ok c' →
      ∀ p ∈ fn.Params, p.Name.Ident ∉ assignedVarsBlock (fn.Body.getD [])) ∧
    (∀ (c2 c3 : checker) (pos : Pos) (x y : Ident) (T : NamedType) (init : Option Expr)
        (ret : Option NamedType) (r : Bool) (e : Expr) (res : result),
      checkStmt fuel c2 (.VarStmt pos x T init) ret = .ok (r, c3) → y.Ident = x.Ident →
      checkExpr c3 e = .ok res → TypeEqual res.ty (.named (some T)) = .ok true →
      checkStmt fuel c3 (.AssignStmt (.VarExpr y) e) ret = .ok (false, c3)) := by
  have hb := checkFnSignature_bound hsig
  refine ⟨hb, ?_, ?_, ?_, ?_⟩
  · intro c2 c3 s ret r h
    exact ⟨(checkStmt_grow fuel s c2 ret r c3 h).1.2,
      fun x w hx => by simp only [checker.newScope, findVar_newScope]; exact hx⟩
  · intro c2 hk p hp x e ret hx
    have := hk _ _ (hb p hp)
    rw [← hx] at this
    simp [checkStmt, checkExpr, this, Expr.At]
  · intro c' h p hp
    simp only [checkFn, hsig] at h
    split at h
    · rename_i r c2 h2
      exact (checkBlock_grow fuel _ _ _ _ _ h2).2 _ _ (hb p hp) rfl
    all_goals cases h
  · intro c2 c3 pos x y T init ret r e res h hy hres hte
    have hfind : findVar c3.scope y.Ident = some ⟨.named (some T), true⟩ := by
      rw [hy]
      simp only [checkStmt] at h
      split at h
      · cases h
      · split at h
        · rename_i s hs
          split at h
          · rename_i c4 h4
            have f := checkType_frame _ _ _ _ h4
            have e3 : c3 = c4 := by
              split at h
              · split at h <;> simp at h
                exact h.2.symm
              · simp at h; exact h.2.symm
            rw [e3, f.scope]
            show findVar s _ = _
            rw [findVar_addVar hs]
            simp
          all_goals cases h
        all_goals cases h
    have hne : res.ty ≠ .nil := by
      intro hn
      rw [hn] at hte
      simp [TypeEqual] at hte
    simp only [checkStmt, checkExpr, hfind, checkCoerce, hres, checkCoerceResult]
    cases hty : res.ty with
    | nil => exact (hne hty).elim
    | named n => simp [hty] at hte ⊢; simp [hte]
    | fn f => simp [hty] at hte ⊢; simp [hte]

/-- C11 on `fn f(x: i32) { x = 2; }`, which is rejected at the `x` of the
assignment, and on `fn f() { var x: i32; x = 2; }`, which is accepted. -/
theorem C11_params_immutable_vars_mutable_witness :
    CheckModule 8 assignParamModule = .diag ⟨1, 16⟩ "cannot assign to constant value" ∧
    (CheckModule 8 assignVarModule).isOk = true ∧
    ∃ c1, checkFnSignature 8 (oneFnState assignParamFn)
        assignParamFn = .ok c1 ∧
      findVar c1.scope "x" = some ⟨.named (some (.mk ⟨⟨1, 9⟩, "i32"⟩ [])), false⟩ :=
  ⟨rfl, rfl, _, rfl,
    (C11_params_immutable_vars_mutable 8 (oneFnState assignParamFn) _
      assignParamFn rfl).1 _ (List.mem_cons_self _ _)⟩

theorem utf8ByteSize_go_append : ∀ (a b : List Char),
    String.utf8ByteSize.go (a ++ b) = String.utf8ByteSize.go a + String.utf8ByteSize.go b
  | [], b => by simp [String.utf8ByteSize.go]
  | c :: a, b => by
    have ih := utf8ByteSize_go_append a b
    simp only [List.cons_append, String.utf8ByteSize.go]
    have e : a.append b = a ++ b := rfl
    rw [e, ih]
    omega

theorem utf8ByteSize_append (a b : String) :
    (a ++ b).utf8ByteSize = a.utf8ByteSize + b.utf8ByteSize := by
  cases a with
  | mk x =>
    cases b with
    | mk y => exact utf8ByteSize_go_append x y

/-- C12: for a string literal with raw lexeme `v`, `genExpr` first lowers
`slice[u8]` and, when that yields the C type `ty`, returns
`(ty)\x7b"v", n\x7d` with `n` the decimal number of bytes of `v`; `ty` is a
`struct ty<N>`, and when the lowering fails so does `genExpr`. The lexeme is
not decoded: the two bytes of an escape sequence such as `\n` count as two. -/
theorem C12_string_literal_text (fuel : Nat) (g g' : generator) (pos : Pos) (v ty : String)
    (h : genType fuel g (ast.SliceType ast.Uint8) = .ok (ty, g')) :
    genExpr fuel g (.StringExpr pos v) =
      .ok ("(" ++ ty ++ ")\x7b\"" ++ v ++ "\", " ++ toString v.utf8ByteSize ++ "\x7d", g') ∧
    (∃ name, ty = "struct " ++ name) ∧
    (∀ a b : String, (a ++ "\\n" ++ b).utf8ByteSize = a.utf8ByteSize + 2 + b.utf8ByteSize) ∧
    (∀ g0 : generator, (genType fuel g0 (ast.SliceType ast.Uint8)).isOk = false →
      (genExpr fuel g0 (.StringExpr pos v)).isOk = false) := by
  refine ⟨by simp [genExpr, h], ?_, ?_, ?_⟩
  · rcases genType_ok_cases h with ⟨_, hp⟩ | ⟨_, _, _, hc⟩
    · simp [ast.SliceType, NamedType.Name] at hp
    · rcases hc with ⟨name, _, hs, _⟩ | ⟨_, _, _, hs, _⟩
      · exact ⟨name, hs⟩
      · exact ⟨_, hs⟩
  · intro a b
    simp only [utf8ByteSize_append]
    have : "\\n".utf8ByteSize = 2 := by decide
    omega
  · intro g0 h0
    simp only [genExpr]
    cases hr : genType fuel g0 (ast.SliceType ast.Uint8) with
    | ok x => simp [hr, Res.isOk] at h0
    | diag p m => rfl
    | panic m => rfl
    | nofuel => rfl

/-- C12 on the literals `"hi"` and `"a\n"` in a generator that has lowered no
type yet: `slice[u8]` becomes `struct ty0`, and the lengths are 2 and 3. -/
theorem C12_string_literal_text_witness :
    (∃ g', genType 2 (initialGenerator ⟨[], []⟩ "out") (ast.SliceType ast.Uint8) =
        .ok ("struct ty0", g') ∧
      genExpr 2 (initialGenerator ⟨[], []⟩ "out") (.StringExpr ⟨1, 1⟩ "hi") =
        .ok ("(struct ty0)\x7b\"hi\", 2\x7d", g') ∧
      genExpr 2 (initialGenerator ⟨[], []⟩ "out") (.StringExpr ⟨1, 1⟩ "a\\n") =
        .ok ("(struct ty0)\x7b\"a\\n\", 3\x7d", g')) :=
  ⟨_, rfl,
    (C12_string_literal_text 2 (initialGenerator ⟨[], []⟩ "out") _ ⟨1, 1⟩ "hi" "struct ty0" rfl).1,
    (C12_string_literal_text 2 (initialGenerator ⟨[], []⟩ "out") _ ⟨1, 1⟩ "a\\n" "struct ty0"
      rfl).1⟩

theorem SameBody.refl_body (g : generator) : SameBody g g := ⟨rfl, rfl⟩

theorem SameBody.trans_body {a b c : generator} (h1 : SameBody a b) (h2 : SameBody b c) :
    SameBody a c := ⟨h2.1.trans h1.1, h2.2.trans h1.2⟩

theorem genStructFields_body {gt : generator → NamedType → Res (String × generator)}
    (hgt : ∀ g ty s g', gt g ty = .ok (s, g') → SameBody g g')
    {env : List (String × NamedType)} :
    ∀ (fs : List Param) (g : generator) (out out' : List (String × String)) (g' : generator),
      genStructFields gt env g out fs = .ok (out', g') → SameBody g g'
  | [], g, out, out', g', h => by
    simp only [genStructFields] at h
    cases h
    exact SameBody.refl_body _
  | f :: rest, g, out, out', g', h => by
    simp only [genStructFields] at h
    split at h
    · split at h
      · rename_i cty g1 hg1
        exact (hgt _ _ _ _ hg1).trans_body (genStructFields_body hgt rest _ _ _ _ h)
      all_goals cases h
    all_goals cases h

theorem genType_body : ∀ (fuel : Nat) (g : generator) (t : NamedType) (s : String)
    (g' : generator), genType fuel g t = .ok (s, g') → SameBody g g'
  | 0, _, _, _, _, h => by simp [genType] at h
  | fuel + 1, g, t, s, g', h => by
    rcases genType_ok_cases h with ⟨rfl, _⟩ | ⟨_, _, _, h⟩
    · exact SameBody.refl_body _
    · rcases h with ⟨name, _, _, rfl⟩ | ⟨fuel', hfu, _, _, h⟩
      · exact SameBody.refl_body _
      · cases hfu
        rcases h with ⟨elt, rest, _, _, h⟩ | ⟨_, h⟩
        · simp only [genSlice] at h
          split at h
          · rename_i cty g1 hg1
            cases h
            have := genType_body fuel _ _ _ _ hg1
            exact ⟨this.1, this.2⟩
          all_goals cases h
        · simp only [genStruct] at h
          split at h
          · cases h
          · split at h
            · split at h
              · rename_i out g1 hg1
                cases h
                have := genStructFields_body (genType_body fuel) _ _ _ _ _ hg1
                exact ⟨this.1, this.2⟩
              all_goals cases h
            all_goals cases h

mutual
theorem genExpr_body (fuel : Nat) : ∀ (e : Expr) (g g' : generator) (s : String),
    genExpr fuel g e = .ok (s, g') → SameBody g g'
  | .IntExpr _ _, g, g', s, h => by
    simp only [genExpr] at h; cases h; exact SameBody.refl_body _
  | .StringExpr _ _, g, g', s, h => by
    simp only [genExpr] at h
    split at h
    · rename_i ty g1 h1
      cases h
      exact genType_body _ _ _ _ _ h1
    · rename_i o ho
      exact (ho _ _ h).elim
  | .VarExpr _, g, g', s, h => by
    simp only [genExpr] at h
    split at h
    · cases h; exact SameBody.refl_body _
    · split at h <;> (cases h; exact SameBody.refl_body _)
  | .CallExpr fn args, g, g', s, h => by
    simp only [genExpr] at h
    split at h
    · rename_i f g1 h1
      split at h
      · rename_i as g2 h2
        cases h
        exact (genExpr_body fuel fn _ _ _ h1).trans_body (genExprArgs_body fuel args _ _ _ h2)
      all_goals cases h
    · rename_i o ho
      exact (ho _ _ h).elim
  | .FieldExpr e _, g, g', s, h => by
    simp only [genExpr] at h
    split at h
    · rename_i x g1 h1
      cases h
      exact genExpr_body fuel e _ _ _ h1
    · rename_i o ho
      exact (ho _ _ h).elim
theorem genExprArgs_body (fuel : Nat) : ∀ (args : List Expr) (g g' : generator)
    (s : List String), genExprArgs fuel g args = .ok (s, g') → SameBody g g'
  | [], g, g', s, h => by
    simp only [genExprArgs] at h; cases h; exact SameBody.refl_body _
  | a :: rest, g, g', s, h => by
    simp only [genExprArgs] at h
    split at h
    · rename_i x g1 h1
      split at h
      · rename_i as g2 h2
        cases h
        exact (genExpr_body fuel a _ _ _ h1).trans_body (genExprArgs_body fuel rest _ _ _ h2)
      · rename_i o ho
        exact (ho _ _ h).elim
    all_goals cases h
end

theorem BodyExt.refl_ext (g : generator) : BodyExt g g := ⟨"", by simp⟩

theorem BodyExt.trans_ext {a b c : generator} (h1 : BodyExt a b) (h2 : BodyExt b c) :
    BodyExt a c := by
  obtain ⟨t1, e1⟩ := h1
  obtain ⟨t2, e2⟩ := h2
  exact ⟨t1 ++ t2, by rw [e2, e1, String.append_assoc]⟩

theorem BodyExt.of_same_body {g g' : generator} (h : SameBody g g') : BodyExt g g' :=
  ⟨"", by simp [h.1]⟩

theorem BodyExt.write_ext (g : generator) (t : String) : BodyExt g (g.write t) := ⟨t, rfl⟩

theorem genBlockWith_body {gs : generator → Res generator}
    (hgs : ∀ g g', gs g = .ok g' → BodyExt g g') {g g' : generator}
    (h : genBlockWith gs g = .ok g') : BodyExt g g' := by
  unfold genBlockWith at h
  split at h
  · rename_i g1 h1
    cases h
    have p0 : BodyExt g { g.write "\x7b\n" with indent := g.indent + 1 } := ⟨_, rfl⟩
    have p2 : BodyExt g1 ({ g1 with indent := g1.indent - 1 }.writeIndent.write "\x7d") :=
      ⟨String.mk (List.replicate (g1.indent - 1) '\t') ++ "\x7d", by
        simp [generator.write, generator.writeIndent, String.append_assoc]⟩
    exact (p0.trans_ext (hgs _ _ h1)).trans_ext p2
  · rename_i o ho
    exact (ho _ h).elim

mutual
theorem genStmtSwitch_body (fuel : Nat) : ∀ (st : Stmt) (indent : Bool) (g g' : generator),
    genStmtSwitch fuel g st indent = .ok g' → BodyExt g g'
  | .ExprStmt e, indent, g, g', h => by
    simp only [genStmtSwitch] at h
    split at h
    · rename_i x g1 h1
      cases h
      exact (BodyExt.of_same_body (genExpr_body fuel e _ _ _ h1)).trans_ext (BodyExt.write_ext _ _)
    all_goals cases h
  | .BlockStmt _ b, indent, g, g', h => by
    simp only [genStmtSwitch] at h
    exact genBlockWith_body (fun g g' h => genStmts_body fuel b g g' h) h
  | .ReturnStmt _ none, indent, g, g', h => by
    simp only [genStmtSwitch] at h
    cases h
    exact BodyExt.write_ext _ _
  | .ReturnStmt _ (some e), indent, g, g', h => by
    simp only [genStmtSwitch] at h
    split at h
    · rename_i x g1 h1
      cases h
      exact (BodyExt.of_same_body (genExpr_body fuel e _ _ _ h1)).trans_ext (BodyExt.write_ext _ _)
    all_goals cases h
  | .VarStmt _ name ty e, indent, g, g', h => by
    simp only [genStmtSwitch] at h
    split at h
    · rename_i cty g1 h1
      have p1 := BodyExt.of_same_body (genType_body _ _ _ _ _ h1)
      split at h
      · split at h
        · rename_i x g2 h2
          cases h
          exact (p1.trans_ext (BodyExt.of_same_body (genExpr_body fuel _ _ _ _ h2))).trans_ext
            (BodyExt.write_ext _ _)
        all_goals cases h
      · cases h
        exact p1.trans_ext (BodyExt.write_ext _ _)
    all_goals cases h
  | .AssignStmt l r, indent, g, g', h => by
    simp only [genStmtSwitch] at h
    split at h
    · rename_i x g1 h1
      split at h
      · rename_i y g2 h2
        cases h
        exact ((BodyExt.of_same_body (genExpr_body fuel l _ _ _ h1)).trans_ext
          (BodyExt.of_same_body (genExpr_body fuel r _ _ _ h2))).trans_ext (BodyExt.write_ext _ _)
      all_goals cases h
    all_goals cases h
  | .IfStmt _ cond body els, indent, g, g', h => by
    simp only [genStmtSwitch] at h
    split at h
    · rename_i x g1 h1
      have p1 := BodyExt.of_same_body (genExpr_body fuel cond _ _ _ h1)
      have pw : BodyExt g1 (g1.write ("if (" ++ x ++ ") ")) := BodyExt.write_ext _ _
      split at h
      · rename_i g2 h2
        have p2 := genBlockWith_body (fun g g' h => genStmts_body fuel body g g' h) h2
        split at h
        · rename_i g3 h3
          have p3 := genElse_body fuel els _ _ h3
          have p123 := ((p1.trans_ext pw).trans_ext p2).trans_ext p3
          cases h
          split
          · exact p123.trans_ext (BodyExt.write_ext _ _)
          · exact p123
        · rename_i o ho
          exact (ho _ h).elim
      · rename_i o ho
        exact (ho _ h).elim
    all_goals cases h
  | .WhileStmt _ cond body, indent, g, g', h => by
    simp only [genStmtSwitch] at h
    split at h
    · rename_i x g1 h1
      have p1 := BodyExt.of_same_body (genExpr_body fuel cond _ _ _ h1)
      have pw : BodyExt g1 (g1.write ("while (" ++ x ++ ") ")) := BodyExt.write_ext _ _
      split at h
      · rename_i g2 h2
        have p2 := genBlockWith_body (fun g g' h => genStmts_body fuel body g g' h) h2
        cases h
        exact ((p1.trans_ext pw).trans_ext p2).trans_ext (BodyExt.write_ext _ _)
      · rename_i o ho
        exact (ho _ h).elim
    all_goals cases h
theorem genElse_body (fuel : Nat) : ∀ (els : Option Stmt) (g g' : generator),
    genElse fuel g els = .ok g' → BodyExt g g'
  | none, g, g', h => by
    simp only [genElse] at h; cases h; exact BodyExt.refl_ext _
  | some st, g, g', h => by
    simp only [genElse] at h
    exact (BodyExt.write_ext g " else ").trans_ext (genStmtSwitch_body fuel st false _ _ h)
theorem genStmts_body (fuel : Nat) : ∀ (b : List Stmt) (g g' : generator),
    genStmts fuel g b = .ok g' → BodyExt g g'
  | [], g, g', h => by
    simp only [genStmts] at h; cases h; exact BodyExt.refl_ext _
  | st :: rest, g, g', h => by
    simp only [genStmts] at h
    split at h
    · rename_i g1 h1
      have pw : BodyExt g g.writeIndent := BodyExt.write_ext _ _
      exact (pw.trans_ext (genStmtSwitch_body fuel st true _ _ h1)).trans_ext
        (genStmts_body fuel rest _ _ h)
    · rename_i o ho
      exact (ho _ h).elim
end

theorem genFnParams_body (fuel : Nat) : ∀ (ps : List Param) (g g' : generator)
    (params : List (String × String)), genFnParams fuel g ps = .ok (params, g') →
    SameBody g g' ∧ params.map Prod.snd = ps.map (fun p => p.Name.Ident)
  | [], g, g', params, h => by
    simp only [genFnParams] at h
    cases h
    exact ⟨SameBody.refl_body _, rfl⟩
  | p :: rest, g, g', params, h => by
    simp only [genFnParams] at h
    split at h
    · rename_i pt g1 h1
      split at h
      · rename_i ps g2 h2
        cases h
        obtain ⟨b2, n2⟩ := genFnParams_body fuel rest _ _ _ h2
        exact ⟨(genType_body _ _ _ _ _ h1).trans_body b2, by simp [n2]⟩
      · rename_i o ho
        exact (ho _ _ h).elim
    all_goals cases h

/-- C13: what `genFn` writes for a function declaration. The return type is
lowered (`void` when none is declared), then the parameter types, in order;
neither touches the body file. The header then gets
`<ret> <name>(<params>);` and a newline, the parameters written
`<type> <name>` and joined by `, `. For an extern declaration nothing else
is written: the body file stays as it was. For a declaration with a body
the body file gets the same signature, a space, the text that `genBlock`
writes for the body, and two newlines (the header gets the definitions of
the types that the body makes `genType` lower). -/
theorem C13_genFn_writes (fuel : Nat) (g g' : generator) (fn : FnDecl)
    (h : genFn fuel g fn = .ok g') :
    (fn.Body = none → g'.body = g.body) ∧
    ∃ (rt : String) (params : List (String × String)) (g2 : generator)
        (ext : List HeaderWrite),
      (fn.Return = none → rt = "void" ∧ genFnParams fuel g fn.Params = .ok (params, g2)) ∧
      (∀ r, fn.Return = some r → ∃ g1, genType fuel g r = .ok (rt, g1) ∧
        genFnParams fuel g1 fn.Params = .ok (params, g2)) ∧
      params.map Prod.snd = fn.Params.map (fun p => p.Name.Ident) ∧
      g2.body = g.body ∧
      g'.header = g2.header ++ [.fnDecl rt fn.Name.Ident params] ++ ext ∧
      (HeaderWrite.fnDecl rt fn.Name.Ident params).text =
        rt ++ " " ++ fn.Name.Ident ++ "(" ++
          ", ".intercalate (params.map (fun p => p.1 ++ " " ++ p.2)) ++ ")" ++ ";\n" ∧
      (fn.Body = none → ext = []) ∧
      ∀ b, fn.Body = some b → ∃ (block : String) (g3 : generator),
        genBlock fuel
          (generator.write { g2 with header := g2.header ++ [.fnDecl rt fn.Name.Ident params] }
            (signature rt fn.Name.Ident params ++ " ")) b = .ok g3 ∧
        g3.body = g.body ++ (signature rt fn.Name.Ident params ++ " ") ++ block ∧
        g'.body = g.body ++
          (rt ++ " " ++ fn.Name.Ident ++ "(" ++
            ", ".intercalate (params.map (fun p => p.1 ++ " " ++ p.2)) ++ ")" ++ " ") ++
          block ++ "\n\n" := by
  unfold genFn at h
  simp only at h
  split at h
  · rename_i rt g1 h1
    have p1 : SameBody g g1 := by
      split at h1
      · exact genType_body _ _ _ _ _ h1
      · cases h1
        exact SameBody.refl_body _
    split at h
    · rename_i params g2 h2
      obtain ⟨p2, hn⟩ := genFnParams_body fuel _ _ _ _ h2
      have hb2 : g2.body = g.body := (p1.trans_body p2).1
      have hret1 : fn.Return = none →
          rt = "void" ∧ genFnParams fuel g fn.Params = .ok (params, g2) := by
        intro hr
        rw [hr] at h1
        simp only at h1
        cases h1
        exact ⟨rfl, h2⟩
      have hret2 : ∀ r, fn.Return = some r → ∃ g1, genType fuel g r = .ok (rt, g1) ∧
          genFnParams fuel g1 fn.Params = .ok (params, g2) := by
        intro r hr
        rw [hr] at h1
        exact ⟨g1, h1, h2⟩
      cases hb : fn.Body with
      | none =>
        rw [hb] at h
        simp only at h
        cases h
        exact ⟨fun _ => hb2, rt, params, g2, [], hret1, hret2, hn, hb2, by simp, rfl,
          fun _ => rfl, fun b hb' => (by cases hb')⟩
      | some b =>
        rw [hb] at h
        simp only at h
        split at h
        · rename_i g4 h4
          cases h
          obtain ⟨block, hblock⟩ :=
            genBlockWith_body (fun g g' h => genStmts_body fuel b g g' h) h4
          obtain ⟨_, ext, hext, _⟩ :=
            genBlockWith_fresh (fun g g' h => genStmts_fresh fuel b g g' h) h4
          refine ⟨fun hx => (by cases hx), rt, params, g2, ext, hret1, hret2, hn, hb2, hext, rfl,
            fun hx => (by cases hx), ?_⟩
          intro b' hb'
          cases hb'
          refine ⟨block, g4, h4, ?_, ?_⟩
          · rw [hblock]; simp [generator.write, hb2]
          · simp [generator.write, hblock, hb2, signature, String.append_assoc]
        · rename_i o ho
          exact (ho _ h).elim
    all_goals cases h
  all_goals cases h

/-- C13 on `extern fn puts(s: slice[u8]);`, which leaves the body file as it
is and declares `void puts(struct ty0 s);` in the header, and on
`fn main() { }`: the header gets `void main();`, the body file
`void main() {`, a newline, `}` and two newlines. -/
theorem C13_genFn_writes_witness :
    (∃ g', genFn 2 (initialGenerator ⟨[], []⟩ "out") putsFn = .ok g' ∧
      g'.body = (initialGenerator ⟨[], []⟩ "out").body ∧
      g'.headerText = "#include <stdint.h>\n\n" ++
        "struct ty0 \x7b\n\tuint8_t *data;\n\tsize_t length;\n\x7d;\n" ++
        "void puts(struct ty0 s);\n") ∧
    (GenModule 2 ⟨[mainFn], []⟩ "out").bind (fun g => .ok (g.headerText, g.body)) =
      .ok ("#include <stdint.h>\n\nvoid main();\n",
        "#include \"out.h\"\n\nvoid main() \x7b\n\x7d\n\n") :=
  ⟨⟨_, rfl,
      (C13_genFn_writes 2 (initialGenerator ⟨[], []⟩ "out") _ putsFn rfl).1 rfl, by rfl⟩,
    by rfl⟩

theorem checkFnParams_fresh (fuel : Nat) :
    ∀ (ps : List Param) (c c' : checker), checkFnParams fuel c ps = .ok c' →
      ∀ p ∈ ps, ∀ x, (findVar c.scope x).isSome = true → p.Name.Ident ≠ x
  | [], c, c', h => by simp
  | p :: rest, c, c', h => by
    simp only [checkFnParams] at h
    split at h
    · rename_i c1 h1
      have f := checkType_frame _ _ _ _ h1
      split at h
      · cases h
      · rename_i hfree
        split at h
        · rename_i s hs
          have g1 : ScopeGrow c.scope s := by rw [← f.scope]; exact addVar_grow hs
          have ih := checkFnParams_fresh fuel rest _ _ h
          intro q hq x hx
          simp only [List.mem_cons] at hq
          rcases hq with rfl | hq
          · intro e
            rw [f.scope, e] at hfree
            exact hfree hx
          · apply ih q hq x
            cases hv : findVar c.scope x with
            | none => simp [hv] at hx
            | some w =>
              show (findVar s x).isSome = true
              rw [g1.2 x w hv]; rfl
        all_goals cases h
    · rename_i o ho
      exact (ho _ h).elim

theorem checkFn_fresh {fuel : Nat} {c c' : checker} {fn : FnDecl}
    (h : checkFn fuel c fn = .ok c') :
    c'.scope = c.scope ∧
      ∀ p ∈ fn.Params, ∀ x, (findVar c.scope x).isSome = true → p.Name.Ident ≠ x := by
  simp only [checkFn] at h
  split at h
  · rename_i c1 h1
    have hs1 := (checkFnSignature_scope h1).2.2
    have hfresh : ∀ p ∈ fn.Params, ∀ x, (findVar c.scope x).isSome = true →
        p.Name.Ident ≠ x := by
      intro p hp x hx
      have hx' : (findVar c.newScope.scope x).isSome = true := by
        simp only [checker.newScope, findVar_newScope]; exact hx
      simp only [checkFnSignature] at h1
      split at h1
      · split at h1
        · rename_i c0 h0
          have f := checkType_frame _ _ _ _ h0
          exact checkFnParams_fresh fuel _ _ _ h1 p hp x (by rw [f.scope]; exact hx')
        · rename_i o ho
          exact (ho _ h1).elim
      · exact checkFnParams_fresh fuel _ _ _ h1 p hp x hx'
    split at h
    · rename_i r c2 h2
      have g2 := (checkBlock_grow fuel _ _ _ _ _ h2).1
      have e : c2.popScope.scope = c.scope := by
        show c2.scope.tail = c.scope
        rw [g2.1, hs1]
      split at h
      · split at h
        · cases h
        · cases h; exact ⟨e, hfresh⟩
      · cases h; exact ⟨e, hfresh⟩
    all_goals cases h
  · rename_i o ho
    exact (ho _ h).elim

theorem checkFns_fresh (fuel : Nat) :
    ∀ (fns : List FnDecl) (c c' : checker), checkFns fuel c fns = .ok c' →
      ∀ fn ∈ fns, ∀ p ∈ fn.Params, ∀ x, (findVar c.scope x).isSome = true → p.Name.Ident ≠ x
  | [], c, c', h => by simp
  | f :: rest, c, c', h => by
    simp only [checkFns] at h
    split at h
    · rename_i c1 h1
      obtain ⟨e, hf⟩ := checkFn_fresh h1
      have ih := checkFns_fresh fuel rest _ _ h
      rw [e] at ih
      intro fn hfn
      simp only [List.mem_cons] at hfn
      rcases hfn with rfl | hfn
      · exact hf
      · exact ih fn hfn
    · rename_i o ho
      exact (ho _ h).elim

theorem addFns_bound :
    ∀ (fns : List FnDecl) (c c' : checker), addFns c fns = .ok c' →
      ScopeGrow c.scope c'.scope ∧ ∀ g ∈ fns, (findVar c'.scope g.Name.Ident).isSome = true
  | [], c, c', h => by
    simp [addFns] at h; subst h
    exact ⟨ScopeGrow.refl_grow _, by simp⟩
  | f :: rest, c, c', h => by
    simp only [addFns] at h
    split at h
    · cases h
    · split at h
      · rename_i s hs
        obtain ⟨g2, b2⟩ := addFns_bound rest _ _ h
        have g1 := addVar_grow hs
        refine ⟨g1.trans_grow g2, ?_⟩
        intro g hg
        simp only [List.mem_cons] at hg
        rcases hg with rfl | hg
        · have := findVar_addVar hs g.Name.Ident
          simp only [if_true] at this
          rw [g2.2 _ _ this]; rfl
        · exact b2 g hg
      all_goals cases h

/-- C14, as the code has it: the duplicate check of a parameter looks the name
up in the whole scope chain, so it fires when the name is bound anywhere in
it, not only by an earlier parameter. In a state `c` in which the name of the
parameter `p` is bound, by a parameter or by a global function, `checkFn`'s
loop reports `duplicate identifier` at the parameter; hence in a module that
`CheckModule` accepts no parameter has the name of a function of the
module. -/
theorem C14_parameter_clashes_with_any_binding (fuel : Nat) (m m' : Module)
    (h : CheckModule fuel m = .ok m') :
    (∀ fn ∈ m.Fns, ∀ p ∈ fn.Params, ∀ g ∈ m.Fns, p.Name.Ident ≠ g.Name.Ident) ∧
    (∀ (c0 c : checker) (p : Param) (rest : List Param),
      checkType fuel c0 p.Ty = .ok c → (findVar c.scope p.Name.Ident).isSome = true →
      checkFnParams fuel c0 (p :: rest) =
        .diag p.Name.Pos ("duplicate identifier '" ++ p.Name.Ident ++ "'")) := by
  refine ⟨?_, ?_⟩
  · obtain ⟨c, c1, c2, _, hc1, hc2, _⟩ := CheckModule_ok h
    intro fn hfn p hp g hg
    exact checkFns_fresh fuel _ _ _ hc2 fn hfn p hp _ ((addFns_bound _ _ _ hc1).2 g hg)
  · intro c0 c p rest h1 hf
    simp [checkFnParams, h1, hf]

/-- C14 on the accepted module `fn f(x: i32, y: bool) ...  fn g() ...`: the
parameters `x` and `y` are named unlike the functions. -/
theorem C14_parameter_clashes_with_any_binding_witness :
    (CheckModule 8 distinctModule).isOk = true ∧
    ∀ fn ∈ distinctModule.Fns, ∀ p ∈ fn.Params, ∀ g ∈ distinctModule.Fns,
      p.Name.Ident ≠ g.Name.Ident :=
  ⟨rfl, (C14_parameter_clashes_with_any_binding 8 distinctModule _ rfl).1⟩

/-- C14 refuted on `fn g() { }  fn f(g: i32) { }`: the parameter `g` of `f`
repeats no parameter, the module has no other error, and `CheckModule`
reports `duplicate identifier 'g'` at the parameter; with the parameter
named `x` the module is accepted. -/
theorem C14_parameter_named_as_global_rejected :
    CheckModule 8 (paramGlobalModule "g") = .diag ⟨2, 6⟩ "duplicate identifier 'g'" ∧
    (CheckModule 8 (paramGlobalModule "x")).isOk = true :=
  ⟨rfl, rfl⟩

theorem TypeEqualArgs_pairwise : ∀ (l r : List NamedType), l.length = r.length →
    (TypeEqualArgs l r = .ok true ↔
      ∀ (i : Nat) (x y : NamedType), l[i]? = some x → r[i]? = some y →
        TypeEqualNamed x y = .ok true)
  | [], [], _ => by simp [TypeEqualArgs]
  | [], _ :: _, h => by simp at h
  | _ :: _, [], h => by simp at h
  | a :: as, b :: bs, h => by
    have ih := TypeEqualArgs_pairwise as bs (by simpa using h)
    simp only [TypeEqualArgs]
    constructor
    · intro hte i x y hx hy
      have h1 : TypeEqualNamed a b = .ok true := by
        cases hr : TypeEqualNamed a b with
        | ok v =>
          cases v with
          | true => rfl
          | false => rw [hr] at hte; cases hte
        | diag p m => rw [hr] at hte; cases hte
        | panic m => rw [hr] at hte; cases hte
        | nofuel => rw [hr] at hte; cases hte
      rw [h1] at hte
      simp only at hte
      rcases i with _ | i
      · simp only [List.getElem?_cons_zero, Option.some.injEq] at hx hy
        subst hx; subst hy; exact h1
      · simp only [List.getElem?_cons_succ] at hx hy
        exact (ih.1 hte) i x y hx hy
    · intro hall
      have h1 := hall 0 a b (by simp) (by simp)
      rw [h1]
      simp only
      exact ih.2 (fun i x y hx hy => hall (i + 1) x y (by simpa using hx) (by simpa using hy))

mutual
theorem TypeEqualNamed_true : ∀ (a b : NamedType), TypeEqualNamed a b = .ok true →
    a.erasePos = b.erasePos
  | .mk n1 a1, .mk n2 a2, h => by
    simp only [TypeEqualNamed] at h
    split at h
    · cases h
    · rename_i hn
      split at h
      · cases h
      · rename_i hl
        simp only [NamedType.erasePos]
        rw [TypeEqualArgs_true a1 a2 (by simpa using hl) h]
        simp only [ne_eq, Decidable.not_not] at hn
        rw [hn]
theorem TypeEqualArgs_true : ∀ (l r : List NamedType), l.length = r.length →
    TypeEqualArgs l r = .ok true → erasePosArgs l = erasePosArgs r
  | [], [], _, _ => rfl
  | [], _ :: _, h, _ => by simp at h
  | _ :: _, [], h, _ => by simp at h
  | a :: as, b :: bs, h, hte => by
    simp only [TypeEqualArgs] at hte
    simp only [erasePosArgs]
    cases hr : TypeEqualNamed a b with
    | ok v =>
      cases v with
      | true =>
        rw [hr] at hte
        rw [TypeEqualNamed_true a b hr, TypeEqualArgs_true as bs (by simpa using h) hte]
      | false => rw [hr] at hte; cases hte
    | diag p m => rw [hr] at hte; cases hte
    | panic m => rw [hr] at hte; cases hte
    | nofuel => rw [hr] at hte; cases hte
end

theorem TypeEqualNamed_true_iff (a b : NamedType) :
    TypeEqualNamed a b = .ok true ↔ a.erasePos = b.erasePos := by
  constructor
  · exact TypeEqualNamed_true a b
  · intro h
    rw [← TypeEqualNamed_erasePos, h]
    exact TypeEqualNamed_refl _

mutual
theorem TypeEqualNamed_total (ar : String → Nat) : ∀ (a b : NamedType),
    a.arityOK ar = true → b.arityOK ar = true → ∃ r, TypeEqualNamed a b = .ok r
  | .mk n1 a1, .mk n2 a2, ha, hb => by
    simp only [NamedType.arityOK, Bool.and_eq_true, beq_iff_eq] at ha hb
    simp only [TypeEqualNamed]
    split
    · exact ⟨false, rfl⟩
    · rename_i hn
      simp only [ne_eq, Decidable.not_not] at hn
      have hl : a1.length = a2.length := by rw [ha.1, hb.1, hn]
      simp only [hl, ne_eq, not_true_eq_false, if_false]
      exact TypeEqualArgs_total ar a1 a2 ha.2 hb.2
theorem TypeEqualArgs_total (ar : String → Nat) : ∀ (l r : List NamedType),
    arityOKArgs ar l = true → arityOKArgs ar r = true → ∃ v, TypeEqualArgs l r = .ok v
  | [], _, _, _ => ⟨true, by simp [TypeEqualArgs]⟩
  | _ :: _, [], _, _ => ⟨true, by simp [TypeEqualArgs]⟩
  | a :: as, b :: bs, ha, hb => by
    simp only [arityOKArgs, Bool.and_eq_true] at ha hb
    simp only [TypeEqualArgs]
    obtain ⟨v, hv⟩ := TypeEqualNamed_total ar a b ha.1 hb.1
    rw [hv]
    cases v with
    | true => exact TypeEqualArgs_total ar as bs ha.2 hb.2
    | false => exact ⟨false, rfl⟩
end

theorem checkCoerce_ok_iff (c : checker) (e : Expr) (b : NamedType) :
    checkCoerce c e (.named (some b)) = .ok () ↔
      ∃ r t, checkExpr c e = .ok r ∧ r.ty = .named (some t) ∧ t.erasePos = b.erasePos := by
  unfold checkCoerce checkCoerceResult
  constructor
  · intro h
    cases hr : checkExpr c e with
    | ok r =>
      rw [hr] at h
      simp only at h
      cases hty : r.ty with
      | nil => rw [hty] at h; cases h
      | fn f => rw [hty] at h; simp [TypeEqual] at h
      | named o =>
        rw [hty] at h
        cases o with
        | none => simp [TypeEqual] at h
        | some t =>
          refine ⟨r, t, rfl, hty, ?_⟩
          apply TypeEqualNamed_true
          simp only [TypeEqual] at h
          cases hte : TypeEqualNamed t b with
          | ok v =>
            cases v with
            | true => rfl
            | false => rw [hte] at h; cases h
          | diag p m => rw [hte] at h; cases h
          | panic m => rw [hte] at h; cases h
          | nofuel => rw [hte] at h; cases h
    | diag p m => rw [hr] at h; cases h
    | panic m => rw [hr] at h; cases h
    | nofuel => rw [hr] at h; cases h
  · rintro ⟨r, t, hr, hty, ht⟩
    rw [hr]
    simp only [hty, TypeEqual, (TypeEqualNamed_true_iff t b).2 ht]

/-- C15: `TypeEqual` on named types is structural equality with the source
positions ignored. For named types `a` and `b` in which every head name
carries its one number of arguments (`ar`), `TypeEqual(a, b)` returns, and
returns true exactly when `a` and `b` are the same type once the positions
are erased; it is true if and only if the head names are equal, the
arguments as many and pairwise `TypeEqual`. It is reflexive, symmetric and
transitive, and `checkCoerce` accepts an expression for the type `b` exactly
when the type of the expression is `b` up to positions: nothing is
converted. -/
theorem C15_typeEqual_structural (ar : String → Nat) (a b : NamedType)
    (ha : a.arityOK ar = true) (hb : b.arityOK ar = true) :
    (∃ r, TypeEqual (.named (some a)) (.named (some b)) = .ok r ∧
      (r = true ↔ a.erasePos = b.erasePos)) ∧
    (TypeEqual (.named (some a)) (.named (some b)) = .ok true ↔
      a.Name.Ident = b.Name.Ident ∧ a.Args.length = b.Args.length ∧
      ∀ (i : Nat) (x y : NamedType), a.Args[i]? = some x → b.Args[i]? = some y →
        TypeEqual (.named (some x)) (.named (some y)) = .ok true) ∧
    TypeEqual (.named (some a)) (.named (some a)) = .ok true ∧
    TypeEqual (.named (some b)) (.named (some a)) =
      TypeEqual (.named (some a)) (.named (some b)) ∧
    (∀ c : NamedType, TypeEqual (.named (some a)) (.named (some b)) = .ok true →
      TypeEqual (.named (some b)) (.named (some c)) = .ok true →
      TypeEqual (.named (some a)) (.named (some c)) = .ok true) ∧
    (∀ (c : checker) (e : Expr), checkCoerce c e (.named (some b)) = .ok () ↔
      ∃ r t, checkExpr c e = .ok r ∧ r.ty = .named (some t) ∧ t.erasePos = b.erasePos) := by
  simp only [TypeEqual]
  refine ⟨?_, ?_, TypeEqualNamed_refl a, ?_, ?_, fun c e => checkCoerce_ok_iff c e b⟩
  · obtain ⟨r, hr⟩ := TypeEqualNamed_total ar a b ha hb
    refine ⟨r, hr, ?_⟩
    rw [← TypeEqualNamed_true_iff, hr]
    simp
  · cases a with
    | mk n1 a1 =>
      cases b with
      | mk n2 a2 =>
        simp only [NamedType.Name, NamedType.Args]
        constructor
        · intro h
          have h' := h
          simp only [TypeEqualNamed] at h
          split at h
          · cases h
          · rename_i hn
            split at h
            · cases h
            · rename_i hl
              simp only [ne_eq, Decidable.not_not] at hn hl
              exact ⟨hn, hl, (TypeEqualArgs_pairwise a1 a2 hl).1 h⟩
        · rintro ⟨hn, hl, hall⟩
          simp only [TypeEqualNamed, hn, hl, ne_eq, not_true_eq_false, if_false]
          exact (TypeEqualArgs_pairwise a1 a2 hl).2 hall
  · obtain ⟨r, hr⟩ := TypeEqualNamed_total ar a b ha hb
    obtain ⟨r', hr'⟩ := TypeEqualNamed_total ar b a hb ha
    rw [hr, hr']
    have h1 : r = true ↔ a.erasePos = b.erasePos := by
      rw [← TypeEqualNamed_true_iff, hr]; simp
    have h2 : r' = true ↔ b.erasePos = a.erasePos := by
      rw [← TypeEqualNamed_true_iff, hr']; simp
    have : r' = r := by
      cases r <;> cases r' <;> simp_all
    rw [this]
  · intro c h1 h2
    rw [TypeEqualNamed_true_iff] at h1 h2 ⊢
    exact h1.trans h2

/-- C15 on `slice[i32]` written at two places, which are `TypeEqual`, and on
`slice[i32]` against `i32`, which are not. -/
theorem C15_typeEqual_structural_witness :
    ((sliceOfInt 9).arityOK primitiveArity = true ∧
      (sliceOfInt 30).arityOK primitiveArity = true) ∧
    TypeEqual (.named (some (sliceOfInt 9))) (.named (some (sliceOfInt 30))) = .ok true ∧
    TypeEqual (.named (some (sliceOfInt 9))) (.named (some ast.Int32)) = .ok false ∧
    TypeEqual (.named (some (sliceOfInt 30))) (.named (some (sliceOfInt 9))) =
      TypeEqual (.named (some (sliceOfInt 9))) (.named (some (sliceOfInt 30))) :=
  ⟨⟨rfl, rfl⟩, rfl, rfl,
    (C15_typeEqual_structural primitiveArity (sliceOfInt 9) (sliceOfInt 30) rfl rfl).2.2.2.1⟩

theorem colOffset_snoc (l : List Nat) (c : Nat) :
    colOffset (l ++ [c]) = if c = LF then 0 else colOffset l + 1 := by
  unfold colOffset
  simp only [List.reverse_append, List.reverse_cons, List.reverse_nil, List.nil_append,
    List.singleton_append, List.takeWhile_cons]
  by_cases h : c = LF <;> simp [h]

theorem colOffset_le (l : List Nat) : colOffset l ≤ l.length := by
  unfold colOffset
  calc _ ≤ l.reverse.length := (List.takeWhile_sublist _).length_le
    _ = l.length := List.length_reverse l

theorem take_succ_of_getElem? {l : List Nat} {n c : Nat} (h : l[n]? = some c) :
    l.take (n + 1) = l.take n ++ [c] := by
  rw [List.take_succ, h]; rfl

theorem getElem?_lt {l : List Nat} {n c : Nat} (h : l[n]? = some c) : n < l.length :=
  (List.getElem?_eq_some_iff.1 h).1

/-- Passing a byte that is no line feed keeps the counters right. -/
theorem ScanInv.step {s : Scanner} {c : Nat} (h : ScanInv s) (hc : s.content[s.pos]? = some c)
    (hn : c ≠ LF) : ScanInv { s with pos := s.pos + 1 } := by
  have hlt := getElem?_lt hc
  refine ⟨by simp only; omega, ?_, ?_⟩
  · simp only [take_succ_of_getElem? hc, List.count_append, h.line]
    simp [List.count_cons, List.count_nil, Ne.symm hn]
  · simp only [take_succ_of_getElem? hc, colOffset_snoc, hn, if_false]
    have := h.lbegin
    omega

/-- Passing a line feed with the counters updated keeps them right. -/
theorem ScanInv.step_lf {s : Scanner} (h : ScanInv s) (hc : s.content[s.pos]? = some LF) :
    ScanInv { s with line := s.line + 1, lbegin := s.pos + 1, pos := s.pos + 1 } := by
  have hlt := getElem?_lt hc
  refine ⟨by simp only; omega, ?_, ?_⟩
  · simp only [take_succ_of_getElem? hc, List.count_append, h.line]
    simp [List.count_cons, List.count_nil]
    omega
  · simp only [take_succ_of_getElem? hc, colOffset_snoc, if_true]

theorem Moved.refl_moved (s : Scanner) : Moved s s := ⟨rfl, le_rfl, rfl, rfl, rfl⟩

theorem Moved.trans_moved {a b c : Scanner} (h1 : Moved a b) (h2 : Moved b c) : Moved a c :=
  ⟨h2.content.trans h1.content, le_trans h1.pos h2.pos, h2.tok_pos.trans h1.tok_pos,
    h2.tok.trans h1.tok, h2.tok_val.trans h1.tok_val⟩

/-- The whitespace loop returns when its budget exceeds the rest of the text:
it passes whitespace only, stops at the end of the text or at a byte that is
no whitespace, and keeps the counters right. -/
theorem skipWhitespace_spec : ∀ (fuel : Nat) (s : Scanner), s.content.length - s.pos < fuel →
    ∃ s1, skipWhitespace fuel s = .ok s1 ∧ Moved s s1 ∧
      (∀ i, s.pos ≤ i → i < s1.pos → ∃ c, s.content[i]? = some c ∧ isWhitespace c = true) ∧
      (∀ c, s.content[s1.pos]? = some c → isWhitespace c = false) ∧
      (s.pos ≤ s.content.length → s1.pos ≤ s.content.length) ∧
      (ScanInv s → ScanInv s1)
  | 0, s, h => by omega
  | fuel + 1, s, h => by
    simp only [skipWhitespace]
    cases hc : s.content[s.pos]? with
    | none =>
      refine ⟨s, rfl, Moved.refl_moved s, fun i h1 h2 => by omega, ?_, id, id⟩
      intro c h; rw [hc] at h; cases h
    | some c =>
      simp only
      have hlt := getElem?_lt hc
      by_cases hw : isWhitespace c = true
      · simp only [hw, if_true]
        by_cases hl : c = LF
        · subst hl
          simp only [if_true]
          obtain ⟨s1, h1, m1, p1, e1, b1, i1⟩ := skipWhitespace_spec fuel
            { s with line := s.line + 1, lbegin := s.pos + 1, pos := s.pos + 1 }
            (by simp only; omega)
          refine ⟨s1, h1, ⟨m1.content, by have := m1.pos; simp only at this; omega, m1.tok_pos,
            m1.tok, m1.tok_val⟩, ?_, e1, fun _ => b1 (by simp only; omega),
            fun hi => i1 (hi.step_lf hc)⟩
          intro i hi1 hi2
          by_cases hi : i = s.pos
          · subst hi; exact ⟨LF, hc, hw⟩
          · exact p1 i (by simp only; omega) hi2
        · simp only [hl, if_false]
          obtain ⟨s1, h1, m1, p1, e1, b1, i1⟩ := skipWhitespace_spec fuel
            { s with pos := s.pos + 1 } (by simp only; omega)
          refine ⟨s1, h1, ⟨m1.content, by have := m1.pos; simp only at this; omega, m1.tok_pos,
            m1.tok, m1.tok_val⟩, ?_, e1, fun _ => b1 (by simp only; omega),
            fun hi => i1 (hi.step hc hl)⟩
          intro i hi1 hi2
          by_cases hi : i = s.pos
          · subst hi; exact ⟨c, hc, hw⟩
          · exact p1 i (by simp only; omega) hi2
      · simp only [hw]
        refine ⟨s, rfl, Moved.refl_moved s, fun i h1 h2 => by omega, ?_, id, id⟩
        intro c' h'
        rw [hc] at h'
        cases h'
        simpa using hw

/-- The loop `identLoop` returns when its budget exceeds the rest of the text:
it only advances `pos`, over bytes that pass its test, up to the end of the
text or a byte that fails the test. -/
theorem identLoop_spec : ∀ (fuel : Nat) (s : Scanner), s.content.length - s.pos < fuel →
    ∃ k, identLoop fuel s = .ok { s with pos := s.pos + k } ∧
      (∀ i, s.pos ≤ i → i < s.pos + k → ∃ c, s.content[i]? = some c ∧ (isLetter c || isDigit c) = true) ∧
      (∀ c, s.content[s.pos + k]? = some c → (isLetter c || isDigit c) = false) ∧
      (s.pos ≤ s.content.length → s.pos + k ≤ s.content.length)
  | 0, s, h => by omega
  | fuel + 1, s, h => by
    simp only [identLoop]
    cases hc : s.content[s.pos]? with
    | none =>
      refine ⟨0, rfl, fun i h1 h2 => by omega, ?_, fun hb => hb⟩
      intro c h; rw [Nat.add_zero, hc] at h; cases h
    | some c =>
      simp only
      have hlt := getElem?_lt hc
      by_cases hw : (isLetter c || isDigit c) = true
      · rw [if_pos (by simpa using hw)]
        obtain ⟨k, h1, p1, e1, b1⟩ := identLoop_spec fuel { s with pos := s.pos + 1 }
          (by simp only; omega)
        simp only at h1 p1 e1 b1
        refine ⟨k + 1, by rw [h1]; simp only [Nat.add_assoc, Nat.add_comm 1 k], ?_, ?_, ?_⟩
        · intro i hi1 hi2
          by_cases hi : i = s.pos
          · subst hi; exact ⟨c, hc, hw⟩
          · exact p1 i (by omega) (by omega)
        · intro c' hc'
          exact e1 c' (by rw [← hc']; congr 1; omega)
        · intro hb; have := b1 (by omega); omega
      · rw [if_neg (by simpa using hw)]
        refine ⟨0, rfl, fun i h1 h2 => by omega, ?_, fun hb => hb⟩
        intro c' h'
        rw [Nat.add_zero, hc] at h'
        cases h'
        simpa using hw

/-- The loop `intLoop` returns when its budget exceeds the rest of the text:
it only advances `pos`, over bytes that pass its test, up to the end of the
text or a byte that fails the test. -/
theorem intLoop_spec : ∀ (fuel : Nat) (s : Scanner), s.content.length - s.pos < fuel →
    ∃ k, intLoop fuel s = .ok { s with pos := s.pos + k } ∧
      (∀ i, s.pos ≤ i → i < s.pos + k → ∃ c, s.content[i]? = some c ∧ isDigit c = true) ∧
      (∀ c, s.content[s.pos + k]? = some c → isDigit c = false) ∧
      (s.pos ≤ s.content.length → s.pos + k ≤ s.content.length)
  | 0, s, h => by omega
  | fuel + 1, s, h => by
    simp only [intLoop]
    cases hc : s.content[s.pos]? with
    | none =>
      refine ⟨0, rfl, fun i h1 h2 => by omega, ?_, fun hb => hb⟩
      intro c h; rw [Nat.add_zero, hc] at h; cases h
    | some c =>
      simp only
      have hlt := getElem?_lt hc
      by_cases hw : isDigit c = true
      · rw [if_pos (by simpa using hw)]
        obtain ⟨k, h1, p1, e1, b1⟩ := intLoop_spec fuel { s with pos := s.pos + 1 }
          (by simp only; omega)
        simp only at h1 p1 e1 b1
        refine ⟨k + 1, by rw [h1]; simp only [Nat.add_assoc, Nat.add_comm 1 k], ?_, ?_, ?_⟩
        · intro i hi1 hi2
          by_cases hi : i = s.pos
          · subst hi; exact ⟨c, hc, hw⟩
          · exact p1 i (by omega) (by omega)
        · intro c' hc'
          exact e1 c' (by rw [← hc']; congr 1; omega)
        · intro hb; have := b1 (by omega); omega
      · rw [if_neg (by simpa using hw)]
        refine ⟨0, rfl, fun i h1 h2 => by omega, ?_, fun hb => hb⟩
        intro c' h'
        rw [Nat.add_zero, hc] at h'
        cases h'
        simpa using hw

/-- The loop `commentLoop` returns when its budget exceeds the rest of the text:
it only advances `pos`, over bytes that pass its test, up to the end of the
text or a byte that fails the test. -/
theorem commentLoop_spec : ∀ (fuel : Nat) (s : Scanner), s.content.length - s.pos < fuel →
    ∃ k, commentLoop fuel s = .ok { s with pos := s.pos + k } ∧
      (∀ i, s.pos ≤ i → i < s.pos + k → ∃ c, s.content[i]? = some c ∧ decide (c ≠ LF) = true) ∧
      (∀ c, s.content[s.pos + k]? = some c → decide (c ≠ LF) = false) ∧
      (s.pos ≤ s.content.length → s.pos + k ≤ s.content.length)
  | 0, s, h => by omega
  | fuel + 1, s, h => by
    simp only [commentLoop]
    cases hc : s.content[s.pos]? with
    | none =>
      refine ⟨0, rfl, fun i h1 h2 => by omega, ?_, fun hb => hb⟩
      intro c h; rw [Nat.add_zero, hc] at h; cases h
    | some c =>
      simp only
      have hlt := getElem?_lt hc
      by_cases hw : decide (c ≠ LF) = true
      · rw [if_pos (by simpa using hw)]
        obtain ⟨k, h1, p1, e1, b1⟩ := commentLoop_spec fuel { s with pos := s.pos + 1 }
          (by simp only; omega)
        simp only at h1 p1 e1 b1
        refine ⟨k + 1, by rw [h1]; simp only [Nat.add_assoc, Nat.add_comm 1 k], ?_, ?_, ?_⟩
        · intro i hi1 hi2
          by_cases hi : i = s.pos
          · subst hi; exact ⟨c, hc, hw⟩
          · exact p1 i (by omega) (by omega)
        · intro c' hc'
          exact e1 c' (by rw [← hc']; congr 1; omega)
        · intro hb; have := b1 (by omega); omega
      · rw [if_neg (by simpa using hw)]
        refine ⟨0, rfl, fun i h1 h2 => by omega, ?_, fun hb => hb⟩
        intro c' h'
        rw [Nat.add_zero, hc] at h'
        cases h'
        simpa using hw

theorem escapedAt_zero (l : List Nat) : escapedAt l 0 = false := by
  simp [escapedAt]

theorem escapedAt_succ {l : List Nat} {i c : Nat} (h : l[i]? = some c) :
    escapedAt l (i + 1) = (!escapedAt l i && c == BACKSLASH) := by
  unfold escapedAt
  rw [take_succ_of_getElem? h]
  simp only [List.reverse_append, List.reverse_cons, List.reverse_nil, List.nil_append,
    List.singleton_append, List.takeWhile_cons]
  by_cases hc : c = BACKSLASH
  · simp only [hc, beq_self_eq_true, if_true, List.length_cons, Bool.and_true]
    generalize ((List.take i l).reverse.takeWhile (fun c => c == BACKSLASH)).length = r
    have : r % 2 = 0 ∨ r % 2 = 1 := by omega
    rcases this with h0 | h1
    · have : (r + 1) % 2 = 1 := by omega
      simp [h0, this]
    · have : (r + 1) % 2 = 0 := by omega
      simp [h1, this]
  · have : (c == BACKSLASH) = false := by simpa using hc
    simp [this]

theorem passed_not_closes {l : List Nat} {n : Nat} (hp : Passed l n) : ¬Closes l n := by
  intro hc
  obtain ⟨c, h1, _, h3, _⟩ := hp
  rw [hc.1] at h1
  cases h1
  have := hc.2.1
  rw [h3 rfl] at this
  exact Bool.noConfusion this

/-- What the loop over a string literal returns. The literal starts at `b`,
the loop stands at `b + j`, every byte of the literal before that can be part
of it and `escaped` is as the bytes say. With a budget above the rest of the
text: when the literal closes, the loop stops at the closing quote; else it
reaches the end of the text or raises one of the two diagnostics. -/
theorem stringLoop_spec (b : Nat) : ∀ (fuel : Nat) (s : Scanner) (j : Nat),
    s.pos = b + j → s.pos ≤ s.content.length → s.content.length - s.pos < fuel →
    (∀ i, i < j → Passed (s.content.drop b) i) →
    (∃ n, Closes (s.content.drop b) n ∧
      stringLoop fuel s (escapedAt (s.content.drop b) j) = .ok { s with pos := b + n }) ∨
    ((∀ n, ¬Closes (s.content.drop b) n) ∧
      (stringLoop fuel s (escapedAt (s.content.drop b) j) =
          .ok { s with pos := s.content.length } ∨
        ∃ msg, StringDiag msg ∧
          stringLoop fuel s (escapedAt (s.content.drop b) j) = .diag s.tok_pos msg))
  | 0, s, j, hp, hb, hf, hpass => by omega
  | fuel + 1, s, j, hp, hb, hf, hpass => by
    have hget : (s.content.drop b)[j]? = s.content[s.pos]? := by
      rw [List.getElem?_drop, hp]
    have hbefore : ∀ n, n < j → ¬Closes (s.content.drop b) n :=
      fun n hn => passed_not_closes (hpass n hn)
    simp only [stringLoop]
    cases hc : s.content[s.pos]? with
    | none =>
      right
      have hlen : s.pos = s.content.length := by
        have := List.getElem?_eq_none_iff.1 hc
        omega
      refine ⟨?_, Or.inl (by rw [← hlen])⟩
      intro n hn
      by_cases hnj : n < j
      · exact hbefore n hnj hn
      · have := getElem?_lt hn.1
        simp only [List.length_drop] at this
        omega
    | some c =>
      simp only
      rw [hc] at hget
      by_cases hstop : c = QUOTE ∧ escapedAt (s.content.drop b) j = false
      · left
        refine ⟨j, ⟨by rw [hget, hstop.1], hstop.2, hpass⟩, ?_⟩
        rw [if_neg (by simp [hstop.1, hstop.2])]
        rw [← hp]
      · have hgo : c ≠ QUOTE ∨ escapedAt (s.content.drop b) j = true := by
          by_cases hq : c = QUOTE
          · right
            cases he : escapedAt (s.content.drop b) j with
            | true => rfl
            | false => exact (hstop ⟨hq, he⟩).elim
          · exact Or.inl hq
        rw [if_pos hgo]
        have hafter : ∀ n, j < n → Closes (s.content.drop b) n → Passed (s.content.drop b) j :=
          fun n hn hcl => hcl.2.2 j hn
        have hat : ¬Closes (s.content.drop b) j := by
          intro hcl
          have h1 := hcl.1
          rw [hget] at h1
          cases h1
          exact hstop ⟨rfl, hcl.2.1⟩
        have hnone : ¬Passed (s.content.drop b) j → ∀ n, ¬Closes (s.content.drop b) n := by
          intro hnp n hn
          rcases Nat.lt_trichotomy n j with h1 | h1 | h1
          · exact hbefore n h1 hn
          · subst h1; exact hat hn
          · exact hnp (hafter n h1 hn)
        by_cases hesc : escapedAt (s.content.drop b) j = true ∧ isEscape c = false
        · right
          rw [if_pos hesc]
          refine ⟨hnone ?_, Or.inr ⟨_, Or.inr ⟨c, hesc.2, rfl⟩, rfl⟩⟩
          rintro ⟨c', h1, _, _, h4⟩
          rw [hget] at h1
          cases h1
          rw [h4 hesc.1] at hesc
          exact Bool.noConfusion hesc.2
        · rw [if_neg hesc]
          by_cases hlf : c = LF
          · right
            rw [if_pos hlf]
            refine ⟨hnone ?_, Or.inr ⟨_, Or.inl rfl, rfl⟩⟩
            rintro ⟨c', h1, h2, _, _⟩
            rw [hget] at h1
            cases h1
            exact h2 hlf
          · rw [if_neg hlf]
            have hpj : Passed (s.content.drop b) j := by
              refine ⟨c, hget, hlf, ?_, ?_⟩
              · intro hq
                rcases hgo with h | h
                · exact (h hq).elim
                · exact h
              · intro he
                cases hi : isEscape c with
                | true => rfl
                | false => exact (hesc ⟨he, hi⟩).elim
            have hlt := getElem?_lt hc
            have ih := stringLoop_spec b fuel { s with pos := s.pos + 1 } (j + 1)
              (by simp only; omega) (by simp only; omega) (by simp only; omega)
              (by
                intro i hi
                by_cases hij : i = j
                · subst hij; exact hpj
                · exact hpass i (by omega))
            simp only [escapedAt_succ hget] at ih
            exact ih

theorem ScanInv.advance_by : ∀ (k : Nat) (s : Scanner), ScanInv s →
    (∀ i, s.pos ≤ i → i < s.pos + k → ∃ c, s.content[i]? = some c ∧ c ≠ LF) →
    ScanInv { s with pos := s.pos + k }
  | 0, s, h, _ => h
  | k + 1, s, h, hn => by
    obtain ⟨c, hc, hne⟩ := hn s.pos le_rfl (by omega)
    have := ScanInv.advance_by k { s with pos := s.pos + 1 } (h.step hc hne)
      (fun i h1 h2 => hn i (by simp only at h1; omega) (by simp only at h2; omega))
    simp only at this
    rw [Nat.add_assoc, Nat.add_comm 1 k] at this
    exact this

theorem ScanInv.advanced {s s' : Scanner} (h : ScanInv s) (ha : Advanced s s') : ScanInv s' := by
  have hk : s'.pos = s.pos + (s'.pos - s.pos) := by have := ha.pos; omega
  have := ScanInv.advance_by (s'.pos - s.pos) s h (fun i h1 h2 => ha.nolf i h1 (by omega))
  obtain ⟨b, l, lb⟩ := this
  simp only [← hk] at b l lb
  exact ⟨by rw [ha.content]; exact b, by rw [ha.content, ha.line]; exact l,
    by rw [ha.content, ha.lbegin]; exact lb⟩

theorem Advanced.refl_adv {s : Scanner} (h : s.pos ≤ s.content.length) : Advanced s s :=
  ⟨rfl, rfl, rfl, rfl, le_rfl, h, fun i h1 h2 => by omega⟩

theorem Advanced.trans_adv {a b c : Scanner} (h1 : Advanced a b) (h2 : Advanced b c) :
    Advanced a c :=
  ⟨h2.content.trans h1.content, h2.line.trans h1.line, h2.lbegin.trans h1.lbegin,
    h2.tok_pos.trans h1.tok_pos, le_trans h1.pos h2.pos, by rw [← h1.content]; exact h2.bound,
    fun i hi1 hi2 => by
      by_cases h : i < b.pos
      · exact h1.nolf i hi1 h
      · have := h2.nolf i (by omega) hi2
        rw [h1.content] at this
        exact this⟩

/-- Passing `k` bytes that are no line feeds, inside the text. -/
theorem Advanced.by_pos {s : Scanner} (k : Nat) (hb : s.pos + k ≤ s.content.length)
    (hn : ∀ i, s.pos ≤ i → i < s.pos + k → ∃ c, s.content[i]? = some c ∧ c ≠ LF) :
    Advanced s { s with pos := s.pos + k } :=
  ⟨rfl, rfl, rfl, rfl, by simp, hb, hn⟩

theorem isWhitespace_lf : isWhitespace LF = true := by decide

theorem not_lf_of_letter {c : Nat} (h : (isLetter c || isDigit c) = true) : c ≠ LF := by
  rintro rfl
  revert h
  decide

theorem not_lf_of_digit {c : Nat} (h : isDigit c = true) : c ≠ LF := by
  rintro rfl
  revert h
  decide

theorem keywords_ne {val : List Nat} {k : Token} (h : keywords val = some k) :
    k ≠ .COMMENT ∧ k ≠ .EOF ∧ k ≠ .STRING := by
  unfold keywords at h
  repeat' split at h
  all_goals first
    | (cases h; exact ⟨by decide, by decide, by decide⟩)
    | cases h

theorem lookup_mem_snd {c : Nat} {k : Token} : ∀ (l : List (Nat × Token)),
    l.lookup c = some k → k ∈ l.map Prod.snd
  | [], h => by simp at h
  | (a, b) :: rest, h => by
    simp only [List.lookup_cons] at h
    split at h
    · cases h; simp
    · simp [lookup_mem_snd rest h]

theorem punctToken_ne {c : Nat} {k : Token} (h : punctTable.lookup c = some k) :
    k ≠ .COMMENT ∧ k ≠ .EOF ∧ k ≠ .STRING := by
  have := lookup_mem_snd _ h
  simp only [punctTable, List.map_cons, List.map_nil, List.mem_cons, List.mem_singleton,
    List.mem_nil_iff, or_false] at this
  rcases this with h | h | h | h | h | h | h | h | h | h | h | h | h | h | h <;>
    (subst h; exact ⟨by decide, by decide, by decide⟩)

theorem scanPunct_ok {t s' : Scanner} {c : Nat} (h : scanPunct t c = .ok s') :
    (c = '/'.toNat ∧ t.content[t.pos]? = some '/'.toNat ∧
      ∃ t1, commentLoop (t.content.length + 1) t = .ok t1 ∧ s' = { t1 with tok := .COMMENT }) ∨
    (¬(c = '/'.toNat ∧ t.content[t.pos]? = some '/'.toNat) ∧
      ∃ tok, tok ≠ .COMMENT ∧ tok ≠ .EOF ∧ tok ≠ .STRING ∧ s' = { t with tok := tok }) := by
  unfold scanPunct at h
  by_cases hs : c = '/'.toNat
  · subst hs
    simp only [Char.reduceToNat, Nat.reduceEqDiff, if_false, if_true] at h
    cases hd : t.content[t.pos]? with
    | none =>
      rw [hd] at h
      simp only at h
      cases h
      exact Or.inr ⟨by simp, .SLASH, by decide, by decide, by decide, rfl⟩
    | some d =>
      rw [hd] at h
      simp only at h
      by_cases hdd : d = 47
      · subst hdd
        simp only [if_true] at h
        left
        refine ⟨rfl, rfl, ?_⟩
        split at h
        · rename_i t1 h1
          cases h
          exact ⟨t1, h1, rfl⟩
        · rename_i o ho
          exact (ho _ h).elim
      · simp only [hdd, if_false] at h
        cases h
        refine Or.inr ⟨?_, .SLASH, by decide, by decide, by decide, rfl⟩
        rintro ⟨_, h2⟩
        simp at h2
        exact hdd h2
  · right
    refine ⟨fun hh => hs hh.1, ?_⟩
    simp only [hs, if_false] at h
    split at h
    · rename_i tok htok
      cases h
      exact ⟨tok, (punctToken_ne htok).1, (punctToken_ne htok).2.1, (punctToken_ne htok).2.2, rfl⟩
    · split at h <;> cases h

theorem isLetter_quote : isLetter QUOTE = false ∧ isDigit QUOTE = false := by decide

theorem sliceBytes_ok {content : List Nat} {lo hi : Nat} (h1 : lo ≤ hi)
    (h2 : hi ≤ content.length) :
    sliceBytes content lo hi = .ok ((content.drop lo).take (hi - lo)) := by
  unfold sliceBytes
  rw [if_pos ⟨h1, h2⟩, List.drop_take]

theorem closes_unique {l : List Nat} {n m : Nat} (h1 : Closes l n) (h2 : Closes l m) : n = m := by
  rcases Nat.lt_trichotomy n m with h | h | h
  · exact (passed_not_closes (h2.2.2 n h) h1).elim
  · exact h
  · exact (passed_not_closes (h1.2.2 m h) h2).elim

/-- What `scan` does at a double quote. The scanner `s1` stands at the
quote and `l` is the text after it. When the literal closes at index `n` of
`l`, the token is a STRING whose lexeme is the `n` bytes before the closing
quote, and the scanner stands behind that quote; when it does not close, one
of the two diagnostics is raised at the quote. -/
theorem scan_string {s s1 : Scanner} (hs : skipWhitespace (s.content.length + 1) s = .ok s1)
    (hq : s1.content[s1.pos]? = some QUOTE) :
    (∀ n, Closes (s1.content.drop (s1.pos + 1)) n →
      scan s = .ok { s1.atToken with
        tok_val := (s1.content.drop (s1.pos + 1)).take n, tok := .STRING,
        pos := s1.pos + 1 + n + 1 }) ∧
    ((∀ n, ¬Closes (s1.content.drop (s1.pos + 1)) n) →
      ∃ msg, StringDiag msg ∧ scan s = .diag ⟨s1.line, s1.pos - s1.lbegin + 1⟩ msg) := by
  have hlt := getElem?_lt hq
  have hne : s1.pos ≠ s1.content.length := by omega
  have hscan : scan s =
      match stringLoop (s1.content.length + 1)
          { s1.atToken with pos := s1.pos + 1 } false with
      | .ok s2 =>
        if s2.pos = s2.content.length then .diag s2.tok_pos "unterminated string literal"
        else
          match sliceBytes s2.content (s1.pos + 1) s2.pos with
          | .ok val => .ok { s2 with tok_val := val, tok := .STRING, pos := s2.pos + 1 }
          | .diag p m => .diag p m
          | .panic m => .panic m
          | .nofuel => .nofuel
      | other => other := by
    unfold scan
    rw [hs]
    simp only [Scanner.atToken, hne, if_false, hq, isLetter_quote.1, isLetter_quote.2, if_true]
    rfl
  rw [hscan]
  have spec := stringLoop_spec (s1.pos + 1) (s1.content.length + 1)
    { s1.atToken with pos := s1.pos + 1 } 0 rfl (by simp only [Scanner.atToken]; omega)
    (by simp only [Scanner.atToken]; omega) (fun i hi => by omega)
  simp only [escapedAt_zero, Scanner.atToken] at spec
  simp only [Scanner.atToken]
  constructor
  · intro n hn
    rcases spec with ⟨m, hm, hr⟩ | ⟨hno, _⟩
    · have e := closes_unique hn hm
      subst e
      rw [hr]
      have hn1 := getElem?_lt hn.1
      simp only [List.length_drop] at hn1
      have hne2 : s1.pos + 1 + n ≠ s1.content.length := by omega
      simp only [hne2, if_false]
      rw [sliceBytes_ok (by omega) (by omega)]
      simp
    · exact (hno n hn).elim
  · intro hno
    rcases spec with ⟨m, hm, _⟩ | ⟨_, hr | ⟨msg, hmsg, hr⟩⟩
    · exact (hno m hm).elim
    · rw [hr]
      exact ⟨_, Or.inl rfl, by simp⟩
    · rw [hr]
      exact ⟨msg, hmsg, rfl⟩

theorem skipWhitespace_ok {s s1 : Scanner} (hs : skipWhitespace (s.content.length + 1) s = .ok s1) :
    Moved s s1 ∧
      (∀ i, s.pos ≤ i → i < s1.pos → ∃ c, s.content[i]? = some c ∧ isWhitespace c = true) ∧
      (∀ c, s.content[s1.pos]? = some c → isWhitespace c = false) ∧
      (s.pos ≤ s.content.length → s1.pos ≤ s.content.length) ∧
      (ScanInv s → ScanInv s1) := by
  obtain ⟨s2, h2, r⟩ := skipWhitespace_spec (s.content.length + 1) s (by omega)
  rw [hs] at h2
  cases h2
  exact r

/-- A `scan` that returns has skipped whitespace up to the token start and
then done one of the five things of `Scanned`. -/
theorem scan_scanned {s s' : Scanner} (hb : s.pos ≤ s.content.length)
    (h : scan s = .ok s') :
    ∃ s1, skipWhitespace (s.content.length + 1) s = .ok s1 ∧ Scanned s1 s' := by
  obtain ⟨s1, hs, m, _, hnw, hb1, _⟩ := skipWhitespace_spec (s.content.length + 1) s (by omega)
  refine ⟨s1, hs, ?_⟩
  have hb1 := hb1 hb
  rw [← m.content] at hb1 hnw
  by_cases heof : s1.pos = s1.content.length
  · have : scan s = .ok { s1.atToken with tok := .EOF } := by
      unfold scan
      rw [hs]
      simp only [Scanner.atToken, heof, if_true]
    rw [this] at h
    cases h
    exact .eof heof
  · obtain ⟨c, hc⟩ : ∃ c, s1.content[s1.pos]? = some c := by
      cases hx : s1.content[s1.pos]? with
      | none => have := List.getElem?_eq_none_iff.1 hx; omega
      | some c => exact ⟨c, rfl⟩
    have hlt := getElem?_lt hc
    by_cases hl : isLetter c = true
    · obtain ⟨k, hk, hp, he, hbk⟩ :=
        identLoop_spec (s1.content.length + 1) s1.atToken
          (by simp only [Scanner.atToken]; omega)
      simp only [Scanner.atToken] at hk hp he hbk
      have hbk := hbk hb1
      have hk0 : 0 < k := by
        rcases Nat.eq_zero_or_pos k with h0 | h0
        · subst h0
          have := he c (by simpa using hc)
          simp [hl] at this
        · exact h0
      unfold scan at h
      rw [hs] at h
      simp only [heof, if_false, hc, hl, if_true, hk] at h
      rw [sliceBytes_ok (by omega) hbk] at h
      simp only [Nat.add_sub_cancel_left] at h
      split at h
      · rename_i kw hkw
        cases h
        have := @Scanned.word s1 k kw s1.tok_val hk0 hbk hp
          (keywords_ne hkw).1 (keywords_ne hkw).2.1
        simpa [Scanner.atToken] using this
      · cases h
        have := @Scanned.word s1 k .IDENT ((s1.content.drop s1.pos).take k) hk0 hbk hp
          (by decide) (by decide)
        simpa [Scanner.atToken] using this
    · have hl' : isLetter c = false := by simpa using hl
      by_cases hd : isDigit c = true
      · obtain ⟨k, hk, hp, he, hbk⟩ :=
          intLoop_spec (s1.content.length + 1) s1.atToken
            (by simp only [Scanner.atToken]; omega)
        simp only [Scanner.atToken] at hk hp he hbk
        have hbk := hbk hb1
        have hk0 : 0 < k := by
          rcases Nat.eq_zero_or_pos k with h0 | h0
          · subst h0
            have := he c (by simpa using hc)
            simp [hd] at this
          · exact h0
        unfold scan at h
        rw [hs] at h
        simp only [heof, if_false, hc, hl', hd, if_true, hk] at h
        rw [sliceBytes_ok (by omega) hbk] at h
        simp only [Nat.add_sub_cancel_left] at h
        cases h
        have := @Scanned.word s1 k .INT ((s1.content.drop s1.pos).take k) hk0 hbk
          (fun i h1 h2 => by
            obtain ⟨c', hc', hd'⟩ := hp i h1 h2
            exact ⟨c', hc', by simp [hd']⟩)
          (by decide) (by decide)
        simpa [Scanner.atToken] using this
      · have hd' : isDigit c = false := by simpa using hd
        by_cases hq : c = QUOTE
        · subst hq
          obtain ⟨h1, h2⟩ := scan_string hs hc
          by_cases hcl : ∃ n, Closes (s1.content.drop (s1.pos + 1)) n
          · obtain ⟨n, hn⟩ := hcl
            rw [h1 n hn] at h
            cases h
            exact .string n hc hn
          · obtain ⟨msg, _, hm⟩ := h2 (fun n hn => hcl ⟨n, hn⟩)
            rw [hm] at h
            cases h
        · have hscan : scan s = scanPunct { s1.atToken with pos := s1.pos + 1 } c := by
            unfold scan
            rw [hs]
            simp only [Scanner.atToken, heof, if_false, hc, hl', hd', hq]
            rfl
          rw [hscan] at h
          rcases scanPunct_ok h with ⟨h1, h2, t1, h3, h4⟩ | ⟨h1, tok, h2, h3, _, h4⟩
          · simp only [Scanner.atToken] at h2 h3
            obtain ⟨k, hk, hp, he, hbk⟩ := commentLoop_spec (s1.content.length + 1)
              { s1.atToken with pos := s1.pos + 1 } (by simp only [Scanner.atToken]; omega)
            simp only [Scanner.atToken] at hk hp he hbk
            rw [hk] at h3
            cases h3
            subst h4
            have := @Scanned.comment s1 k (by rw [hc, h1]) h2 (hbk (by omega))
              (fun i hi1 hi2 => by
                obtain ⟨c', hc', hd'⟩ := hp i hi1 hi2
                exact ⟨c', hc', by simpa using hd'⟩)
              (fun c' hc' => by simpa using he c' hc')
            simpa [Scanner.atToken] using this
          · subst h4
            have := @Scanned.punct s1 c tok hc (hnw c hc) h2 h3
              (by simpa [Scanner.atToken] using h1)
            simpa [Scanner.atToken] using this

theorem Scanned.advanced_token {s1 s' : Scanner} (h : Scanned s1 s')
    (hb : s1.pos ≤ s1.content.length) :
    Advanced s1.atToken s' ∧ (s'.tok = .EOF ↔ s1.pos = s1.content.length) ∧
      (s'.tok ≠ .EOF → s1.pos < s'.pos) := by
  cases h with
  | eof he =>
    exact ⟨⟨rfl, rfl, rfl, rfl, le_rfl, hb, fun i h1 h2 => by
      simp only [Scanner.atToken] at h1 h2; omega⟩, by simp [he], by simp⟩
  | word k tok tv hk hbk hp h1 h2 =>
    refine ⟨⟨rfl, rfl, rfl, rfl, by simp [Scanner.atToken], hbk, ?_⟩, ?_, ?_⟩
    · intro i hi1 hi2
      obtain ⟨c, hc, hl⟩ := hp i hi1 hi2
      exact ⟨c, hc, not_lf_of_letter hl⟩
    · simp only [h2, false_iff]
      omega
    · intro _; simp only; omega
  | string n hq hcl =>
    have hn := getElem?_lt hcl.1
    simp only [List.length_drop] at hn
    refine ⟨⟨rfl, rfl, rfl, rfl, by simp [Scanner.atToken]; omega,
      by simp only [Scanner.atToken]; omega, ?_⟩, ?_, ?_⟩
    · intro i hi1 hi2
      simp only [Scanner.atToken] at hi1 hi2 ⊢
      by_cases h0 : i = s1.pos
      · subst h0; exact ⟨QUOTE, hq, by decide⟩
      · by_cases h1 : i = s1.pos + 1 + n
        · subst h1
          have := hcl.1
          rw [List.getElem?_drop] at this
          exact ⟨QUOTE, this, by decide⟩
        · obtain ⟨c, hc, hlf, _⟩ := hcl.2.2 (i - (s1.pos + 1)) (by omega)
          rw [List.getElem?_drop] at hc
          have e : s1.pos + 1 + (i - (s1.pos + 1)) = i := by omega
          rw [e] at hc
          exact ⟨c, hc, hlf⟩
    · have := getElem?_lt hq
      simp only [false_iff, reduceCtorEq]
      omega
    · intro _; simp only; omega
  | punct c tok hc hw h1 h2 hn =>
    have hlt := getElem?_lt hc
    refine ⟨⟨rfl, rfl, rfl, rfl, by simp [Scanner.atToken], by simp only [Scanner.atToken]; omega, ?_⟩, ?_, ?_⟩
    · intro i hi1 hi2
      simp only [Scanner.atToken] at hi1 hi2 ⊢
      have : i = s1.pos := by omega
      subst this
      refine ⟨c, hc, ?_⟩
      rintro rfl
      rw [isWhitespace_lf] at hw
      cases hw
    · simp only [h2, false_iff]
      omega
    · intro _; simp only; omega
  | comment k h1 h2 hbk hp he =>
    refine ⟨⟨rfl, rfl, rfl, rfl, by simp [Scanner.atToken]; omega, hbk, ?_⟩, ?_, ?_⟩
    · intro i hi1 hi2
      simp only [Scanner.atToken] at hi1 hi2 ⊢
      by_cases h0 : i = s1.pos
      · subst h0; exact ⟨_, h1, by decide⟩
      · exact hp i (by omega) hi2
    · have := getElem?_lt h1
      simp only [false_iff, reduceCtorEq]
      omega
    · intro _; simp only; omega

theorem ScanInv.atToken {s1 : Scanner} (h : ScanInv s1) : ScanInv s1.atToken :=
  ⟨h.bound, h.line, h.lbegin⟩

/-- The position of the token that a `scan` from a scanner with right
counters yields, and the counters afterwards. -/
theorem scan_position {s s' : Scanner} (hi : ScanInv s) (h : scan s = .ok s') :
    ∃ start, s.pos ≤ start ∧ start ≤ s'.pos ∧
      (∀ i, s.pos ≤ i → i < start → ∃ c, s.content[i]? = some c ∧ isWhitespace c = true) ∧
      (∀ c, s.content[start]? = some c → isWhitespace c = false) ∧
      (s'.tok = .EOF ↔ start = s.content.length) ∧
      (s'.tok ≠ .EOF → start < s'.pos) ∧
      s'.tok_pos =
        ⟨1 + (s.content.take start).count LF, 1 + colOffset (s.content.take start)⟩ ∧
      s'.content = s.content ∧ ScanInv s' := by
  obtain ⟨s1, hs, hsc⟩ := scan_scanned hi.bound h
  obtain ⟨m, hw, hnw, hb1, hi1⟩ := skipWhitespace_ok hs
  have hi1 := hi1 hi
  obtain ⟨ha, heof, hlt⟩ := hsc.advanced_token hi1.bound
  refine ⟨s1.pos, m.pos, ha.pos, hw, hnw, ?_, hlt, ?_, ha.content.trans m.content,
    hi1.atToken.advanced ha⟩
  · rw [heof, m.content]
  · rw [ha.tok_pos, ← m.content]
    simp only [Scanner.atToken, Pos.mk.injEq]
    have h1 := hi1.line
    have h2 := hi1.lbegin
    omega

theorem nextLoop_inv : ∀ (fuel : Nat) (s s' : Scanner), nextLoop fuel s = .ok s' →
    s'.tok ≠ .COMMENT ∧ (ScanInv s → ScanInv s' ∧ s'.content = s.content) ∧
      (s.tok = .COMMENT → ScanInv s → ∃ s0, ScanInv s0 ∧ s0.content = s.content ∧
        scan s0 = .ok s')
  | 0, _, _, h => by simp [nextLoop] at h
  | fuel + 1, s, s', h => by
    simp only [nextLoop] at h
    split at h
    · rename_i hc
      split at h
      · rename_i s2 h2
        obtain ⟨a, b, c⟩ := nextLoop_inv fuel s2 s' h
        refine ⟨a, ?_, ?_⟩
        · intro hi
          obtain ⟨_, _, _, _, _, _, _, _, hcont, hi2⟩ := scan_position hi h2
          obtain ⟨b1, b2⟩ := b hi2
          exact ⟨b1, b2.trans hcont⟩
        · intro _ hi
          obtain ⟨_, _, _, _, _, _, _, _, hcont, hi2⟩ := scan_position hi h2
          by_cases hc2 : s2.tok = .COMMENT
          · obtain ⟨s0, i0, c0, sc0⟩ := c hc2 hi2
            exact ⟨s0, i0, c0.trans hcont, sc0⟩
          · have : s' = s2 := by
              cases fuel with
              | zero => simp [nextLoop] at h
              | succ f => simp [nextLoop, hc2] at h; exact h.symm
            subst this
            exact ⟨s, hi, rfl, h2⟩
      · rename_i o ho
        exact (ho _ h).elim
    · rename_i hc
      cases h
      exact ⟨hc, fun hi => ⟨hi, rfl⟩, fun h1 => (hc h1).elim⟩

/-- The token that `next` yields is no comment and is what `scan` yields from
a scanner with right counters on the same text. -/
theorem next_inv {s s' : Scanner} (hi : ScanInv s) (h : next s = .ok s') :
    s'.tok ≠ .COMMENT ∧ ScanInv s' ∧ s'.content = s.content ∧
      ∃ s0, ScanInv s0 ∧ s0.content = s.content ∧ scan s0 = .ok s' := by
  unfold next at h
  split at h
  · rename_i s2 h2
    obtain ⟨_, _, _, _, _, _, _, _, hcont, hi2⟩ := scan_position hi h2
    obtain ⟨a, b, c⟩ := nextLoop_inv _ s2 s' h
    obtain ⟨b1, b2⟩ := b hi2
    refine ⟨a, b1, b2.trans hcont, ?_⟩
    by_cases hc2 : s2.tok = .COMMENT
    · obtain ⟨s0, i0, c0, sc0⟩ := c hc2 hi2
      exact ⟨s0, i0, c0.trans hcont, sc0⟩
    · have : s' = s2 := by
        simp [nextLoop, hc2] at h; exact h.symm
      subst this
      exact ⟨s, hi, rfl, h2⟩
  · rename_i o ho
    exact (ho _ h).elim

theorem initial_inv (content : List Nat) :
    ScanInv { content := content, pos := 0, line := 1, lbegin := 0, tok_pos := ⟨0, 0⟩,
              tok := .EOF, tok_val := [] } :=
  ⟨by simp, by simp, by simp [colOffset]⟩

theorem scanPunct_returns {t : Scanner} {c : Nat} (hp : 0 < t.pos)
    (hb : t.pos ≤ t.content.length) : Returned (scanPunct t c) := by
  unfold scanPunct
  by_cases hs : c = '/'.toNat
  · simp only [hs, if_true]
    cases hd : t.content[t.pos]? with
    | none => exact Or.inl ⟨_, rfl⟩
    | some d =>
      simp only
      by_cases hdd : d = '/'.toNat
      · simp only [hdd, if_true]
        obtain ⟨k, hk, _⟩ := commentLoop_spec (t.content.length + 1) t (by omega)
        rw [hk]
        exact Or.inl ⟨_, rfl⟩
      · simp only [hdd, if_false]
        exact Or.inl ⟨_, rfl⟩
  · simp only [hs, if_false]
    cases hl : punctTable.lookup c with
    | some tok => exact Or.inl ⟨_, rfl⟩
    | none =>
      simp only
      cases hx : t.content[t.pos - 1]? with
      | none => have := List.getElem?_eq_none_iff.1 hx; omega
      | some b => exact Or.inr ⟨_, _, rfl⟩

/-- A `scan` of a scanner that stands inside its text returns a scanner or a
diagnostic. -/
theorem scan_returns {s : Scanner} (hb : s.pos ≤ s.content.length) : Returned (scan s) := by
  obtain ⟨s1, hs, m, _, hnw, hb1, _⟩ := skipWhitespace_spec (s.content.length + 1) s (by omega)
  have hb1 := hb1 hb
  rw [← m.content] at hb1 hnw
  by_cases heof : s1.pos = s1.content.length
  · have : scan s = .ok { s1.atToken with tok := .EOF } := by
      unfold scan
      rw [hs]
      simp only [Scanner.atToken, heof, if_true]
    rw [this]
    exact Or.inl ⟨_, rfl⟩
  · obtain ⟨c, hc⟩ : ∃ c, s1.content[s1.pos]? = some c := by
      cases hx : s1.content[s1.pos]? with
      | none => have := List.getElem?_eq_none_iff.1 hx; omega
      | some c => exact ⟨c, rfl⟩
    have hlt := getElem?_lt hc
    by_cases hl : isLetter c = true
    · obtain ⟨k, hk, hp, he, hbk⟩ :=
        identLoop_spec (s1.content.length + 1) s1.atToken
          (by simp only [Scanner.atToken]; omega)
      simp only [Scanner.atToken] at hk hp he hbk
      have hbk := hbk hb1
      unfold scan
      rw [hs]
      simp only [heof, if_false, hc, hl, if_true, hk]
      rw [sliceBytes_ok (by omega) hbk]
      simp only [Nat.add_sub_cancel_left]
      split <;> exact Or.inl ⟨_, rfl⟩
    · have hl' : isLetter c = false := by simpa using hl
      by_cases hd : isDigit c = true
      · obtain ⟨k, hk, hp, he, hbk⟩ :=
          intLoop_spec (s1.content.length + 1) s1.atToken
            (by simp only [Scanner.atToken]; omega)
        simp only [Scanner.atToken] at hk hp he hbk
        have hbk := hbk hb1
        unfold scan
        rw [hs]
        simp only [heof, if_false, hc, hl', hd, if_true, hk]
        rw [sliceBytes_ok (by omega) hbk]
        exact Or.inl ⟨_, rfl⟩
      · have hd' : isDigit c = false := by simpa using hd
        by_cases hq : c = QUOTE
        · subst hq
          obtain ⟨h1, h2⟩ := scan_string hs hc
          by_cases hcl : ∃ n, Closes (s1.content.drop (s1.pos + 1)) n
          · obtain ⟨n, hn⟩ := hcl
            rw [h1 n hn]
            exact Or.inl ⟨_, rfl⟩
          · obtain ⟨msg, _, hm⟩ := h2 (fun n hn => hcl ⟨n, hn⟩)
            rw [hm]
            exact Or.inr ⟨_, _, rfl⟩
        · have hscan : scan s = scanPunct { s1.atToken with pos := s1.pos + 1 } c := by
            unfold scan
            rw [hs]
            simp only [Scanner.atToken, heof, if_false, hc, hl', hd', hq]
            rfl
          rw [hscan]
          exact scanPunct_returns (by simp) (by simp only [Scanner.atToken]; omega)

/-- What a `scan` that yields a comment has done. -/
theorem scan_comment {s sc : Scanner} (hb : s.pos ≤ s.content.length)
    (h : scan s = .ok sc) :
    ∃ s1, skipWhitespace (s.content.length + 1) s = .ok s1 ∧
      (sc.tok = .COMMENT ↔
        (s1.content[s1.pos]? = some '/'.toNat ∧ s1.content[s1.pos + 1]? = some '/'.toNat)) ∧
      (sc.tok = .COMMENT →
        sc = { s1.atToken with pos := sc.pos, tok := .COMMENT } ∧
        s1.pos + 2 ≤ sc.pos ∧ sc.pos ≤ s1.content.length ∧
        (∀ i, s1.pos ≤ i → i < sc.pos → ∃ c, s1.content[i]? = some c ∧ c ≠ LF) ∧
        (∀ c, s1.content[sc.pos]? = some c → c = LF)) := by
  obtain ⟨s1, hs, hsc⟩ := scan_scanned hb h
  refine ⟨s1, hs, ?_⟩
  cases hsc with
  | eof he =>
    refine ⟨⟨fun h => (by cases h), fun h => ?_⟩, fun h => (by cases h)⟩
    have := getElem?_lt h.1
    omega
  | word k tok tv hk hbk hp h1 h2 =>
    refine ⟨⟨fun h => (h1 h).elim, fun h => ?_⟩, fun h => (h1 h).elim⟩
    obtain ⟨c, hc, hl⟩ := hp s1.pos le_rfl (by omega)
    rw [h.1] at hc
    cases hc
    exact absurd hl (by decide)
  | string n hq hcl =>
    refine ⟨⟨fun h => (by cases h), fun h => ?_⟩, fun h => (by cases h)⟩
    rw [h.1] at hq
    exact absurd hq (by decide)
  | punct c tok hc hw h1 h2 hn =>
    refine ⟨⟨fun h => (h1 h).elim, fun h => ?_⟩, fun h => (h1 h).elim⟩
    rw [h.1] at hc
    cases hc
    exact (hn ⟨rfl, h.2⟩).elim
  | comment k h1 h2 hbk hp he =>
    refine ⟨⟨fun _ => ⟨h1, h2⟩, fun _ => rfl⟩, fun _ => ⟨rfl, ?_, hbk, ?_, he⟩⟩
    · rcases Nat.eq_zero_or_pos k with h0 | h0
      · subst h0
        have := he _ h2
        exact absurd this (by decide)
      · simp only; omega
    · intro i hi1 hi2
      by_cases h0 : i = s1.pos
      · subst h0; exact ⟨_, h1, by decide⟩
      · exact hp i (by omega) hi2

theorem nextLoop_more : ∀ (fuel : Nat) (s : Scanner), nextLoop fuel s ≠ .nofuel →
    nextLoop (fuel + 1) s = nextLoop fuel s
  | 0, s, h => by simp [nextLoop] at h
  | fuel + 1, s, h => by
    rw [nextLoop.eq_2 s (fuel + 1), nextLoop.eq_2 s fuel]
    rw [nextLoop.eq_2 s fuel] at h
    by_cases hc : s.tok = .COMMENT
    · simp only [hc, if_true] at h ⊢
      cases hsc : scan s with
      | ok s2 =>
        rw [hsc] at h
        exact nextLoop_more fuel s2 h
      | diag p m => rfl
      | panic m => rfl
      | nofuel => rfl
    · simp only [hc, if_false]

/-- The loop of `next` does not run out of budget when the budget is above
the rest of the text by two. -/
theorem nextLoop_enough : ∀ (fuel : Nat) (s : Scanner), s.pos ≤ s.content.length →
    1 ≤ fuel → (s.tok = .COMMENT → s.content.length - s.pos + 2 ≤ fuel) →
    nextLoop fuel s ≠ .nofuel
  | 0, s, _, h, _ => by omega
  | fuel + 1, s, hb, _, hf => by
    rw [nextLoop.eq_2 s fuel]
    by_cases hc : s.tok = .COMMENT
    · simp only [hc, if_true]
      have hf := hf hc
      cases hsc : scan s with
      | ok s2 =>
        simp only
        obtain ⟨s1, hs, _, hcm⟩ := scan_comment hb hsc
        obtain ⟨m, _, _, hb1, _⟩ := skipWhitespace_ok hs
        obtain ⟨s1', hs', hscd⟩ := scan_scanned hb hsc
        rw [hs] at hs'
        cases hs'
        have hb1' : s1.pos ≤ s1.content.length := by rw [m.content]; exact hb1 hb
        obtain ⟨ha, _, _⟩ := hscd.advanced_token hb1'
        have hcont : s2.content = s.content := ha.content.trans m.content
        have hbd := ha.bound
        have hmc := m.content
        have hmp := m.pos
        simp only [Scanner.atToken] at hbd
        refine nextLoop_enough fuel s2 (by rw [hcont, ← hmc]; exact hbd) (by omega) ?_
        intro hc2
        obtain ⟨_, h2, _⟩ := hcm hc2
        rw [hcont]
        rw [hmc] at hbd
        omega
      | diag p m => simp
      | panic m => simp
      | nofuel =>
        rcases scan_returns hb with ⟨a, ha⟩ | ⟨p, m, hm⟩
        · rw [ha] at hsc; cases hsc
        · rw [hm] at hsc; cases hsc
    · simp only [hc, if_false]
      simp

theorem scan_facts {s s' : Scanner} (hb : s.pos ≤ s.content.length) (h : scan s = .ok s') :
    s'.content = s.content ∧ s.pos ≤ s'.pos ∧ s'.pos ≤ s.content.length ∧
      (s'.tok = .COMMENT → s.pos + 2 ≤ s'.pos) := by
  obtain ⟨s1, hs, _, hcm⟩ := scan_comment hb h
  obtain ⟨m, _, _, hb1, _⟩ := skipWhitespace_ok hs
  obtain ⟨s1', hs', hscd⟩ := scan_scanned hb h
  rw [hs] at hs'
  cases hs'
  have hmc := m.content
  have hmp := m.pos
  obtain ⟨ha, _, _⟩ := hscd.advanced_token (by rw [hmc]; exact hb1 hb)
  have hp := ha.pos
  have hbd := ha.bound
  simp only [Scanner.atToken] at hp hbd
  rw [hmc] at hbd
  refine ⟨ha.content.trans hmc, by omega, hbd, fun hc => ?_⟩
  obtain ⟨_, h2, _⟩ := hcm hc
  omega

/-- After a comment, `next` yields what it yields from the end of the
comment. -/
theorem next_after_comment {s sc : Scanner} (hb : s.pos ≤ s.content.length)
    (h : scan s = .ok sc) (hc : sc.tok = .COMMENT) : next s = next sc := by
  obtain ⟨hcont, hp, hbd, hp2⟩ := scan_facts hb h
  have hp2 := hp2 hc
  have hbs : sc.pos ≤ sc.content.length := by rw [hcont]; exact hbd
  unfold next
  rw [h]
  simp only
  rw [nextLoop.eq_2 sc _]
  simp only [hc, if_true]
  cases hsc2 : scan sc with
  | ok s3 =>
    simp only
    obtain ⟨hcont3, hp3, hbd3, hp23⟩ := scan_facts hbs hsc2
    rw [hcont3]
    symm
    apply nextLoop_more
    apply nextLoop_enough
    · rw [hcont3]; exact hbd3
    · rw [hcont]; omega
    · intro hc3
      have := hp23 hc3
      rw [hcont3]
      rw [hcont] at hbd3 ⊢
      omega
  | diag p m => rfl
  | panic m => rfl
  | nofuel => rfl

/-- Method `next` returns a scanner or a diagnostic. -/
theorem next_returns {s : Scanner} (hb : s.pos ≤ s.content.length) : Returned (next s) := by
  unfold next
  rcases scan_returns hb with ⟨s2, h2⟩ | ⟨p, m, hm⟩
  · rw [h2]
    simp only
    obtain ⟨hcont, hp, hbd, hp2⟩ := scan_facts hb h2
    have hne : nextLoop (s2.content.length + 1) s2 ≠ .nofuel := by
      apply nextLoop_enough
      · rw [hcont]; exact hbd
      · omega
      · intro hc
        have := hp2 hc
        rw [hcont]
        omega
    cases hr : nextLoop (s2.content.length + 1) s2 with
    | ok a => exact Or.inl ⟨_, rfl⟩
    | diag p m => exact Or.inr ⟨_, _, rfl⟩
    | nofuel => exact (hne hr).elim
    | panic msg =>
      exfalso
      suffices ∀ (fuel : Nat) (x : Scanner), x.pos ≤ x.content.length →
          nextLoop fuel x ≠ .panic msg from this _ s2 (by rw [hcont]; exact hbd) hr
      intro fuel
      induction fuel with
      | zero => intro x _ hx; simp [nextLoop] at hx
      | succ f ih =>
        intro x hx hr
        rw [nextLoop.eq_2 x f] at hr
        split at hr
        · rcases scan_returns hx with ⟨a, ha⟩ | ⟨p, m, hm⟩
          · rw [ha] at hr
            obtain ⟨hc, _, hb3, _⟩ := scan_facts hx ha
            exact ih a (by rw [hc]; exact hb3) hr
          · rw [hm] at hr; cases hr
        · cases hr
  · rw [hm]
    exact Or.inr ⟨_, _, rfl⟩

/-- C16 (as amended). When `scan` meets a double quote at a token start (`s1`
is the scanner after the whitespace before it, `l` the bytes after the
quote), it yields a STRING token if and only if the literal closes: an
unescaped double quote stands at some index `n` of `l`, and every byte
before it is no line feed, is a double quote only when escaped, and is one of
the five escape characters when escaped (a byte is escaped when an odd number
of backslashes in a row precedes it). The lexeme is then the `n` bytes
between the quotes, undecoded, and the scanner stands behind the closing
quote. In every other case one of the two diagnostics is raised at the
position of the opening quote. -/
theorem C16_string_literal_token (s s1 : Scanner)
    (hs : skipWhitespace (s.content.length + 1) s = .ok s1)
    (hq : s1.content[s1.pos]? = some QUOTE) :
    ((∃ s', scan s = .ok s' ∧ s'.tok = .STRING) ↔
      ∃ n, Closes (s1.content.drop (s1.pos + 1)) n) ∧
    (∀ n, Closes (s1.content.drop (s1.pos + 1)) n →
      scan s = .ok { s1 with
        tok_pos := ⟨s1.line, s1.pos - s1.lbegin + 1⟩,
        tok_val := (s1.content.drop (s1.pos + 1)).take n, tok := .STRING,
        pos := s1.pos + 1 + n + 1 }) ∧
    ((∀ n, ¬Closes (s1.content.drop (s1.pos + 1)) n) →
      ∃ msg, StringDiag msg ∧ scan s = .diag ⟨s1.line, s1.pos - s1.lbegin + 1⟩ msg) ∧
    (ScanInv s → (⟨s1.line, s1.pos - s1.lbegin + 1⟩ : Pos) = positionOf s.content s1.pos) := by
  obtain ⟨h1, h2⟩ := scan_string hs hq
  refine ⟨⟨?_, ?_⟩, h1, h2, ?_⟩
  · rintro ⟨s', hsc, _⟩
    by_contra hcl
    obtain ⟨msg, _, hm⟩ := h2 (fun n hn => hcl ⟨n, hn⟩)
    rw [hm] at hsc
    cases hsc
  · rintro ⟨n, hn⟩
    exact ⟨_, h1 n hn, rfl⟩
  · intro hi
    obtain ⟨m, _, _, _, hi1⟩ := skipWhitespace_ok hs
    have hi1 := hi1 hi
    have e1 := hi1.line
    have e2 := hi1.lbegin
    rw [m.content] at e1 e2
    simp only [positionOf, Pos.mk.injEq]
    omega

/-- C16 on the text `"a\n"` after a blank: the token is a STRING at line 1,
column 2, with the four bytes `a\n` undecoded as its lexeme. -/
theorem C16_string_literal_token_witness :
    skipWhitespace (literalText.content.length + 1) literalText =
        .ok { literalText with pos := 1 } ∧
      scan literalText =
        .ok { literalText with
          pos := 6, tok_pos := ⟨1, 2⟩, tok := .STRING, tok_val := asciiBytes "a\\n" } :=
  ⟨rfl, (C16_string_literal_token literalText { literalText with pos := 1 } rfl rfl).2.1 3
    ⟨rfl, rfl, fun i hi => by
      interval_cases i
      · exact ⟨_, rfl, by decide, by decide, by decide⟩
      · exact ⟨_, rfl, by decide, by decide, by decide⟩
      · exact ⟨_, rfl, by decide, by decide, by decide⟩⟩⟩

/-- C16 as worded fails on the text `"\\a"`: the second backslash is
followed by `a`, which is none of the five escape characters, yet the token
is a STRING with the lexeme `\\a`, because that backslash is itself
escaped. -/
theorem C16_escaped_backslash_before_other_byte :
    Scanner.New (asciiBytes "\"\\\\a\"") =
        .ok { Scanner.initial (asciiBytes "\"\\\\a\"") with
          pos := 5, tok_pos := ⟨1, 1⟩, tok := .STRING, tok_val := asciiBytes "\\\\a" } ∧
      ¬∃ n, ClosesAsWorded (asciiBytes "\\\\a\"") n := by
  refine ⟨rfl, ?_⟩
  rintro ⟨n, hq, _, _, hb⟩
  have hn : n < 4 := by
    have := getElem?_lt hq
    simpa [asciiBytes] using this
  interval_cases n
  · revert hq; decide
  · revert hq; decide
  · revert hq; decide
  · obtain ⟨c, hc, he⟩ := hb 1 (by decide) (by decide)
    have : c = 'a'.toNat := by
      have h2 : (asciiBytes "\\\\a\"")[1 + 1]? = some 'a'.toNat := by decide
      rw [h2] at hc
      cases hc
      rfl
    subst this
    revert he
    decide

/-- C17. From a scanner `s` whose counters are right (`ScanInv`), every token
that `scan` yields, end of input included, starts at the first byte `start`
at or after `s.pos` that is no whitespace (or at the end of the text), and its
position is line 1 + the number of line feeds before `start`, column 1 + the
number of bytes between the last of them (or the start of the text) and
`start`; the counters are right again afterwards. `New` starts from right
counters, and the token that `New`, `Skip` and `Expect` leave is one that
`scan` yielded from a scanner with right counters on the same text. -/
theorem C17_token_position (s : Scanner) (hi : ScanInv s) :
    (∀ s', scan s = .ok s' →
      ∃ start, s.pos ≤ start ∧ start ≤ s'.pos ∧
        (∀ i, s.pos ≤ i → i < start →
          ∃ c, s.content[i]? = some c ∧ isWhitespace c = true) ∧
        (∀ c, s.content[start]? = some c → isWhitespace c = false) ∧
        (s'.tok = .EOF ↔ start = s.content.length) ∧
        (s'.tok ≠ .EOF → start < s'.pos) ∧
        s'.tok_pos = positionOf s.content start ∧
        s'.content = s.content ∧ ScanInv s') ∧
    (∀ content s0, Scanner.New content = .ok s0 →
      ScanInv s0 ∧ s0.content = content ∧
        ∃ p, ScanInv p ∧ p.content = content ∧ scan p = .ok s0) ∧
    (∀ tok b s2, s.Skip tok = .ok (b, s2) →
      ScanInv s2 ∧ s2.content = s.content ∧ (b = false → s2 = s) ∧
        (b = true → ∃ p, ScanInv p ∧ p.content = s.content ∧ scan p = .ok s2)) ∧
    (∀ tok e v s2, s.Expect tok e = .ok (v, s2) →
      ScanInv s2 ∧ s2.content = s.content ∧
        ∃ p, ScanInv p ∧ p.content = s.content ∧ scan p = .ok s2) := by
  refine ⟨fun s' h => scan_position hi h, ?_, ?_, ?_⟩
  · intro content s0 h
    obtain ⟨_, a, b, c⟩ := next_inv (initial_inv content) h
    exact ⟨a, b, c⟩
  · intro tok b s2 h
    unfold Scanner.Skip at h
    split at h
    · cases hn : next s with
      | ok s3 =>
        rw [hn] at h
        cases h
        obtain ⟨_, a, b, c⟩ := next_inv hi hn
        exact ⟨a, b, fun hf => (by cases hf), fun _ => c⟩
      | diag p m => rw [hn] at h; cases h
      | panic m => rw [hn] at h; cases h
      | nofuel => rw [hn] at h; cases h
    · cases h
      exact ⟨hi, rfl, fun _ => rfl, fun hf => by cases hf⟩
  · intro tok e v s2 h
    unfold Scanner.Expect at h
    split at h
    · cases hn : next s with
      | ok s3 =>
        rw [hn] at h
        cases h
        obtain ⟨_, a, b, c⟩ := next_inv hi hn
        exact ⟨a, b, c⟩
      | diag p m => rw [hn] at h; cases h
      | panic m => rw [hn] at h; cases h
      | nofuel => rw [hn] at h; cases h
    · split at h <;> cases h

/-- C17 on the text `a`, line feed, two blanks, `b`, after the token `a`:
the counters are right, and the next token `b` is at line 2, column 3. -/
theorem C17_token_position_witness :
    ScanInv afterFirstWord ∧
      scan afterFirstWord =
        .ok { afterFirstWord with
          pos := 5, line := 2, lbegin := 2, tok_pos := ⟨2, 3⟩, tok_val := asciiBytes "b" } ∧
      positionOf afterFirstWord.content 4 = ⟨2, 3⟩ ∧
      ∃ start, afterFirstWord.pos ≤ start ∧ start ≤ 5 ∧
        (∀ i, afterFirstWord.pos ≤ i → i < start →
          ∃ c, afterFirstWord.content[i]? = some c ∧ isWhitespace c = true) ∧
        (∀ c, afterFirstWord.content[start]? = some c → isWhitespace c = false) ∧
        (Token.IDENT = Token.EOF ↔ start = afterFirstWord.content.length) ∧
        (Token.IDENT ≠ Token.EOF → start < 5) ∧
        (⟨2, 3⟩ : Pos) = positionOf afterFirstWord.content start ∧
        afterFirstWord.content = afterFirstWord.content ∧
        ScanInv { afterFirstWord with
          pos := 5, line := 2, lbegin := 2, tok_pos := ⟨2, 3⟩, tok_val := asciiBytes "b" } :=
  ⟨⟨by decide, by decide, by decide⟩, rfl, by decide,
    (C17_token_position afterFirstWord ⟨by decide, by decide, by decide⟩).1 _ rfl⟩

/-- C18. Comments are discarded at the token layer. `New` and `Expect` never
leave COMMENT as the current token, and `Skip` does not when the current
token was none; `next` returns a scanner or a diagnostic. `scan` yields
COMMENT exactly when two slashes stand at the token start `s1.pos`; the
comment then reaches up to the next line feed or the end of the text
(`sc.pos`), changes nothing but the position, and `next` yields what it
yields from the end of the comment. -/
theorem C18_comments_discarded (s : Scanner) (hb : s.pos ≤ s.content.length) :
    (∀ content s', Scanner.New content = .ok s' → s'.tok ≠ .COMMENT) ∧
    (∀ tok b s', s.tok ≠ .COMMENT → s.Skip tok = .ok (b, s') → s'.tok ≠ .COMMENT) ∧
    (∀ tok e v s', s.Expect tok e = .ok (v, s') → s'.tok ≠ .COMMENT) ∧
    (∀ s', next s = .ok s' → s'.tok ≠ .COMMENT) ∧
    Returned (next s) ∧
    (∀ sc, scan s = .ok sc →
      ∃ s1, skipWhitespace (s.content.length + 1) s = .ok s1 ∧
        (sc.tok = .COMMENT ↔
          (s1.content[s1.pos]? = some '/'.toNat ∧
            s1.content[s1.pos + 1]? = some '/'.toNat)) ∧
        (sc.tok = .COMMENT →
          sc = { s1 with
            tok_pos := ⟨s1.line, s1.pos - s1.lbegin + 1⟩, pos := sc.pos, tok := .COMMENT } ∧
          s1.pos + 2 ≤ sc.pos ∧ sc.pos ≤ s1.content.length ∧
          (∀ i, s1.pos ≤ i → i < sc.pos → ∃ c, s1.content[i]? = some c ∧ c ≠ LF) ∧
          (∀ c, s1.content[sc.pos]? = some c → c = LF) ∧
          next s = next sc)) := by
  have hnext : ∀ (x x' : Scanner), next x = .ok x' → x'.tok ≠ .COMMENT := by
    intro x x' h
    unfold next at h
    split at h
    · exact (nextLoop_inv _ _ _ h).1
    · rename_i o ho
      exact (ho _ h).elim
  refine ⟨fun content s' h => hnext _ _ h, ?_, ?_, hnext s, next_returns hb, ?_⟩
  · intro tok b s' hc h
    unfold Scanner.Skip at h
    split at h
    · cases hn : next s with
      | ok s3 =>
        rw [hn] at h
        cases h
        exact hnext _ _ hn
      | diag p m => rw [hn] at h; cases h
      | panic m => rw [hn] at h; cases h
      | nofuel => rw [hn] at h; cases h
    · cases h
      exact hc
  · intro tok e v s' h
    unfold Scanner.Expect at h
    split at h
    · cases hn : next s with
      | ok s3 =>
        rw [hn] at h
        cases h
        exact hnext _ _ hn
      | diag p m => rw [hn] at h; cases h
      | panic m => rw [hn] at h; cases h
      | nofuel => rw [hn] at h; cases h
    · split at h <;> cases h
  · intro sc h
    obtain ⟨s1, hs, hiff, hcm⟩ := scan_comment hb h
    refine ⟨s1, hs, hiff, fun hc => ?_⟩
    obtain ⟨a, b, c, d, e⟩ := hcm hc
    exact ⟨a, b, c, d, e, next_after_comment hb h hc⟩

/-- C18 on the text `//c`, line feed, `x`: the first `scan` yields the
comment, which ends before the line feed at index 3; `New` yields the
identifier `x` at line 2, column 1; and two slashes inside a string literal
are part of the STRING token. -/
theorem C18_comments_discarded_witness :
    commentedText.pos ≤ commentedText.content.length ∧
      scan commentedText = .ok { commentedText with
        pos := 3, tok_pos := ⟨1, 1⟩, tok := .COMMENT } ∧
      Scanner.New commentedText.content = .ok { commentedText with
        pos := 5, line := 2, lbegin := 4, tok_pos := ⟨2, 1⟩, tok := .IDENT,
        tok_val := asciiBytes "x" } ∧
      Token.IDENT ≠ Token.COMMENT ∧
      Scanner.New (asciiBytes "\"a//b\"") = .ok { Scanner.initial (asciiBytes "\"a//b\"") with
        pos := 6, tok_pos := ⟨1, 1⟩, tok := .STRING, tok_val := asciiBytes "a//b" } :=
  ⟨by decide, rfl, rfl,
    (C18_comments_discarded commentedText (by decide)).1 commentedText.content _ rfl, rfl⟩

theorem eraseLog_ok {r : Res Logged} {c : checker} (h : eraseLog r = .ok c) :
    ∃ l, r = .ok l ∧ l.c = c := by
  cases r with
  | ok l => simp only [eraseLog, Res.ok.injEq] at h; exact ⟨l, rfl, h⟩
  | diag p m => cases h
  | panic m => cases h
  | nofuel => cases h

theorem checkStructFieldsLog_erase {ct : checker → NamedType → Res checker}
    {ctL : Logged → NamedType → Res Logged}
    (hct : ∀ l ty, eraseLog (ctL l ty) = ct l.c ty) :
    ∀ (fs : List Param) (l : Logged) (fields : List String),
      eraseLog (checkStructFieldsLog ctL l fields fs) = checkStructFields ct l.c fields fs
  | [], l, fields => rfl
  | f :: rest, l, fields => by
    simp only [checkStructFieldsLog, checkStructFields]
    split
    · rfl
    · have := hct l f.Ty
      cases hr : ctL l f.Ty with
      | ok l1 =>
        rw [hr] at this
        simp only [eraseLog] at this
        rw [← this]
        exact checkStructFieldsLog_erase hct rest l1 _
      | diag p m => rw [hr] at this; simp only [eraseLog] at this; rw [← this]; rfl
      | panic m => rw [hr] at this; simp only [eraseLog] at this; rw [← this]; rfl
      | nofuel => rw [hr] at this; simp only [eraseLog] at this; rw [← this]; rfl

theorem checkTypeArgsLog_erase {ct : checker → NamedType → Res checker}
    {ctL : Logged → NamedType → Res Logged}
    (hct : ∀ l ty, eraseLog (ctL l ty) = ct l.c ty) :
    ∀ (args : List NamedType) (l : Logged),
      eraseLog (checkTypeArgsLog ctL l args) = checkTypeArgs ct l.c args
  | [], l => rfl
  | a :: rest, l => by
    simp only [checkTypeArgsLog, checkTypeArgs]
    have := hct l a
    cases hr : ctL l a with
    | ok l1 =>
      rw [hr] at this
      simp only [eraseLog] at this
      rw [← this]
      exact checkTypeArgsLog_erase hct rest l1
    | diag p m => rw [hr] at this; simp only [eraseLog] at this; rw [← this]; rfl
    | panic m => rw [hr] at this; simp only [eraseLog] at this; rw [← this]; rfl
    | nofuel => rw [hr] at this; simp only [eraseLog] at this; rw [← this]; rfl

theorem checkStructWithLog_erase {ct : checker → NamedType → Res checker}
    {ctL : Logged → NamedType → Res Logged}
    (hct : ∀ l ty, eraseLog (ctL l ty) = ct l.c ty) (l : Logged) (decl : Nat) :
    eraseLog (checkStructWithLog ctL l decl) = checkStructWith ct l.c decl := by
  unfold checkStructWithLog checkStructWith
  cases hd : l.c.decls[decl]? with
  | none => rfl
  | some d =>
    simp only
    split
    · rfl
    · split
      · rfl
      · cases hp : checkStructParams l.c.newScope d.Params with
        | ok c1 =>
          simp only
          split
          · rfl
          · have := checkStructFieldsLog_erase hct d.Fields
              ⟨c1.setStarted decl, l.log ++ [.wrote (c1.setStarted decl).decls] ++ [.walked decl]⟩ []
            simp only at this
            cases hr : checkStructFieldsLog ctL
                ⟨c1.setStarted decl, l.log ++ [.wrote (c1.setStarted decl).decls] ++ [.walked decl]⟩
                [] d.Fields with
            | ok l1 => rw [hr] at this; simp only [eraseLog] at this; rw [← this]; rfl
            | diag p m => rw [hr] at this; simp only [eraseLog] at this; rw [← this]; rfl
            | panic m => rw [hr] at this; simp only [eraseLog] at this; rw [← this]; rfl
            | nofuel => rw [hr] at this; simp only [eraseLog] at this; rw [← this]; rfl
        | diag p m => rfl
        | panic m => rfl
        | nofuel => rfl

theorem checkTypeLog_erase : ∀ (fuel : Nat) (l : Logged) (ty : NamedType),
    eraseLog (checkTypeLog fuel l ty) = checkType fuel l.c ty
  | 0, l, ty => rfl
  | fuel + 1, l, ty => by
    simp only [checkTypeLog, checkType]
    cases hf : findType l.c.scope ty.Name.Ident with
    | none => rfl
    | some rty =>
      simp only
      by_cases hlen : ty.Args.length ≠ rty.Params.length
      · rw [if_pos hlen, if_pos hlen]; rfl
      · rw [if_neg hlen, if_neg hlen]
        have := checkTypeArgsLog_erase (checkTypeLog_erase fuel) ty.Args l
        cases hr : checkTypeArgsLog (checkTypeLog fuel) l ty.Args with
        | ok l1 =>
          rw [hr] at this
          simp only [eraseLog] at this
          rw [← this]
          simp only
          cases hl : l1.c.structs.lookup ty.Name.Ident with
          | some st => exact checkStructWithLog_erase (checkTypeLog_erase fuel) l1 _
          | none => rfl
        | diag p m => rw [hr] at this; simp only [eraseLog] at this; rw [← this]; rfl
        | panic m => rw [hr] at this; simp only [eraseLog] at this; rw [← this]; rfl
        | nofuel => rw [hr] at this; simp only [eraseLog] at this; rw [← this]; rfl

mutual
theorem checkStmtLog_erase (fuel : Nat) : ∀ (s : Stmt) (l : Logged) (ret : Option NamedType),
    eraseLogStmt (checkStmtLog fuel l s ret) = checkStmt fuel l.c s ret
  | .ExprStmt e, l, ret => by
    simp only [checkStmtLog, checkStmt]
    by_cases hc : e.isCall = true
    · rw [if_pos hc, if_pos hc]
      cases checkExpr l.c e <;> rfl
    · rw [if_neg hc, if_neg hc]; rfl
  | .BlockStmt _ b, l, ret => by
    simp only [checkStmtLog, checkStmt]
    exact checkBlockLog_erase fuel b l ret
  | .ReturnStmt _ e, l, ret => by
    cases ret with
    | none => cases e <;> rfl
    | some r =>
      cases e with
      | none => rfl
      | some e =>
        simp only [checkStmtLog, checkStmt]
        cases checkCoerce l.c e (.named (some r)) <;> rfl
  | .VarStmt _ name ty e, l, ret => by
    simp only [checkStmtLog, checkStmt]
    by_cases hf : (findVar l.c.scope name.Ident).isSome = true
    · rw [if_pos hf, if_pos hf]; rfl
    · rw [if_neg hf, if_neg hf]
      cases ha : addVar l.c.scope name.Ident ⟨.named (some ty), true⟩ with
      | ok s =>
        simp only
        have := checkTypeLog_erase fuel (l.withScope s) ty
        simp only [Logged.withScope] at this
        cases hr : checkTypeLog fuel (l.withScope s) ty with
        | ok l1 =>
          simp only [Logged.withScope] at hr
          rw [hr] at this
          simp only [eraseLog] at this
          rw [← this]
          simp only
          cases e with
          | none => rfl
          | some e =>
            simp only
            cases checkCoerce l1.c e (.named (some ty)) <;> rfl
        | diag p m =>
          simp only [Logged.withScope] at hr
          rw [hr] at this; simp only [eraseLog] at this; rw [← this]; rfl
        | panic m =>
          simp only [Logged.withScope] at hr
          rw [hr] at this; simp only [eraseLog] at this; rw [← this]; rfl
        | nofuel =>
          simp only [Logged.withScope] at hr
          rw [hr] at this; simp only [eraseLog] at this; rw [← this]; rfl
      | diag p m => rfl
      | panic m => rfl
      | nofuel => rfl
  | .AssignStmt left right, l, ret => by
    simp only [checkStmtLog, checkStmt]
    cases checkExpr l.c left with
    | ok r =>
      simp only
      by_cases hm : (!r.isMut) = true
      · rw [if_pos hm, if_pos hm]; rfl
      · rw [if_neg hm, if_neg hm]
        cases checkCoerce l.c right r.ty <;> rfl
    | diag p m => rfl
    | panic m => rfl
    | nofuel => rfl
  | .IfStmt _ cond body els, l, ret => by
    simp only [checkStmtLog, checkStmt]
    cases checkCoerce l.c cond (.named (some ast.Bool)) with
    | ok u =>
      simp only
      have := checkBlockLog_erase fuel body l.newScope ret
      simp only [Logged.newScope] at this
      cases hr : checkBlockLog fuel l.newScope body ret with
      | ok p =>
        obtain ⟨returns, l1⟩ := p
        simp only [Logged.newScope] at hr
        rw [hr] at this
        simp only [eraseLogStmt] at this
        rw [← this]
        exact checkElseLog_erase fuel els l1.popScope ret returns
      | diag p m =>
        simp only [Logged.newScope] at hr
        rw [hr] at this; simp only [eraseLogStmt] at this; rw [← this]; rfl
      | panic m =>
        simp only [Logged.newScope] at hr
        rw [hr] at this; simp only [eraseLogStmt] at this; rw [← this]; rfl
      | nofuel =>
        simp only [Logged.newScope] at hr
        rw [hr] at this; simp only [eraseLogStmt] at this; rw [← this]; rfl
    | diag p m => rfl
    | panic m => rfl
    | nofuel => rfl
  | .WhileStmt _ cond body, l, ret => by
    simp only [checkStmtLog, checkStmt]
    cases checkCoerce l.c cond (.named (some ast.Bool)) with
    | ok u =>
      simp only
      have := checkBlockLog_erase fuel body l.newScope ret
      simp only [Logged.newScope] at this
      cases hr : checkBlockLog fuel l.newScope body ret with
      | ok p =>
        obtain ⟨returns, l1⟩ := p
        simp only [Logged.newScope] at hr
        rw [hr] at this
        simp only [eraseLogStmt] at this
        rw [← this]
        rfl
      | diag p m =>
        simp only [Logged.newScope] at hr
        rw [hr] at this; simp only [eraseLogStmt] at this; rw [← this]; rfl
      | panic m =>
        simp only [Logged.newScope] at hr
        rw [hr] at this; simp only [eraseLogStmt] at this; rw [← this]; rfl
      | nofuel =>
        simp only [Logged.newScope] at hr
        rw [hr] at this; simp only [eraseLogStmt] at this; rw [← this]; rfl
    | diag p m => rfl
    | panic m => rfl
    | nofuel => rfl
theorem checkElseLog_erase (fuel : Nat) : ∀ (s : Option Stmt) (l : Logged)
    (ret : Option NamedType) (b : Bool),
    eraseLogStmt (checkElseLog fuel l s ret b) = checkElse fuel l.c s ret b
  | none, l, ret, b => rfl
  | some s, l, ret, b => by
    simp only [checkElseLog, checkElse]
    have := checkStmtLog_erase fuel s l.newScope ret
    simp only [Logged.newScope] at this
    cases hr : checkStmtLog fuel l.newScope s ret with
    | ok p =>
      obtain ⟨returns, l1⟩ := p
      simp only [Logged.newScope] at hr
      rw [hr] at this
      simp only [eraseLogStmt] at this
      rw [← this]
      rfl
    | diag p m =>
      simp only [Logged.newScope] at hr
      rw [hr] at this; simp only [eraseLogStmt] at this; rw [← this]; rfl
    | panic m =>
      simp only [Logged.newScope] at hr
      rw [hr] at this; simp only [eraseLogStmt] at this; rw [← this]; rfl
    | nofuel =>
      simp only [Logged.newScope] at hr
      rw [hr] at this; simp only [eraseLogStmt] at this; rw [← this]; rfl
theorem checkBlockLog_erase (fuel : Nat) : ∀ (b : List Stmt) (l : Logged)
    (ret : Option NamedType),
    eraseLogStmt (checkBlockLog fuel l b ret) = checkBlock fuel l.c b ret
  | [], l, ret => rfl
  | s :: rest, l, ret => by
    simp only [checkBlockLog, checkBlock]
    have := checkStmtLog_erase fuel s l ret
    cases hr : checkStmtLog fuel l s ret with
    | ok p =>
      obtain ⟨r, l1⟩ := p
      rw [hr] at this
      simp only [eraseLogStmt] at this
      rw [← this]
      simp only
      have h2 := checkBlockLog_erase fuel rest l1 ret
      cases hr2 : checkBlockLog fuel l1 rest ret with
      | ok p2 =>
        obtain ⟨r2, l2⟩ := p2
        rw [hr2] at h2
        simp only [eraseLogStmt] at h2
        rw [← h2]
        rfl
      | diag p m => rw [hr2] at h2; simp only [eraseLogStmt] at h2; rw [← h2]; rfl
      | panic m => rw [hr2] at h2; simp only [eraseLogStmt] at h2; rw [← h2]; rfl
      | nofuel => rw [hr2] at h2; simp only [eraseLogStmt] at h2; rw [← h2]; rfl
    | diag p m => rw [hr] at this; simp only [eraseLogStmt] at this; rw [← this]; rfl
    | panic m => rw [hr] at this; simp only [eraseLogStmt] at this; rw [← this]; rfl
    | nofuel => rw [hr] at this; simp only [eraseLogStmt] at this; rw [← this]; rfl
end

theorem checkFnParamsLog_erase (fuel : Nat) : ∀ (ps : List Param) (l : Logged),
    eraseLog (checkFnParamsLog fuel l ps) = checkFnParams fuel l.c ps
  | [], l => rfl
  | p :: rest, l => by
    simp only [checkFnParamsLog, checkFnParams]
    have := checkTypeLog_erase fuel l p.Ty
    cases hr : checkTypeLog fuel l p.Ty with
    | ok l1 =>
      rw [hr] at this
      simp only [eraseLog] at this
      rw [← this]
      simp only
      by_cases hf : (findVar l1.c.scope p.Name.Ident).isSome = true
      · rw [if_pos hf, if_pos hf]; rfl
      · rw [if_neg hf, if_neg hf]
        cases ha : addVar l1.c.scope p.Name.Ident ⟨.named (some p.Ty), false⟩ with
        | ok s => exact checkFnParamsLog_erase fuel rest (l1.withScope s)
        | diag p m => rfl
        | panic m => rfl
        | nofuel => rfl
    | diag p m => rw [hr] at this; simp only [eraseLog] at this; rw [← this]; rfl
    | panic m => rw [hr] at this; simp only [eraseLog] at this; rw [← this]; rfl
    | nofuel => rw [hr] at this; simp only [eraseLog] at this; rw [← this]; rfl

theorem checkFnSignatureLog_erase (fuel : Nat) (l : Logged) (fn : FnDecl) :
    eraseLog (checkFnSignatureLog fuel l fn) = checkFnSignature fuel l.c fn := by
  unfold checkFnSignatureLog checkFnSignature
  cases fn.Return with
  | none => exact checkFnParamsLog_erase fuel fn.Params l.newScope
  | some r =>
    simp only
    have := checkTypeLog_erase fuel l.newScope r
    simp only [Logged.newScope] at this
    cases hr : checkTypeLog fuel l.newScope r with
    | ok l1 =>
      simp only [Logged.newScope] at hr
      rw [hr] at this
      simp only [eraseLog] at this
      rw [← this]
      exact checkFnParamsLog_erase fuel fn.Params l1
    | diag p m =>
      simp only [Logged.newScope] at hr
      rw [hr] at this; simp only [eraseLog] at this; rw [← this]; rfl
    | panic m =>
      simp only [Logged.newScope] at hr
      rw [hr] at this; simp only [eraseLog] at this; rw [← this]; rfl
    | nofuel =>
      simp only [Logged.newScope] at hr
      rw [hr] at this; simp only [eraseLog] at this; rw [← this]; rfl

theorem checkFnLog_erase (fuel : Nat) (l : Logged) (fn : FnDecl) :
    eraseLog (checkFnLog fuel l fn) = checkFn fuel l.c fn := by
  unfold checkFnLog checkFn
  have := checkFnSignatureLog_erase fuel l fn
  cases hr : checkFnSignatureLog fuel l fn with
  | ok l1 =>
    rw [hr] at this
    simp only [eraseLog] at this
    rw [← this]
    simp only
    have h2 := checkBlockLog_erase fuel (fn.Body.getD []) l1 fn.Return
    cases hr2 : checkBlockLog fuel l1 (fn.Body.getD []) fn.Return with
    | ok p =>
      obtain ⟨returns, l2⟩ := p
      rw [hr2] at h2
      simp only [eraseLogStmt] at h2
      rw [← h2]
      simp only
      cases fn.Return with
      | none => rfl
      | some r =>
        simp only
        by_cases hb : (!returns) = true
        · rw [if_pos hb, if_pos hb]; rfl
        · rw [if_neg hb, if_neg hb]; rfl
    | diag p m => rw [hr2] at h2; simp only [eraseLogStmt] at h2; rw [← h2]; rfl
    | panic m => rw [hr2] at h2; simp only [eraseLogStmt] at h2; rw [← h2]; rfl
    | nofuel => rw [hr2] at h2; simp only [eraseLogStmt] at h2; rw [← h2]; rfl
  | diag p m => rw [hr] at this; simp only [eraseLog] at this; rw [← this]; rfl
  | panic m => rw [hr] at this; simp only [eraseLog] at this; rw [← this]; rfl
  | nofuel => rw [hr] at this; simp only [eraseLog] at this; rw [← this]; rfl

theorem checkStructsLog_erase (fuel : Nat) : ∀ (n : Nat) (l : Logged) (i : Nat),
    eraseLog (checkStructsLog fuel l i n) = checkStructs fuel l.c i n
  | 0, l, i => rfl
  | n + 1, l, i => by
    simp only [checkStructsLog, checkStructs]
    have := checkStructWithLog_erase (checkTypeLog_erase fuel) l i
    change eraseLog (checkStructLog fuel l i) = checkStruct fuel l.c i at this
    cases hr : checkStructLog fuel l i with
    | ok l1 =>
      rw [hr] at this
      simp only [eraseLog] at this
      rw [← this]
      exact checkStructsLog_erase fuel n l1 (i + 1)
    | diag p m => rw [hr] at this; simp only [eraseLog] at this; rw [← this]; rfl
    | panic m => rw [hr] at this; simp only [eraseLog] at this; rw [← this]; rfl
    | nofuel => rw [hr] at this; simp only [eraseLog] at this; rw [← this]; rfl

theorem checkFnsLog_erase (fuel : Nat) : ∀ (fns : List FnDecl) (l : Logged),
    eraseLog (checkFnsLog fuel l fns) = checkFns fuel l.c fns
  | [], l => rfl
  | f :: rest, l => by
    simp only [checkFnsLog, checkFns]
    have := checkFnLog_erase fuel l f
    cases hr : checkFnLog fuel l f with
    | ok l1 =>
      rw [hr] at this
      simp only [eraseLog] at this
      rw [← this]
      exact checkFnsLog_erase fuel rest l1
    | diag p m => rw [hr] at this; simp only [eraseLog] at this; rw [← this]; rfl
    | panic m => rw [hr] at this; simp only [eraseLog] at this; rw [← this]; rfl
    | nofuel => rw [hr] at this; simp only [eraseLog] at this; rw [← this]; rfl

/-- The log is ghost state: without it, the logged module check is
`CheckModule`. -/
theorem CheckModuleLog_erase (fuel : Nat) (m : Module) :
    eraseLogModule (CheckModuleLog fuel m) = CheckModule fuel m := by
  unfold CheckModuleLog CheckModule checkModuleStructs
  simp only [Res.bind_def]
  cases primitiveScope with
  | ok s =>
    simp only [Res.bind]
    cases addStructs ⟨s, [], m.Structs⟩ 0 m.Structs with
    | ok c =>
      simp only [Res.bind]
      have := checkStructsLog_erase fuel m.Structs.length ⟨c, []⟩ 0
      cases hr : checkStructsLog fuel ⟨c, []⟩ 0 m.Structs.length with
      | ok l1 =>
        rw [hr] at this
        simp only [eraseLog] at this
        rw [← this]
        simp only [Res.bind]
        cases addFns l1.c m.Fns with
        | ok c2 =>
          simp only [Res.bind]
          have h2 := checkFnsLog_erase fuel m.Fns ⟨c2, l1.log⟩
          cases hr2 : checkFnsLog fuel ⟨c2, l1.log⟩ m.Fns with
          | ok l2 =>
            rw [hr2] at h2
            simp only [eraseLog] at h2
            rw [← h2]
            rfl
          | diag p m => rw [hr2] at h2; simp only [eraseLog] at h2; rw [← h2]; rfl
          | panic m => rw [hr2] at h2; simp only [eraseLog] at h2; rw [← h2]; rfl
          | nofuel => rw [hr2] at h2; simp only [eraseLog] at h2; rw [← h2]; rfl
        | diag p m => rfl
        | panic m => rfl
        | nofuel => rfl
      | diag p m => rw [hr] at this; simp only [eraseLog] at this; rw [← this]; rfl
      | panic m => rw [hr] at this; simp only [eraseLog] at this; rw [← this]; rfl
      | nofuel => rw [hr] at this; simp only [eraseLog] at this; rw [← this]; rfl
    | diag p m => rfl
    | panic m => rfl
    | nofuel => rfl
  | diag p m => rfl
  | panic m => rfl
  | nofuel => rfl

theorem LogStep.refl_log (l : Logged) : LogStep l l :=
  ⟨fun _ h => h, fun _ h => h, rfl, ⟨[], by simp⟩, fun _ h => h, fun h => h⟩

theorem LogStep.trans_log {a b c : Logged} (h1 : LogStep a b) (h2 : LogStep b c) :
    LogStep a c := by
  obtain ⟨e1, he1⟩ := h1.log
  obtain ⟨e2, he2⟩ := h2.log
  exact ⟨fun i h => h2.started i (h1.started i h), fun i h => h2.done i (h1.done i h),
    h2.sig.trans h1.sig, ⟨e1 ++ e2, by rw [he2, he1, List.append_assoc]⟩,
    fun ds0 h => h2.current ds0 (h1.current ds0 h), fun h => h2.inv (h1.inv h)⟩

theorem LogInv.of_same_log {a b : Logged} (h : LogInv a) (hd : b.c.decls = a.c.decls)
    (hl : b.log = a.log) : LogInv b :=
  ⟨fun i => by rw [hd, hl]; exact h.walks i, by rw [hd]; exact h.flags,
    by rw [hd]; exact h.nonempty, by rw [hl]; exact h.wrote⟩

theorem LogStep.of_same_step {a b a' b' : Logged} (h : LogStep a b)
    (ha : a'.c.decls = a.c.decls) (hal : a'.log = a.log)
    (hb : b'.c.decls = b.c.decls) (hbl : b'.log = b.log) : LogStep a' b' := by
  refine ⟨?_, ?_, ?_, ?_, ?_, ?_⟩
  · rw [ha, hb]; exact h.started
  · rw [ha, hb]; exact h.done
  · rw [ha, hb]; exact h.sig
  · rw [hal, hbl]; exact h.log
  · rw [ha, hb, hal, hbl]; exact h.current
  · intro hi
    exact (h.inv (hi.of_same_log ha.symm hal.symm)).of_same_log hb hbl

theorem startedAt_lt {ds : List StructDecl} {i : Nat} (h : startedAt ds i = true) :
    i < ds.length := by
  unfold startedAt at h
  cases hd : ds[i]? with
  | none => rw [hd] at h; cases h
  | some d => exact (List.getElem?_eq_some_iff.1 hd).1

theorem flagsOK_iff (ds : List StructDecl) :
    FlagsOK ds ↔ ∀ i, doneAt ds i = true → startedAt ds i = true := by
  unfold FlagsOK doneAt startedAt
  constructor
  · intro h i
    cases hd : ds[i]? with
    | none => simp
    | some d => exact h d (List.getElem?_mem hd)
  · intro h d hd
    obtain ⟨i, hi⟩ := List.getElem?_of_mem hd
    have := h i
    rw [hi] at this
    exact this

theorem startedAt_setStarted (c : checker) (i j : Nat) :
    startedAt (c.setStarted i).decls j =
      (startedAt c.decls j || (decide (i = j) && decide (j < c.decls.length))) := by
  unfold startedAt checker.setStarted
  simp only [List.getElem?_modify]
  by_cases h : i = j
  · subst h
    cases hd : c.decls[i]? with
    | none =>
      have := List.getElem?_eq_none_iff.1 hd
      simp; omega
    | some d =>
      have := (List.getElem?_eq_some_iff.1 hd).1
      simp [this]
  · simp [h]

theorem doneAt_setStarted (c : checker) (i j : Nat) :
    doneAt (c.setStarted i).decls j = doneAt c.decls j := by
  unfold doneAt checker.setStarted
  simp only [List.getElem?_modify]
  by_cases h : i = j
  · subst h
    cases hd : c.decls[i]? <;> simp
  · simp [h]

theorem startedAt_setDone (c : checker) (i j : Nat) :
    startedAt (c.setDone i).decls j = startedAt c.decls j := by
  unfold startedAt checker.setDone
  simp only [List.getElem?_modify]
  by_cases h : i = j
  · subst h
    cases hd : c.decls[i]? <;> simp
  · simp [h]

theorem doneAt_setDone (c : checker) (i j : Nat) :
    doneAt (c.setDone i).decls j =
      (doneAt c.decls j || (decide (i = j) && decide (j < c.decls.length))) := by
  unfold doneAt checker.setDone
  simp only [List.getElem?_modify]
  by_cases h : i = j
  · subst h
    cases hd : c.decls[i]? with
    | none =>
      have := List.getElem?_eq_none_iff.1 hd
      simp; omega
    | some d =>
      have := (List.getElem?_eq_some_iff.1 hd).1
      simp [this]
  · simp [h]

theorem nonempty_modify {ds : List StructDecl} {f : StructDecl → StructDecl} {i : Nat}
    (hf : ∀ d, (f d).Fields = d.Fields)
    (hs : ∀ e, ds[i]? = some e → (f e).Started = true → e.Started = true ∨ e.Fields ≠ [])
    (h : ∀ d ∈ ds, d.Started = true → d.Fields ≠ []) :
    ∀ d ∈ ds.modify f i, d.Started = true → d.Fields ≠ [] := by
  intro d hd hst
  obtain ⟨j, hj⟩ := List.getElem?_of_mem hd
  rw [List.getElem?_modify] at hj
  cases he : ds[j]? with
  | none => rw [he] at hj; cases hj
  | some e =>
    rw [he] at hj
    simp only [Option.map_eq_map, Option.map_some', Option.some.injEq] at hj
    by_cases hij : i = j
    · simp only [hij, if_true] at hj
      subst hj
      rw [hf]
      rcases hs e (hij ▸ he) hst with h1 | h1
      · exact h e (List.getElem?_mem he) h1
      · exact h1
    · simp only [hij, if_false] at hj
      subst hj
      exact h e (List.getElem?_mem he) hst

theorem walkCount_append (a b : List FlagEvent) (i : Nat) :
    walkCount (a ++ b) i = walkCount a i + walkCount b i := by
  unfold walkCount
  rw [List.countP_append]

theorem checkTypeArgsLog_step {ctL : Logged → NamedType → Res Logged}
    (hct : ∀ l ty l', ctL l ty = .ok l' → LogStep l l') :
    ∀ (args : List NamedType) (l l' : Logged),
      checkTypeArgsLog ctL l args = .ok l' → LogStep l l'
  | [], l, l', h => by
    simp only [checkTypeArgsLog, Res.ok.injEq] at h
    subst h
    exact LogStep.refl_log _
  | a :: rest, l, l', h => by
    simp only [checkTypeArgsLog] at h
    split at h
    · rename_i l1 h1
      exact (hct _ _ _ h1).trans_log (checkTypeArgsLog_step hct rest _ _ h)
    · rename_i o ho
      exact (ho _ h).elim

theorem checkStructFieldsLog_step {ctL : Logged → NamedType → Res Logged}
    (hct : ∀ l ty l', ctL l ty = .ok l' → LogStep l l') :
    ∀ (fs : List Param) (l l' : Logged) (fields : List String),
      checkStructFieldsLog ctL l fields fs = .ok l' → LogStep l l'
  | [], l, l', fields, h => by
    simp only [checkStructFieldsLog, Res.ok.injEq] at h
    subst h
    exact LogStep.refl_log _
  | f :: rest, l, l', fields, h => by
    simp only [checkStructFieldsLog] at h
    split at h
    · cases h
    · split at h
      · rename_i l1 h1
        exact (hct _ _ _ h1).trans_log (checkStructFieldsLog_step hct rest _ _ _ h)
      · rename_i o ho
        exact (ho _ h).elim

theorem walkCount_wrote (ds : List StructDecl) (i : Nat) : walkCount [.wrote ds] i = 0 := by
  simp [walkCount, FlagEvent.isWalkOf]

theorem walkCount_walked (j i : Nat) :
    walkCount [.walked j] i = if j = i then 1 else 0 := by
  by_cases h : j = i <;> simp [walkCount, FlagEvent.isWalkOf, h]

/-- The flag `Started` is set and the loop over the fields is entered. -/
theorem logStep_start {l : Logged} {c1 : checker} {decl : Nat} {d : StructDecl}
    (hd : l.c.decls[decl]? = some d) (hst : d.Started = false) (hf : d.Fields ≠ [])
    (hc1 : c1.decls = l.c.decls) :
    LogStep l ⟨c1.setStarted decl,
        l.log ++ [.wrote (c1.setStarted decl).decls] ++ [.walked decl]⟩ ∧
      startedAt (c1.setStarted decl).decls decl = true := by
  have hlt : decl < l.c.decls.length := (List.getElem?_eq_some_iff.1 hd).1
  have hsd : startedAt (c1.setStarted decl).decls decl = true := by
    rw [startedAt_setStarted, hc1]
    simp [hlt]
  have hs0 : startedAt l.c.decls decl = false := by
    unfold startedAt; rw [hd]; exact hst
  have hflags : FlagsOK l.c.decls → FlagsOK (c1.setStarted decl).decls := by
    intro h
    rw [flagsOK_iff] at h ⊢
    intro i hi
    rw [doneAt_setStarted, hc1] at hi
    rw [startedAt_setStarted, hc1, h i hi]
    rfl
  refine ⟨⟨?_, ?_, ?_, ⟨_, (List.append_assoc _ _ _)⟩, ?_, ?_⟩, hsd⟩
  · intro i hi
    rw [startedAt_setStarted, hc1, hi]
    rfl
  · intro i hi
    rw [doneAt_setStarted, hc1]
    exact hi
  · simp only [checker.setStarted]
    rw [sig_modify_started, hc1]
  · intro ds0 _
    simp [lastWrite, List.foldl_append]
  · intro hi
    refine ⟨?_, hflags hi.flags, ?_, ?_⟩
    · intro i
      simp only [walkCount_append, walkCount_wrote, walkCount_walked, Nat.add_zero]
      rw [hi.walks i, startedAt_setStarted, hc1]
      by_cases hij : decl = i
      · subst hij
        simp [hs0, hlt]
      · simp [hij]
    · simp only [checker.setStarted]
      rw [hc1]
      refine nonempty_modify (fun _ => rfl) ?_ hi.nonempty
      intro e he _
      rw [hd] at he
      cases he
      exact Or.inr hf
    · intro ds hds
      simp only [List.mem_append, List.mem_singleton, FlagEvent.wrote.injEq, reduceCtorEq,
        or_false] at hds
      rcases hds with h1 | h1
      · exact hi.wrote ds h1
      · rw [h1]; exact hflags hi.flags

/-- The flag `Done` is set on a declaration that is `Started`. -/
theorem logStep_finish {l : Logged} {decl : Nat}
    (hs : startedAt l.c.decls decl = true) :
    LogStep l ⟨l.c.popScope.setDone decl, l.log ++ [.wrote (l.c.popScope.setDone decl).decls]⟩ ∧
      doneAt (l.c.popScope.setDone decl).decls decl = true := by
  have hlt := startedAt_lt hs
  have hflags : FlagsOK l.c.decls → FlagsOK (l.c.popScope.setDone decl).decls := by
    intro h
    rw [flagsOK_iff] at h ⊢
    intro i hi
    rw [doneAt_setDone] at hi
    rw [startedAt_setDone]
    simp only [Bool.or_eq_true, Bool.and_eq_true, decide_eq_true_eq] at hi
    rcases hi with h1 | ⟨h1, _⟩
    · exact h i h1
    · subst h1; exact hs
  refine ⟨⟨?_, ?_, ?_, ⟨_, rfl⟩, ?_, ?_⟩, ?_⟩
  · intro i hi
    rw [startedAt_setDone]
    exact hi
  · intro i hi
    rw [doneAt_setDone]
    have : doneAt l.c.popScope.decls i = true := hi
    rw [this]
    rfl
  · simp only [checker.setDone]
    rw [sig_modify_done]
    rfl
  · intro ds0 _
    simp [lastWrite, List.foldl_append]
  · intro hi
    refine ⟨?_, hflags hi.flags, ?_, ?_⟩
    · intro i
      simp only [walkCount_append, walkCount_wrote, Nat.add_zero]
      rw [hi.walks i, startedAt_setDone]
      rfl
    · simp only [checker.setDone]
      exact nonempty_modify (fun _ => rfl) (fun e _ h => Or.inl h) hi.nonempty
    · intro ds hds
      simp only [List.mem_append, List.mem_singleton, FlagEvent.wrote.injEq] at hds
      rcases hds with h1 | h1
      · exact hi.wrote ds h1
      · rw [h1]; exact hflags hi.flags
  · rw [doneAt_setDone]
    have : decl < l.c.popScope.decls.length := hlt
    simp [this]

theorem checkStructWithLog_step {ctL : Logged → NamedType → Res Logged}
    (hct : ∀ l ty l', ctL l ty = .ok l' → LogStep l l') {l l' : Logged} {decl : Nat}
    (h : checkStructWithLog ctL l decl = .ok l') :
    LogStep l l' ∧ doneAt l'.c.decls decl = true := by
  unfold checkStructWithLog at h
  cases hd : l.c.decls[decl]? with
  | none => rw [hd] at h; cases h
  | some d =>
    rw [hd] at h
    simp only at h
    by_cases hdone : d.Done = true
    · rw [if_pos hdone] at h
      cases h
      refine ⟨LogStep.refl_log _, ?_⟩
      unfold doneAt
      rw [hd]
      exact hdone
    · rw [if_neg hdone] at h
      by_cases hst : d.Started = true
      · rw [if_pos hst] at h; cases h
      · rw [if_neg hst] at h
        cases hp : checkStructParams l.c.newScope d.Params with
        | ok c1 =>
          rw [hp] at h
          simp only at h
          by_cases hlen : d.Fields.length = 0
          · rw [if_pos hlen] at h; cases h
          · rw [if_neg hlen] at h
            have hc1 : c1.decls = l.c.decls := (checkStructParams_ok hp).2.1
            obtain ⟨s1, hs1⟩ := logStep_start hd (by simpa using hst)
              (fun he => hlen (by rw [he]; rfl)) hc1
            split at h
            · rename_i l3 h3
              cases h
              have s2 := checkStructFieldsLog_step hct _ _ _ _ h3
              obtain ⟨s3, hd3⟩ := @logStep_finish l3 decl (s2.started _ hs1)
              exact ⟨(s1.trans_log s2).trans_log s3, hd3⟩
            · rename_i o ho
              exact (ho _ h).elim
        | diag p m => rw [hp] at h; cases h
        | panic m => rw [hp] at h; cases h
        | nofuel => rw [hp] at h; cases h

theorem checkTypeLog_step : ∀ (fuel : Nat) (l : Logged) (ty : NamedType) (l' : Logged),
    checkTypeLog fuel l ty = .ok l' → LogStep l l'
  | 0, l, ty, l', h => by simp [checkTypeLog] at h
  | fuel + 1, l, ty, l', h => by
    simp only [checkTypeLog] at h
    split at h
    · cases h
    · split at h
      · cases h
      · split at h
        · rename_i l1 h1
          have s1 := checkTypeArgsLog_step (checkTypeLog_step fuel) _ _ _ h1
          split at h
          · exact s1.trans_log (checkStructWithLog_step (checkTypeLog_step fuel) h).1
          · cases h
            exact s1
        · rename_i o ho
          exact (ho _ h).elim

theorem LogStep.from_scope {a a' b : Logged} (h : LogStep a' b)
    (hd : a.c.decls = a'.c.decls) (hl : a.log = a'.log) : LogStep a b :=
  h.of_same_step hd hl rfl rfl

theorem LogStep.to_scope {a b b' : Logged} (h : LogStep a b)
    (hd : b'.c.decls = b.c.decls) (hl : b'.log = b.log) : LogStep a b' :=
  h.of_same_step rfl rfl hd hl

mutual
theorem checkStmtLog_step (fuel : Nat) : ∀ (s : Stmt) (l : Logged) (ret : Option NamedType)
    (r : Bool) (l' : Logged), checkStmtLog fuel l s ret = .ok (r, l') → LogStep l l'
  | .ExprStmt e, l, ret, r, l', h => by
    simp only [checkStmtLog] at h
    split at h
    · split at h <;> simp at h
      rw [← h.2]; exact LogStep.refl_log _
    · cases h
  | .BlockStmt _ b, l, ret, r, l', h => by
    simp only [checkStmtLog] at h
    exact checkBlockLog_step fuel b l ret r l' h
  | .ReturnStmt _ e, l, ret, r, l', h => by
    simp only [checkStmtLog] at h
    split at h
    · cases h
    · cases h
    · simp at h; rw [← h.2]; exact LogStep.refl_log _
    · split at h <;> simp at h
      rw [← h.2]; exact LogStep.refl_log _
  | .VarStmt _ name ty e, l, ret, r, l', h => by
    simp only [checkStmtLog] at h
    split at h
    · cases h
    · split at h
      · rename_i s hs
        split at h
        · rename_i l1 h1
          have s1 : LogStep l l1 :=
            LogStep.from_scope (checkTypeLog_step fuel (l.withScope s) ty l1 h1) rfl rfl
          split at h
          · split at h <;> simp at h
            rw [← h.2]; exact s1
          · simp at h; rw [← h.2]; exact s1
        all_goals cases h
      all_goals cases h
  | .AssignStmt left right, l, ret, r, l', h => by
    simp only [checkStmtLog] at h
    split at h
    · split at h
      · cases h
      · split at h <;> simp at h
        rw [← h.2]; exact LogStep.refl_log _
    all_goals cases h
  | .IfStmt _ cond body els, l, ret, r, l', h => by
    simp only [checkStmtLog] at h
    split at h
    · split at h
      · rename_i rb l1 h1
        have s1 : LogStep l l1 :=
          LogStep.from_scope (checkBlockLog_step fuel body l.newScope ret _ _ h1) rfl rfl
        have s2 : LogStep l1 l' :=
          LogStep.from_scope (checkElseLog_step fuel els l1.popScope ret _ r l' h) rfl rfl
        exact s1.trans_log s2
      · rename_i o ho
        exact (ho _ _ h).elim
    all_goals cases h
  | .WhileStmt _ cond body, l, ret, r, l', h => by
    simp only [checkStmtLog] at h
    split at h
    · split at h
      · rename_i rb l1 h1
        have s1 : LogStep l l1 :=
          LogStep.from_scope (checkBlockLog_step fuel body l.newScope ret _ _ h1) rfl rfl
        simp at h
        rw [← h.2]
        exact LogStep.to_scope s1 rfl rfl
      · rename_i o ho
        exact (ho _ _ h).elim
    all_goals cases h
theorem checkElseLog_step (fuel : Nat) : ∀ (s : Option Stmt) (l : Logged)
    (ret : Option NamedType) (b r : Bool) (l' : Logged),
    checkElseLog fuel l s ret b = .ok (r, l') → LogStep l l'
  | none, l, ret, b, r, l', h => by
    simp [checkElseLog] at h; rw [← h.2]; exact LogStep.refl_log _
  | some s, l, ret, b, r, l', h => by
    simp only [checkElseLog] at h
    split at h
    · rename_i r2 l1 h1
      have s1 : LogStep l l1 :=
        LogStep.from_scope (checkStmtLog_step fuel s l.newScope ret _ _ h1) rfl rfl
      simp at h
      rw [← h.2]
      exact LogStep.to_scope s1 rfl rfl
    · rename_i o ho
      exact (ho _ _ h).elim
theorem checkBlockLog_step (fuel : Nat) : ∀ (b : List Stmt) (l : Logged)
    (ret : Option NamedType) (r : Bool) (l' : Logged),
    checkBlockLog fuel l b ret = .ok (r, l') → LogStep l l'
  | [], l, ret, r, l', h => by
    simp [checkBlockLog] at h; rw [← h.2]; exact LogStep.refl_log _
  | s :: rest, l, ret, r, l', h => by
    simp only [checkBlockLog] at h
    split at h
    · rename_i r1 l1 h1
      have s1 := checkStmtLog_step fuel s l ret _ _ h1
      split at h
      · rename_i r2 l2 h2
        have s2 := checkBlockLog_step fuel rest l1 ret _ _ h2
        simp at h
        rw [← h.2]
        exact s1.trans_log s2
      · rename_i o ho
        exact (ho _ _ h).elim
    · rename_i o ho
      exact (ho _ _ h).elim
end

theorem checkFnParamsLog_step (fuel : Nat) : ∀ (ps : List Param) (l l' : Logged),
    checkFnParamsLog fuel l ps = .ok l' → LogStep l l'
  | [], l, l', h => by
    simp only [checkFnParamsLog, Res.ok.injEq] at h
    subst h
    exact LogStep.refl_log _
  | p :: rest, l, l', h => by
    simp only [checkFnParamsLog] at h
    split at h
    · rename_i l1 h1
      have s1 := checkTypeLog_step fuel _ _ _ h1
      split at h
      · cases h
      · split at h
        · rename_i s hs
          exact s1.trans_log
            (LogStep.from_scope (checkFnParamsLog_step fuel rest (l1.withScope s) l' h) rfl rfl)
        all_goals cases h
    · rename_i o ho
      exact (ho _ h).elim

theorem checkFnLog_step {fuel : Nat} {l l' : Logged} {fn : FnDecl}
    (h : checkFnLog fuel l fn = .ok l') : LogStep l l' := by
  unfold checkFnLog at h
  split at h
  · rename_i l1 h1
    have s1 : LogStep l l1 := by
      unfold checkFnSignatureLog at h1
      split at h1
      · split at h1
        · rename_i l0 h0
          have s0 : LogStep l l0 :=
            LogStep.from_scope (checkTypeLog_step fuel l.newScope _ _ h0) rfl rfl
          exact s0.trans_log (checkFnParamsLog_step fuel _ _ _ h1)
        · rename_i o ho
          exact (ho _ h1).elim
      · exact LogStep.from_scope (checkFnParamsLog_step fuel _ l.newScope _ h1) rfl rfl
    split at h
    · rename_i r l2 h2
      have s2 := checkBlockLog_step fuel _ _ _ _ _ h2
      have s3 : LogStep l l2.popScope := LogStep.to_scope (s1.trans_log s2) rfl rfl
      split at h
      · split at h
        · cases h
        · cases h; exact s3
      · cases h; exact s3
    all_goals cases h
  · rename_i o ho
    exact (ho _ h).elim

theorem checkFnsLog_step (fuel : Nat) : ∀ (fns : List FnDecl) (l l' : Logged),
    checkFnsLog fuel l fns = .ok l' → LogStep l l'
  | [], l, l', h => by
    simp only [checkFnsLog, Res.ok.injEq] at h
    subst h
    exact LogStep.refl_log _
  | f :: rest, l, l', h => by
    simp only [checkFnsLog] at h
    split at h
    · rename_i l1 h1
      exact (checkFnLog_step h1).trans_log (checkFnsLog_step fuel rest _ _ h)
    · rename_i o ho
      exact (ho _ h).elim

theorem checkStructsLog_step (fuel : Nat) : ∀ (n : Nat) (l l' : Logged) (i : Nat),
    checkStructsLog fuel l i n = .ok l' →
      LogStep l l' ∧ ∀ j, i ≤ j → j < i + n → doneAt l'.c.decls j = true
  | 0, l, l', i, h => by
    simp only [checkStructsLog, Res.ok.injEq] at h
    subst h
    exact ⟨LogStep.refl_log _, fun j h1 h2 => by omega⟩
  | n + 1, l, l', i, h => by
    simp only [checkStructsLog] at h
    split at h
    · rename_i l1 h1
      obtain ⟨s1, d1⟩ := checkStructWithLog_step (checkTypeLog_step fuel) h1
      obtain ⟨s2, d2⟩ := checkStructsLog_step fuel n _ _ _ h
      refine ⟨s1.trans_log s2, fun j hj1 hj2 => ?_⟩
      by_cases hij : j = i
      · subst hij; exact s2.done _ d1
      · exact d2 j (by omega) (by omega)
    · rename_i o ho
      exact (ho _ h).elim

theorem addFns_decls : ∀ (fns : List FnDecl) (c c' : checker), addFns c fns = .ok c' →
    c'.decls = c.decls
  | [], c, c', h => by simp [addFns] at h; subst h; rfl
  | f :: rest, c, c', h => by
    simp only [addFns] at h
    split at h
    · cases h
    · split at h
      · have := addFns_decls rest _ _ h
        exact this
      all_goals cases h

theorem logInv_initial {m : Module} {c : checker} (hp : m.parsed) (hc : c.decls = m.Structs) :
    LogInv ⟨c, []⟩ := by
  refine ⟨?_, ?_, ?_, ?_⟩
  · intro i
    have : startedAt c.decls i = false := by
      unfold startedAt
      cases hd : c.decls[i]? with
      | none => rfl
      | some d =>
        rw [hc] at hd
        exact (hp d (List.getElem?_mem hd)).1
    simp [walkCount, this]
  · intro d hd h
    rw [hc] at hd
    rw [(hp d hd).2] at h
    cases h
  · intro d hd h
    rw [hc] at hd
    rw [(hp d hd).1] at h
    cases h
  · intro ds h
    cases h

theorem eraseLogModule_ok {r : Res (Module × List FlagEvent)} {m : Module}
    (h : eraseLogModule r = .ok m) : ∃ log, r = .ok (m, log) := by
  cases r with
  | ok p =>
    obtain ⟨m1, log⟩ := p
    simp only [eraseLogModule, Res.ok.injEq] at h
    subst h
    exact ⟨log, rfl⟩
  | diag p m => cases h
  | panic m => cases h
  | nofuel => cases h

/-- The second loop of `CheckModule` on a parsed module, from the state after
the first loop: what holds when it has returned for the first `k` structs. -/
theorem checkStructs_flags {fuel : Nat} {m : Module} {c1 ck : checker} {k : Nat}
    (hp : m.parsed) (hc1 : c1.decls = m.Structs) (h : checkStructs fuel c1 0 k = .ok ck) :
    ∃ l, checkStructsLog fuel ⟨c1, []⟩ 0 k = .ok l ∧ l.c = ck ∧ LogInv l ∧
      ck.decls.map StructDecl.sig = m.Structs.map StructDecl.sig ∧
      ∀ j, j < k → doneAt ck.decls j = true := by
  have he := checkStructsLog_erase fuel k ⟨c1, []⟩ 0
  simp only at he
  rw [h] at he
  obtain ⟨l, hl, hlc⟩ := eraseLog_ok he
  obtain ⟨s, d⟩ := checkStructsLog_step fuel k _ _ 0 hl
  refine ⟨l, hl, hlc, s.inv (logInv_initial hp hc1), ?_, ?_⟩
  · rw [← hlc, s.sig, hc1]
  · intro j hj
    rw [← hlc]
    exact d j (Nat.zero_le _) (by omega)

theorem sig_getElem {ds ds' : List StructDecl}
    (h : ds'.map StructDecl.sig = ds.map StructDecl.sig) {i : Nat} {d : StructDecl}
    (hd : ds[i]? = some d) : ∃ d', ds'[i]? = some d' ∧ d'.sig = d.sig := by
  have := congrArg (fun l => l[i]?) h
  simp only [List.getElem?_map, hd, Option.map_some'] at this
  cases hd' : ds'[i]? with
  | none => rw [hd'] at this; cases this
  | some d' =>
    rw [hd'] at this
    simp only [Option.map_some', Option.some.injEq] at this
    exact ⟨d', rfl, this⟩

/-- What the logged check of a parsed module leaves when it returns. -/
theorem CheckModuleLog_final {fuel : Nat} {m m' : Module} {log : List FlagEvent}
    (hp : m.parsed) (h : CheckModuleLog fuel m = .ok (m', log)) :
    m'.Fns = m.Fns ∧
    m'.Structs.map StructDecl.sig = m.Structs.map StructDecl.sig ∧
    (∀ j, j < m.Structs.length → doneAt m'.Structs j = true ∧ startedAt m'.Structs j = true) ∧
    lastWrite m.Structs log = m'.Structs ∧
    LogInv ⟨⟨[], [], m'.Structs⟩, log⟩ := by
  unfold CheckModuleLog at h
  obtain ⟨s, hs, h⟩ := Res.bind_eq_ok h
  obtain ⟨c1, hc1, h⟩ := Res.bind_eq_ok h
  obtain ⟨l1, hl1, h⟩ := Res.bind_eq_ok h
  obtain ⟨c2, hc2, h⟩ := Res.bind_eq_ok h
  obtain ⟨l2, hl2, h⟩ := Res.bind_eq_ok h
  have hm : (({ m with Structs := l2.c.decls } : Module), l2.log) = (m', log) := by
    cases h; rfl
  simp only [Prod.mk.injEq] at hm
  obtain ⟨hm1, hm2⟩ := hm
  subst hm1
  subst hm2
  obtain ⟨hdecls, _, _⟩ := addStructs_lookup _ _ _ _ hc1 (by simp)
  simp only at hdecls
  obtain ⟨s1, d1⟩ := checkStructsLog_step fuel _ _ _ 0 hl1
  have hd2 := addFns_decls _ _ _ hc2
  have s2 : LogStep l1 l2 := LogStep.from_scope (checkFnsLog_step fuel _ _ _ hl2) hd2.symm rfl
  have s := s1.trans_log s2
  have inv := s.inv (logInv_initial hp hdecls)
  refine ⟨rfl, ?_, ?_, ?_, inv.of_same_log rfl rfl⟩
  · simp only
    rw [s.sig, hdecls]
  · intro j hj
    have hdone := s2.done j (d1 j (Nat.zero_le _) (by omega))
    exact ⟨hdone, (flagsOK_iff _).1 inv.flags j hdone⟩
  · exact s.current m.Structs hdecls.symm

theorem structDecl_flags_eq {d d' : StructDecl} (hs : d'.sig = d.sig)
    (h1 : d'.Started = true) (h2 : d'.Done = true) :
    d' = { d with Started := true, Done := true } := by
  cases d
  cases d'
  simp only [StructDecl.sig, Prod.mk.injEq] at hs
  simp only at h1 h2
  simp only [StructDecl.mk.injEq]
  exact ⟨hs.1, hs.2.1, hs.2.2, h1, h2⟩

/-- C19. For every module whose struct declarations start with both flags
false, when `CheckModule` returns the module, every struct declaration comes
back with `Started` and `Done` set and nothing else changed. The run with
the log returns the same module (the log is ghost state: without it the
logged check is `CheckModule`, on every input); its log records the start of
the loop over the fields exactly once for every declaration of the module;
in the declarations as they stand at the start and right after every write
to a flag, no struct is `Done` without being `Started`; and the last of
these writes left the declarations that are returned. -/
theorem C19_struct_flags (fuel : Nat) (m m' : Module) (hp : m.parsed)
    (h : CheckModule fuel m = .ok m') :
    m'.Structs = m.Structs.map (fun d => { d with Started := true, Done := true }) ∧
    (∀ f n, eraseLogModule (CheckModuleLog f n) = CheckModule f n) ∧
    ∃ log, CheckModuleLog fuel m = .ok (m', log) ∧
      (∀ i, walkCount log i = if i < m.Structs.length then 1 else 0) ∧
      FlagsOK m.Structs ∧ (∀ ds, FlagEvent.wrote ds ∈ log → FlagsOK ds) ∧
      lastWrite m.Structs log = m'.Structs := by
  have he := CheckModuleLog_erase fuel m
  rw [h] at he
  obtain ⟨log, hl⟩ := eraseLogModule_ok he
  obtain ⟨_, hsig, hflags, hlast, inv⟩ := CheckModuleLog_final hp hl
  have hlen : m'.Structs.length = m.Structs.length := by
    have := congrArg List.length hsig
    simpa using this
  refine ⟨?_, CheckModuleLog_erase, log, hl, ?_, ?_, inv.wrote, hlast⟩
  · apply List.ext_getElem?
    intro i
    rw [List.getElem?_map]
    cases hd : m.Structs[i]? with
    | none =>
      have := List.getElem?_eq_none_iff.1 hd
      rw [List.getElem?_eq_none (by omega)]
      rfl
    | some d =>
      obtain ⟨d', hd', hs⟩ := sig_getElem hsig hd
      have hi := (List.getElem?_eq_some_iff.1 hd).1
      obtain ⟨h1, h2⟩ := hflags i hi
      unfold doneAt at h1
      unfold startedAt at h2
      rw [hd'] at h1 h2
      rw [hd', structDecl_flags_eq hs h2 h1]
      rfl
  · intro i
    rw [inv.walks i]
    by_cases hi : i < m.Structs.length
    · simp only [(hflags i hi).2, hi, if_true]
    · have : startedAt m'.Structs i = false := by
        cases hh : startedAt m'.Structs i with
        | false => rfl
        | true => have := startedAt_lt hh; omega
      simp only [this, hi, if_false]
      rfl
  · intro d hd hdone
    rw [(hp d hd).2] at hdone
    cases hdone

/-- C19 on `struct A { b: B }  struct B { x: i32 }`: `B` is checked while `A`
is, and again by the loop of `CheckModule`; both come back `Started` and
`Done`, the log has six entries, and the fields of each struct were walked
once. -/
theorem C19_struct_flags_witness :
    nestedModule.parsed ∧
      ∃ m' log, CheckModule 4 nestedModule = .ok m' ∧
        m'.Structs =
          nestedModule.Structs.map (fun d => { d with Started := true, Done := true }) ∧
        CheckModuleLog 4 nestedModule = .ok (m', log) ∧ log.length = 6 ∧
        walkCount log 0 = 1 ∧ walkCount log 1 = 1 ∧ walkCount log 2 = 0 :=
  ⟨by decide, _, _, rfl, (C19_struct_flags 4 nestedModule _ (by decide) rfl).1, rfl, rfl,
    rfl, rfl, rfl⟩

theorem checkStructs_split (fuel : Nat) : ∀ (a b : Nat) (c : checker) (i : Nat),
    checkStructs fuel c i (a + b) =
      match checkStructs fuel c i a with
      | .ok c' => checkStructs fuel c' (i + a) b
      | other => other
  | 0, b, c, i => by simp [checkStructs]
  | a + 1, b, c, i => by
    have e : a + 1 + b = (a + b) + 1 := by omega
    rw [e]
    simp only [checkStructs]
    cases checkStruct fuel c i with
    | ok c1 =>
      simp only
      rw [checkStructs_split fuel a b c1 (i + 1)]
      have e2 : i + 1 + a = i + (a + 1) := by omega
      rw [e2]
    | diag p m => rfl
    | panic m => rfl
    | nofuel => rfl

/-- On a parsed module, the second loop of `CheckModule` does not return
when a struct among those it has to check has no field. -/
theorem checkStructs_nonempty {fuel : Nat} {m : Module} {c1 ck : checker} {k i : Nat}
    {d : StructDecl} (hp : m.parsed) (hc1 : c1.decls = m.Structs)
    (h : checkStructs fuel c1 0 k = .ok ck) (hi : m.Structs[i]? = some d) (hik : i < k) :
    d.Fields ≠ [] := by
  obtain ⟨l, _, hlc, inv, hsig, hdone⟩ := checkStructs_flags hp hc1 h
  obtain ⟨d', hd', hs⟩ := sig_getElem hsig hi
  have h1 := hdone i hik
  have h2 := (flagsOK_iff _).1 (hlc ▸ inv.flags) i h1
  unfold startedAt at h2
  rw [hd'] at h2
  have := inv.nonempty d' (by rw [hlc]; exact List.getElem?_mem hd') h2
  simp only [StructDecl.sig, Prod.mk.injEq] at hs
  rw [← hs.2.2]
  exact this

/-- C20 (as amended). A parsed module with a struct declaration `d` that has
no fields is never accepted by `CheckModule`, and with the recursion budget
`structFuel` the run ends with a diagnostic. When the first loop of
`CheckModule` returns (no struct name is a duplicate), `checkStruct` returns
for every earlier struct and the loop over the generic parameters of `d`
returns, the diagnostic is `struct must have at least one field` at the
position of the name of `d`. -/
theorem C20_empty_struct_rejected (fuel : Nat) (m : Module) (i : Nat) (d : StructDecl)
    (hp : m.parsed) (hi : m.Structs[i]? = some d) (he : d.Fields = []) :
    (∀ m', CheckModule fuel m ≠ .ok m') ∧
    (m.structFuel ≤ fuel → ∃ p msg, CheckModule fuel m = .diag p msg) ∧
    (∀ s c1 ci cp, primitiveScope = .ok s →
      addStructs ⟨s, [], m.Structs⟩ 0 m.Structs = .ok c1 →
      checkStructs fuel c1 0 i = .ok ci →
      checkStructParams ci.newScope d.Params = .ok cp →
      CheckModule fuel m = .diag d.Name.Pos "struct must have at least one field") := by
  have hlt : i < m.Structs.length := (List.getElem?_eq_some_iff.1 hi).1
  have hstructs : ∀ c, checkModuleStructs fuel m ≠ .ok c := by
    intro c hc
    unfold checkModuleStructs at hc
    obtain ⟨s, hs, hc⟩ := Res.bind_eq_ok hc
    obtain ⟨c1, hc1, hc⟩ := Res.bind_eq_ok hc
    obtain ⟨hdecls, _, _⟩ := addStructs_lookup _ _ _ _ hc1 (by simp)
    exact checkStructs_nonempty hp hdecls hc hi hlt he
  refine ⟨?_, ?_, ?_⟩
  · intro m' h
    obtain ⟨c, _, _, hc, _⟩ := CheckModule_ok h
    exact hstructs c hc
  · intro hfuel
    have g := checkModuleStructs_good hp hfuel
    unfold CheckModule
    cases hr : checkModuleStructs fuel m with
    | ok c => exact (hstructs c hr).elim
    | diag p msg => exact ⟨p, msg, rfl⟩
    | panic msg => rw [hr] at g; exact g.elim
    | nofuel => rw [hr] at g; exact g.elim
  · intro s c1 ci cp hs hc1 hci hcp
    obtain ⟨hdecls, _, _⟩ := addStructs_lookup _ _ _ _ hc1 (by simp)
    simp only at hdecls
    obtain ⟨l, _, hlc, inv, hsig, _⟩ := checkStructs_flags hp hdecls hci
    obtain ⟨d', hd', hsd⟩ := sig_getElem hsig hi
    simp only [StructDecl.sig, Prod.mk.injEq] at hsd
    obtain ⟨hname, hparams, hfields⟩ := hsd
    have hst : d'.Started = false := by
      cases hh : d'.Started with
      | false => rfl
      | true =>
        have := inv.nonempty d' (by rw [hlc]; exact List.getElem?_mem hd') hh
        rw [hfields] at this
        exact (this he).elim
    have hdn : d'.Done = false := by
      cases hh : d'.Done with
      | false => rfl
      | true =>
        have := inv.flags d' (by rw [hlc]; exact List.getElem?_mem hd') hh
        rw [hst] at this
        cases this
    have hcheck : checkStruct fuel ci i =
        .diag d.Name.Pos "struct must have at least one field" := by
      unfold checkStruct checkStructWith
      rw [hd']
      simp only [hdn, hst, Bool.false_eq_true, if_false, hparams, hcp, hfields, he,
        List.length_nil, if_true, hname]
    have hloop : checkStructs fuel c1 0 m.Structs.length =
        .diag d.Name.Pos "struct must have at least one field" := by
      obtain ⟨k, hk⟩ : ∃ k, m.Structs.length = i + (k + 1) := ⟨m.Structs.length - i - 1, by omega⟩
      rw [hk, checkStructs_split, hci]
      simp only [checkStructs, Nat.zero_add, hcheck]
    unfold CheckModule checkModuleStructs
    rw [hs]
    simp only [Res.bind_def, Res.bind, hc1, hloop]

/-- C20 on `struct A { x: i32 }  struct B { }`: the run ends with the
diagnostic at the name of `B`. -/
theorem C20_empty_struct_rejected_witness :
    emptyStructModule.parsed ∧ emptyStructModule.structFuel ≤ 4 ∧
      CheckModule 4 emptyStructModule =
        .diag ⟨2, 8⟩ "struct must have at least one field" :=
  ⟨by decide, by decide,
    (C20_empty_struct_rejected 4 emptyStructModule 1 _ (by decide) rfl rfl).2.2
      _ _ _ _ rfl rfl rfl rfl⟩

/-- C20 as worded fails on `struct A { }  struct B { x: i32 }
struct B { y: i32 }`: the empty struct `A` is the first one, its name is no
duplicate and it has no generic parameters, yet the diagnostic is the one
for the duplicate name `B`, because the first loop of `CheckModule` goes
over every struct name before any struct is checked. -/
theorem C20_later_duplicate_name_reported_first :
    emptyThenDuplicateModule.parsed ∧
      (∃ d, emptyThenDuplicateModule.Structs[0]? = some d ∧ d.Fields = [] ∧ d.Params = [] ∧
        (emptyThenDuplicateModule.Structs.map (fun e => e.Name.Ident)).count d.Name.Ident = 1 ∧
        d.Name.Ident ∉ primitiveNames) ∧
      ∀ fuel, CheckModule fuel emptyThenDuplicateModule = .diag ⟨3, 8⟩ "duplicate type 'B'" :=
  ⟨by decide, ⟨_, rfl, rfl, rfl, by decide, by decide⟩, fun _ => rfl⟩

theorem checkFns_mem (fuel : Nat) : ∀ (fns : List FnDecl) (c c' : checker),
    checkFns fuel c fns = .ok c' → ∀ f ∈ fns, ∃ c0 c1, checkFn fuel c0 f = .ok c1
  | [], _, _, _ => by simp
  | g :: rest, c, c', h => by
    simp only [checkFns] at h
    split at h
    · rename_i c1 h1
      intro f hf
      simp only [List.mem_cons] at hf
      rcases hf with rfl | hf
      · exact ⟨c, c1, h1⟩
      · exact checkFns_mem fuel rest _ _ h f hf
    · rename_i o ho
      exact (ho _ h).elim

/-- What `checkFn` does with a function without body that declares a return
type: when the signature is accepted, the empty block does not return and the
diagnostic is raised; in no case does `checkFn` return. -/
theorem checkFn_extern_return {fuel : Nat} {c : checker} {fn : FnDecl} {r : NamedType}
    (hbody : fn.Body = none) (hret : fn.Return = some r) :
    (∀ c1, checkFnSignature fuel c fn = .ok c1 →
      checkFn fuel c fn = .diag r.At "not all paths return a value") ∧
    ∀ c', checkFn fuel c fn ≠ .ok c' := by
  have key : ∀ c1, checkFnSignature fuel c fn = .ok c1 →
      checkFn fuel c fn = .diag r.At "not all paths return a value" := by
    intro c1 hsig
    simp [checkFn, hsig, hbody, hret, checkBlock]
  refine ⟨key, ?_⟩
  intro c' h
  cases hsig : checkFnSignature fuel c fn with
  | ok c1 => rw [key c1 hsig] at h; cases h
  | diag p m => simp [checkFn, hsig] at h
  | panic m => simp [checkFn, hsig] at h
  | nofuel => simp [checkFn, hsig] at h

/-- C27. For a function declaration without body that declares the return
type `r`, when the part of `checkFn` before the body returns (return and
parameter types are valid, no parameter is a duplicate), the absent body is
checked as the empty block, which does not return on all paths, and `checkFn`
reports `not all paths return a value` at the position of `r`. Hence
`CheckModule` accepts no module that contains such a function. -/
theorem C27_extern_with_return_rejected (fuel : Nat) (c c1 : checker) (fn : FnDecl)
    (r : NamedType) (hbody : fn.Body = none) (hret : fn.Return = some r)
    (hsig : checkFnSignature fuel c fn = .ok c1) :
    checkBlock fuel c1 (fn.Body.getD []) fn.Return = .ok (false, c1) ∧
    checkFn fuel c fn = .diag r.At "not all paths return a value" ∧
    ∀ (fuel2 : Nat) (m m' : Module),
      (∃ f ∈ m.Fns, f.Body = none ∧ f.Return.isSome = true) → CheckModule fuel2 m ≠ .ok m' := by
  refine ⟨by simp [hbody, checkBlock], (checkFn_extern_return hbody hret).1 c1 hsig, ?_⟩
  intro fuel2 m m' ⟨f, hf, hb, hr⟩ h
  obtain ⟨_, _, _, _, _, h2, _⟩ := CheckModule_ok h
  obtain ⟨c0, c2, hc⟩ := checkFns_mem fuel2 _ _ _ h2 f hf
  cases hfr : f.Return with
  | none => rw [hfr] at hr; cases hr
  | some r2 => exact (checkFn_extern_return hb hfr).2 c2 hc

/-- C27 on `extern fn f() i32;`: `checkFn` and `CheckModule` report the
missing return at the position of `i32`. -/
theorem C27_extern_with_return_rejected_witness :
    checkFnSignature 2 (oneFnState externReturnFn) externReturnFn =
        .ok (oneFnState externReturnFn).newScope ∧
      checkFn 2 (oneFnState externReturnFn) externReturnFn =
        .diag ⟨1, 15⟩ "not all paths return a value" ∧
      CheckModule 2 externReturnModule = .diag ⟨1, 15⟩ "not all paths return a value" :=
  ⟨rfl, (C27_extern_with_return_rejected 2 (oneFnState externReturnFn) _ externReturnFn _
    rfl rfl rfl).2.1, rfl⟩

theorem msg_head_ne (s t u : String) (c d : Char) (hs : s.data.head? = some c)
    (hu : u.data.head? = some d) (hc : c ≠ d) : s ++ t ≠ u := by
  intro e
  have := congrArg (fun x => x.data.head?) e
  simp only [String.data_append] at this
  cases hd : s.data with
  | nil => rw [hd] at hs; cases hs
  | cons a rest =>
    rw [hd] at hs this
    simp only [List.head?_cons, Option.some.injEq] at hs
    subst hs
    simp only [List.cons_append, List.head?_cons, hu, Option.some.injEq] at this
    exact hc this

/-- C22, evaluated on the code. A call whose callee has a function type
without return type gets the result type `ty.Return`, a nil `*NamedType`, which
`checkExpr` wraps in a non-nil `ast.Type`: the result is not the nil
interface. So the test `result.ty == nil` of `checkCoerce` does not fire, the
diagnostic `expression does not have a value` is never raised for such a
call, and with a named target type `TypeEqual` dereferences the nil
pointer. -/
theorem C22_void_call_value_panics (c : checker) (fn : Expr) (args : List Expr) (ty : FnType)
    (m : Bool) (hfn : checkExpr c fn = .ok ⟨.fn ty, m⟩) (hret : ty.Return = none)
    (hlen : args.length = ty.Params.length)
    (hargs : checkExprArgs c args ty.Params = .ok ()) :
    checkExpr c (.CallExpr fn args) = .ok ⟨.named none, false⟩ ∧
    (∀ target : NamedType,
      checkCoerce c (.CallExpr fn args) (.named (some target)) =
        .panic "nil pointer dereference") ∧
    ∀ (target : AstType) (p : Pos),
      checkCoerce c (.CallExpr fn args) target ≠ .diag p "expression does not have a value" := by
  have h1 : checkExpr c (.CallExpr fn args) = .ok ⟨.named none, false⟩ := by
    simp [checkExpr, hfn, hlen, hargs, hret]
  refine ⟨h1, ?_, ?_⟩
  · intro target
    simp [checkCoerce, checkCoerceResult, h1, TypeEqual]
  · intro target p
    simp only [checkCoerce, checkCoerceResult, h1]
    cases target with
    | nil =>
      simp only [TypeEqual, ne_eq, Res.diag.injEq, not_and]
      intro _
      exact msg_head_ne _ _ _ 'c' 'e' rfl rfl (by decide)
    | named t => cases t <;> simp [TypeEqual]
    | fn f =>
      simp only [TypeEqual, ne_eq, Res.diag.injEq, not_and]
      intro _
      exact msg_head_ne _ _ _ 'c' 'e' rfl rfl (by decide)

/-- C22 on `fn f() { }  fn g() { var x: i32 = f(); }`: in the state in which
the functions are checked the call `f()` has the typed nil as its type, its
coercion to `i32` dereferences nil, and so does `CheckModule`. -/
theorem C22_void_call_value_panics_witness :
    checkExpr (oneFnState voidFn) voidCall = .ok ⟨.named none, false⟩ ∧
      checkCoerce (oneFnState voidFn) voidCall (.named (some ast.Int32)) =
        .panic "nil pointer dereference" ∧
      CheckModule 2 voidValueModule = .panic "nil pointer dereference" :=
  ⟨(C22_void_call_value_panics (oneFnState voidFn) (.VarExpr ⟨⟨2, 23⟩, "f"⟩) []
      ⟨[], none⟩ false rfl rfl rfl rfl).1,
    (C22_void_call_value_panics (oneFnState voidFn) (.VarExpr ⟨⟨2, 23⟩, "f"⟩) []
      ⟨[], none⟩ false rfl rfl rfl rfl).2.1 ast.Int32, rfl⟩

/-- What a `scan` that returns has done to the position. -/
theorem scan_step {s s' : Scanner} (hb : s.pos ≤ s.content.length) (h : scan s = .ok s') :
    s'.content = s.content ∧ s'.pos ≤ s.content.length ∧
      ((s'.tok = .EOF ∧ s'.pos = s.content.length) ∨ (s'.tok ≠ .EOF ∧ s.pos < s'.pos)) := by
  obtain ⟨s1, hs, hsc⟩ := scan_scanned hb h
  obtain ⟨m, _, _, hb1, _⟩ := skipWhitespace_ok hs
  have hmc := m.content
  have hmp := m.pos
  obtain ⟨ha, heof, hlt⟩ := hsc.advanced_token (by rw [hmc]; exact hb1 hb)
  have hp := ha.pos
  have hbd := ha.bound
  simp only [Scanner.atToken] at hp hbd
  rw [hmc] at hbd
  refine ⟨ha.content.trans hmc, hbd, ?_⟩
  by_cases he : s'.tok = .EOF
  · left
    have := heof.1 he
    rw [hmc] at this
    exact ⟨he, by omega⟩
  · right
    exact ⟨he, by have := hlt he; omega⟩

theorem scanTokens_returns : ∀ (fuel : Nat) (s : Scanner), s.pos ≤ s.content.length →
    s.content.length - s.pos < fuel → Returned (scanTokens fuel s)
  | 0, _, _, h => by omega
  | fuel + 1, s, hb, hf => by
    rw [scanTokens]
    rcases scan_returns hb with ⟨s', hs⟩ | ⟨p, m, hm⟩
    · rw [hs]
      simp only
      obtain ⟨hc, hbd, hstep⟩ := scan_step hb hs
      by_cases he : s'.tok = .EOF
      · rw [if_pos he]; exact Or.inl ⟨_, rfl⟩
      · rw [if_neg he]
        rcases hstep with ⟨h1, _⟩ | ⟨_, hlt⟩
        · exact (he h1).elim
        · rcases scanTokens_returns fuel s' (by rw [hc]; exact hbd) (by rw [hc]; omega) with
            ⟨t, ht⟩ | ⟨p, m, hm⟩
          · rw [ht]; exact Or.inl ⟨_, rfl⟩
          · rw [hm]; exact Or.inr ⟨_, _, rfl⟩
    · rw [hm]
      exact Or.inr ⟨_, _, rfl⟩

theorem scanTokens_length : ∀ (fuel : Nat) (s : Scanner) (toks : List Token),
    s.pos ≤ s.content.length → scanTokens fuel s = .ok toks →
    toks.length ≤ s.content.length - s.pos
  | 0, _, _, _, h => by simp [scanTokens] at h
  | fuel + 1, s, toks, hb, h => by
    rw [scanTokens] at h
    split at h
    · rename_i s' hs
      obtain ⟨hc, hbd, hstep⟩ := scan_step hb hs
      by_cases he : s'.tok = .EOF
      · rw [if_pos he] at h
        cases h
        simp
      · rw [if_neg he] at h
        rcases hstep with ⟨h1, _⟩ | ⟨_, hlt⟩
        · exact (he h1).elim
        · split at h
          · rename_i t ht
            cases h
            have := scanTokens_length fuel s' t (by rw [hc]; exact hbd) ht
            rw [hc] at this
            simp only [List.length_cons]
            omega
          · rename_i o ho
            exact (ho _ h).elim
    all_goals cases h

/-- C28. From a scanner that stands inside its text, a call of `scan` ends
with a token or a diagnostic: its loops do not run out of budget and no read
is out of range (the model turns such a read into a panic). When it yields a
token, the text is unchanged, the position is still inside the text, and
either the token is EOF and the position is the length of the text, or the
position has grown. Hence calling `scan` until EOF ends within
`len - pos + 1` calls and yields at most `len - pos` tokens before EOF; from
the start of a text that is at most its length. -/
theorem C28_scan_advances (s : Scanner) (hb : s.pos ≤ s.content.length) :
    Returned (scan s) ∧
    (∀ msg, scan s ≠ .panic msg) ∧ scan s ≠ .nofuel ∧
    (∀ s', scan s = .ok s' →
      s'.content = s.content ∧ s'.pos ≤ s.content.length ∧
        ((s'.tok = .EOF ∧ s'.pos = s.content.length) ∨ (s'.tok ≠ .EOF ∧ s.pos < s'.pos))) ∧
    Returned (scanTokens (s.content.length - s.pos + 1) s) ∧
    (∀ fuel toks, scanTokens fuel s = .ok toks → toks.length ≤ s.content.length - s.pos) ∧
    ∀ content : List Nat,
      Returned (scanTokens (content.length + 1) (Scanner.initial content)) ∧
      ∀ fuel toks, scanTokens fuel (Scanner.initial content) = .ok toks →
        toks.length ≤ content.length := by
  have hr := scan_returns hb
  refine ⟨hr, ?_, ?_, fun s' h => scan_step hb h, scanTokens_returns _ s hb (by omega),
    fun fuel toks h => scanTokens_length fuel s toks hb h, ?_⟩
  · intro msg h
    rcases hr with ⟨a, ha⟩ | ⟨p, m, hm⟩
    · rw [ha] at h; cases h
    · rw [hm] at h; cases h
  · intro h
    rcases hr with ⟨a, ha⟩ | ⟨p, m, hm⟩
    · rw [ha] at h; cases h
    · rw [hm] at h; cases h
  · intro content
    refine ⟨scanTokens_returns _ _ (Nat.zero_le _) (by simp [Scanner.initial]), ?_⟩
    intro fuel toks h
    have := scanTokens_length fuel _ toks (Nat.zero_le _) h
    simpa [Scanner.initial] using this

/-- C28 on the text `//c`, line feed, `x`: the first `scan` moves from index 0
to index 3, and the calls of `scan` yield two tokens before EOF, which is at
most the five bytes of the text. -/
theorem C28_scan_advances_witness :
    commentedText.pos ≤ commentedText.content.length ∧
      scan commentedText = .ok { commentedText with
        pos := 3, tok_pos := ⟨1, 1⟩, tok := .COMMENT } ∧
      scanTokens 6 commentedText = .ok [.COMMENT, .IDENT] ∧
      [Token.COMMENT, Token.IDENT].length ≤ commentedText.content.length - commentedText.pos :=
  ⟨by decide, rfl, rfl,
    (C28_scan_advances commentedText (by decide)).2.2.2.2.2.1 6 [.COMMENT, .IDENT] rfl⟩

mutual
theorem ResolveGenericType_eq (env : List (String × NamedType)) : ∀ (t : NamedType),
    ResolveGenericType env t =
      if instantiatesParam env t = true then .panic "cannot instantiate generic parameter"
      else .ok (substitute env t)
  | .mk name args => by
    simp only [ResolveGenericType, instantiatesParam, substitute]
    cases hl : env.lookup name.Ident with
    | some aty =>
      simp only [decide_eq_true_eq]
    | none =>
      simp only
      rw [ResolveGenericArgs_eq env args]
      by_cases hi : instantiatesParamArgs env args = true
      · simp [hi]
      · simp [hi]
theorem ResolveGenericArgs_eq (env : List (String × NamedType)) : ∀ (args : List NamedType),
    ResolveGenericArgs env args =
      if instantiatesParamArgs env args = true then
        .panic "cannot instantiate generic parameter"
      else .ok (substituteArgs env args)
  | [] => by simp [ResolveGenericArgs, instantiatesParamArgs, substituteArgs]
  | a :: rest => by
    simp only [ResolveGenericArgs, instantiatesParamArgs, substituteArgs]
    rw [ResolveGenericType_eq env a, ResolveGenericArgs_eq env rest]
    by_cases h1 : instantiatesParam env a = true
    · simp [h1]
    · by_cases h2 : instantiatesParamArgs env rest = true
      · simp [h1, h2]
      · simp [h1, h2]
end

mutual
theorem substitute_nil : ∀ (t : NamedType), substitute [] t = t
  | .mk name args => by
    simp only [substitute, List.lookup]
    rw [substituteArgs_nil args]
theorem substituteArgs_nil : ∀ (args : List NamedType), substituteArgs [] args = args
  | [] => rfl
  | a :: rest => by
    simp only [substituteArgs]
    rw [substitute_nil a, substituteArgs_nil rest]
end

mutual
theorem instantiatesParam_nil : ∀ (t : NamedType), instantiatesParam [] t = false
  | .mk name args => by
    simp only [instantiatesParam, List.lookup]
    exact instantiatesParamArgs_nil args
theorem instantiatesParamArgs_nil : ∀ (args : List NamedType),
    instantiatesParamArgs [] args = false
  | [] => rfl
  | a :: rest => by
    simp only [instantiatesParamArgs]
    rw [instantiatesParam_nil a, instantiatesParamArgs_nil rest]
    rfl
end

mutual
theorem substitute_keys {env : List (String × NamedType)}
    (hv : ∀ k v, env.lookup k = some v → ∀ k2, (env.lookup k2).isSome = true → k2 ∉ typeNames v) :
    ∀ (t : NamedType) (k : String), (env.lookup k).isSome = true →
      k ∉ typeNames (substitute env t)
  | .mk name args, k, hk => by
    simp only [substitute]
    cases hl : env.lookup name.Ident with
    | some aty => exact hv _ _ hl k hk
    | none =>
      simp only [typeNames, List.mem_cons, not_or]
      refine ⟨?_, substituteArgs_keys hv args k hk⟩
      rintro rfl
      rw [hl] at hk
      cases hk
theorem substituteArgs_keys {env : List (String × NamedType)}
    (hv : ∀ k v, env.lookup k = some v → ∀ k2, (env.lookup k2).isSome = true → k2 ∉ typeNames v) :
    ∀ (args : List NamedType) (k : String), (env.lookup k).isSome = true →
      k ∉ typeNamesArgs (substituteArgs env args)
  | [], k, hk => by simp [substituteArgs, typeNamesArgs]
  | a :: rest, k, hk => by
    simp only [substituteArgs, typeNamesArgs, List.mem_append, not_or]
    exact ⟨substitute_keys hv a k hk, substituteArgs_keys hv rest k hk⟩
end

theorem ResolveGenericType_ok {env : List (String × NamedType)} {t r : NamedType}
    (h : ResolveGenericType env t = .ok r) : r = substitute env t := by
  rw [ResolveGenericType_eq] at h
  split at h
  · cases h
  · cases h; rfl

theorem getFieldLoop_params {st : StructDecl} {nty : NamedType} {name : String}
    (hc : ∀ a ∈ nty.Args, ∀ p ∈ st.Params, p.Ident ∉ typeNames a) :
    ∀ (fs : List Param) (fty : AstType), getFieldLoop st nty name fs = .ok fty →
      fty = .nil ∨ ∃ r, fty = .named (some r) ∧ ∀ p ∈ st.Params, p.Ident ∉ typeNames r
  | [], fty, h => by
    simp only [getFieldLoop, Res.ok.injEq] at h
    exact Or.inl h.symm
  | f :: rest, fty, h => by
    simp only [getFieldLoop] at h
    split at h
    · split at h
      · rename_i env henv
        split at h
        · rename_i t ht
          cases h
          right
          refine ⟨t, rfl, ?_⟩
          obtain ⟨hk, hvals⟩ := getGenericEnv_ok henv
          have hv : ∀ k v, env.lookup k = some v → ∀ k2, (env.lookup k2).isSome = true →
              k2 ∉ typeNames v := by
            intro k v hkv k2 hk2
            have hmem := (hk k2).2 hk2
            simp only [List.mem_map] at hmem
            obtain ⟨p, hp, rfl⟩ := hmem
            exact hc v (hvals k v hkv) p hp
          intro p hp
          rw [ResolveGenericType_ok ht]
          exact substitute_keys hv _ _ ((hk p.Ident).1 (List.mem_map.2 ⟨p, hp, rfl⟩))
        all_goals cases h
      all_goals cases h
    · exact getFieldLoop_params hc rest fty h

/-- C25. `ResolveGenericType` is the substitution of `env` into `t`: when it
returns, the result is `substitute env t`, and it returns unless the
substitution meets a node whose head is a key of `env` and which has
arguments, in which case it panics. With the empty `env` it returns `t`
itself, which is `TypeEqual` to `t`. When no type that `env` maps a key to
mentions a key of `env`, the result mentions no key of `env`; so the field
type that `getField` returns for a struct type whose arguments mention no
generic parameter of the struct mentions none of these parameters. -/
theorem C25_resolve_is_substitution (env : List (String × NamedType)) (t r : NamedType)
    (h : ResolveGenericType env t = .ok r) :
    r = substitute env t ∧ instantiatesParam env t = false ∧
    (∀ (env2 : List (String × NamedType)) (t2 : NamedType),
      ResolveGenericType env2 t2 =
        if instantiatesParam env2 t2 = true then .panic "cannot instantiate generic parameter"
        else .ok (substitute env2 t2)) ∧
    (∀ t2 : NamedType, ResolveGenericType [] t2 = .ok t2 ∧
      TypeEqual (.named (some t2)) (.named (some t2)) = .ok true) ∧
    ((∀ k v, env.lookup k = some v → ∀ k2, (env.lookup k2).isSome = true →
        k2 ∉ typeNames v) →
      ∀ k, (env.lookup k).isSome = true → k ∉ typeNames r) ∧
    (∀ (c : checker) (n : Ident) (args : List NamedType) (name : String) (i : Nat)
        (st : StructDecl) (fty : AstType),
      c.structs.lookup n.Ident = some i → c.decls[i]? = some st →
      (∀ a ∈ args, ∀ p ∈ st.Params, p.Ident ∉ typeNames a) →
      getField c (.named (some (.mk n args))) name = .ok fty →
      fty = .nil ∨ ∃ f, fty = .named (some f) ∧ ∀ p ∈ st.Params, p.Ident ∉ typeNames f) := by
  have hr := ResolveGenericType_ok h
  refine ⟨hr, ?_, ResolveGenericType_eq, ?_, ?_, ?_⟩
  · rw [ResolveGenericType_eq] at h
    split at h
    · cases h
    · rename_i hi
      simpa using hi
  · intro t2
    refine ⟨?_, ?_⟩
    · rw [ResolveGenericType_eq, instantiatesParam_nil, substitute_nil]
      simp
    · simp only [TypeEqual]
      exact TypeEqualNamed_refl t2
  · intro hv k hk
    rw [hr]
    exact substitute_keys hv t k hk
  · intro c n args name i st fty hl hd hc hg
    simp only [getField, NamedType.Name, hl, hd] at hg
    exact getFieldLoop_params (by simpa [NamedType.Args] using hc) _ _ hg

/-- C25 on `slice[T]` with `T` mapped to `i32`: the result is `slice[i32]`,
and it does not mention `T`. -/
theorem C25_resolve_is_substitution_witness :
    ResolveGenericType [("T", ast.Int32)] sliceOfParam =
        .ok (.mk ⟨⟨1, 1⟩, "slice"⟩ [ast.Int32]) ∧
      (.mk ⟨⟨1, 1⟩, "slice"⟩ [ast.Int32] : NamedType) =
        substitute [("T", ast.Int32)] sliceOfParam ∧
      "T" ∉ typeNames (.mk ⟨⟨1, 1⟩, "slice"⟩ [ast.Int32]) :=
  ⟨rfl, (C25_resolve_is_substitution [("T", ast.Int32)] sliceOfParam _ rfl).1,
    (C25_resolve_is_substitution [("T", ast.Int32)] sliceOfParam _ rfl).2.2.2.2.1
      (by
        intro k v hkv k2 hk2
        have e1 : v = ast.Int32 := by
          simp only [List.lookup] at hkv
          split at hkv
          · cases hkv; rfl
          · cases hkv
        have e2 : k2 = "T" := by
          simp only [List.lookup] at hk2
          split at hk2
          · rename_i hb; simpa using hb
          · cases hk2
        subst e1 e2
        decide)
      "T" rfl⟩

theorem genStmtSwitch_if {fuel : Nat} {g g' : generator} {pos : Pos} {cond : Expr}
    {body : List Stmt} {els : Option Stmt} {indent : Bool}
    (h : genStmtSwitch fuel g (.IfStmt pos cond body els) indent = .ok g') :
    ∃ c g1 g2 g3, genExpr fuel g cond = .ok (c, g1) ∧
      genBlockWith (fun g => genStmts fuel g body) (g1.write ("if (" ++ c ++ ") ")) = .ok g2 ∧
      genElse fuel g2 els = .ok g3 ∧ g' = if indent = true then g3.write "\n" else g3 := by
  simp only [genStmtSwitch] at h
  split at h
  · rename_i c g1 h1
    split at h
    · rename_i g2 h2
      split at h
      · rename_i g3 h3
        cases h
        exact ⟨c, g1, g2, g3, h1, h2, h3, rfl⟩
      · rename_i o ho
        exact (ho _ h).elim
    · rename_i o ho
      exact (ho _ h).elim
  all_goals cases h

/-- The flag `mut` that `checkExpr` returns is that of the binding of the
root of the expression, and false when there is no root. -/
theorem checkExpr_mut (c : checker) : ∀ (e : Expr) (r : result), checkExpr c e = .ok r →
    (r.isMut = true ↔ ∃ x v, e.root = some x ∧ findVar c.scope x = some v ∧ v.isMut = true)
  | .IntExpr _ _, r, h => by
    simp only [checkExpr, Res.ok.injEq] at h
    subst h
    simp [Expr.root]
  | .StringExpr _ _, r, h => by
    simp only [checkExpr, Res.ok.injEq] at h
    subst h
    simp [Expr.root]
  | .VarExpr name, r, h => by
    simp only [checkExpr] at h
    split at h
    · cases h
    · rename_i v hv
      simp only [Res.ok.injEq] at h
      subst h
      simp [Expr.root, hv]
  | .CallExpr fn args, r, h => by
    have hf : r.isMut = false := by
      simp only [checkExpr] at h
      split at h
      · split at h
        · split at h
          · cases h
          · split at h
            · simp only [Res.ok.injEq] at h
              subst h
              rfl
            all_goals cases h
        all_goals cases h
      · rename_i o ho
        exact (ho _ h).elim
    simp [Expr.root, hf]
  | .FieldExpr e field, r, h => by
    simp only [checkExpr] at h
    split at h
    · rename_i r0 h0
      have ih := checkExpr_mut c e r0 h0
      have hm : r.isMut = r0.isMut := by
        split at h
        · cases h
        · simp only [Res.ok.injEq] at h
          subst h
          rfl
        all_goals cases h
      simp only [Expr.root, hm]
      exact ih
    · rename_i o ho
      exact (ho _ h).elim

theorem mutIn_newScope {V : List String} {s : List scope} (h : MutIn V s) :
    MutIn V (newScope s) := by
  intro x v hx
  rw [findVar_newScope] at hx
  exact h x v hx

mutual
theorem checkStmt_targets (fuel : Nat) (V : List String) : ∀ (s : Stmt) (c : checker)
    (ret : Option NamedType) (r : Bool) (c' : checker), checkStmt fuel c s ret = .ok (r, c') →
    MutIn V c.scope → (∀ x ∈ s.varNames, x ∈ V) →
    MutIn V c'.scope ∧
      ∀ e ∈ s.assignTargets, ∃ x, e.root = some x ∧ x ∈ V ∧
        ∀ w, findVar c.scope x = some w → w.isMut = true
  | .ExprStmt e, c, ret, r, c', h, hm, hv => by
    simp only [checkStmt] at h
    split at h
    · split at h <;> simp at h
      rw [← h.2]
      exact ⟨hm, by simp [Stmt.assignTargets]⟩
    · cases h
  | .BlockStmt _ b, c, ret, r, c', h, hm, hv => by
    simp only [checkStmt] at h
    simp only [Stmt.assignTargets]
    exact checkBlock_targets fuel V b c ret r c' h hm (by simpa [Stmt.varNames] using hv)
  | .ReturnStmt _ e, c, ret, r, c', h, hm, hv => by
    simp only [checkStmt] at h
    split at h
    · cases h
    · cases h
    · simp at h; rw [← h.2]; exact ⟨hm, by simp [Stmt.assignTargets]⟩
    · split at h <;> simp at h
      rw [← h.2]; exact ⟨hm, by simp [Stmt.assignTargets]⟩
  | .VarStmt _ name ty e, c, ret, r, c', h, hm, hv => by
    simp only [checkStmt] at h
    split at h
    · cases h
    · split at h
      · rename_i s hs
        split at h
        · rename_i c1 h1
          have f := checkType_frame _ _ _ _ h1
          have hm1 : MutIn V c1.scope := by
            rw [f.scope]
            intro x v hx hmut
            simp only at hx
            rw [findVar_addVar hs] at hx
            split at hx
            · rename_i hxn
              rw [hxn]
              exact hv _ (by simp [Stmt.varNames])
            · exact hm x v hx hmut
          split at h
          · split at h <;> simp at h
            rw [← h.2]; exact ⟨hm1, by simp [Stmt.assignTargets]⟩
          · simp at h; rw [← h.2]; exact ⟨hm1, by simp [Stmt.assignTargets]⟩
        all_goals cases h
      all_goals cases h
  | .AssignStmt left right, c, ret, r, c', h, hm, hv => by
    simp only [checkStmt] at h
    split at h
    · rename_i l hl
      split at h
      · cases h
      · rename_i hmut
        have hmt : l.isMut = true := by simpa using hmut
        obtain ⟨x, v, hr, hf, hvm⟩ := (checkExpr_mut c left l hl).1 hmt
        split at h <;> simp at h
        rw [← h.2]
        refine ⟨hm, ?_⟩
        intro e he
        simp only [Stmt.assignTargets, List.mem_singleton] at he
        subst he
        refine ⟨x, hr, hm x v hf hvm, ?_⟩
        intro w hw
        rw [hf] at hw
        cases hw
        exact hvm
    all_goals cases h
  | .IfStmt _ cond body els, c, ret, r, c', h, hm, hv => by
    simp only [checkStmt] at h
    simp only [Stmt.varNames, List.mem_append] at hv
    split at h
    · split at h
      · rename_i rb c1 h1
        obtain ⟨m1, t1⟩ := checkBlock_targets fuel V body c.newScope ret _ _ h1
          (mutIn_newScope hm) (fun x hx => hv x (Or.inl hx))
        have hg := (checkBlock_grow fuel _ _ _ _ _ h1).1
        have hs1 : c1.popScope.scope = c.scope := (scopeGrow_newScope_body hg).1
        obtain ⟨m2, t2⟩ := checkElse_targets fuel V els c1.popScope ret _ r c' h
          (by rw [hs1]; exact hm) (fun x hx => hv x (Or.inr hx))
        refine ⟨m2, ?_⟩
        intro e he
        simp only [Stmt.assignTargets, List.mem_append] at he
        rcases he with he | he
        · obtain ⟨x, a, b, d⟩ := t1 e he
          exact ⟨x, a, b, fun w hw => d w (by
            simp only [checker.newScope, findVar_newScope]; exact hw)⟩
        · obtain ⟨x, a, b, d⟩ := t2 e he
          exact ⟨x, a, b, fun w hw => d w (by rw [hs1]; exact hw)⟩
      · rename_i o ho
        exact (ho _ _ h).elim
    all_goals cases h
  | .WhileStmt _ cond body, c, ret, r, c', h, hm, hv => by
    simp only [checkStmt] at h
    simp only [Stmt.varNames] at hv
    split at h
    · split at h
      · rename_i rb c1 h1
        obtain ⟨m1, t1⟩ := checkBlock_targets fuel V body c.newScope ret _ _ h1
          (mutIn_newScope hm) hv
        have hg := (checkBlock_grow fuel _ _ _ _ _ h1).1
        have hs1 : c1.popScope.scope = c.scope := (scopeGrow_newScope_body hg).1
        simp at h
        rw [← h.2]
        refine ⟨by rw [hs1]; exact hm, ?_⟩
        intro e he
        simp only [Stmt.assignTargets] at he
        obtain ⟨x, a, b, d⟩ := t1 e he
        exact ⟨x, a, b, fun w hw => d w (by
          simp only [checker.newScope, findVar_newScope]; exact hw)⟩
      · rename_i o ho
        exact (ho _ _ h).elim
    all_goals cases h
theorem checkElse_targets (fuel : Nat) (V : List String) : ∀ (s : Option Stmt) (c : checker)
    (ret : Option NamedType) (b r : Bool) (c' : checker),
    checkElse fuel c s ret b = .ok (r, c') →
    MutIn V c.scope → (∀ x ∈ varNamesElse s, x ∈ V) →
    MutIn V c'.scope ∧
      ∀ e ∈ assignTargetsElse s, ∃ x, e.root = some x ∧ x ∈ V ∧
        ∀ w, findVar c.scope x = some w → w.isMut = true
  | none, c, ret, b, r, c', h, hm, hv => by
    simp [checkElse] at h; rw [← h.2]
    exact ⟨hm, by simp [assignTargetsElse]⟩
  | some s, c, ret, b, r, c', h, hm, hv => by
    simp only [checkElse] at h
    split at h
    · rename_i r2 c1 h1
      obtain ⟨m1, t1⟩ := checkStmt_targets fuel V s c.newScope ret _ _ h1
        (mutIn_newScope hm) (by simpa [varNamesElse] using hv)
      have hg := (checkStmt_grow fuel _ _ _ _ _ h1).1
      have hs1 : c1.popScope.scope = c.scope := (scopeGrow_newScope_body hg).1
      simp at h
      rw [← h.2]
      refine ⟨by rw [hs1]; exact hm, ?_⟩
      intro e he
      simp only [assignTargetsElse] at he
      obtain ⟨x, a, b, d⟩ := t1 e he
      exact ⟨x, a, b, fun w hw => d w (by
        simp only [checker.newScope, findVar_newScope]; exact hw)⟩
    · rename_i o ho
      exact (ho _ _ h).elim
theorem checkBlock_targets (fuel : Nat) (V : List String) : ∀ (b : List Stmt) (c : checker)
    (ret : Option NamedType) (r : Bool) (c' : checker),
    checkBlock fuel c b ret = .ok (r, c') →
    MutIn V c.scope → (∀ x ∈ varNamesBlock b, x ∈ V) →
    MutIn V c'.scope ∧
      ∀ e ∈ assignTargetsBlock b, ∃ x, e.root = some x ∧ x ∈ V ∧
        ∀ w, findVar c.scope x = some w → w.isMut = true
  | [], c, ret, r, c', h, hm, hv => by
    simp [checkBlock] at h; rw [← h.2]
    exact ⟨hm, by simp [assignTargetsBlock]⟩
  | s :: rest, c, ret, r, c', h, hm, hv => by
    simp only [checkBlock] at h
    simp only [varNamesBlock, List.mem_append] at hv
    split at h
    · rename_i r1 c1 h1
      obtain ⟨m1, t1⟩ := checkStmt_targets fuel V s c ret _ _ h1 hm (fun x hx => hv x (Or.inl hx))
      have hg := (checkStmt_grow fuel _ _ _ _ _ h1).1
      split at h
      · rename_i r2 c2 h2
        obtain ⟨m2, t2⟩ := checkBlock_targets fuel V rest c1 ret _ _ h2 m1
          (fun x hx => hv x (Or.inr hx))
        simp at h
        rw [← h.2]
        refine ⟨m2, ?_⟩
        intro e he
        simp only [assignTargetsBlock, List.mem_append] at he
        rcases he with he | he
        · exact t1 e he
        · obtain ⟨x, a, b, d⟩ := t2 e he
          exact ⟨x, a, b, fun w hw => d w (hg.2 x w hw)⟩
      · rename_i o ho
        exact (ho _ _ h).elim
    · rename_i o ho
      exact (ho _ _ h).elim
end

theorem findVar_addType {s s' : List scope} {n : String} {g : GenericType}
    (h : addType s n g = .ok s') (x : String) : findVar s' x = findVar s x := by
  obtain ⟨_, sc, parent, rfl, rfl⟩ := addType_ok h
  simp only [findVar]

theorem addStructs_allImm : ∀ (sts : List StructDecl) (c c' : checker) (i : Nat),
    addStructs c i sts = .ok c' → AllImm c.scope → AllImm c'.scope
  | [], c, c', i, h, hi => by simp [addStructs] at h; subst h; exact hi
  | st :: rest, c, c', i, h, hi => by
    simp only [addStructs] at h
    split at h
    · cases h
    · split at h
      · rename_i s hs
        refine addStructs_allImm rest _ _ _ h ?_
        intro x v hx
        simp only at hx
        rw [findVar_addType hs] at hx
        exact hi x v hx
      all_goals cases h

theorem addFns_allImm : ∀ (fns : List FnDecl) (c c' : checker), addFns c fns = .ok c' →
    AllImm c.scope → AllImm c'.scope
  | [], c, c', h, hi => by simp [addFns] at h; subst h; exact hi
  | f :: rest, c, c', h, hi => by
    simp only [addFns] at h
    split at h
    · cases h
    · split at h
      · rename_i s hs
        refine addFns_allImm rest _ _ h ?_
        intro x v hx
        simp only at hx
        rw [findVar_addVar hs] at hx
        split at hx
        · cases hx; rfl
        · exact hi x v hx
      all_goals cases h

theorem checkFnParams_allImm (fuel : Nat) : ∀ (ps : List Param) (c c' : checker),
    checkFnParams fuel c ps = .ok c' → AllImm c.scope → AllImm c'.scope
  | [], c, c', h, hi => by simp [checkFnParams] at h; subst h; exact hi
  | p :: rest, c, c', h, hi => by
    simp only [checkFnParams] at h
    split at h
    · rename_i c1 h1
      have f := checkType_frame _ _ _ _ h1
      split at h
      · cases h
      · split at h
        · rename_i s hs
          refine checkFnParams_allImm fuel rest _ _ h ?_
          intro x v hx
          simp only at hx
          rw [findVar_addVar hs] at hx
          split at hx
          · cases hx; rfl
          · rw [f.scope] at hx
            exact hi x v hx
        all_goals cases h
    · rename_i o ho
      exact (ho _ h).elim

/-- The part of `checkFn` before the body binds nothing mutable and keeps the
bindings above it. -/
theorem checkFnSignature_allImm {fuel : Nat} {c c1 : checker} {fn : FnDecl}
    (h : checkFnSignature fuel c fn = .ok c1) (hi : AllImm c.scope) :
    AllImm c1.scope ∧ ∀ x w, findVar c.scope x = some w → findVar c1.scope x = some w := by
  have hn : AllImm c.newScope.scope := by
    intro x v hx
    simp only [checker.newScope, findVar_newScope] at hx
    exact hi x v hx
  simp only [checkFnSignature] at h
  split at h
  · split at h
    · rename_i c0 h0
      have f := checkType_frame _ _ _ _ h0
      refine ⟨checkFnParams_allImm fuel _ _ _ h (by rw [f.scope]; exact hn), ?_⟩
      intro x w hx
      apply (checkFnParams_bound fuel _ _ _ h).1.2
      rw [f.scope]
      simp only [checker.newScope, findVar_newScope]
      exact hx
    · rename_i o ho
      exact (ho _ h).elim
  · refine ⟨checkFnParams_allImm fuel _ _ _ h hn, ?_⟩
    intro x w hx
    apply (checkFnParams_bound fuel _ _ _ h).1.2
    simp only [checker.newScope, findVar_newScope]
    exact hx

/-- In a function that `checkFn` accepts from a chain without mutable
bindings, the left side of every assignment is rooted in a variable that a
var statement of the body declares and that is neither bound in that chain
nor a parameter. -/
theorem checkFn_targets {fuel : Nat} {c c' : checker} {fn : FnDecl}
    (h : checkFn fuel c fn = .ok c') (hi : AllImm c.scope) :
    ∀ t ∈ assignTargetsBlock (fn.Body.getD []), ∃ x, t.root = some x ∧
      x ∈ varNamesBlock (fn.Body.getD []) ∧ findVar c.scope x = none ∧
      x ∉ fn.Params.map (fun p => p.Name.Ident) := by
  simp only [checkFn] at h
  split at h
  · rename_i c1 h1
    obtain ⟨hi1, hg⟩ := checkFnSignature_allImm h1 hi
    have hb := checkFnSignature_bound h1
    split at h
    · rename_i r c2 h2
      have hm : MutIn (varNamesBlock (fn.Body.getD [])) c1.scope := by
        intro x v hx hmut
        rw [hi1 x v hx] at hmut
        cases hmut
      obtain ⟨_, ht⟩ := checkBlock_targets fuel _ _ _ _ _ _ h2 hm (fun x hx => hx)
      intro t htm
      obtain ⟨x, hr, hv, hw⟩ := ht t htm
      have hnone : findVar c1.scope x = none := by
        cases hf : findVar c1.scope x with
        | none => rfl
        | some w =>
          have a := hw w hf
          rw [hi1 x w hf] at a
          cases a
      refine ⟨x, hr, hv, ?_, ?_⟩
      · cases hf : findVar c.scope x with
        | none => rfl
        | some w =>
          rw [hg x w hf] at hnone
          cases hnone
      · intro hx
        simp only [List.mem_map] at hx
        obtain ⟨p, hp, rfl⟩ := hx
        rw [hb p hp] at hnone
        cases hnone
    all_goals cases h
  · rename_i o ho
    exact (ho _ h).elim

theorem checkFns_targets (fuel : Nat) : ∀ (fns : List FnDecl) (c c' : checker),
    checkFns fuel c fns = .ok c' → AllImm c.scope →
    ∀ fn ∈ fns, ∀ t ∈ assignTargetsBlock (fn.Body.getD []), ∃ x, t.root = some x ∧
      x ∈ varNamesBlock (fn.Body.getD []) ∧ findVar c.scope x = none ∧
      x ∉ fn.Params.map (fun p => p.Name.Ident)
  | [], _, _, _, _ => by simp
  | f :: rest, c, c', h, hi => by
    simp only [checkFns] at h
    split at h
    · rename_i c1 h1
      have e := (checkFn_fresh h1).1
      have ih := checkFns_targets fuel rest c1 c' h (by rw [e]; exact hi)
      rw [e] at ih
      intro fn hfn
      simp only [List.mem_cons] at hfn
      rcases hfn with rfl | hfn
      · exact checkFn_targets h1 hi
      · exact ih fn hfn
    · rename_i o ho
      exact (ho _ h).elim

theorem allImm_primitive (types : List (String × GenericType)) : AllImm [⟨[], types⟩] := by
  intro x v hx
  unfold findVar at hx
  split at hx
  · cases hx; rfl
  · simp at hx

/-- In a module that `CheckModule` accepts, the left side of every
assignment is rooted in a variable declared by a var statement of the same
function, which is no parameter, no function and neither `true` nor
`false`. -/
theorem CheckModule_targets {fuel : Nat} {m m' : Module} (h : CheckModule fuel m = .ok m') :
    ∀ fn ∈ m.Fns, ∀ t ∈ assignTargetsBlock (fn.Body.getD []), ∃ x, t.root = some x ∧
      x ∈ varNamesBlock (fn.Body.getD []) ∧ x ∉ fn.Params.map (fun p => p.Name.Ident) ∧
      x ∉ m.Fns.map (fun g => g.Name.Ident) ∧ x ≠ "true" ∧ x ≠ "false" := by
  obtain ⟨c, c1, c2, hc, hc1, hc2, _⟩ := CheckModule_ok h
  have hi : AllImm c.scope := by
    unfold checkModuleStructs at hc
    obtain ⟨s, hs, hd⟩ := Res.bind_eq_ok hc
    obtain ⟨c0, hc0, he⟩ := Res.bind_eq_ok hd
    rw [primitiveScope_eq] at hs
    cases hs
    have hi0 := addStructs_allImm _ _ _ _ hc0 (allImm_primitive _)
    rw [(checkStructs_frame fuel _ _ _ _ he).scope]
    exact hi0
  have hi1 := addFns_allImm _ _ _ hc1 hi
  have hb := (addFns_bound _ _ _ hc1).2
  intro fn hfn t ht
  obtain ⟨x, hr, hv, hnone, hp⟩ := checkFns_targets fuel _ _ _ hc2 hi1 fn hfn t ht
  refine ⟨x, hr, hv, hp, ?_, ?_, ?_⟩
  · intro hx
    simp only [List.mem_map] at hx
    obtain ⟨g, hg, rfl⟩ := hx
    have := hb g hg
    rw [hnone] at this
    cases this
  · intro hx
    rw [findVar_reserved _ _ (Or.inl hx)] at hnone
    cases hnone
  · intro hx
    rw [findVar_reserved _ _ (Or.inr hx)] at hnone
    cases hnone

/-- A var statement that `checkStmt` accepts leaves its name bound mutable. -/
theorem checkStmt_var_mut {fuel : Nat} {c c' : checker} {pos : Pos} {x : Ident}
    {T : NamedType} {init : Option Expr} {ret : Option NamedType} {b : Bool}
    (h : checkStmt fuel c (.VarStmt pos x T init) ret = .ok (b, c')) :
    findVar c'.scope x.Ident = some ⟨.named (some T), true⟩ := by
  simp only [checkStmt] at h
  split at h
  · cases h
  · split at h
    · rename_i s hs
      have hv : findVar s x.Ident = some ⟨.named (some T), true⟩ := by
        rw [findVar_addVar hs]; simp
      split at h
      · rename_i c1 h1
        have f := checkType_frame _ _ _ _ h1
        have e : c'.scope = s := by
          split at h
          · split at h
            · cases h; exact f.scope
            all_goals cases h
          · cases h; exact f.scope
        rw [e]; exact hv
      all_goals cases h
    all_goals cases h

/-- C23. When `checkExpr` succeeds on `e`, the flag `mut` it returns is true
if and only if `e` is rooted in a variable (it is a variable reference or a
chain of field accesses on one) whose binding in the scope chain is mutable;
literals and calls have no root and are immutable. The only bindings made
mutable are those of var statements: the function names (third loop of
`CheckModule`) and the parameters are bound immutable, `true` and `false`
are looked up as immutable, and a statement adds mutable bindings only for
names its var statements declare, and a var statement leaves its name bound
mutable. So in a module that `CheckModule` accepts,
the left side of every assignment is rooted in a variable declared by a var
statement of the same function, which is no parameter, no function and
neither `true` nor `false`. -/
theorem C23_mut_iff_var_rooted (c : checker) (e : Expr) (r : result)
    (h : checkExpr c e = .ok r) :
    (r.isMut = true ↔
      ∃ x v, e.root = some x ∧ findVar c.scope x = some v ∧ v.isMut = true) ∧
    (e.root = none → r.isMut = false) ∧
    (∀ (s : List scope) (x : String), x = "true" ∨ x = "false" →
      ∃ v, findVar s x = some v ∧ v.isMut = false) ∧
    (∀ (fns : List FnDecl) (c0 c1 : checker), addFns c0 fns = .ok c1 →
      AllImm c0.scope → AllImm c1.scope) ∧
    (∀ (fuel : Nat) (c0 c1 : checker) (fn : FnDecl), checkFnSignature fuel c0 fn = .ok c1 →
      AllImm c0.scope → AllImm c1.scope) ∧
    (∀ (fuel : Nat) (V : List String) (s : Stmt) (c2 c3 : checker) (ret : Option NamedType)
        (b : Bool),
      checkStmt fuel c2 s ret = .ok (b, c3) → MutIn V c2.scope →
      (∀ x ∈ s.varNames, x ∈ V) → MutIn V c3.scope) ∧
    (∀ (fuel : Nat) (c2 c3 : checker) (pos : Pos) (x : Ident) (T : NamedType)
        (init : Option Expr) (ret : Option NamedType) (b : Bool),
      checkStmt fuel c2 (.VarStmt pos x T init) ret = .ok (b, c3) →
      findVar c3.scope x.Ident = some ⟨.named (some T), true⟩) ∧
    (∀ (fuel : Nat) (m m' : Module), CheckModule fuel m = .ok m' →
      ∀ fn ∈ m.Fns, ∀ t ∈ assignTargetsBlock (fn.Body.getD []), ∃ x, t.root = some x ∧
        x ∈ varNamesBlock (fn.Body.getD []) ∧ x ∉ fn.Params.map (fun p => p.Name.Ident) ∧
        x ∉ m.Fns.map (fun g => g.Name.Ident) ∧ x ≠ "true" ∧ x ≠ "false") := by
  have hiff := checkExpr_mut c e r h
  refine ⟨hiff, ?_, ?_, addFns_allImm, ?_, ?_,
    fun fuel c2 c3 pos x T init ret b hs => checkStmt_var_mut hs,
    fun fuel m m' hm => CheckModule_targets hm⟩
  · intro hn
    cases hm : r.isMut with
    | false => rfl
    | true =>
      obtain ⟨x, v, hx, _⟩ := hiff.1 hm
      rw [hn] at hx
      cases hx
  · intro s x hx
    exact ⟨_, findVar_reserved s x hx, rfl⟩
  · intro fuel c0 c1 fn hs hi
    exact (checkFnSignature_allImm hs hi).1
  · intro fuel V s c2 c3 ret b hs hm hv
    exact (checkStmt_targets fuel V s c2 ret b c3 hs hm hv).1

/-- C23 on a chain with the mutable `v` and the immutable `p`: `v` is
mutable, `p` and the literal `1` are not; and in the accepted module
`fn f() { var x: i32; x = 2; }` the assignment is rooted in the declared
`x`. -/
theorem C23_mut_iff_var_rooted_witness :
    checkExpr mutState (.VarExpr ⟨⟨1, 1⟩, "v"⟩) = .ok ⟨.named (some ast.Int32), true⟩ ∧
      ((⟨.named (some ast.Int32), true⟩ : result).isMut = true ↔
        ∃ x v, (Expr.VarExpr ⟨⟨1, 1⟩, "v"⟩).root = some x ∧
          findVar mutState.scope x = some v ∧ v.isMut = true) ∧
      checkExpr mutState (.VarExpr ⟨⟨1, 1⟩, "p"⟩) = .ok ⟨.named (some ast.Int32), false⟩ ∧
      checkExpr mutState (.IntExpr ⟨1, 1⟩ "1") = .ok ⟨.named (some ast.Int32), false⟩ ∧
      (CheckModule 2 assignVarModule).isOk = true ∧
      (CheckModule 2 assignParamModule).isOk = false :=
  ⟨rfl, (C23_mut_iff_var_rooted mutState (.VarExpr ⟨⟨1, 1⟩, "v"⟩) _ rfl).1, rfl, rfl, rfl,
    rfl⟩

theorem Res.isDupPanic_panic {α β : Type} {x : Res α} {m : String} (h : x = .panic m)
    (ih : x.isDupPanic = false) : (Res.panic m : Res β).isDupPanic = false := by
  subst h; exact ih

theorem Res.isDupPanic_bind {α β : Type} {x : Res α} {f : α → Res β}
    (hx : x.isDupPanic = false) (hf : ∀ a, x = .ok a → (f a).isDupPanic = false) :
    (x.bind f).isDupPanic = false := by
  cases x with
  | ok a => exact hf a rfl
  | diag p m => rfl
  | panic m => exact hx
  | nofuel => rfl

/-- After a lookup that finds nothing, `addVar` does not panic. -/
theorem addVar_guarded {s : List scope} {name : String} (v : scopeVar)
    (h : (findVar s name).isSome = false) : (addVar s name v).isDupPanic = false := by
  have hn : ¬ (name = "true" ∨ name = "false") := by
    intro hr
    rw [findVar_reserved s name hr] at h
    cases h
  unfold addVar
  rw [if_neg (by simp [h, hn])]
  cases s <;> rfl

/-- After a lookup that finds nothing, `addType` does not panic. -/
theorem addType_guarded {s : List scope} {name : String} (t : GenericType)
    (h : (findType s name).isSome = false) : (addType s name t).isDupPanic = false := by
  unfold addType
  rw [if_neg (by simp [h])]
  cases s <;> rfl

mutual
theorem TypeEqualNamed_nodup : ∀ a b : NamedType, (TypeEqualNamed a b).isDupPanic = false
  | .mk ln la, .mk rn ra => by
    unfold TypeEqualNamed
    split
    · rfl
    · split
      · rfl
      · exact TypeEqualArgs_nodup la ra
theorem TypeEqualArgs_nodup : ∀ a b : List NamedType, (TypeEqualArgs a b).isDupPanic = false
  | [], _ => by unfold TypeEqualArgs; rfl
  | _ :: _, [] => by unfold TypeEqualArgs; rfl
  | l :: ls, r :: rs => by
    unfold TypeEqualArgs
    split
    · exact TypeEqualArgs_nodup ls rs
    · exact TypeEqualNamed_nodup l r
end

theorem TypeEqual_nodup (a b : AstType) : (TypeEqual a b).isDupPanic = false := by
  unfold TypeEqual
  split
  · split
    · exact TypeEqualNamed_nodup _ _
    · rfl
  · rfl

mutual
theorem ResolveGenericType_nodup (env : List (String × NamedType)) :
    ∀ t : NamedType, (ResolveGenericType env t).isDupPanic = false
  | .mk name args => by
    unfold ResolveGenericType
    split
    · split <;> rfl
    · split
      · rfl
      · rfl
      · exact Res.isDupPanic_panic (by assumption) (ResolveGenericArgs_nodup env args)
      · rfl
theorem ResolveGenericArgs_nodup (env : List (String × NamedType)) :
    ∀ ts : List NamedType, (ResolveGenericArgs env ts).isDupPanic = false
  | [] => by unfold ResolveGenericArgs; rfl
  | arg :: rest => by
    unfold ResolveGenericArgs
    split
    · split
      · rfl
      · rename_i o ho
        have ih := ResolveGenericArgs_nodup env rest
        cases hr : ResolveGenericArgs env rest with
        | ok a => exact (ho a hr).elim
        | diag p m => rfl
        | panic m => rw [hr] at ih; exact ih
        | nofuel => rfl
    · rfl
    · exact Res.isDupPanic_panic (by assumption) (ResolveGenericType_nodup env arg)
    · rfl
end

theorem GetGenericEnv_nodup (st : StructDecl) (args : List NamedType) :
    (GetGenericEnv st args).isDupPanic = false := by
  unfold GetGenericEnv
  split <;> rfl

theorem getFieldLoop_nodup (st : StructDecl) (nty : NamedType) (name : String) :
    ∀ fields : List Param, (getFieldLoop st nty name fields).isDupPanic = false
  | [] => by unfold getFieldLoop; rfl
  | field :: rest => by
    unfold getFieldLoop
    split
    · split
      · split
        · rfl
        · rfl
        · exact Res.isDupPanic_panic (by assumption) (ResolveGenericType_nodup _ _)
        · rfl
      · rfl
      · exact Res.isDupPanic_panic (by assumption) (GetGenericEnv_nodup _ _)
      · rfl
    · exact getFieldLoop_nodup st nty name rest

theorem getField_nodup (c : checker) (ty : AstType) (name : String) :
    (getField c ty name).isDupPanic = false := by
  unfold getField
  split
  · rfl
  · split
    · split
      · exact getFieldLoop_nodup _ _ _ _
      · rfl
    · rfl
  · rfl

theorem checkCoerceResult_nodup (r : Res result) (pos : Pos) (ty : AstType)
    (hr : r.isDupPanic = false) : (checkCoerceResult r pos ty).isDupPanic = false := by
  unfold checkCoerceResult
  split
  · split
    · rfl
    · split
      · rfl
      · rfl
      · rfl
      · exact Res.isDupPanic_panic (by assumption) (TypeEqual_nodup _ _)
      · rfl
  · rfl
  · exact hr
  · rfl

mutual
theorem checkExpr_nodup (c : checker) : ∀ e : Expr, (checkExpr c e).isDupPanic = false
  | .IntExpr _ _ => by unfold checkExpr; rfl
  | .StringExpr _ _ => by unfold checkExpr; rfl
  | .VarExpr name => by
    unfold checkExpr
    split <;> rfl
  | .CallExpr fn args => by
    have ih := checkExpr_nodup c fn
    unfold checkExpr
    split
    · split
      · split
        · rfl
        · split
          · rfl
          · rfl
          · exact Res.isDupPanic_panic (by assumption) (checkExprArgs_nodup c args _)
          · rfl
      · rfl
      · rfl
    · exact ih
  | .FieldExpr expr field => by
    have ih := checkExpr_nodup c expr
    unfold checkExpr
    split
    · split
      · rfl
      · rfl
      · rfl
      · exact Res.isDupPanic_panic (by assumption) (getField_nodup _ _ _)
      · rfl
    · exact ih
theorem checkExprArgs_nodup (c : checker) : ∀ (args : List Expr) (params : List NamedType),
    (checkExprArgs c args params).isDupPanic = false
  | [], _ => by unfold checkExprArgs; rfl
  | _ :: _, [] => by unfold checkExprArgs; rfl
  | arg :: args, param :: params => by
    unfold checkExprArgs
    split
    · exact checkExprArgs_nodup c args params
    · exact checkCoerceResult_nodup _ _ _ (checkExpr_nodup c arg)
end

theorem checkCoerce_nodup (c : checker) (e : Expr) (ty : AstType) :
    (checkCoerce c e ty).isDupPanic = false :=
  checkCoerceResult_nodup _ _ _ (checkExpr_nodup c e)

theorem checkStructParams_nodup : ∀ (ps : List Ident) (c : checker),
    (checkStructParams c ps).isDupPanic = false
  | [], c => by unfold checkStructParams; rfl
  | p :: rest, c => by
    unfold checkStructParams
    split
    · rfl
    · rename_i hf
      split
      · exact checkStructParams_nodup rest _
      · rfl
      · exact Res.isDupPanic_panic (by assumption)
          (addType_guarded ⟨[]⟩ (by simpa using hf))
      · rfl

theorem checkStructFields_nodup {ct : checker → NamedType → Res checker}
    (hct : ∀ c t, (ct c t).isDupPanic = false) : ∀ (fs : List Param) (c : checker)
    (seen : List String), (checkStructFields ct c seen fs).isDupPanic = false
  | [], c, seen => by unfold checkStructFields; rfl
  | f :: rest, c, seen => by
    unfold checkStructFields
    split
    · rfl
    · split
      · exact checkStructFields_nodup hct rest _ _
      · exact hct _ _

theorem checkStructWith_nodup {ct : checker → NamedType → Res checker}
    (hct : ∀ c t, (ct c t).isDupPanic = false) (c : checker) (decl : Nat) :
    (checkStructWith ct c decl).isDupPanic = false := by
  unfold checkStructWith
  split
  · rfl
  · split
    · rfl
    · split
      · rfl
      · split
        · simp only
          split
          · rfl
          · split
            · rfl
            · exact checkStructFields_nodup hct _ _ _
        · exact checkStructParams_nodup _ _

theorem checkTypeArgs_nodup {ct : checker → NamedType → Res checker}
    (hct : ∀ c t, (ct c t).isDupPanic = false) : ∀ (args : List NamedType) (c : checker),
    (checkTypeArgs ct c args).isDupPanic = false
  | [], c => by unfold checkTypeArgs; rfl
  | a :: rest, c => by
    unfold checkTypeArgs
    split
    · exact checkTypeArgs_nodup hct rest _
    · exact hct _ _

theorem checkType_nodup : ∀ (fuel : Nat) (c : checker) (ty : NamedType),
    (checkType fuel c ty).isDupPanic = false
  | 0, _, _ => by unfold checkType; rfl
  | fuel + 1, c, ty => by
    unfold checkType
    split
    · rfl
    · split
      · rfl
      · split
        · split
          · exact checkStructWith_nodup (checkType_nodup fuel) _ _
          · rfl
        · exact checkTypeArgs_nodup (checkType_nodup fuel) _ _

mutual
theorem checkStmt_nodup (fuel : Nat) : ∀ (s : Stmt) (c : checker) (ret : Option NamedType),
    (checkStmt fuel c s ret).isDupPanic = false
  | .ExprStmt e, c, ret => by
    unfold checkStmt
    split
    · split
      · rfl
      · rfl
      · exact Res.isDupPanic_panic (by assumption) (checkExpr_nodup c e)
      · rfl
    · rfl
  | .BlockStmt _ block, c, ret => by
    unfold checkStmt
    exact checkBlock_nodup fuel block c ret
  | .ReturnStmt pos expr, c, ret => by
    unfold checkStmt
    split
    · rfl
    · rfl
    · rfl
    · split
      · rfl
      · rfl
      · exact Res.isDupPanic_panic (by assumption) (checkCoerce_nodup _ _ _)
      · rfl
  | .VarStmt _ name ty expr, c, ret => by
    unfold checkStmt
    split
    · rfl
    · rename_i hf
      split
      · split
        · split
          · split
            · rfl
            · rfl
            · exact Res.isDupPanic_panic (by assumption) (checkCoerce_nodup _ _ _)
            · rfl
          · rfl
        · rfl
        · exact Res.isDupPanic_panic (by assumption) (checkType_nodup fuel _ _)
        · rfl
      · rfl
      · exact Res.isDupPanic_panic (by assumption)
          (addVar_guarded ⟨.named (some ty), true⟩ (by simpa using hf))
      · rfl
  | .AssignStmt left right, c, ret => by
    unfold checkStmt
    split
    · split
      · rfl
      · split
        · rfl
        · rfl
        · exact Res.isDupPanic_panic (by assumption) (checkCoerce_nodup _ _ _)
        · rfl
    · rfl
    · exact Res.isDupPanic_panic (by assumption) (checkExpr_nodup c left)
    · rfl
  | .IfStmt _ cond body els, c, ret => by
    unfold checkStmt
    split
    · split
      · exact checkElse_nodup fuel els _ ret _
      · exact checkBlock_nodup fuel body _ ret
    · rfl
    · exact Res.isDupPanic_panic (by assumption) (checkCoerce_nodup _ _ _)
    · rfl
  | .WhileStmt _ cond body, c, ret => by
    unfold checkStmt
    split
    · split
      · rfl
      · exact checkBlock_nodup fuel body _ ret
    · rfl
    · exact Res.isDupPanic_panic (by assumption) (checkCoerce_nodup _ _ _)
    · rfl
theorem checkElse_nodup (fuel : Nat) : ∀ (els : Option Stmt) (c : checker)
    (ret : Option NamedType) (returns : Bool),
    (checkElse fuel c els ret returns).isDupPanic = false
  | none, c, ret, returns => by unfold checkElse; rfl
  | some s, c, ret, returns => by
    unfold checkElse
    split
    · rfl
    · exact checkStmt_nodup fuel s _ ret
theorem checkBlock_nodup (fuel : Nat) : ∀ (b : List Stmt) (c : checker)
    (ret : Option NamedType), (checkBlock fuel c b ret).isDupPanic = false
  | [], c, ret => by unfold checkBlock; rfl
  | stmt :: rest, c, ret => by
    unfold checkBlock
    split
    · split
      · rfl
      · exact checkBlock_nodup fuel rest _ ret
    · exact checkStmt_nodup fuel stmt c ret
end

theorem checkFnParams_nodup (fuel : Nat) : ∀ (ps : List Param) (c : checker),
    (checkFnParams fuel c ps).isDupPanic = false
  | [], c => by unfold checkFnParams; rfl
  | p :: rest, c => by
    unfold checkFnParams
    split
    · split
      · rfl
      · rename_i hf
        split
        · exact checkFnParams_nodup fuel rest _
        · rfl
        · exact Res.isDupPanic_panic (by assumption)
            (addVar_guarded ⟨.named (some p.Ty), false⟩ (by simpa using hf))
        · rfl
    · exact checkType_nodup fuel _ _

theorem checkFnSignature_nodup (fuel : Nat) (c : checker) (fn : FnDecl) :
    (checkFnSignature fuel c fn).isDupPanic = false := by
  unfold checkFnSignature
  split
  · split
    · exact checkFnParams_nodup fuel _ _
    · exact checkType_nodup fuel _ _
  · exact checkFnParams_nodup fuel _ _

theorem checkFn_nodup (fuel : Nat) (c : checker) (fn : FnDecl) :
    (checkFn fuel c fn).isDupPanic = false := by
  unfold checkFn
  split
  · split
    · split
      · split <;> rfl
      · rfl
    · rfl
    · exact Res.isDupPanic_panic (by assumption) (checkBlock_nodup fuel _ _ _)
    · rfl
  · exact checkFnSignature_nodup fuel c fn

theorem addStructs_nodup : ∀ (sts : List StructDecl) (c : checker) (i : Nat),
    (addStructs c i sts).isDupPanic = false
  | [], c, i => by unfold addStructs; rfl
  | st :: rest, c, i => by
    unfold addStructs
    split
    · rfl
    · rename_i hf
      split
      · exact addStructs_nodup rest _ _
      · rfl
      · exact Res.isDupPanic_panic (by assumption)
          (addType_guarded ⟨st.Params.map (fun p => p.Ident)⟩ (by simpa using hf))
      · rfl

theorem checkStructs_nodup (fuel : Nat) : ∀ (n : Nat) (c : checker) (i : Nat),
    (checkStructs fuel c i n).isDupPanic = false
  | 0, c, i => by unfold checkStructs; rfl
  | n + 1, c, i => by
    unfold checkStructs
    split
    · exact checkStructs_nodup fuel n _ _
    · exact checkStructWith_nodup (checkType_nodup fuel) _ _

theorem addFns_nodup : ∀ (fns : List FnDecl) (c : checker), (addFns c fns).isDupPanic = false
  | [], c => by unfold addFns; rfl
  | fn :: rest, c => by
    unfold addFns
    split
    · rfl
    · rename_i hf
      split
      · exact addFns_nodup rest _
      · rfl
      · exact Res.isDupPanic_panic (by assumption)
          (addVar_guarded ⟨.fn ⟨fn.Params.map (fun p => p.Ty), fn.Return⟩, false⟩
            (by simpa using hf))
      · rfl

theorem checkFns_nodup (fuel : Nat) : ∀ (fns : List FnDecl) (c : checker),
    (checkFns fuel c fns).isDupPanic = false
  | [], c => by unfold checkFns; rfl
  | fn :: rest, c => by
    unfold checkFns
    split
    · exact checkFns_nodup fuel rest _
    · exact checkFn_nodup fuel c fn

theorem checkModuleStructs_nodup (fuel : Nat) (m : Module) :
    (checkModuleStructs fuel m).isDupPanic = false := by
  unfold checkModuleStructs
  rw [primitiveScope_eq]
  refine Res.isDupPanic_bind rfl (fun s _ => ?_)
  exact Res.isDupPanic_bind (addStructs_nodup _ _ _) (fun c _ => checkStructs_nodup fuel _ _ _)

/-- C24. For every module and every recursion budget, `CheckModule` ends
neither with the panic `duplicate variable name` of `addVar` nor with the
panic `duplicate type name` of `addType`. The four primitive types are added
to the fresh global scope without a panic; every other `addType` (struct
names in the first loop, generic parameters in `checkStruct`) and every
`addVar` (function names in the third loop, parameters in `checkFn`, the var
statement) follows a lookup of the same name in the same scope chain, and
when the lookup finds the name the step ends with a diagnostic; when it
finds nothing the addition does not panic. `findVar` answers `true` and
`false` as bound in every scope chain, so these names never reach `addVar`. -/
theorem C24_no_duplicate_panic (fuel : Nat) (m : Module) :
    CheckModule fuel m ≠ .panic "duplicate variable name" ∧
    CheckModule fuel m ≠ .panic "duplicate type name" ∧
    (∃ s, primitiveScope = .ok s) ∧
    (∀ (s : List scope) (name : String) (v : scopeVar), (findVar s name).isSome = false →
      (addVar s name v).isDupPanic = false) ∧
    (∀ (s : List scope) (name : String) (t : GenericType), (findType s name).isSome = false →
      (addType s name t).isDupPanic = false) ∧
    (∀ (c : checker) (i : Nat) (st : StructDecl) (rest : List StructDecl),
      (findType c.scope st.Name.Ident).isSome = true →
      addStructs c i (st :: rest) =
        .diag st.Name.Pos ("duplicate type '" ++ st.Name.Ident ++ "'")) ∧
    (∀ (c : checker) (p : Ident) (rest : List Ident),
      (findType c.scope p.Ident).isSome = true →
      checkStructParams c (p :: rest) =
        .diag p.Pos ("duplicate type '" ++ p.Ident ++ "'")) ∧
    (∀ (c : checker) (fn : FnDecl) (rest : List FnDecl),
      (findVar c.scope fn.Name.Ident).isSome = true →
      addFns c (fn :: rest) =
        .diag fn.Name.Pos ("duplicate identifier '" ++ fn.Name.Ident ++ "'")) ∧
    (∀ (c c1 : checker) (p : Param) (rest : List Param), checkType fuel c p.Ty = .ok c1 →
      (findVar c1.scope p.Name.Ident).isSome = true →
      checkFnParams fuel c (p :: rest) =
        .diag p.Name.Pos ("duplicate identifier '" ++ p.Name.Ident ++ "'")) ∧
    (∀ (c : checker) (pos : Pos) (x : Ident) (T : NamedType) (init : Option Expr)
        (ret : Option NamedType), (findVar c.scope x.Ident).isSome = true →
      checkStmt fuel c (.VarStmt pos x T init) ret =
        .diag x.Pos ("duplicate identifier '" ++ x.Ident ++ "'")) ∧
    (∀ (s : List scope) (name : String), name = "true" ∨ name = "false" →
      (findVar s name).isSome = true) := by
  have hm : (CheckModule fuel m).isDupPanic = false := by
    unfold CheckModule
    refine Res.isDupPanic_bind (checkModuleStructs_nodup fuel m) (fun c _ => ?_)
    refine Res.isDupPanic_bind (addFns_nodup _ _) (fun c1 _ => ?_)
    exact Res.isDupPanic_bind (checkFns_nodup fuel _ _) (fun c2 _ => rfl)
  refine ⟨?_, ?_, ⟨_, primitiveScope_eq⟩, fun s name v h => addVar_guarded v h,
    fun s name t h => addType_guarded t h, ?_, ?_, ?_, ?_, ?_, ?_⟩
  · intro h
    rw [h] at hm
    exact absurd hm (by decide)
  · intro h
    rw [h] at hm
    exact absurd hm (by decide)
  · intro c i st rest h
    simp [addStructs, h]
  · intro c p rest h
    simp [checkStructParams, h]
  · intro c fn rest h
    simp [addFns, h]
  · intro c c1 p rest hc h
    simp [checkFnParams, hc, h]
  · intro c pos x T init ret h
    simp [checkStmt, h]
  · intro s name h
    rw [findVar_reserved s name h]
    rfl

/-- C24 on `struct i32 { x: i32; }` with `fn true() { }`: the struct name is
found by the lookup of the first loop and the run ends with the diagnostic at
1:8, not with a panic, and the third loop answers the function name `true`
with the diagnostic at 2:4; called without the lookup, `addVar` and `addType`
do panic on a bound name. -/
theorem C24_no_duplicate_panic_witness :
    CheckModule 4 shadowModule = .diag ⟨1, 8⟩ "duplicate type 'i32'" ∧
      CheckModule 4 shadowModule ≠ .panic "duplicate variable name" ∧
      CheckModule 4 shadowModule ≠ .panic "duplicate type name" ∧
      addFns ⟨[⟨[], []⟩], [], []⟩ shadowModule.Fns =
        .diag ⟨2, 4⟩ "duplicate identifier 'true'" ∧
      addVar [⟨[], []⟩] "true" ⟨.named (some ast.Bool), false⟩ =
        .panic "duplicate variable name" ∧
      addType [⟨[], [("i32", ⟨[]⟩)]⟩] "i32" ⟨[]⟩ = .panic "duplicate type name" :=
  ⟨rfl, (C24_no_duplicate_panic 4 shadowModule).1, (C24_no_duplicate_panic 4 shadowModule).2.1,
    rfl, rfl, rfl⟩

theorem InstStep.refl_inst (g : generator) : InstStep g g := fun h => h

theorem InstStep.trans_inst {a b c : generator} (h1 : InstStep a b) (h2 : InstStep b c) :
    InstStep a c := fun h => h2 (h1 h)

theorem InstStep.same_inst {g g' : generator} (h1 : g'.counter = g.counter)
    (h2 : g'.instances = g.instances) : InstStep g g' := by
  intro ⟨c, n, d⟩
  exact ⟨by rw [h1, h2]; exact c, by rw [h2]; exact n, by rw [h2]; exact d⟩

theorem TypeEqual_named_true_iff (a b : NamedType) :
    TypeEqual (.named (some a)) (.named (some b)) = .ok true ↔ a.erasePos = b.erasePos := by
  simp only [TypeEqual]
  exact TypeEqualNamed_true_iff a b

theorem findInstance_none {t : NamedType} : ∀ (l : List genericInstance),
    findInstance t l = .ok none →
    ∀ inst ∈ l, TypeEqual (.named (some inst.ty)) (.named (some t)) = .ok false
  | [], _, inst, hm => by simp at hm
  | i :: rest, h, inst, hm => by
    simp only [findInstance] at h
    split at h
    · cases h
    · rename_i hf
      simp only [List.mem_cons] at hm
      rcases hm with rfl | hm
      · exact hf
      · exact findInstance_none rest h inst hm
    all_goals cases h

/-- Entering a type that the instance list does not hold keeps the
invariant. -/
theorem InstInv.enter {g : generator} {t : NamedType} (hi : InstInv g)
    (hf : findInstance t g.instances = .ok none) : InstInv (g.enter t) := by
  obtain ⟨c, n, d⟩ := hi
  have hnone := findInstance_none _ hf
  have old : ∀ (i : Nat) (a : genericInstance),
      (g.instances ++ [⟨t, "ty" ++ toString g.counter⟩])[i]? = some a →
      (i < g.instances.length ∧ g.instances[i]? = some a) ∨
      (i = g.instances.length ∧ a = ⟨t, "ty" ++ toString g.counter⟩) := by
    intro i a ha
    by_cases hlt : i < g.instances.length
    · rw [List.getElem?_append_left hlt] at ha
      exact Or.inl ⟨hlt, ha⟩
    · rw [List.getElem?_append_right (by omega)] at ha
      have hz : i - g.instances.length = 0 := by
        by_contra hne
        rw [List.getElem?_eq_none (by simp; omega)] at ha
        cases ha
      rw [hz] at ha
      simp only [List.getElem?_cons_zero, Option.some.injEq] at ha
      exact Or.inr ⟨by omega, ha.symm⟩
  refine ⟨by simp [generator.enter, c], ?_, ?_⟩
  · intro i a ha
    simp only [generator.enter] at ha
    rcases old i a ha with ⟨_, h⟩ | ⟨h, rfl⟩
    · exact n i a h
    · rw [h, ← c]
  · intro i j a b ha hb he
    simp only [generator.enter] at ha hb
    rcases old i a ha with ⟨hil, h1⟩ | ⟨h1, rfl⟩ <;> rcases old j b hb with ⟨hjl, h2⟩ | ⟨h2, rfl⟩
    · exact d i j a b h1 h2 he
    · have := hnone a (List.getElem?_mem h1)
      rw [this] at he
      cases he
    · have h3 := (TypeEqual_named_true_iff _ _).2 ((TypeEqual_named_true_iff _ _).1 he).symm
      have := hnone b (List.getElem?_mem h2)
      simp only at h3
      rw [this] at h3
      cases h3
    · omega

theorem genStructFields_inst {gt : generator → NamedType → Res (String × generator)}
    (hgt : ∀ g ty s g', gt g ty = .ok (s, g') → InstStep g g')
    {env : List (String × NamedType)} :
    ∀ (fs : List Param) (g : generator) (out out' : List (String × String)) (g' : generator),
      genStructFields gt env g out fs = .ok (out', g') → InstStep g g'
  | [], g, out, out', g', h => by
    simp only [genStructFields] at h
    cases h
    exact InstStep.refl_inst _
  | f :: rest, g, out, out', g', h => by
    simp only [genStructFields] at h
    split at h
    · rename_i ty hty
      split at h
      · rename_i cty g1 hg1
        exact (hgt _ _ _ _ hg1).trans_inst (genStructFields_inst hgt rest _ _ _ _ h)
      all_goals cases h
    all_goals cases h

theorem genType_inst : ∀ (fuel : Nat) (g : generator) (t : NamedType) (s : String)
    (g' : generator), genType fuel g t = .ok (s, g') → InstStep g g'
  | 0, _, _, _, _, h => by simp [genType] at h
  | fuel + 1, g, t, s, g', h => by
    rcases genType_ok_cases h with ⟨rfl, _⟩ | ⟨_, _, _, h⟩
    · exact InstStep.refl_inst _
    · rcases h with ⟨name, _, _, rfl⟩ | ⟨fuel', hfu, hf, _, h⟩
      · exact InstStep.refl_inst _
      · cases hfu
        have p0 : InstStep g (g.enter t) := fun hi => hi.enter hf
        rcases h with ⟨elt, rest, _, _, h⟩ | ⟨_, h⟩
        · simp only [genSlice] at h
          split at h
          · rename_i cty g1 hg1
            cases h
            exact (p0.trans_inst (genType_inst fuel _ _ _ _ hg1)).trans_inst
              (InstStep.same_inst rfl rfl)
          all_goals cases h
        · simp only [genStruct] at h
          split at h
          · cases h
          · split at h
            · split at h
              · rename_i out g1 hg1
                cases h
                exact (p0.trans_inst
                  (genStructFields_inst (genType_inst fuel) _ _ _ _ _ hg1)).trans_inst
                  (InstStep.same_inst rfl rfl)
              all_goals cases h
            all_goals cases h

mutual
theorem genExpr_inst (fuel : Nat) : ∀ (e : Expr) (g g' : generator) (s : String),
    genExpr fuel g e = .ok (s, g') → InstStep g g'
  | .IntExpr _ _, g, g', s, h => by
    simp only [genExpr] at h; cases h; exact InstStep.refl_inst _
  | .StringExpr _ _, g, g', s, h => by
    simp only [genExpr] at h
    split at h
    · rename_i ty g1 h1
      cases h
      exact genType_inst _ _ _ _ _ h1
    · rename_i o ho
      exact (ho _ _ h).elim
  | .VarExpr _, g, g', s, h => by
    simp only [genExpr] at h
    split at h
    · cases h; exact InstStep.refl_inst _
    · split at h <;> (cases h; exact InstStep.refl_inst _)
  | .CallExpr fn args, g, g', s, h => by
    simp only [genExpr] at h
    split at h
    · rename_i f g1 h1
      split at h
      · rename_i as g2 h2
        cases h
        exact (genExpr_inst fuel fn _ _ _ h1).trans_inst (genExprArgs_inst fuel args _ _ _ h2)
      all_goals cases h
    · rename_i o ho
      exact (ho _ _ h).elim
  | .FieldExpr e _, g, g', s, h => by
    simp only [genExpr] at h
    split at h
    · rename_i x g1 h1
      cases h
      exact genExpr_inst fuel e _ _ _ h1
    · rename_i o ho
      exact (ho _ _ h).elim
theorem genExprArgs_inst (fuel : Nat) : ∀ (args : List Expr) (g g' : generator)
    (s : List String), genExprArgs fuel g args = .ok (s, g') → InstStep g g'
  | [], g, g', s, h => by
    simp only [genExprArgs] at h; cases h; exact InstStep.refl_inst _
  | a :: rest, g, g', s, h => by
    simp only [genExprArgs] at h
    split at h
    · rename_i x g1 h1
      split at h
      · rename_i as g2 h2
        cases h
        exact (genExpr_inst fuel a _ _ _ h1).trans_inst (genExprArgs_inst fuel rest _ _ _ h2)
      · rename_i o ho
        exact (ho _ _ h).elim
    all_goals cases h
end

theorem genBlockWith_inst {gs : generator → Res generator}
    (hgs : ∀ g g', gs g = .ok g' → InstStep g g') {g g' : generator}
    (h : genBlockWith gs g = .ok g') : InstStep g g' := by
  unfold genBlockWith at h
  split at h
  · rename_i g1 h1
    cases h
    have p0 : InstStep g { g.write "\x7b\n" with indent := g.indent + 1 } :=
      InstStep.same_inst rfl rfl
    exact (p0.trans_inst (hgs _ _ h1)).trans_inst (InstStep.same_inst rfl rfl)
  · rename_i o ho
    exact (ho _ h).elim

mutual
theorem genStmtSwitch_inst (fuel : Nat) : ∀ (st : Stmt) (indent : Bool) (g g' : generator),
    genStmtSwitch fuel g st indent = .ok g' → InstStep g g'
  | .ExprStmt e, indent, g, g', h => by
    simp only [genStmtSwitch] at h
    split at h
    · rename_i x g1 h1
      cases h
      exact (genExpr_inst fuel e _ _ _ h1).trans_inst (InstStep.same_inst rfl rfl)
    all_goals cases h
  | .BlockStmt _ b, indent, g, g', h => by
    simp only [genStmtSwitch] at h
    exact genBlockWith_inst (fun g g' h => genStmts_inst fuel b g g' h) h
  | .ReturnStmt _ none, indent, g, g', h => by
    simp only [genStmtSwitch] at h
    cases h
    exact InstStep.same_inst rfl rfl
  | .ReturnStmt _ (some e), indent, g, g', h => by
    simp only [genStmtSwitch] at h
    split at h
    · rename_i x g1 h1
      cases h
      exact (genExpr_inst fuel e _ _ _ h1).trans_inst (InstStep.same_inst rfl rfl)
    all_goals cases h
  | .VarStmt _ name ty e, indent, g, g', h => by
    simp only [genStmtSwitch] at h
    split at h
    · rename_i cty g1 h1
      have p1 := genType_inst _ _ _ _ _ h1
      split at h
      · split at h
        · rename_i x g2 h2
          cases h
          exact (p1.trans_inst (genExpr_inst fuel _ _ _ _ h2)).trans_inst
            (InstStep.same_inst rfl rfl)
        all_goals cases h
      · cases h
        exact p1.trans_inst (InstStep.same_inst rfl rfl)
    all_goals cases h
  | .AssignStmt l r, indent, g, g', h => by
    simp only [genStmtSwitch] at h
    split at h
    · rename_i x g1 h1
      split at h
      · rename_i y g2 h2
        cases h
        exact ((genExpr_inst fuel l _ _ _ h1).trans_inst
          (genExpr_inst fuel r _ _ _ h2)).trans_inst (InstStep.same_inst rfl rfl)
      all_goals cases h
    all_goals cases h
  | .IfStmt _ cond body els, indent, g, g', h => by
    simp only [genStmtSwitch] at h
    split at h
    · rename_i x g1 h1
      have p1 := genExpr_inst fuel cond _ _ _ h1
      have pw : InstStep g1 (g1.write ("if (" ++ x ++ ") ")) := InstStep.same_inst rfl rfl
      split at h
      · rename_i g2 h2
        have p2 := genBlockWith_inst (fun g g' h => genStmts_inst fuel body g g' h) h2
        split at h
        · rename_i g3 h3
          have p3 := genElse_inst fuel els _ _ h3
          have p123 := ((p1.trans_inst pw).trans_inst p2).trans_inst p3
          cases h
          split
          · exact p123.trans_inst (InstStep.same_inst rfl rfl)
          · exact p123
        · rename_i o ho
          exact (ho _ h).elim
      · rename_i o ho
        exact (ho _ h).elim
    all_goals cases h
  | .WhileStmt _ cond body, indent, g, g', h => by
    simp only [genStmtSwitch] at h
    split at h
    · rename_i x g1 h1
      have p1 := genExpr_inst fuel cond _ _ _ h1
      have pw : InstStep g1 (g1.write ("while (" ++ x ++ ") ")) := InstStep.same_inst rfl rfl
      split at h
      · rename_i g2 h2
        have p2 := genBlockWith_inst (fun g g' h => genStmts_inst fuel body g g' h) h2
        cases h
        exact ((p1.trans_inst pw).trans_inst p2).trans_inst (InstStep.same_inst rfl rfl)
      · rename_i o ho
        exact (ho _ h).elim
    all_goals cases h
theorem genElse_inst (fuel : Nat) : ∀ (els : Option Stmt) (g g' : generator),
    genElse fuel g els = .ok g' → InstStep g g'
  | none, g, g', h => by
    simp only [genElse] at h; cases h; exact InstStep.refl_inst _
  | some st, g, g', h => by
    simp only [genElse] at h
    have pw : InstStep g (g.write " else ") := InstStep.same_inst rfl rfl
    exact pw.trans_inst (genStmtSwitch_inst fuel st false _ _ h)
theorem genStmts_inst (fuel : Nat) : ∀ (b : List Stmt) (g g' : generator),
    genStmts fuel g b = .ok g' → InstStep g g'
  | [], g, g', h => by
    simp only [genStmts] at h; cases h; exact InstStep.refl_inst _
  | st :: rest, g, g', h => by
    simp only [genStmts] at h
    split at h
    · rename_i g1 h1
      have pw : InstStep g g.writeIndent := InstStep.same_inst rfl rfl
      exact (pw.trans_inst (genStmtSwitch_inst fuel st true _ _ h1)).trans_inst
        (genStmts_inst fuel rest _ _ h)
    · rename_i o ho
      exact (ho _ h).elim
end

theorem genFnParams_inst (fuel : Nat) : ∀ (ps : List Param) (g g' : generator)
    (params : List (String × String)), genFnParams fuel g ps = .ok (params, g') →
    InstStep g g'
  | [], g, g', params, h => by
    simp only [genFnParams] at h
    cases h
    exact InstStep.refl_inst _
  | p :: rest, g, g', params, h => by
    simp only [genFnParams] at h
    split at h
    · rename_i pt g1 h1
      split at h
      · rename_i ps g2 h2
        cases h
        exact (genType_inst _ _ _ _ _ h1).trans_inst (genFnParams_inst fuel rest _ _ _ h2)
      · rename_i o ho
        exact (ho _ _ h).elim
    all_goals cases h

theorem genFn_inst (fuel : Nat) (fn : FnDecl) (g g' : generator)
    (h : genFn fuel g fn = .ok g') : InstStep g g' := by
  unfold genFn at h
  simp only at h
  split at h
  · rename_i rt g1 h1
    have p1 : InstStep g g1 := by
      split at h1
      · exact genType_inst _ _ _ _ _ h1
      · cases h1
        exact InstStep.refl_inst _
    split at h
    · rename_i params g2 h2
      have p2 := genFnParams_inst fuel _ _ _ _ h2
      have p3 : InstStep g2 { g2 with header := g2.header ++ [.fnDecl rt fn.Name.Ident params] } :=
        InstStep.same_inst rfl rfl
      have p123 := (p1.trans_inst p2).trans_inst p3
      split at h
      · rename_i body hb
        split at h
        · rename_i g4 h4
          cases h
          have pw : InstStep { g2 with header := g2.header ++ [.fnDecl rt fn.Name.Ident params] }
              (generator.write { g2 with header := g2.header ++ [.fnDecl rt fn.Name.Ident params] }
                (signature rt fn.Name.Ident params ++ " ")) := InstStep.same_inst rfl rfl
          have p4 := genBlockWith_inst (fun g g' h => genStmts_inst fuel body g g' h) h4
          exact ((p123.trans_inst pw).trans_inst p4).trans_inst (InstStep.same_inst rfl rfl)
        · rename_i o ho
          exact (ho _ h).elim
      · cases h
        exact p123
    all_goals cases h
  all_goals cases h

theorem genFns_inst (fuel : Nat) : ∀ (fns : List FnDecl) (g g' : generator),
    genFns fuel g fns = .ok g' → InstStep g g'
  | [], g, g', h => by
    simp only [genFns] at h; cases h; exact InstStep.refl_inst _
  | fn :: rest, g, g', h => by
    simp only [genFns] at h
    split at h
    · rename_i g1 h1
      exact (genFn_inst fuel fn _ _ h1).trans_inst (genFns_inst fuel rest _ _ h)
    · rename_i o ho
      exact (ho _ h).elim

theorem initialGenerator_inst (m : Module) (out : String) :
    InstInv (initialGenerator m out) :=
  ⟨rfl, fun i inst h => by simp [initialGenerator] at h,
    fun i j a b h => by simp [initialGenerator] at h⟩

theorem GenModule_inst {fuel : Nat} {m : Module} {out : String} {g : generator}
    (h : GenModule fuel m out = .ok g) : InstInv g :=
  genFns_inst fuel m.Fns _ _ h (initialGenerator_inst m out)

theorem isInstance_names {t : NamedType} (h : t.isInstance = true) :
    t.Name.Ident ≠ "u8" ∧ t.Name.Ident ≠ "i32" ∧ t.Name.Ident ≠ "bool" := by
  simpa [NamedType.isInstance] using h

/-- The C type that `genType` returns for a type lowered to a struct is
`struct <name>` for the name of an entry of the resulting instance list,
`ty<i>` at index `i`, whose type is `TypeEqual` to the lowered type. -/
theorem genType_entry {fuel : Nat} {g g1 : generator} {t : NamedType} {s : String}
    (hinv : InstInv g) (ht : t.isInstance = true) (h : genType fuel g t = .ok (s, g1)) :
    ∃ (i : Nat) (inst : genericInstance), g1.instances[i]? = some inst ∧ s = "struct " ++ ("ty" ++ toString i) ∧
      TypeEqual (.named (some inst.ty)) (.named (some t)) = .ok true := by
  obtain ⟨p1, p2, p3⟩ := isInstance_names ht
  rcases genType_ok_cases h with ⟨_, hp⟩ | ⟨_, _, _, hc⟩
  · rcases hp with hp | hp | hp <;> contradiction
  · rcases hc with ⟨name, hf, hs, rfl⟩ | ⟨fuel', hfu, hf, hs, hc⟩
    · obtain ⟨inst, hm, hn, hte⟩ := findInstance_mem _ hf
      obtain ⟨i, hi⟩ := List.mem_iff_getElem?.1 hm
      refine ⟨i, inst, hi, ?_, by simpa [TypeEqual] using hte⟩
      rw [hs, ← hn, hinv.names i inst hi]
    · have hext : GenExt (g.enter t) g1 := by
        rcases hc with ⟨eltype, rest, _, _, hr⟩ | ⟨_, hr⟩
        · exact (genSlice_ext (genType_ext fuel') hr).1
        · exact (genStruct_ext (genType_ext fuel') hr).1
      obtain ⟨_, ⟨ie, hi⟩, _⟩ := hext
      simp only [generator.enter] at hi
      refine ⟨g.instances.length, ⟨t, "ty" ++ toString g.counter⟩, ?_, ?_, ?_⟩
      · rw [hi, List.append_assoc, List.getElem?_append_right (le_refl _)]
        simp
      · rw [hs, hinv.counter]
      · simp [TypeEqual, TypeEqualNamed_refl]

theorem getElem?_append_some {α : Type} {l : List α} {i : Nat} {a : α} (ext : List α)
    (h : l[i]? = some a) : (l ++ ext)[i]? = some a := by
  have hlt : i < l.length := by
    by_contra hge
    rw [List.getElem?_eq_none (by omega)] at h
    cases h
  rw [List.getElem?_append_left hlt]
  exact h

/-- C26. The invariant `InstInv` of the instance list (the counter is the
length of the list, the entry at index `i` is named `ty<i>`, no two entries
hold `TypeEqual` types) holds in the initial state of `GenModule`, in the
state in which `genType` has entered a new type and not yet lowered its
definition, after every successful `genType`, `genExpr`, `genStmt` and
`genFn`, and in the final state of `GenModule`. When `genType` lowers a type
other than `u8`, `i32`, `bool` in a state with the invariant, the result is
`struct ty<i>` for the index `i` of an entry `TypeEqual` to the type; hence
when a second such type is lowered in that state or any later one, the two C
struct names are the same if and only if `TypeEqual` holds of the two
types. -/
theorem C26_instance_list_invariant (fuel : Nat) (g g1 : generator) (t : NamedType)
    (s : String) (hinv : InstInv g) (ht : t.isInstance = true)
    (h : genType fuel g t = .ok (s, g1)) :
    InstInv g1 ∧
    (findInstance t g.instances = .ok none → InstInv (g.enter t)) ∧
    (∃ (i : Nat) (inst : genericInstance), g1.instances[i]? = some inst ∧ inst.name = "ty" ++ toString i ∧
      s = "struct " ++ inst.name ∧
      TypeEqual (.named (some inst.ty)) (.named (some t)) = .ok true) ∧
    (∀ (fuel2 : Nat) (g2 g3 : generator) (t2 : NamedType) (s2 : String),
      t2.isInstance = true → InstInv g2 → (∃ ext, g2.instances = g1.instances ++ ext) →
      genType fuel2 g2 t2 = .ok (s2, g3) →
      (s = s2 ↔ TypeEqual (.named (some t)) (.named (some t2)) = .ok true)) ∧
    (∀ (m : Module) (out : String), InstInv (initialGenerator m out)) ∧
    (∀ (fuel2 : Nat) (m : Module) (out : String) (g' : generator),
      GenModule fuel2 m out = .ok g' → InstInv g') ∧
    (∀ (fuel2 : Nat) (e : Expr) (g2 g3 : generator) (s2 : String),
      genExpr fuel2 g2 e = .ok (s2, g3) → InstInv g2 → InstInv g3) ∧
    (∀ (fuel2 : Nat) (st : Stmt) (indent : Bool) (g2 g3 : generator),
      genStmt fuel2 g2 st indent = .ok g3 → InstInv g2 → InstInv g3) ∧
    (∀ (fuel2 : Nat) (fn : FnDecl) (g2 g3 : generator),
      genFn fuel2 g2 fn = .ok g3 → InstInv g2 → InstInv g3) := by
  have hinv1 : InstInv g1 := genType_inst fuel g t s g1 h hinv
  obtain ⟨i, inst, hi, hs, hte⟩ := genType_entry hinv ht h
  refine ⟨hinv1, fun hf => hinv.enter hf, ⟨i, inst, hi, hinv1.names i inst hi, ?_, hte⟩, ?_,
    initialGenerator_inst, fun fuel2 m out g' hm => GenModule_inst hm,
    fun fuel2 e g2 g3 s2 he => genExpr_inst fuel2 e g2 g3 s2 he, ?_,
    fun fuel2 fn g2 g3 hf => genFn_inst fuel2 fn g2 g3 hf⟩
  · rw [hinv1.names i inst hi]; exact hs
  · intro fuel2 g2 g3 t2 s2 ht2 hinv2 ⟨ext, hext⟩ h2
    have hinv3 : InstInv g3 := genType_inst fuel2 g2 t2 s2 g3 h2 hinv2
    obtain ⟨j, inst2, hj, hs2, hte2⟩ := genType_entry hinv2 ht2 h2
    obtain ⟨_, ⟨ext3, hext3⟩, _⟩ := genType_ext fuel2 g2 t2 s2 g3 h2
    have hi3 : g3.instances[i]? = some inst := by
      rw [hext3, hext, List.append_assoc]
      exact getElem?_append_some _ hi
    have e1 := (TypeEqual_named_true_iff _ _).1 hte
    have e2 := (TypeEqual_named_true_iff _ _).1 hte2
    constructor
    · intro hss
      rw [hs, hs2] at hss
      have hij := tyName_inj (struct_append_inj hss)
      subst hij
      rw [hi3] at hj
      cases hj
      exact (TypeEqual_named_true_iff _ _).2 (e1.symm.trans e2)
    · intro hte12
      have e12 := (TypeEqual_named_true_iff _ _).1 hte12
      have hij := hinv3.distinct i j inst inst2 hi3 hj
        ((TypeEqual_named_true_iff _ _).2 ((e1.trans e12).trans e2.symm))
      rw [hs, hs2, hij]
  · intro fuel2 st indent g2 g3 hst
    unfold genStmt at hst
    have pw : InstStep g2 (if indent = true then g2.writeIndent else g2) := by
      split
      · exact InstStep.same_inst rfl rfl
      · exact InstStep.refl_inst _
    exact pw.trans_inst (genStmtSwitch_inst fuel2 st indent _ g3 hst)

/-- C26 on `Box[i32]` lowered in the initial state of the module
`struct Box[T] { x: T }  fn f(a: Box[i32], b: Box[i32]) { }`: it becomes
`struct ty0`, the resulting state has the invariant, the second use of
`Box[i32]` gets the same name and `slice[u8]` the other name `ty1`. -/
theorem C26_instance_list_invariant_witness :
    InstInv (initialGenerator boxModule "test.cata") ∧ (boxUse 9).isInstance = true ∧
    ∃ g1, genType 8 (initialGenerator boxModule "test.cata") (boxUse 9) =
        .ok ("struct ty0", g1) ∧
      InstInv g1 ∧ g1.counter = 1 ∧ g1.instances.map (fun i => i.name) = ["ty0"] ∧
      genType 8 g1 (boxUse 22) = .ok ("struct ty0", g1) ∧
      ("struct ty0" = "struct ty0" ↔
        TypeEqual (.named (some (boxUse 9))) (.named (some (boxUse 22))) = .ok true) ∧
      (∃ g2, genType 8 g1 (ast.SliceType ast.Uint8) = .ok ("struct ty1", g2)) ∧
      TypeEqual (.named (some (boxUse 9))) (.named (some (ast.SliceType ast.Uint8))) =
        .ok false :=
  ⟨initialGenerator_inst _ _, rfl, _, rfl,
    (C26_instance_list_invariant 8 (initialGenerator boxModule "test.cata") _ (boxUse 9)
      "struct ty0" (initialGenerator_inst _ _) rfl rfl).1,
    rfl, rfl, rfl,
    (C26_instance_list_invariant 8 (initialGenerator boxModule "test.cata") _ (boxUse 9)
      "struct ty0" (initialGenerator_inst _ _) rfl rfl).2.2.2.1 8 _ _ (boxUse 22) "struct ty0"
      rfl
      (C26_instance_list_invariant 8 (initialGenerator boxModule "test.cata") _ (boxUse 9)
        "struct ty0" (initialGenerator_inst _ _) rfl rfl).1
      ⟨[], by simp⟩ rfl,
    ⟨_, rfl⟩, rfl⟩

theorem SameIndent.refl_ind (g : generator) : SameIndent g g := rfl

theorem SameIndent.trans_ind {a b c : generator} (h1 : SameIndent a b) (h2 : SameIndent b c) :
    SameIndent a c := by
  unfold SameIndent at *
  rw [h2, h1]

theorem SameIndent.of_same_indent {g g' : generator} (h : SameBody g g') : SameIndent g g' := h.2

theorem SameIndent.write_ind (g : generator) (t : String) : SameIndent g (g.write t) := rfl

theorem genBlockWith_indent {gs : generator → Res generator}
    (hgs : ∀ g g', gs g = .ok g' → SameIndent g g') {g g' : generator}
    (h : genBlockWith gs g = .ok g') : SameIndent g g' := by
  unfold genBlockWith at h
  split at h
  · rename_i g1 h1
    cases h
    have p1 := hgs _ _ h1
    unfold SameIndent at p1 ⊢
    simp only [generator.write, generator.writeIndent] at p1 ⊢
    omega
  · rename_i o ho
    exact (ho _ h).elim

mutual
theorem genStmtSwitch_indent (fuel : Nat) : ∀ (st : Stmt) (indent : Bool) (g g' : generator),
    genStmtSwitch fuel g st indent = .ok g' → SameIndent g g'
  | .ExprStmt e, indent, g, g', h => by
    simp only [genStmtSwitch] at h
    split at h
    · rename_i x g1 h1
      cases h
      exact (SameIndent.of_same_indent (genExpr_body fuel e _ _ _ h1)).trans_ind (SameIndent.write_ind _ _)
    all_goals cases h
  | .BlockStmt _ b, indent, g, g', h => by
    simp only [genStmtSwitch] at h
    exact genBlockWith_indent (fun g g' h => genStmts_indent fuel b g g' h) h
  | .ReturnStmt _ none, indent, g, g', h => by
    simp only [genStmtSwitch] at h
    cases h
    exact SameIndent.write_ind _ _
  | .ReturnStmt _ (some e), indent, g, g', h => by
    simp only [genStmtSwitch] at h
    split at h
    · rename_i x g1 h1
      cases h
      exact (SameIndent.of_same_indent (genExpr_body fuel e _ _ _ h1)).trans_ind (SameIndent.write_ind _ _)
    all_goals cases h
  | .VarStmt _ name ty e, indent, g, g', h => by
    simp only [genStmtSwitch] at h
    split at h
    · rename_i cty g1 h1
      have p1 := SameIndent.of_same_indent (genType_body _ _ _ _ _ h1)
      split at h
      · split at h
        · rename_i x g2 h2
          cases h
          exact (p1.trans_ind (SameIndent.of_same_indent (genExpr_body fuel _ _ _ _ h2))).trans_ind
            (SameIndent.write_ind _ _)
        all_goals cases h
      · cases h
        exact p1.trans_ind (SameIndent.write_ind _ _)
    all_goals cases h
  | .AssignStmt l r, indent, g, g', h => by
    simp only [genStmtSwitch] at h
    split at h
    · rename_i x g1 h1
      split at h
      · rename_i y g2 h2
        cases h
        exact ((SameIndent.of_same_indent (genExpr_body fuel l _ _ _ h1)).trans_ind
          (SameIndent.of_same_indent (genExpr_body fuel r _ _ _ h2))).trans_ind (SameIndent.write_ind _ _)
      all_goals cases h
    all_goals cases h
  | .IfStmt _ cond body els, indent, g, g', h => by
    simp only [genStmtSwitch] at h
    split at h
    · rename_i x g1 h1
      have p1 := SameIndent.of_same_indent (genExpr_body fuel cond _ _ _ h1)
      have pw : SameIndent g1 (g1.write ("if (" ++ x ++ ") ")) := SameIndent.write_ind _ _
      split at h
      · rename_i g2 h2
        have p2 := genBlockWith_indent (fun g g' h => genStmts_indent fuel body g g' h) h2
        split at h
        · rename_i g3 h3
          have p3 := genElse_indent fuel els _ _ h3
          have p123 := ((p1.trans_ind pw).trans_ind p2).trans_ind p3
          cases h
          split
          · exact p123.trans_ind (SameIndent.write_ind _ _)
          · exact p123
        · rename_i o ho
          exact (ho _ h).elim
      · rename_i o ho
        exact (ho _ h).elim
    all_goals cases h
  | .WhileStmt _ cond body, indent, g, g', h => by
    simp only [genStmtSwitch] at h
    split at h
    · rename_i x g1 h1
      have p1 := SameIndent.of_same_indent (genExpr_body fuel cond _ _ _ h1)
      have pw : SameIndent g1 (g1.write ("while (" ++ x ++ ") ")) := SameIndent.write_ind _ _
      split at h
      · rename_i g2 h2
        have p2 := genBlockWith_indent (fun g g' h => genStmts_indent fuel body g g' h) h2
        cases h
        exact ((p1.trans_ind pw).trans_ind p2).trans_ind (SameIndent.write_ind _ _)
      · rename_i o ho
        exact (ho _ h).elim
    all_goals cases h
theorem genElse_indent (fuel : Nat) : ∀ (els : Option Stmt) (g g' : generator),
    genElse fuel g els = .ok g' → SameIndent g g'
  | none, g, g', h => by
    simp only [genElse] at h; cases h; exact SameIndent.refl_ind _
  | some st, g, g', h => by
    simp only [genElse] at h
    exact (SameIndent.write_ind g " else ").trans_ind (genStmtSwitch_indent fuel st false _ _ h)
theorem genStmts_indent (fuel : Nat) : ∀ (b : List Stmt) (g g' : generator),
    genStmts fuel g b = .ok g' → SameIndent g g'
  | [], g, g', h => by
    simp only [genStmts] at h; cases h; exact SameIndent.refl_ind _
  | st :: rest, g, g', h => by
    simp only [genStmts] at h
    split at h
    · rename_i g1 h1
      have pw : SameIndent g g.writeIndent := SameIndent.write_ind _ _
      exact (pw.trans_ind (genStmtSwitch_indent fuel st true _ _ h1)).trans_ind
        (genStmts_indent fuel rest _ _ h)
    · rename_i o ho
      exact (ho _ h).elim
end

theorem string_append_cancel {a b c : String} (h : a ++ b = a ++ c) : b = c := by
  have := congrArg String.data h
  simp only [String.data_append, List.append_cancel_left_eq] at this
  exact String.ext this

/-- What `genBlock` writes: the text of a block, tied to the run of the loop
over its statements. -/
theorem genBlock_writes {fuel : Nat} {block : List Stmt} {g g' : generator}
    (h : genBlockWith (fun g => genStmts fuel g block) g = .ok g') :
    ∃ b, BlockWrites fuel g block b g' := by
  have h0 := h
  unfold genBlockWith at h
  split at h
  · rename_i g1 h1
    cases h
    obtain ⟨inner, hi⟩ := genStmts_body fuel block _ _ h1
    have hind : g1.indent = g.indent + 1 := genStmts_indent fuel block _ _ h1
    simp only [generator.write] at hi
    refine ⟨"\x7b\n" ++ inner ++ tabs g.indent ++ "\x7d", h0, ?_, g1, inner, h1, hi, rfl⟩
    simp only [generator.write, generator.writeIndent, tabs, hind, Nat.add_sub_cancel]
    rw [hi]
    simp only [String.append_assoc]
  · rename_i o ho
    exact (ho _ h).elim

theorem BlockWrites.brace {fuel : Nat} {g g' : generator} {block : List Stmt} {b : String}
    (h : BlockWrites fuel g block b g') : ∃ pre, b = pre ++ "\x7d" := by
  obtain ⟨_, _, g1, inner, _, _, rfl⟩ := h
  exact ⟨_, rfl⟩

theorem BlockWrites.unique_block {fuel : Nat} {g g1 g2 : generator} {block : List Stmt}
    {b1 b2 : String} (h1 : BlockWrites fuel g block b1 g1) (h2 : BlockWrites fuel g block b2 g2) :
    b1 = b2 ∧ g1 = g2 := by
  have e : g1 = g2 := by
    have := h1.1.symm.trans h2.1
    simpa using this
  subst e
  exact ⟨string_append_cancel (h1.2.1.symm.trans h2.2.1), rfl⟩

/-- The relation `IfChainWrites` describes the run of the `switch` of
`genStmt` with `indent = false`, and the text it names is the text
appended. -/
theorem IfChainWrites.run {fuel : Nat} {g g0 : generator} {s : Stmt} {text : String}
    (h : IfChainWrites fuel g s text g0) :
    genStmtSwitch fuel g s false = .ok g0 ∧ g0.body = g.body ++ text := by
  induction h with
  | last g g1 g2 pos cond body c b h1 h2 =>
    have e1 := (genExpr_body fuel cond _ _ _ h1).1
    have hb : genBlockWith (fun g => genStmts fuel g body) (g1.write ("if (" ++ c ++ ") ")) =
        .ok g2 := h2.1
    refine ⟨by simp [genStmtSwitch, h1, hb, genElse], ?_⟩
    rw [h2.2.1]
    simp only [generator.write, e1, String.append_assoc]
  | lastElse g g1 g2 g3 pos cond body bpos block c b e h1 h2 h3 =>
    have e1 := (genExpr_body fuel cond _ _ _ h1).1
    have hb : genBlockWith (fun g => genStmts fuel g body) (g1.write ("if (" ++ c ++ ") ")) =
        .ok g2 := h2.1
    have he : genBlockWith (fun g => genStmts fuel g block) (g2.write " else ") = .ok g3 := h3.1
    refine ⟨by simp [genStmtSwitch, h1, hb, genElse, he], ?_⟩
    rw [h3.2.1]
    simp only [generator.write]
    rw [h2.2.1]
    simp only [generator.write, e1, String.append_assoc]
  | elseIf g g1 g2 g3 pos cond body s c b rest h1 h2 _ ih =>
    have e1 := (genExpr_body fuel cond _ _ _ h1).1
    have hb : genBlockWith (fun g => genStmts fuel g body) (g1.write ("if (" ++ c ++ ") ")) =
        .ok g2 := h2.1
    refine ⟨by simp [genStmtSwitch, h1, hb, genElse, ih.1], ?_⟩
    rw [ih.2]
    simp only [generator.write]
    rw [h2.2.1]
    simp only [generator.write, e1, String.append_assoc]

theorem IfChainWrites.unique_chain {fuel : Nat} {g g1 g2 : generator} {s : Stmt} {t1 t2 : String}
    (h1 : IfChainWrites fuel g s t1 g1) (h2 : IfChainWrites fuel g s t2 g2) :
    t1 = t2 ∧ g1 = g2 := by
  have r1 := h1.run
  have r2 := h2.run
  have e : g1 = g2 := by
    have := r1.1.symm.trans r2.1
    simpa using this
  subst e
  exact ⟨string_append_cancel (r1.2.symm.trans r2.2), rfl⟩

/-- The text of a chain ends with the text that `genBlock` wrote for the
block of its last branch. -/
theorem IfChainWrites.lastBlock {fuel : Nat} {g g0 : generator} {s : Stmt} {text : String}
    (h : IfChainWrites fuel g s text g0) :
    ∃ (pre : String) (gA : generator) (b : String),
      text = pre ++ b ∧ BlockWrites fuel gA s.lastBranch b g0 := by
  induction h with
  | last g g1 g2 pos cond body c b h1 h2 =>
    exact ⟨"if (" ++ c ++ ") ", _, b, rfl, by simpa [Stmt.lastBranch, lastBranchElse] using h2⟩
  | lastElse g g1 g2 g3 pos cond body bpos block c b e h1 h2 h3 =>
    exact ⟨"if (" ++ c ++ ") " ++ b ++ " else ", _, e, rfl,
      by simpa [Stmt.lastBranch, lastBranchElse] using h3⟩
  | elseIf g g1 g2 g3 pos cond body s c b rest h1 h2 _ ih =>
    obtain ⟨pre, gA, b2, rfl, hb⟩ := ih
    exact ⟨"if (" ++ c ++ ") " ++ b ++ " else " ++ pre, gA, b2,
      by simp only [String.append_assoc], by simpa [Stmt.lastBranch, lastBranchElse] using hb⟩

/-- The run of the `switch` of `genStmt` on an if statement built by the
parser is a chain. -/
theorem genStmtSwitch_writes (fuel : Nat) {s : Stmt} (hs : ParserIf s) :
    ∀ (g g' : generator) (indent : Bool), genStmtSwitch fuel g s indent = .ok g' →
      ∃ text g0, IfChainWrites fuel g s text g0 ∧
        g' = if indent = true then g0.write "\n" else g0 := by
  induction hs with
  | noElse pos cond body =>
    intro g g' indent h
    obtain ⟨c, g1, g2, g3, h1, h2, h3, rfl⟩ := genStmtSwitch_if h
    obtain ⟨b, hb⟩ := genBlock_writes h2
    simp only [genElse, Res.ok.injEq] at h3
    subst h3
    exact ⟨_, g2, .last g g1 g2 pos cond body c b h1 hb, rfl⟩
  | elseBlock pos cond body bpos block =>
    intro g g' indent h
    obtain ⟨c, g1, g2, g3, h1, h2, h3, rfl⟩ := genStmtSwitch_if h
    obtain ⟨b, hb⟩ := genBlock_writes h2
    simp only [genElse, genStmtSwitch] at h3
    obtain ⟨e, he⟩ := genBlock_writes h3
    exact ⟨_, g3, .lastElse g g1 g2 g3 pos cond body bpos block c b e h1 hb he, rfl⟩
  | elseIf pos cond body s hs ih =>
    intro g g' indent h
    obtain ⟨c, g1, g2, g3, h1, h2, h3, rfl⟩ := genStmtSwitch_if h
    obtain ⟨b, hb⟩ := genBlock_writes h2
    simp only [genElse] at h3
    obtain ⟨rest, g4, hr, e4⟩ := ih _ _ false h3
    simp only [Bool.false_eq_true, if_false] at e4
    subst e4
    exact ⟨_, g3, .elseIf g g1 g2 g3 pos cond body s c b rest h1 hb hr, rfl⟩

/-- C21. For an if statement `s` built by the parser, `genStmt` writes the
indentation (with `indent = true` only), then the text of the else-if chain,
then one newline (with `indent = true` only), and nothing else. The text of
the chain is tied to `s` by `IfChainWrites`: for each branch it is
`if (<cond>) ` for the C text of the condition of that branch followed by the
text that `genBlock` wrote for the body of that branch, which is the opening
brace, a newline, what the statements of that body wrote, the indentation and
the closing brace; that closing brace is followed at once by ` else ` and the
next branch (another such if, or the text `genBlock` wrote for the else
block). It is the only text of which this holds. The chain ends with the text
that `genBlock` wrote for the block of the last branch, so with its closing
brace: with `indent = true` the text written ends in that brace and one
newline, and with `indent = false` (the if is an else-if child) nothing is
written after the brace. -/
theorem C21_if_chain_newline (fuel : Nat) (g g' : generator) (s : Stmt) (indent : Bool)
    (hs : ParserIf s) (h : genStmt fuel g s indent = .ok g') :
    ∃ (text : String) (g0 : generator),
      IfChainWrites fuel (if indent = true then g.writeIndent else g) s text g0 ∧
      (∀ (text2 : String) (g2 : generator),
        IfChainWrites fuel (if indent = true then g.writeIndent else g) s text2 g2 →
        text2 = text ∧ g2 = g0) ∧
      (∃ (pre : String) (gA : generator) (b : String),
        text = pre ++ b ∧ BlockWrites fuel gA s.lastBranch b g0 ∧ ∃ pre2, b = pre2 ++ "\x7d") ∧
      g' = (if indent = true then g0.write "\n" else g0) ∧
      g'.body = g.body ++ (if indent = true then tabs g.indent else "") ++ text ++
        (if indent = true then "\n" else "") := by
  unfold genStmt at h
  obtain ⟨text, g0, hw, e⟩ := genStmtSwitch_writes fuel hs _ _ indent h
  obtain ⟨pre, gA, b, hp, hb⟩ := hw.lastBlock
  refine ⟨text, g0, hw, fun text2 g2 h2 => h2.unique_chain hw, ⟨pre, gA, b, hp, hb, hb.brace⟩, e, ?_⟩
  have hbody := hw.run.2
  subst e
  cases indent
  · simp only [Bool.false_eq_true, if_false, String.append_empty] at hbody ⊢
    exact hbody
  · simp only [if_true, generator.writeIndent, generator.write, tabs] at hbody ⊢
    rw [hbody]

/-- C21 on `if (c) { } else if (d) { } else { }` at one level of indentation:
the text written ends in the closing brace of the last block and one newline,
no newline stands before an ` else `, and the text with a newline between
each closing brace and the following ` else ` is not the text of the
chain. -/
theorem C21_if_chain_newline_witness :
    ParserIf ifChainStmt ∧
      ∃ g', genStmt 1 indentedGenerator ifChainStmt true = .ok g' ∧
        g'.body =
          "\tif (c) \x7b\n\t\x7d else if (d) \x7b\n\t\x7d else \x7b\n\t\x7d\n" ∧
        (∃ g0, IfChainWrites 1 indentedGenerator.writeIndent ifChainStmt
          "if (c) \x7b\n\t\x7d else if (d) \x7b\n\t\x7d else \x7b\n\t\x7d" g0) ∧
        ∀ g2, ¬ IfChainWrites 1 indentedGenerator.writeIndent ifChainStmt
          "if (c) \x7b\n\t\x7d\n else if (d) \x7b\n\t\x7d\n else \x7b\n\t\x7d" g2 := by
  have hs : ParserIf ifChainStmt := .elseIf _ _ _ _ (.elseBlock _ _ _ _ _)
  obtain ⟨text, g0, hw, hu, _, _, hbody⟩ :=
    C21_if_chain_newline 1 indentedGenerator _ ifChainStmt true hs rfl
  have ht : text = "if (c) \x7b\n\t\x7d else if (d) \x7b\n\t\x7d else \x7b\n\t\x7d" := by
    have e : ("\t" ++ text) ++ "\n" =
        ("\t" ++ "if (c) \x7b\n\t\x7d else if (d) \x7b\n\t\x7d else \x7b\n\t\x7d") ++ "\n" := by
      simpa [indentedGenerator, tabs, String.append_assoc] using hbody.symm
    have d := congrArg String.data e
    simp only [String.data_append, List.append_cancel_right_eq, List.append_cancel_left_eq] at d
    exact String.ext d
  refine ⟨hs, _, rfl, by decide, ⟨g0, ht ▸ hw⟩, ?_⟩
  intro g2 h2
  have := (hu _ _ h2).1
  rw [ht] at this
  exact absurd this (by decide)

end Cata
